import Mathlib

/-!
The posting-list codec, the tokenizer and the query engine of wiser.

A shallow embedding of the C sources of `wiser` (`util.c`, `postings.c`,
`token.c`, `search.c`) and theorems about it.

Conventions of the embedding

* A C `int` is an `Int`; quantities that the C code only ever uses with
  non-negative values (Golomb parameters, bit counts, code points) are `Nat`.
  Arithmetic is exact: the theorems that depend on the 32-bit width of an `int`
  (serialisation into four bytes) carry the range as a hypothesis.
* A linked list (`utlist.h`) and a `UT_array` are a `List`; a hash table
  (`uthash.h`) is the `List` of its entries in insertion order.
* A function that can `abort()`, fail an `assert`, or read outside its
  buffer returns an `Option`; `none` stands for that failure.
* Memory allocation is assumed to succeed.
-/

namespace Wiser

/-! ## Data model (`wiser.h`, `util.h`) -/

/-- One node of the linked list `postings_list` of `wiser.h`: the document,
the positions of the token in it, and the stored number of positions. A
posting list is a `List postings_list` (the `next` pointers). -/
structure postings_list where
  document_id : Int
  positions : List Int
  positions_count : Int
deriving DecidableEq

/-- The `buffer` of `util.h`. `bytes` is the content of `[head, curr)`,
`curr_byte` is the content of `*curr` (the byte under construction while
`bit ≠ 0`), and `bit` is the number of bits already written into `*curr`.
The capacity (`tail`) is not modelled: `enlarge_buffer` is assumed to
succeed. -/
structure buffer where
  bytes : List Nat
  curr_byte : Nat
  bit : Nat
deriving DecidableEq

/-- The `alloc_buffer` of `util.c`: an empty buffer. -/
def alloc_buffer : buffer := { bytes := [], curr_byte := 0, bit := 0 }

/-- The macro `BUFFER_PTR`, as the content of `BUFFER_SIZE` bytes from `head`. -/
def BUFFER_PTR (b : buffer) : List Nat := b.bytes

/-- The macro `BUFFER_SIZE`: `curr - head`. -/
def BUFFER_SIZE (b : buffer) : Nat := b.bytes.length

/-- The `append_buffer` of `util.c`: skip a partly written byte, then copy
`data`. A call with `NULL, 0` is `append_buffer buf []`. -/
def append_buffer (buf : buffer) (data : List Nat) : buffer :=
  { bytes := (if buf.bit ≠ 0 then buf.bytes ++ [buf.curr_byte] else buf.bytes) ++ data,
    curr_byte := 0,
    bit := 0 }

/-- The `append_buffer_bit` of `util.c`. -/
def append_buffer_bit (buf : buffer) (bit : Nat) : buffer :=
  let c0 := if buf.bit = 0 then 0 else buf.curr_byte
  let c1 := if bit ≠ 0 then c0 ||| (1 <<< (7 - buf.bit)) else c0
  if buf.bit + 1 = 8 then { bytes := buf.bytes ++ [c1], curr_byte := 0, bit := 0 }
  else { bytes := buf.bytes, curr_byte := c1, bit := buf.bit + 1 }

/-- The four bytes of a 32-bit `int` in memory (little-endian host). -/
def int_to_bytes (x : Int) : List Nat :=
  let u := (x % 4294967296).toNat
  [u % 256, u / 256 % 256, u / 65536 % 256, u / 16777216 % 256]

/-- The 32-bit `int` stored in four bytes (little-endian, two's complement). -/
def bytes_to_int (b0 b1 b2 b3 : Nat) : Int :=
  let u := b0 + 256 * b1 + 65536 * b2 + 16777216 * b3
  if u < 2147483648 then (u : Int) else (u : Int) - 4294967296

/-- The read `*((int *)p)` at byte offset `off` of the encoded postings;
`none` when the four bytes are not all inside the buffer. -/
def read_int (mem : List Nat) (off : Nat) : Option Int :=
  match mem.drop off with
  | b0 :: b1 :: b2 :: b3 :: _ => some (bytes_to_int b0 b1 b2 b3)
  | _ => none

/-! ## Raw codec (`postings.c`) -/

/-- The `encode_postings_none` of `postings.c`; `postings_len` is unused there. -/
def encode_postings_none (postings : List postings_list) (postings_e : buffer) : buffer :=
  postings.foldl
    (fun buf p =>
      let buf := append_buffer buf (int_to_bytes p.document_id)
      let buf := append_buffer buf (int_to_bytes p.positions_count)
      p.positions.foldl (fun buf pos => append_buffer buf (int_to_bytes pos)) buf)
    postings_e

/-- The inner loop of `decode_postings_none`: push `count` ints read from `off`. -/
def decode_positions_none (mem : List Nat) : Nat → Nat → Option (List Int × Nat)
  | 0, off => some ([], off)
  | count + 1, off =>
    match read_int mem off with
    | none => none
    | some x =>
      match decode_positions_none mem count (off + 4) with
      | none => none
      | some (xs, off2) => some (x :: xs, off2)

/-- The outer loop of `decode_postings_none` (`p < pend`), from byte offset
`off`. Every iteration advances `p` by at least two ints, so `fuel` bounds
the number of iterations. -/
def decode_postings_none_loop (mem : List Nat) : Nat → Nat → Option (List postings_list)
  | 0, _ => some []
  | fuel + 1, off =>
    if off < mem.length then
      match read_int mem off, read_int mem (off + 4) with
      | some document_id, some positions_count =>
        match decode_positions_none mem positions_count.toNat (off + 8) with
        | none => none
        | some (positions, off2) =>
          match decode_postings_none_loop mem fuel off2 with
          | none => none
          | some rest =>
            some ({ document_id := document_id, positions := positions,
                    positions_count := positions_count } :: rest)
      | _, _ => none
    else some []

/-- The `decode_postings_none` of `postings.c`: return value, `*postings`,
`*postings_len`. -/
def decode_postings_none (postings_e : List Nat) : Option (Int × List postings_list × Int) :=
  match decode_postings_none_loop postings_e (postings_e.length + 1) 0 with
  | none => none
  | some postings => some (0, postings, (postings.length : Int))

/-! ## Golomb codec (`postings.c`) -/

/-- The read cursor of the decoder: the byte offset `*buf - postings_e` and
the mask `*bit`. -/
structure bit_cursor where
  pos : Nat
  bit : Nat
deriving DecidableEq

/-- The `read_bit` of `postings.c`: the bit under the cursor (`-1` at the end
of the buffer) and the advanced cursor. -/
def read_bit (mem : List Nat) (cur : bit_cursor) : Int × bit_cursor :=
  match mem[cur.pos]? with
  | none => (-1, cur)
  | some c =>
    let r : Int := if c &&& cur.bit ≠ 0 then 1 else 0
    let bit := cur.bit >>> 1
    if bit = 0 then (r, { pos := cur.pos + 1, bit := 0x80 }) else (r, { pos := cur.pos, bit := bit })

/-- The loop of `calc_golomb_params`: `for (b = 0, l = 1; m > l; b++, l <<= 1)`.
Here `l` is a natural number without bound; the `int` of the source holds the
same values as long as `m <= 2^30`. -/
def calc_golomb_params_loop (m : Nat) : Nat → Nat → Nat → Nat × Nat
  | 0, b, l => (b, l)
  | fuel + 1, b, l => if m > l then calc_golomb_params_loop m fuel (b + 1) (l <<< 1) else (b, l)

/-- The `calc_golomb_params` of `postings.c`: `(b, t)`, or `none` when
`assert(m > 0)` fails. `l` doubles in every iteration, so `m` iterations
are enough. -/
def calc_golomb_params (m : Int) : Option (Nat × Nat) :=
  if m > 0 then
    let bl := calc_golomb_params_loop m.toNat m.toNat 0 1
    some (bl.1, bl.2 - m.toNat)
  else none

/-- The loop `for (i = 1 << (k - 1); i; i >>= 1) append_buffer_bit(buf, r & i)`
of `golomb_encoding`, by recursion on the exponent of `i`. -/
def append_masked_bits (r : Nat) : Nat → buffer → buffer
  | 0, buf => buf
  | k + 1, buf => append_masked_bits r k (append_buffer_bit buf (r &&& (1 <<< k)))

/-- The loop `for (i = n / m; i; i--) append_buffer_bit(buf, 1)`. -/
def append_unary (buf : buffer) : Nat → buffer
  | 0 => buf
  | i + 1 => append_unary (append_buffer_bit buf 1) i

/-- The `golomb_encoding` of `postings.c`, for `m ≥ 1` and `n ≥ 0`. -/
def golomb_encoding (m b t n : Nat) (buf : buffer) : buffer :=
  let buf := append_unary buf (n / m)
  let buf := append_buffer_bit buf 0
  if m > 1 then
    let r := n % m
    if r < t then append_masked_bits r (b - 1) buf
    else append_masked_bits (r + t) b buf
  else buf

/-- The loop `while (read_bit(...) == 1) n += m` of `golomb_decoding`. -/
def golomb_decoding_unary (m : Nat) (mem : List Nat) : Nat → Nat → bit_cursor → Nat × bit_cursor
  | 0, n, cur => (n, cur)
  | fuel + 1, n, cur =>
    let zc := read_bit mem cur
    if zc.1 = 1 then golomb_decoding_unary m mem fuel (n + m) zc.2 else (n, zc.2)

/-- The loop `for (i = 0; i < b - 1; i++)` of `golomb_decoding`, which stops
at the end of the buffer. -/
def golomb_decoding_bits (mem : List Nat) : Nat → Nat → bit_cursor → Nat × bit_cursor
  | 0, r, cur => (r, cur)
  | k + 1, r, cur =>
    let zc := read_bit mem cur
    if zc.1 = -1 then (r, zc.2)
    else golomb_decoding_bits mem k ((r <<< 1) ||| zc.1.toNat) zc.2

/-- The `golomb_decoding` of `postings.c`, for `m ≥ 1`. The unary loop reads
one bit per iteration and stops at the end of the buffer, so the number of
bits left plus one bounds its iterations. -/
def golomb_decoding (m b t : Nat) (mem : List Nat) (cur : bit_cursor) : Nat × bit_cursor :=
  let nc := golomb_decoding_unary m mem (8 * (mem.length - cur.pos) + 1) 0 cur
  if m > 1 then
    let rc := golomb_decoding_bits mem (b - 1) 0 nc.2
    if rc.1 ≥ t then
      let zc := read_bit mem rc.2
      if zc.1 = -1 then (nc.1 + rc.1, zc.2)
      else (nc.1 + (((rc.1 <<< 1) ||| zc.1.toNat) - t), zc.2)
    else (nc.1 + rc.1, rc.2)
  else nc

/-- The step `if (bit != 0x80) { postings_e++; bit = 0x80; }` of the decoder. -/
def align_cursor (cur : bit_cursor) : bit_cursor :=
  if cur.bit ≠ 0x80 then { pos := cur.pos + 1, bit := 0x80 } else cur

/-- The loop of `encode_postings_golomb` over the document ids. A negative
gap (a list that is not strictly increasing from 1) is outside the model. -/
def encode_document_gaps (m b t : Nat) : List postings_list → Int → buffer → Option buffer
  | [], _, buf => some buf
  | p :: ps, pre_document_id, buf =>
    let gap := p.document_id - pre_document_id - 1
    if gap < 0 then none
    else encode_document_gaps m b t ps p.document_id (golomb_encoding m b t gap.toNat buf)

/-- The loop of `encode_postings_golomb` over the positions of one posting. -/
def encode_position_gaps (mp bp tp : Nat) : List Int → Int → buffer → Option buffer
  | [], _, buf => some buf
  | pp :: pps, pre_position, buf =>
    let gap := pp - pre_position - 1
    if gap < 0 then none
    else encode_position_gaps mp bp tp pps pp (golomb_encoding mp bp tp gap.toNat buf)

/-- The second loop of `encode_postings_golomb`: the positions of every posting.
The integers are without bound here; the `int` arithmetic of the source
(`*pp + 1` and the loop of `calc_golomb_params`) gives the same values for
positions below `2^30` (`postings_in_range`). -/
def encode_postings_positions : List postings_list → buffer → Option buffer
  | [], buf => some buf
  | p :: ps, buf =>
    let buf := append_buffer buf (int_to_bytes p.positions_count)
    if p.positions_count ≠ 0 then
      match p.positions.getLast? with
      | none => none
      | some last =>
        let mp := Int.tdiv (last + 1) p.positions_count
        match calc_golomb_params mp with
        | none => none
        | some (bp, tp) =>
          let buf := append_buffer buf (int_to_bytes mp)
          match encode_position_gaps mp.toNat bp tp p.positions (-1) buf with
          | none => none
          | some buf => encode_postings_positions ps (append_buffer buf [])
    else encode_postings_positions ps buf

/-- The `encode_postings_golomb` of `postings.c`. -/
def encode_postings_golomb (documents_count : Int) (postings : List postings_list)
    (postings_len : Int) (postings_e : buffer) : Option buffer :=
  let buf := append_buffer postings_e (int_to_bytes postings_len)
  if postings ≠ [] ∧ postings_len ≠ 0 then
    let m := Int.tdiv documents_count postings_len
    let buf := append_buffer buf (int_to_bytes m)
    match calc_golomb_params m with
    | none => none
    | some (b, t) =>
      match encode_document_gaps m.toNat b t postings 0 buf with
      | none => none
      | some buf => encode_postings_positions postings (append_buffer buf [])
  else encode_postings_positions postings buf

/-- The first loop of `decode_postings_golomb`: `docs_count` document ids. The
field `positions_count` of a new node is set by the second loop. -/
def decode_document_gaps (m b t : Nat) (mem : List Nat) :
    Nat → Int → bit_cursor → List postings_list × bit_cursor
  | 0, _, cur => ([], cur)
  | i + 1, pre_document_id, cur =>
    let gc := golomb_decoding m b t mem cur
    let document_id := pre_document_id + (gc.1 : Int) + 1
    let rest := decode_document_gaps m b t mem i document_id gc.2
    ({ document_id := document_id, positions := [], positions_count := 0 } :: rest.1, rest.2)

/-- The inner loop of the second loop of `decode_postings_golomb`. -/
def decode_position_gaps (mp bp tp : Nat) (mem : List Nat) :
    Nat → Int → bit_cursor → List Int × bit_cursor
  | 0, _, cur => ([], cur)
  | j + 1, position, cur =>
    let gc := golomb_decoding mp bp tp mem cur
    let position := position + ((gc.1 : Int) + 1)
    let rest := decode_position_gaps mp bp tp mem j position gc.2
    (position :: rest.1, rest.2)

/-- The second loop of `decode_postings_golomb`, over the nodes made by the
first loop. -/
def decode_postings_positions (mem : List Nat) :
    List postings_list → bit_cursor → Option (List postings_list)
  | [], _ => some []
  | pl :: pls, cur =>
    match read_int mem cur.pos, read_int mem (cur.pos + 4) with
    | some positions_count, some mp =>
      match calc_golomb_params mp with
      | none => none
      | some (bp, tp) =>
        let pc := decode_position_gaps mp.toNat bp tp mem positions_count.toNat (-1)
          { pos := cur.pos + 8, bit := cur.bit }
        match decode_postings_positions mem pls (align_cursor pc.2) with
        | none => none
        | some rest =>
          some ({ document_id := pl.document_id, positions := pl.positions ++ pc.1,
                  positions_count := positions_count } :: rest)
    | _, _ => none

/-- The `decode_postings_golomb` of `postings.c`: return value, `*postings`,
`*postings_len`. -/
def decode_postings_golomb (postings_e : List Nat) : Option (Int × List postings_list × Int) :=
  match read_int postings_e 0, read_int postings_e 4 with
  | some docs_count, some m =>
    match calc_golomb_params m with
    | none => none
    | some (b, t) =>
      let dc := decode_document_gaps m.toNat b t postings_e docs_count.toNat 0
        { pos := 8, bit := 0x80 }
      match decode_postings_positions postings_e dc.1 (align_cursor dc.2) with
      | none => none
      | some postings => some (0, postings, (dc.1.length : Int))
  | _, _ => none

/-! ## Definitions used to state the codec theorems -/

/-- The read cursor that points at bit `i` of the stream (bit `i % 8` of
byte `i / 8`, most significant bit first). -/
def cur_at (i : Nat) : bit_cursor := { pos := i / 8, bit := 0x80 >>> (i % 8) }

/-- The number of bits between `head` and the write position of a buffer. -/
def widx (buf : buffer) : Nat := 8 * buf.bytes.length + buf.bit

/-- The invariant of a buffer: fewer than eight bits in the byte under
construction, whose unwritten low bits are zero. -/
def buffer_wf (buf : buffer) : Prop :=
  buf.bit < 8 ∧ (buf.bit ≠ 0 → ∀ j, j < 8 - buf.bit → buf.curr_byte.testBit j = false)

/-- The memory `mem` holds everything written to `buf` so far: its whole
bytes, and the bits already written into its byte under construction.
Whatever follows in `mem` is unconstrained. -/
def Extends (buf : buffer) (mem : List Nat) : Prop :=
  (∃ rest, mem = buf.bytes ++ rest) ∧
  (buf.bit ≠ 0 → ∃ c, mem[buf.bytes.length]? = some c ∧
      ∀ j, 8 - buf.bit ≤ j → j < 8 → c.testBit j = buf.curr_byte.testBit j)

/-- The byte that `append_buffer_bit` stores. -/
def next_byte (buf : buffer) (x : Nat) : Nat :=
  if x ≠ 0 then (if buf.bit = 0 then 0 else buf.curr_byte) ||| (1 <<< (7 - buf.bit))
  else (if buf.bit = 0 then 0 else buf.curr_byte)

/-- Append a list of bits with `append_buffer_bit`. -/
def write_bits (buf : buffer) : List Bool → buffer
  | [] => buf
  | x :: xs => write_bits (append_buffer_bit buf (if x then 1 else 0)) xs

/-- Reading from bit `i` of `mem` with `read_bit` yields the bits `bs`, none of
them past the end of the buffer. -/
def Reads (mem : List Nat) : Nat → List Bool → Prop
  | _, [] => True
  | i, x :: xs =>
    read_bit mem (cur_at i) = ((if x then 1 else 0), cur_at (i + 1)) ∧ Reads mem (i + 1) xs

/-- The bits `k - 1, ..., 0` of `r`, most significant first. -/
def masked_bits (r : Nat) : Nat → List Bool
  | 0 => []
  | k + 1 => r.testBit k :: masked_bits r k

/-- The bits that `golomb_encoding` appends. -/
def golomb_bits (m b t n : Nat) : List Bool :=
  List.replicate (n / m) true ++ [false] ++
    (if m > 1 then (if n % m < t then masked_bits (n % m) (b - 1) else masked_bits (n % m + t) b)
     else [])

/-! ## Golomb code of one value -/

/-- The value read from a list of bits, most significant first, after `r`. -/
def bits_value (r : Nat) : List Bool → Nat
  | [] => r
  | x :: xs => bits_value (2 * r + (if x then 1 else 0)) xs

/-! ## Byte-level appends -/

/-- The byte offset of the write position after alignment. -/
def aligned_len (buf : buffer) : Nat :=
  if buf.bit ≠ 0 then buf.bytes.length + 1 else buf.bytes.length

/-! ## Round trip of the gap loops -/

/-- The node that the first loop of `decode_postings_golomb` makes for a document id. -/
def new_node (document_id : Int) : postings_list :=
  { document_id := document_id, positions := [], positions_count := 0 }

/-- What the round trip needs of one posting: at least one position, the
stored count equal to the number of positions, and values that fit the
32-bit fields of the encoding. -/
def posting_fits (p : postings_list) : Prop :=
  p.positions ≠ [] ∧ p.positions_count = (p.positions.length : Int) ∧
    p.positions_count < 2147483648 ∧ ∀ x ∈ p.positions.getLast?, 0 ≤ x ∧ x + 1 < 2147483648

/-! ## Round trip of a posting list -/

/-- A well-formed posting (I2, I3): at least one position, positions
non-negative and strictly increasing, and `positions_count` their number. -/
def posting_wf (p : postings_list) : Prop :=
  p.positions ≠ [] ∧ (∀ x ∈ p.positions, 0 ≤ x) ∧ p.positions.Pairwise (fun x y => x < y) ∧
    p.positions_count = (p.positions.length : Int)

/-- A well-formed posting list: not empty, document ids at least 1 and
strictly increasing, every posting well formed. -/
def postings_wf (L : List postings_list) : Prop :=
  L ≠ [] ∧ (∀ p ∈ L, 1 ≤ p.document_id ∧ posting_wf p) ∧
    L.Pairwise (fun p q => p.document_id < q.document_id)

/-- The values of a posting list are C `int`s for which the `int` arithmetic
of the codec is exact: document ids below `2^31`, positions below `2^30`. -/
def postings_in_range (L : List postings_list) : Prop :=
  ∀ p ∈ L, p.document_id < 2147483648 ∧ ∀ x ∈ p.positions, x < 1073741824

/-- The cursor of the decoder that points at the write position of a buffer. -/
def cursor_of (buf : buffer) : bit_cursor := { pos := BUFFER_SIZE buf, bit := 0x80 >>> buf.bit }

/-! ## Raw codec -/

/-- A value of the C type `int` (32 bits). -/
def is_int32 (x : Int) : Prop := -2147483648 ≤ x ∧ x < 2147483648

/-- The raw layout of one posting, in the words of the format description:
the 32-bit integers `document_id, positions_count, position_0, ...`. -/
def raw_posting_bytes (p : postings_list) : List Nat :=
  int_to_bytes p.document_id ++ int_to_bytes p.positions_count ++ p.positions.flatMap int_to_bytes

/-- The raw layout of a posting list: its postings in order, nothing before them. -/
def raw_postings_bytes (L : List postings_list) : List Nat := L.flatMap raw_posting_bytes

/-- The fields of every posting are 32-bit `int`s and `positions_count` is the
number of positions. -/
def raw_posting_ok (p : postings_list) : Prop :=
  p.positions_count = (p.positions.length : Int) ∧ is_int32 p.document_id ∧
    is_int32 p.positions_count ∧ ∀ x ∈ p.positions, is_int32 x

/-! ## Posting merger (`postings.c`) -/

/-- The loop of `merge_postings`; `none` is `abort()`. Every iteration moves
one node to the result, so `fuel` is the number of nodes. -/
def merge_postings_loop : Nat → List postings_list → List postings_list →
    Option (List postings_list)
  | 0, _, _ => some []
  | fuel + 1, pa, pb =>
    match pa, pb with
    | [], [] => some []
    | a :: pa2, [] => (merge_postings_loop fuel pa2 []).map (fun r => a :: r)
    | [], b :: pb2 => (merge_postings_loop fuel [] pb2).map (fun r => b :: r)
    | a :: pa2, b :: pb2 =>
      if a.document_id ≤ b.document_id then
        (merge_postings_loop fuel pa2 (b :: pb2)).map (fun r => a :: r)
      else if a.document_id ≥ b.document_id then
        (merge_postings_loop fuel (a :: pa2) pb2).map (fun r => b :: r)
      else none

/-- The `merge_postings` of `postings.c`. -/
def merge_postings (pa pb : List postings_list) : Option (List postings_list) :=
  merge_postings_loop (pa.length + pb.length) pa pb

/-! ## Tokenizer (`token.c`) -/

/-- The `wiser_is_ignored_char` of `token.c`. -/
def wiser_is_ignored_char (ustr : Nat) : Int :=
  match ustr with
  | 0x20 | 0x0C | 0x0A | 0x0D | 0x09 | 0x0B
  | 0x21 | 0x22 | 0x23 | 0x24 | 0x25 | 0x26
  | 0x27 | 0x28 | 0x29 | 0x2A | 0x2B | 0x2C
  | 0x2D | 0x2E | 0x2F
  | 0x3A | 0x3B | 0x3C | 0x3D | 0x3E | 0x3F | 0x40
  | 0x5B | 0x5C | 0x5D | 0x5E | 0x5F | 0x60
  | 0x7B | 0x7C | 0x7D | 0x7E
  | 0x3000 | 0x3001 | 0x3002
  | 0xFF08 | 0xFF09 | 0xFF01 | 0xFF0C | 0xFF1A | 0xFF1B | 0xFF1F => 1
  | _ => 0

/-- The first loop of `ngram_next`: skip the ignored characters at the start
of the text; the result is what is left of the text from `*start`. -/
def ngram_skip : List Nat → List Nat
  | [] => []
  | c :: cs => if wiser_is_ignored_char c ≠ 0 then ngram_skip cs else c :: cs

/-- The second loop of `ngram_next`: the number of characters, at most `n`,
before the next ignored character or the end of the text. -/
def ngram_len : Nat → List Nat → Nat
  | 0, _ => 0
  | _ + 1, [] => 0
  | n + 1, c :: cs => if wiser_is_ignored_char c = 0 then ngram_len n cs + 1 else 0

/-- The `ngram_next` of `token.c`: the text from `*start` on, and the length
of the token. -/
def ngram_next (ustr : List Nat) (n : Nat) : List Nat × Nat :=
  (ngram_skip ustr, ngram_len n (ngram_skip ustr))

/-- One call of `token_to_postings_list` made by `text_to_postings_lists`:
the token starts at code point `start` of the text, is `token` and gets
`position`. -/
structure token_step where
  start : Nat
  token : List Nat
  position : Int
deriving DecidableEq

/-- The loop of `text_to_postings_lists`: the calls of
`token_to_postings_list` it makes, in order. `t` is the text from the
pointer `t` on and `text_len` the length of the whole text; every iteration
moves `t` forward, so `fuel` bounds the iterations by the length of `t`. -/
def text_to_postings_loop (document_id : Int) (n : Nat) (text_len : Nat) :
    Nat → List Nat → Int → List token_step
  | 0, _, _ => []
  | fuel + 1, t, position =>
    let st := ngram_next t n
    if st.2 = 0 then []
    else
      let rest := text_to_postings_loop document_id n text_len fuel (st.1.drop 1) (position + 1)
      if st.2 ≥ n ∨ document_id ≠ 0 then
        { start := text_len - st.1.length, token := st.1.take st.2, position := position } :: rest
      else rest

/-- The calls of `token_to_postings_list` made by
`text_to_postings_lists(env, document_id, text, text_len, n, ...)`. -/
def text_to_postings_calls (document_id : Int) (text : List Nat) (n : Nat) : List token_step :=
  text_to_postings_loop document_id n text.length text.length text 0

/-- The `uchar2utf8_size` of `util.c`; `none` is `abort()`. -/
def uchar2utf8_size : List Nat → Option Nat
  | [] => some 0
  | c :: cs =>
    match uchar2utf8_size cs with
    | none => none
    | some size =>
      if c < 0x800 then (if c < 0x80 then some (size + 1) else some (size + 2))
      else if c < 0x10000 then some (size + 3)
      else if c < 0x200000 then some (size + 4)
      else none

/-- The conversion loop of `utf32toutf8`. -/
def utf32toutf8_loop : List Nat → Option (List Nat)
  | [] => some []
  | c :: cs =>
    match utf32toutf8_loop cs with
    | none => none
    | some rest =>
      if c < 0x800 then
        if c < 0x80 then some (c :: rest)
        else some ((((c &&& 0x7c0) >>> 6) ||| 0xc0) :: ((c &&& 0x3f) ||| 0x80) :: rest)
      else if c < 0x10000 then
        some ((((c &&& 0xf000) >>> 12) ||| 0xe0) :: (((c &&& 0xfc0) >>> 6) ||| 0x80) ::
          ((c &&& 0x3f) ||| 0x80) :: rest)
      else if c < 0x200000 then
        some ((((c &&& 0x1c0000) >>> 18) ||| 0xf0) :: (((c &&& 0x3f000) >>> 12) ||| 0x80) ::
          (((c &&& 0xfc0) >>> 6) ||| 0x80) :: ((c &&& 0x3f) ||| 0x80) :: rest)
      else none

/-- The `utf32toutf8` of `util.c`: the bytes written before the terminating
NUL; `none` is `abort()`. -/
def utf32toutf8 (ustr : List Nat) : Option (List Nat) :=
  match uchar2utf8_size ustr with
  | none => none
  | some _ => utf32toutf8_loop ustr

/-- The constant `MAX_UTF8_SIZE` of `util.h`. -/
def MAX_UTF8_SIZE : Nat := 4

/-- The `utf32toutf8` of `util.c` with its destination `str` of `str_cap`
bytes: the bytes stored into `str`, the terminating NUL included, and
`*str_size`. `none` is `abort()` or a store past the end of `str`. -/
def utf32toutf8_into (ustr : List Nat) (str_cap : Nat) : Option (List Nat × Nat) :=
  match uchar2utf8_size ustr with
  | none => none
  | some sbuf_size =>
    match utf32toutf8_loop ustr with
    | none => none
    | some bytes =>
      if str_cap < (bytes ++ [0]).length then none else some (bytes ++ [0], sbuf_size)

/-! ## Token store (`database.c`) and in-memory index (`token.c`) -/

/-- The columns `token` and `docs_count` of the table `tokens`, in the order
of the ids: the id of a row is its index plus 1 (`INTEGER PRIMARY KEY`). -/
abbrev tokens_table := List (List Nat × Int)

/-- The statement `SELECT id, docs_count FROM tokens WHERE token = ?`. -/
def select_token (str : List Nat) : tokens_table → Int → Option (Int × Int)
  | [], _ => none
  | (tok, docs_count) :: rows, id =>
    if tok = str then some (id, docs_count) else select_token str rows (id + 1)

/-- The `db_get_token_id` of `database.c`: the table after
`INSERT OR IGNORE` (when `insert` is not 0), the token id and `*docs_count`. -/
def db_get_token_id (table : tokens_table) (str : List Nat) (insert : Int) :
    tokens_table × Int × Int :=
  let table :=
    if insert ≠ 0 then
      (match select_token str table 1 with
       | none => table ++ [(str, 0)]
       | some _ => table)
    else table
  match select_token str table 1 with
  | some (id, docs_count) => (table, id, docs_count)
  | none => (table, 0, 0)

/-- An entry of the hash table `inverted_index_hash` of `wiser.h`. The hash
table is the list of its entries in insertion order. -/
structure inverted_index_value where
  token_id : Int
  postings_list : List postings_list
  docs_count : Int
  positions_count : Int
deriving DecidableEq

/-- The hash table keyed by `token_id`. -/
abbrev inverted_index_hash := List inverted_index_value

/-- The macro `HASH_FIND_INT` on `token_id`. -/
def HASH_FIND_INT (head : inverted_index_hash) (key : Int) : Option inverted_index_value :=
  head.find? (fun e => e.token_id = key)

/-- Store the entry `e` back in place of the entry found under its key (a
write through the pointer that `HASH_FIND_INT` returned). -/
def hash_write (e : inverted_index_value) : inverted_index_hash → inverted_index_hash
  | [] => []
  | x :: xs => if x.token_id = e.token_id then e :: xs else x :: hash_write e xs

/-- The `create_new_postings_list` of `token.c`. -/
def create_new_postings_list (document_id : Int) : postings_list :=
  { document_id := document_id, positions := [], positions_count := 1 }

/-- The `create_new_inverted_index` of `token.c`. -/
def create_new_inverted_index (token_id docs_count : Int) : inverted_index_value :=
  { token_id := token_id, postings_list := [], docs_count := docs_count, positions_count := 0 }

/-- The `token_to_postings_list` of `token.c`, given the UTF-8 token. The
result is the token table and `*postings`; `none` is a crash (an entry with an
empty posting list). The return value is 0 whenever allocation succeeds. -/
def token_to_postings_list (table : tokens_table) (document_id : Int) (token : List Nat)
    (position : Int) (postings : inverted_index_hash) :
    Option (tokens_table × inverted_index_hash) :=
  let r := db_get_token_id table token document_id
  let token_id := r.2.1
  let token_docs_count := r.2.2
  match HASH_FIND_INT postings token_id with
  | some ii_entry =>
    match ii_entry.postings_list with
    | [] => none
    | pl :: pls =>
      let pl := { pl with positions_count := pl.positions_count + 1,
                          positions := pl.positions ++ [position] }
      some (r.1, hash_write { ii_entry with postings_list := pl :: pls,
                                            positions_count := ii_entry.positions_count + 1 }
                   postings)
  | none =>
    let ii_entry := create_new_inverted_index token_id
      (if document_id ≠ 0 then 1 else token_docs_count)
    let pl := create_new_postings_list document_id
    let pl := { pl with positions := pl.positions ++ [position] }
    some (r.1, postings ++ [{ ii_entry with postings_list := ii_entry.postings_list ++ [pl],
                                            positions_count := ii_entry.positions_count + 1 }])

/-- The `merge_inverted_index` of `postings.c`; `none` is `abort()` in
`merge_postings`. -/
def merge_inverted_index (base : inverted_index_hash) :
    inverted_index_hash → Option inverted_index_hash
  | [] => some base
  | p :: to_be_added =>
    match HASH_FIND_INT base p.token_id with
    | some t =>
      match merge_postings t.postings_list p.postings_list with
      | none => none
      | some merged =>
        merge_inverted_index
          (hash_write { t with postings_list := merged, docs_count := t.docs_count + p.docs_count }
            base) to_be_added
    | none => merge_inverted_index (base ++ [p]) to_be_added

/-- The body of the loop of `text_to_postings_lists`, over the calls it makes:
the token is converted into the array `char t_8[n * MAX_UTF8_SIZE]` and its
first `t_8_size` bytes are passed to `token_to_postings_list`. `none` is
`abort()`, a crash, or a store past the end of `t_8`. -/
def text_to_postings_fold (document_id : Int) (n : Nat) :
    List token_step → tokens_table → inverted_index_hash →
      Option (tokens_table × inverted_index_hash)
  | [], table, buffer_postings => some (table, buffer_postings)
  | s :: ss, table, buffer_postings =>
    match utf32toutf8_into s.token (n * MAX_UTF8_SIZE) with
    | none => none
    | some (t_8, t_8_size) =>
      match token_to_postings_list table document_id (t_8.take t_8_size) s.position
          buffer_postings with
      | none => none
      | some (table, buffer_postings) =>
        text_to_postings_fold document_id n ss table buffer_postings

/-- The `text_to_postings_lists` of `token.c`: the token table and
`*postings` afterwards (the return value is 0); `none` is `abort()` or a
crash. `postings = []` is a `NULL` table. -/
def text_to_postings_lists (table : tokens_table) (document_id : Int) (text : List Nat)
    (n : Nat) (postings : inverted_index_hash) : Option (tokens_table × inverted_index_hash) :=
  match text_to_postings_fold document_id n (text_to_postings_calls document_id text n) table
      [] with
  | none => none
  | some (table, buffer_postings) =>
    if postings ≠ [] then
      (merge_inverted_index postings buffer_postings).map (fun p => (table, p))
    else some (table, buffer_postings)

/-- The texts whose tokens fit the array `t_8` of `text_to_postings_lists`:
among any `n` consecutive code points one is below `0x10000`, so that a token
of `n` code points takes at most `4 n - 1` bytes and leaves room for the
terminating NUL. -/
def tokens_fit_t_8 (n : Nat) (text : List Nat) : Prop :=
  ∀ i < text.length, 1 ≤ n → ((text.drop i).take n).length = n →
    ∃ c ∈ (text.drop i).take n, c < 0x10000

instance (n : Nat) (text : List Nat) : Decidable (tokens_fit_t_8 n text) := by
  unfold tokens_fit_t_8
  infer_instance

/-- The separator set in the words of the specification: ASCII whitespace
(space, form feed, line feed, carriage return, tab, vertical tab), the 32
ASCII punctuation characters, and ten ideographic and full-width marks. -/
def separator_set : List Nat :=
  [0x20, 0x0C, 0x0A, 0x0D, 0x09, 0x0B] ++
  -- ! " # $ % & ' ( ) * + , - . /
  [0x21, 0x22, 0x23, 0x24, 0x25, 0x26, 0x27, 0x28, 0x29, 0x2A, 0x2B, 0x2C, 0x2D, 0x2E, 0x2F] ++
  -- : ; < = > ? @
  [0x3A, 0x3B, 0x3C, 0x3D, 0x3E, 0x3F, 0x40] ++
  -- [ \ ] ^ _ and the grave accent
  [0x5B, 0x5C, 0x5D, 0x5E, 0x5F, 0x60] ++
  -- braces, vertical bar, tilde
  [0x7B, 0x7C, 0x7D, 0x7E] ++
  [0x3000, 0x3001, 0x3002, 0xFF01, 0xFF08, 0xFF09, 0xFF0C, 0xFF1A, 0xFF1B, 0xFF1F]

/-- An ASCII letter or digit. -/
def is_ascii_alnum (c : Nat) : Prop :=
  (0x30 ≤ c ∧ c ≤ 0x39) ∨ (0x41 ≤ c ∧ c ≤ 0x5A) ∨ (0x61 ≤ c ∧ c ≤ 0x7A)

/-! ## Tokenizer steps -/

/-- The number of code points of `l` that are not separators. -/
def nonsep_count (l : List Nat) : Nat := (l.filter (fun c => wiser_is_ignored_char c = 0)).length

/-- Every step of the tokenizer loop, for `n ≥ 1`, by recursion on the text that
is left: a separator is skipped, any other code point starts a token and
takes the next position. `text_len` is the length of the whole text. -/
def steps_from (n text_len : Nat) : List Nat → Int → List token_step
  | [], _ => []
  | c :: cs, position =>
    if wiser_is_ignored_char c ≠ 0 then steps_from n text_len cs position
    else
      { start := text_len - (c :: cs).length, token := (c :: cs).take (ngram_len n (c :: cs)),
        position := position } :: steps_from n text_len cs (position + 1)

/-- The test `t_len >= n || document_id` of `text_to_postings_lists`. -/
def step_kept (document_id : Int) (n : Nat) (s : token_step) : Bool :=
  decide (s.token.length ≥ n ∨ document_id ≠ 0)

/-! ## Query engine (`search.c`) -/

/-- An entry of the hash table `search_results` of `search.c`. The score is a
`double` there; here it is a value of any type with `0`, `+` and `<`. -/
structure search_results (Score : Type) where
  document_id : Int
  score : Score

/-- The `add_search_result` of `search.c`: add `score` to the entry of the
document, which is made with score 0 at the end of the table when missing. -/
def add_search_result {Score : Type} [Zero Score] [Add Score] :
    List (search_results Score) → Int → Score → List (search_results Score)
  | [], document_id, score => [{ document_id := document_id, score := 0 + score }]
  | r :: rs, document_id, score =>
    if r.document_id = document_id then { r with score := r.score + score } :: rs
    else r :: add_search_result rs document_id score

/-- A `phrase_search_cursor` of `search.c`: `base` and the positions from
`current` to the end of `positions`. -/
structure phrase_search_cursor where
  base : Int
  current : List Int
deriving DecidableEq

/-- The initialisation of the cursors in `search_phrase`: one cursor for every
position of every query token, over the positions of the token in the current
document. `none` is a `NULL` dereference. -/
def phrase_cursors_init :
    List inverted_index_value → List (List postings_list) → Option (List phrase_search_cursor)
  | [], _ => some []
  | _ :: _, [] => none
  | qt :: qts, dc :: dcs =>
    match qt.postings_list, dc with
    | qpl :: _, dpl :: _ =>
      (phrase_cursors_init qts dcs).map
        (fun rest => qpl.positions.map (fun pos => { base := pos, current := dpl.positions }) ++ rest)
    | _, _ => none

/-- The `for` loop of `search_phrase` over the cursors after the first one:
`none` is `goto exit`, otherwise `next_rel_position` and the cursors. -/
def phrase_advance (rel_position : Int) :
    List phrase_search_cursor → Option (Int × List phrase_search_cursor)
  | [] => some (rel_position, [])
  | cur :: rest =>
    match cur.current.dropWhile (fun p => decide (p - cur.base < rel_position)) with
    | [] => none
    | p :: ps =>
      if p - cur.base ≠ rel_position then
        some (p - cur.base, { cur with current := p :: ps } :: rest)
      else
        match phrase_advance rel_position rest with
        | none => none
        | some (next_rel_position, rest) =>
          some (next_rel_position, { cur with current := p :: ps } :: rest)

/-- The `while (cursors[0].current)` loop of `search_phrase`. Every iteration
moves the first cursor forward, so `fuel` bounds the iterations by the number
of its positions. -/
def search_phrase_loop : Nat → List phrase_search_cursor → Int → Int
  | 0, _, phrase_count => phrase_count
  | _ + 1, [], phrase_count => phrase_count
  | fuel + 1, c0 :: others, phrase_count =>
    match c0.current with
    | [] => phrase_count
    | p0 :: rest0 =>
      let rel_position := p0 - c0.base
      match phrase_advance rel_position others with
      | none => phrase_count
      | some (next_rel_position, others) =>
        if next_rel_position > rel_position then
          search_phrase_loop fuel
            ({ c0 with current :=
                (p0 :: rest0).dropWhile (fun p => decide (p - c0.base < next_rel_position)) } ::
              others) phrase_count
        else search_phrase_loop fuel ({ c0 with current := rest0 } :: others) (phrase_count + 1)

/-- The `search_phrase` of `search.c`; `doc_cursors` holds, for every query
token, the postings from `current` on. The array of cursors is allocated for
`n_positions` cursors, the sum of the `positions_count` of the query tokens,
and the loops run over `n_positions` cursors, while the initialisation writes
one cursor for every position. `none` is a crash or an access outside of the
array. -/
def search_phrase (query_tokens : List inverted_index_value)
    (doc_cursors : List (List postings_list)) : Option Int :=
  let n_positions := (query_tokens.map (fun qt => qt.positions_count)).sum
  match phrase_cursors_init query_tokens doc_cursors with
  | none => none
  | some cursors =>
    if (cursors.length : Int) ≠ n_positions then none
    else
      match cursors with
      | [] => none
      | c0 :: others => some (search_phrase_loop (c0.current.length + 1) (c0 :: others) 0)

/-- The `for` loop of `search_docs` over the cursors after the first one:
`none` is `goto exit`, otherwise `next_doc_id` and the cursors. -/
def advance_cursors (doc_id : Int) :
    List (List postings_list) → Option (Int × List (List postings_list))
  | [] => some (0, [])
  | cur :: rest =>
    match cur.dropWhile (fun p => decide (p.document_id < doc_id)) with
    | [] => none
    | p :: ps =>
      if p.document_id ≠ doc_id then some (p.document_id, (p :: ps) :: rest)
      else
        match advance_cursors doc_id rest with
        | none => none
        | some (next_doc_id, rest) => some (next_doc_id, (p :: ps) :: rest)

/-- The `while (cursors[0].current)` loop of `search_docs`. `score_fn` stands
for `calc_tf_idf`. Every iteration moves the first cursor forward. -/
def search_docs_loop {Score : Type} [Zero Score] [Add Score] (enable_phrase_search : Int)
    (score_fn : List inverted_index_value → List (List postings_list) → Score)
    (tokens : List inverted_index_value) :
    Nat → List (List postings_list) → List (search_results Score) →
      Option (List (search_results Score))
  | 0, _, results => some results
  | _ + 1, [], results => some results
  | fuel + 1, c0 :: others, results =>
    match c0 with
    | [] => some results
    | p0 :: rest0 =>
      let doc_id := p0.document_id
      match advance_cursors doc_id others with
      | none => some results
      | some (next_doc_id, others) =>
        if next_doc_id > 0 then
          search_docs_loop enable_phrase_search score_fn tokens fuel
            ((p0 :: rest0).dropWhile (fun p => decide (p.document_id < next_doc_id)) :: others)
            results
        else
          match (if enable_phrase_search ≠ 0 then search_phrase tokens ((p0 :: rest0) :: others)
                 else some (-1)) with
          | none => none
          | some phrase_count =>
            search_docs_loop enable_phrase_search score_fn tokens fuel (rest0 :: others)
              (if phrase_count ≠ 0 then
                add_search_result results doc_id (score_fn tokens ((p0 :: rest0) :: others))
               else results)

/-- The first loop of `search_docs`: fetch the postings of every token.
`fetch` stands for `fetch_postings` (return value and `*postings`); `none`
is `goto exit`. -/
def fetch_cursors (fetch : Int → Int × List postings_list) :
    List inverted_index_value → Option (List (List postings_list))
  | [] => some []
  | token :: rest =>
    if token.token_id = 0 then none
    else if (fetch token.token_id).1 ≠ 0 then none
    else if (fetch token.token_id).2 = [] then none
    else (fetch_cursors fetch rest).map (fun cs => (fetch token.token_id).2 :: cs)

/-- The order that `HASH_SORT` with `query_token_value_docs_count_desc_sort`
gives: `a` stays before `b` when the comparison is not positive. -/
def docs_count_desc (a b : inverted_index_value) : Prop := b.docs_count - a.docs_count ≤ 0

instance : DecidableRel docs_count_desc := fun a b =>
  inferInstanceAs (Decidable (b.docs_count - a.docs_count ≤ 0))

/-- The order that `HASH_SORT` with `search_results_score_desc_sort` gives. -/
def score_desc {Score : Type} [LT Score] (a b : search_results Score) : Prop := ¬ (a.score < b.score)

instance {Score : Type} [LT Score] [DecidableRel (fun a b : Score => a < b)] :
    DecidableRel (@score_desc Score _) := fun a b =>
  inferInstanceAs (Decidable (¬ (a.score < b.score)))

/-- The `search_docs` of `search.c`: `*results` afterwards. `HASH_SORT` is a
stable sort. `none` is a crash in `search_phrase`. -/
def search_docs {Score : Type} [Zero Score] [Add Score] [LT Score]
    [DecidableRel (fun a b : Score => a < b)]
    (fetch : Int → Int × List postings_list) (enable_phrase_search : Int)
    (score_fn : List inverted_index_value → List (List postings_list) → Score)
    (results : List (search_results Score)) (tokens : List inverted_index_value) :
    Option (List (search_results Score)) :=
  if tokens = [] then some results
  else
    let tokens := tokens.insertionSort docs_count_desc
    let found :=
      match fetch_cursors fetch tokens with
      | none => some results
      | some cursors =>
        search_docs_loop enable_phrase_search score_fn tokens
          (match cursors with
           | [] => 0
           | c0 :: _ => c0.length + 1) cursors results
    found.map (fun results => results.insertionSort score_desc)

/-- The `split_query_to_tokens` of `search.c`. -/
def split_query_to_tokens (table : tokens_table) (text : List Nat) (n : Nat)
    (query_tokens : inverted_index_hash) : Option (tokens_table × inverted_index_hash) :=
  text_to_postings_lists table 0 text n query_tokens

/-- The `search` of `search.c` after `utf8toutf32`: the results that are
printed. `none` is a crash or `abort()`. -/
def search {Score : Type} [Zero Score] [Add Score] [LT Score]
    [DecidableRel (fun a b : Score => a < b)]
    (table : tokens_table) (fetch : Int → Int × List postings_list) (token_len : Nat)
    (enable_phrase_search : Int)
    (score_fn : List inverted_index_value → List (List postings_list) → Score)
    (query32 : List Nat) : Option (List (search_results Score)) :=
  if query32.length < token_len then some []
  else
    match split_query_to_tokens table query32 token_len [] with
    | none => none
    | some (_, query_tokens) => search_docs fetch enable_phrase_search score_fn [] query_tokens

/-! ## Intersection of posting lists -/

/-- The document ids of a posting list. -/
def doc_ids (c : List postings_list) : List Int := c.map (fun p => p.document_id)

/-- A fetched posting list: strictly increasing, positive document ids. -/
def cursor_ok (c : List postings_list) : Prop :=
  c.Pairwise (fun p q => p.document_id < q.document_id) ∧ ∀ p ∈ c, 0 < p.document_id

/-- The UTF-8 bytes of one code point below `0x200000`, in arithmetic form. -/
def utf8_bytes (c : Nat) : List Nat :=
  if c < 0x80 then [c]
  else if c < 0x800 then [192 + c / 64 % 32, 128 + c % 64]
  else if c < 0x10000 then [224 + c / 4096 % 16, 128 + c / 64 % 64, 128 + c % 64]
  else [240 + c / 262144 % 8, 128 + c / 4096 % 64, 128 + c / 64 % 64, 128 + c % 64]

/-- The token id that `db_get_token_id` finds in a table: 0 when absent. -/
def token_id_in (T : tokens_table) (str : List Nat) : Int :=
  match select_token str T 1 with
  | some (id, _) => id
  | none => 0

/-! ## In-memory index built by one call of `text_to_postings_lists` -/

/-- The positions in the head posting of the entry of a token id; empty
when the token has no entry. -/
def positions_of (H : inverted_index_hash) (k : Int) : List Int :=
  match HASH_FIND_INT H k with
  | some e =>
    (match e.postings_list with
     | pl :: _ => pl.positions
     | [] => [])
  | none => []

/-- An entry built for document `d`: one posting, of document `d`, with at
least one position, and both counts equal to the number of positions. -/
def entry_ok (d : Int) (e : inverted_index_value) : Prop :=
  ∃ ps : List Int, ps ≠ [] ∧
    e.postings_list = [{ document_id := d, positions := ps, positions_count := (ps.length : Int) }] ∧
    e.positions_count = (ps.length : Int)

/-- Every entry of the table is an entry built for document `d`. -/
def index_ok (d : Int) (H : inverted_index_hash) : Prop := ∀ e ∈ H, entry_ok d e

/-- The part of `token_to_postings_list` after `db_get_token_id`. -/
def index_add (document_id token_id token_docs_count position : Int)
    (postings : inverted_index_hash) : Option inverted_index_hash :=
  match HASH_FIND_INT postings token_id with
  | some ii_entry =>
    match ii_entry.postings_list with
    | [] => none
    | pl :: pls =>
      some (hash_write
        { ii_entry with
          postings_list :=
            { pl with positions_count := pl.positions_count + 1,
                      positions := pl.positions ++ [position] } :: pls,
          positions_count := ii_entry.positions_count + 1 } postings)
  | none =>
    some (postings ++
      [{ token_id := token_id,
         postings_list := [{ document_id := document_id, positions := [position],
                             positions_count := 1 }],
         docs_count := if document_id ≠ 0 then 1 else token_docs_count,
         positions_count := 1 }])

/-- The token id of a step in a token table. -/
def step_key (T : tokens_table) (s : token_step) : Int :=
  match utf32toutf8 s.token with
  | some t_8 => token_id_in T t_8
  | none => 0

/-! ## Index completeness -/

/-- The start offsets of `g` in `b`, in increasing order: every `j` with
`b[j .. j + |g|) = g`. -/
def start_offsets (g b : List Nat) : List Int :=
  ((List.range b.length).filter (fun j => decide ((b.drop j).take g.length = g))).map
    (fun (j : Nat) => (j : Int))

/-- The start offsets of `g` in the text `t` that begins at offset `j`. -/
def occurrences (g : List Nat) : List Nat → Int → List Int
  | [], _ => []
  | c :: cs, j =>
    if (c :: cs).take g.length = g then j :: occurrences g cs (j + 1)
    else occurrences g cs (j + 1)

/-! ## Soundness of the phrase check and of the search loop -/

/-- The cursor `cur2` is the cursor `cur` moved forward. -/
def cursor_le (cur cur2 : phrase_search_cursor) : Prop :=
  cur2.base = cur.base ∧ ∀ p ∈ cur2.current, p ∈ cur.current

/-- The document cursor `c2` is the cursor `c` moved forward. -/
def doc_cursor_le (c c2 : List postings_list) : Prop := ∀ p ∈ c2, p ∈ c

/-- The database holds the index of the documents: every posting that
`fetch` returns for a token id belongs to a stored document with a positive
id, and its positions are the ones that `text_to_postings_lists` records for
that token id in the body of the document (the token ids being those of the
token table). -/
def index_of (table : tokens_table) (n : Nat) (documents : Int → Option (List Nat))
    (fetch : Int → Int × List postings_list) : Prop :=
  ∀ token_id, ∀ pl ∈ (fetch token_id).2, 0 < pl.document_id ∧
    ∃ body index, documents pl.document_id = some body ∧
      text_to_postings_lists table pl.document_id body n [] = some (table, index) ∧
      positions_of index token_id = pl.positions

/-! ## A database of two documents -/

/-- The token table after indexing document 1 with body `"abc"` and document
2 with body `"ab"`, for `N = 2`: the tokens `"ab"`, `"bc"`, `"c"`, `"b"` with
their `docs_count`. -/
def example_tokens : tokens_table :=
  [([0x61, 0x62], 2), ([0x62, 0x63], 1), ([0x63], 1), ([0x62], 1)]

/-- The bodies of the two documents. -/
def example_documents (document_id : Int) : Option (List Nat) :=
  if document_id = 1 then some [0x61, 0x62, 0x63]
  else if document_id = 2 then some [0x61, 0x62]
  else none

/-- The postings of the four tokens in the database. -/
def example_fetch (token_id : Int) : Int × List postings_list :=
  if token_id = 1 then (0, [⟨1, [0], 1⟩, ⟨2, [0], 1⟩])
  else if token_id = 2 then (0, [⟨1, [1], 1⟩])
  else if token_id = 3 then (0, [⟨1, [2], 1⟩])
  else if token_id = 4 then (0, [⟨2, [1], 1⟩])
  else (0, [])

/-! ## Fetching and updating the postings of a token (`postings.c`, `database.c`) -/

/-- The value `compress_none` of the enum `compress_method` of `wiser.h`. -/
def compress_none : Int := 0

/-- The value `compress_golomb` of the enum `compress_method`. -/
def compress_golomb : Int := 1

/-- The `decode_postings` of `postings.c`: return value, `*postings` and
`*postings_len`; `none` is `abort()` (unknown method) or a crash of the
decoder. -/
def decode_postings (compress : Int) (postings_e : List Nat) :
    Option (Int × List postings_list × Int) :=
  if compress = compress_none then decode_postings_none postings_e
  else if compress = compress_golomb then decode_postings_golomb postings_e
  else none

/-- The `encode_postings` of `postings.c`: the buffer afterwards (the return
value is 0); `documents_count` is what `db_get_document_count` returns.
`none` is `abort()` or a failed assertion. -/
def encode_postings (compress documents_count : Int) (postings : List postings_list)
    (postings_len : Int) (postings_e : buffer) : Option buffer :=
  if compress = compress_none then some (encode_postings_none postings postings_e)
  else if compress = compress_golomb then
    encode_postings_golomb documents_count postings postings_len postings_e
  else none

/-- The outcome of `sqlite3_step` on the statement
`SELECT docs_count, postings FROM tokens WHERE id = ?`: a row (`SQLITE_ROW`)
with its two columns, or another result code. -/
inductive get_postings_step where
  | row (docs_count : Int) (postings : List Nat)
  | code (rc : Int)
deriving DecidableEq

/-- The result code `SQLITE_DONE` of `sqlite3.h`: no row has the id. -/
def SQLITE_DONE : Int := 101

/-- The `db_get_postings` of `database.c`: return value, `*docs_count` and
the blob `*postings` of `*postings_size` bytes. -/
def db_get_postings : get_postings_step → Int × Int × List Nat
  | get_postings_step.row docs_count postings => (0, docs_count, postings)
  | get_postings_step.code rc => (if rc = SQLITE_DONE then 0 else rc, 0, [])

/-- The `fetch_postings` of `postings.c`, given what the database answers.
The argument `postings_len` is `none` for a `NULL` pointer and `some v` for a
pointer to an `int` that holds `v`. The result is the return value,
`*postings`, and the value stored into `*postings_len` when it is not `NULL`.
`none` is a crash or `abort()` inside `decode_postings`, or the read of
`*postings_len` through a `NULL` pointer, which the branch of the count
mismatch makes for its message. -/
def fetch_postings (compress : Int) (step : get_postings_step) (postings_len : Option Int) :
    Option (Int × List postings_list × Int) :=
  let r := db_get_postings step
  let rc := r.1
  let docs_count := r.2.1
  let postings_e := r.2.2
  if rc = 0 ∧ postings_e.length ≠ 0 then
    match decode_postings compress postings_e with
    | none => none
    | some (ret, postings, decoded_len) =>
      if ret ≠ 0 then some (-1, postings, decoded_len)
      else if docs_count ≠ decoded_len then
        match postings_len with
        | none => none
        | some _ => some (-1, postings, decoded_len)
      else some (rc, postings, decoded_len)
  else some (rc, [], 0)

/-- The `update_postings` of `postings.c`, given what the database answers to
`fetch_postings`: the entry `*p` afterwards and, when `db_update_postings` is
called, its arguments `token_id`, `docs_count` and the blob. `none` is
`abort()`, a failed assertion or a crash. The local `old_postings_len` is
passed by address without a value; `fetch_postings` only prints what it reads
there, and 0 stands for it. -/
def update_postings (compress documents_count : Int) (step : get_postings_step)
    (p : inverted_index_value) :
    Option (inverted_index_value × Option (Int × Int × List Nat)) :=
  match fetch_postings compress step (some 0) with
  | none => none
  | some (rc, old_postings, old_postings_len) =>
    if rc = 0 then
      match (if old_postings_len ≠ 0 then
              (merge_postings old_postings p.postings_list).map
                (fun merged => { p with postings_list := merged,
                                        docs_count := p.docs_count + old_postings_len })
             else some p) with
      | none => none
      | some p =>
        match encode_postings compress documents_count p.postings_list p.docs_count
            alloc_buffer with
        | none => none
        | some buf => some (p, some (p.token_id, p.docs_count, BUFFER_PTR buf))
    else some (p, none)

/-! ## Invariants of the buffer -/

/-- The invariant I3 on a posting: `positions_count` is the number of
positions. -/
def posting_I3 (p : postings_list) : Prop := p.positions_count = (p.positions.length : Int)

/-- The invariant I3 on every posting of an index. -/
def index_I3 (H : inverted_index_hash) : Prop :=
  ∀ e ∈ H, ∀ p ∈ e.postings_list, posting_I3 p

/-- A sequence of calls `text_to_postings_lists(env, document_id, text,
text_len, n, &buffer)` into one buffer, one for each document in turn, as
`add_document` makes them between two flushes: the token table and the buffer
afterwards. -/
def text_to_postings_lists_seq (n : Nat) :
    List (Int × List Nat) → tokens_table → inverted_index_hash →
      Option (tokens_table × inverted_index_hash)
  | [], table, postings => some (table, postings)
  | (document_id, text) :: docs, table, postings =>
    match text_to_postings_lists table document_id text n postings with
    | none => none
    | some (table, postings) => text_to_postings_lists_seq n docs table postings

/-- The buffer that one call of `text_to_postings_lists` for document `d`
builds before it is merged: no two entries with one token id, every entry
with one posting, of document `d`, whose positions are strictly increasing
and below `bound`, and with `docs_count = 1` when `d ≠ 0`. -/
def fresh_index (d bound : Int) (H : inverted_index_hash) : Prop :=
  (H.map (fun e => e.token_id)).Nodup ∧
  ∀ e ∈ H, (d ≠ 0 → e.docs_count = 1) ∧
    ∃ ps : List Int, ps ≠ [] ∧
      e.postings_list =
        [{ document_id := d, positions := ps, positions_count := (ps.length : Int) }] ∧
      ps.Pairwise (fun x y => x < y) ∧ ∀ x ∈ ps, x < bound

/-- The invariant I2 on a posting list: document ids strictly increasing,
and the positions of every posting strictly increasing. -/
def postings_I2 (L : List postings_list) : Prop :=
  L.Pairwise (fun p q => p.document_id < q.document_id) ∧
    ∀ p ∈ L, p.positions.Pairwise (fun x y => x < y)

/-! ## Index-level merge -/

/-- The loop of `merge_inverted_index` with the table `to_be_added` as a part
of the state: every iteration starts with `HASH_DEL(to_be_added, p)`. The
result is `base` and `to_be_added` after the loop; `none` is `abort()` in
`merge_postings`. -/
def merge_inverted_index_loop (base : inverted_index_hash) :
    inverted_index_hash → Option (inverted_index_hash × inverted_index_hash)
  | [] => some (base, [])
  | p :: to_be_added =>
    match HASH_FIND_INT base p.token_id with
    | some t =>
      match merge_postings t.postings_list p.postings_list with
      | none => none
      | some merged =>
        merge_inverted_index_loop
          (hash_write { t with postings_list := merged, docs_count := t.docs_count + p.docs_count }
            base) to_be_added
    | none => merge_inverted_index_loop (base ++ [p]) to_be_added

/-- The index-level merge in the words of the specification, as the entry
found under a token id afterwards: for a token of `addition` that `base`
contains the posting lists are merged and the `docs_count` added, another
token of `addition` is moved to `base`, and the other entries of `base` stay. -/
def merge_index (base addition : inverted_index_hash) (k : Int) : Option inverted_index_value :=
  match HASH_FIND_INT addition k with
  | none => HASH_FIND_INT base k
  | some p =>
    match HASH_FIND_INT base k with
    | none => some p
    | some t =>
      (merge_postings t.postings_list p.postings_list).map
        (fun merged => { t with postings_list := merged,
                                docs_count := t.docs_count + p.docs_count })

/-! ## Text codec: UTF-8 to UTF-32 (`util.c`) -/

/-- The `utf8_skip_table` of `util.c`: the number of bytes of the character
whose first byte is `0x80 + index`; 0 is an error. -/
def utf8_skip_table : List Nat :=
  [0, 0, 0, 0, 0, 0, 0, 0, 0, 0, 0, 0, 0, 0, 0, 0, -- 80-8F
   0, 0, 0, 0, 0, 0, 0, 0, 0, 0, 0, 0, 0, 0, 0, 0, -- 90-9F
   0, 0, 0, 0, 0, 0, 0, 0, 0, 0, 0, 0, 0, 0, 0, 0, -- A0-AF
   0, 0, 0, 0, 0, 0, 0, 0, 0, 0, 0, 0, 0, 0, 0, 0, -- B0-BF
   2, 2, 2, 2, 2, 2, 2, 2, 2, 2, 2, 2, 2, 2, 2, 2, -- C0-CF
   2, 2, 2, 2, 2, 2, 2, 2, 2, 2, 2, 2, 2, 2, 2, 2, -- D0-DF
   3, 3, 3, 3, 3, 3, 3, 3, 3, 3, 3, 3, 3, 3, 3, 3, -- E0-EF
   4, 4, 4, 4, 4, 4, 4, 4, 5, 5, 5, 5, 6, 6, 0, 0] -- F0-FF

/-- The loop of `utf8_len`, on the bytes from `str` to `str_end`; a byte is
a value below 256 and the `char` of the code is signed, so that `*str >= 0`
holds for the bytes below `0x80` and `*str + 0x80` is the byte minus `0x80`.
`none` is `abort()`. Every iteration moves `str` forward, so `fuel` bounds
the iterations by the number of bytes. -/
def utf8_len_loop : Nat → List Nat → Nat → Option Nat
  | 0, _, len => some len
  | _ + 1, [], len => some len
  | fuel + 1, c :: cs, len =>
    if c < 0x80 then utf8_len_loop fuel cs (len + 1)
    else
      match utf8_skip_table[c - 0x80]? with
      | none => none
      | some s =>
        if s = 0 then none
        else utf8_len_loop fuel ((c :: cs).drop s) (len + 1)

/-- The `utf8_len` of `util.c`; `none` is `abort()`. -/
def utf8_len (str : List Nat) : Option Nat := utf8_len_loop str.length str 0

/-- The conversion loop of `utf8toutf32`, on the bytes from `str` to
`str_end`. `none` is `abort()`, or a read of a continuation byte outside of
the `str_size` bytes of the input. -/
def utf8toutf32_loop : Nat → List Nat → Option (List Nat)
  | 0, _ => some []
  | _ + 1, [] => some []
  | fuel + 1, c :: cs =>
    if c < 0x80 then (utf8toutf32_loop fuel cs).map (fun rest => c :: rest)
    else
      match utf8_skip_table[c - 0x80]? with
      | none => none
      | some s =>
        if s = 0 then none
        else if cs.length < s - 1 then none
        else
          let u := (cs.take (s - 1)).foldl (fun u b => (u <<< 6) ||| (b &&& 0x3f))
            (c &&& ((1 <<< (7 - s)) - 1))
          (utf8toutf32_loop fuel (cs.drop (s - 1))).map (fun rest => u :: rest)

/-- The `utf8toutf32` of `util.c`: the return value, `*ustr` and `*ustr_len`. -/
def utf8toutf32 (str : List Nat) : Option (Int × List Nat × Nat) :=
  match utf8_len str with
  | none => none
  | some ulen =>
    match utf8toutf32_loop str.length str with
    | none => none
    | some ustr => some (0, ustr, ulen)

/-- A byte that cannot start a character: `0x80`-`0xBF`, `0xFE` or `0xFF`. -/
def malformed_lead (c : Nat) : Bool :=
  (decide (0x80 ≤ c) && decide (c ≤ 0xBF)) || c == 0xFE || c == 0xFF

/-- A complete character of the input of `utf8toutf32`: one byte below
`0x80`, or a lead byte that is not malformed followed by as many further
bytes as `utf8_skip_table` asks for. -/
def utf8_char (ch : List Nat) : Bool :=
  match ch with
  | [] => false
  | c :: tail =>
    if c < 0x80 then tail.isEmpty
    else !malformed_lead c && utf8_skip_table[c - 0x80]? == some (tail.length + 1)

/-! ## The buffer with its memory block (`util.c`) -/

/-- The number of bytes of the first allocation of `alloc_buffer`. -/
def BUFFER_INIT_MIN : Nat := 32

/-- The `buffer` of `util.h` together with the block it points into: `mem` is
the block `[head, tail)`, in which a byte that was never written is `none`,
`curr` is the offset `curr - head`, and `bit` is the field `bit`. -/
structure Mem.buffer where
  mem : List (Option Nat)
  curr : Nat
  bit : Nat
deriving DecidableEq

/-- The `alloc_buffer` of `util.c`, with its block of `BUFFER_INIT_MIN` bytes. -/
def Mem.alloc_buffer : Mem.buffer :=
  { mem := List.replicate BUFFER_INIT_MIN none, curr := 0, bit := 0 }

/-- The macro `BUFFER_SIZE` of `util.h`: `curr - head`. -/
def Mem.BUFFER_SIZE (b : Mem.buffer) : Nat := b.curr

/-- The `enlarge_buffer` of `util.c`: the block is reallocated with twice its
size and keeps its content (`realloc` is assumed to succeed). -/
def Mem.enlarge_buffer (buf : Mem.buffer) : Mem.buffer :=
  { buf with mem := buf.mem ++ List.replicate buf.mem.length none }

/-- The `append_buffer` of `util.c` on the block: the new buffer and the
returned `data_size`. `data` is `none` for `NULL`. The result is `none` when
`memcpy` would read past the end of `data` or write past `tail`. -/
def Mem.append_buffer (buf : Mem.buffer) (data : Option (List Nat)) (data_size : Nat) :
    Option (Mem.buffer × Nat) :=
  let buf := if buf.bit ≠ 0 then { buf with curr := buf.curr + 1, bit := 0 } else buf
  let buf := if buf.curr + data_size > buf.mem.length then Mem.enlarge_buffer buf else buf
  match data with
  | none => some (buf, data_size)
  | some d =>
    if data_size = 0 then some (buf, data_size)
    else if d.length < data_size ∨ buf.mem.length < buf.curr + data_size then none
    else
      some ({ buf with
              mem := buf.mem.take buf.curr ++ (d.take data_size).map some ++
                buf.mem.drop (buf.curr + data_size),
              curr := buf.curr + data_size }, data_size)

/-- The `append_buffer_bit` of `util.c` on the block. The result is `none`
when `*curr` lies outside the block or when `|=` reads a byte that was never
written. -/
def Mem.append_buffer_bit (buf : Mem.buffer) (bit : Int) : Option Mem.buffer :=
  let buf := if buf.curr ≥ buf.mem.length then Mem.enlarge_buffer buf else buf
  if buf.mem.length ≤ buf.curr then none
  else
    let mem := if buf.bit = 0 then buf.mem.set buf.curr (some 0) else buf.mem
    let stored : Option (List (Option Nat)) :=
      if bit ≠ 0 then
        match mem[buf.curr]? with
        | some (some c) => some (mem.set buf.curr (some (c ||| (1 <<< (7 - buf.bit)))))
        | _ => none
      else some mem
    match stored with
    | none => none
    | some mem =>
      if buf.bit + 1 = 8 then some { mem := mem, curr := buf.curr + 1, bit := 0 }
      else some { mem := mem, curr := buf.curr, bit := buf.bit + 1 }

/-- A sequence of `append_buffer_bit` calls. -/
def Mem.append_bits : Mem.buffer → List Int → Option Mem.buffer
  | buf, [] => some buf
  | buf, x :: xs =>
    match Mem.append_buffer_bit buf x with
    | none => none
    | some buf => Mem.append_bits buf xs

/-- The state of a buffer between two calls: the block has at least its first
size, `curr` is inside it or at `tail`, and while `bit` is not 0 the byte
under `curr` is inside the block, written, with its unused low bits 0. -/
def Mem.buffer_ok (buf : Mem.buffer) : Prop :=
  BUFFER_INIT_MIN ≤ buf.mem.length ∧ buf.curr ≤ buf.mem.length ∧ buf.bit < 8 ∧
  (buf.bit ≠ 0 → ∃ c, buf.mem[buf.curr]? = some (some c) ∧
    ∀ j, j < 8 - buf.bit → c.testBit j = false)

/-- The bits `done` were appended to a fresh buffer and are held by `buf`:
bit `i` is bit `7 - i % 8` of byte `i / 8`. -/
def Mem.holds_bits (buf : Mem.buffer) (done : List Int) : Prop :=
  buf.curr = done.length / 8 ∧ buf.bit = done.length % 8 ∧
  ∀ i (h : i < done.length), ∃ c, buf.mem[i / 8]? = some (some c) ∧
    c.testBit (7 - i % 8) = decide (done[i] ≠ 0)

/-- One call on a buffer: `append_buffer_bit(buf, x)` or
`append_buffer(buf, data, data_size)`. -/
inductive Mem.call where
  | bit (x : Int)
  | bytes (data : Option (List Nat)) (data_size : Nat)
deriving DecidableEq

/-- A sequence of calls on one buffer. -/
def Mem.run : Mem.buffer → List Mem.call → Option Mem.buffer
  | buf, [] => some buf
  | buf, Mem.call.bit x :: cs =>
    match Mem.append_buffer_bit buf x with
    | none => none
    | some buf => Mem.run buf cs
  | buf, Mem.call.bytes data data_size :: cs =>
    match Mem.append_buffer buf data data_size with
    | none => none
    | some r => Mem.run r.1 cs

/-- The number of bits between `head` and the write position after a sequence
of calls that starts at bit `w`: a bit call writes one bit, a byte call first
moves to the next byte boundary and then writes `data_size` whole bytes
(none when `data` is `NULL`). -/
def Mem.bits_written (w : Nat) : List Mem.call → Nat
  | [] => w
  | Mem.call.bit _ :: cs => Mem.bits_written (w + 1) cs
  | Mem.call.bytes data data_size :: cs =>
    Mem.bits_written (8 * ((w + 7) / 8) + (if data.isSome then 8 * data_size else 0)) cs

/-! ## Scoring (`search.c`) -/

/-- The loop of `calc_tf_idf`: `n_query_tokens` steps along the query tokens
and the cursors. `log2` stands for the function of `math.h`, the casts to
`double` are the casts from `Int`. `none` is the dereference of a `NULL`
token, cursor or `current`. -/
def calc_tf_idf_loop {Score : Type} [Add Score] [Mul Score] [Div Score] [IntCast Score]
    (log2 : Score → Score) (indexed_count : Int) :
    Nat → List inverted_index_value → List (List postings_list) → Score → Option Score
  | 0, _, _, score => some score
  | n + 1, qt :: qts, (current :: _) :: dcurs, score =>
    let idf := log2 ((indexed_count : Score) / (qt.docs_count : Score))
    calc_tf_idf_loop log2 indexed_count n qts dcurs
      (score + (current.positions_count : Score) * idf)
  | _ + 1, _, _, _ => none

/-- The `calc_tf_idf` of `search.c`. -/
def calc_tf_idf {Score : Type} [Zero Score] [Add Score] [Mul Score] [Div Score] [IntCast Score]
    (log2 : Score → Score) (query_tokens : List inverted_index_value)
    (doc_cursors : List (List postings_list)) (n_query_tokens : Nat) (indexed_count : Int) :
    Option Score :=
  calc_tf_idf_loop log2 indexed_count n_query_tokens query_tokens doc_cursors 0

/-- The summands of `calc_tf_idf`: for every query token the product of the
`positions_count` of its current posting and of its idf. -/
def tf_idf_terms {Score : Type} [Mul Score] [Div Score] [IntCast Score]
    (log2 : Score → Score) (indexed_count : Int) (query_tokens : List inverted_index_value)
    (currents : List postings_list) : List Score :=
  List.zipWith (fun qt current =>
    (current.positions_count : Score) * log2 ((indexed_count : Score) / (qt.docs_count : Score)))
    query_tokens currents

/-! ## Adding documents (`wiser.c`, `database.c`) -/

/-- The tables of the database that `add_document` reads and writes: the rows
`(title, body)` of `documents` (the id of a row is its index plus 1), the
rows of `tokens` without the column `postings`, and that column as a list of
`(id, postings)` (a token without entry has the empty blob it was inserted
with). SQLite is assumed to execute every statement. -/
structure database where
  documents : List (List Nat × List Nat)
  tokens : tokens_table
  postings : List (Int × List Nat)
deriving DecidableEq

/-- The statement `SELECT id FROM documents WHERE title = ?`. -/
def select_document : List Nat → List (List Nat × List Nat) → Int → Option Int
  | _, [], _ => none
  | title, (t, _) :: rows, id =>
    if t = title then some id else select_document title rows (id + 1)

/-- The `db_get_document_id` of `database.c`: 0 when no document has the title. -/
def db_get_document_id (db : database) (title : List Nat) : Int :=
  match select_document title db.documents 1 with
  | some id => id
  | none => 0

/-- The `db_add_document` of `database.c`: the body of the document with the
title is replaced, or the document is inserted. -/
def db_add_document (db : database) (title body : List Nat) : database :=
  let document_id := db_get_document_id db title
  if document_id ≠ 0 then
    { db with documents := db.documents.enum.map (fun r =>
        if (r.1 : Int) + 1 = document_id then (r.2.1, body) else r.2) }
  else { db with documents := db.documents ++ [(title, body)] }

/-- The `db_get_document_count` of `database.c`. -/
def db_get_document_count (db : database) : Int := db.documents.length

/-- What `sqlite3_step` answers to
`SELECT docs_count, postings FROM tokens WHERE id = ?`. -/
def select_postings (db : database) (token_id : Int) : get_postings_step :=
  if 1 ≤ token_id then
    match db.tokens[(token_id - 1).toNat]? with
    | some (_, docs_count) =>
      get_postings_step.row docs_count ((db.postings.lookup token_id).getD [])
    | none => get_postings_step.code SQLITE_DONE
  else get_postings_step.code SQLITE_DONE

/-- The `db_update_postings` of `database.c`:
`UPDATE tokens SET docs_count = ?, postings = ? WHERE id = ?`. -/
def db_update_postings (db : database) (token_id docs_count : Int) (postings : List Nat) :
    database :=
  if 1 ≤ token_id ∧ token_id ≤ db.tokens.length then
    { db with
      tokens := db.tokens.enum.map (fun r =>
        if (r.1 : Int) + 1 = token_id then (r.2.1, docs_count) else r.2),
      postings := (token_id, postings) :: db.postings.filter (fun r => r.1 ≠ token_id) }
  else db

/-- The fields of `wiser_env` of `wiser.h` that `add_document` uses, with the
database. The buffer `ii_buffer` is `[]` for `NULL`. -/
structure wiser_env where
  token_len : Nat
  compress : Int
  ii_buffer : inverted_index_hash
  ii_buffer_count : Int
  ii_buffer_update_threshold : Int
  indexed_count : Int
  db : database
deriving DecidableEq

/-- The loop `for (p = env->ii_buffer; p != NULL; p = p->hh.next)` of
`add_document`: `update_postings` for every entry of the buffer. `none` is
`abort()`, a failed assertion or a crash inside `update_postings`. -/
def flush_postings (compress : Int) : database → List inverted_index_value → Option database
  | db, [] => some db
  | db, p :: rest =>
    match update_postings compress (db_get_document_count db) (select_postings db p.token_id) p with
    | none => none
    | some (_, none) => flush_postings compress db rest
    | some (_, some (token_id, docs_count, postings)) =>
      flush_postings compress (db_update_postings db token_id docs_count postings) rest

/-- The `add_document` of `wiser.c`: the environment afterwards. `title` and
`body` are `none` for `NULL`. `none` is `abort()`, a failed assertion or a
crash. -/
def add_document (env : wiser_env) (title body : Option (List Nat)) : Option wiser_env :=
  let added : Option wiser_env :=
    match title, body with
    | some title, some body =>
      let db := db_add_document env.db title body
      let document_id := db_get_document_id db title
      match utf8toutf32 body with
      | none => none
      | some (ret, body32, _) =>
        if ret = 0 then
          match text_to_postings_lists db.tokens document_id body32 env.token_len
              env.ii_buffer with
          | none => none
          | some (tokens, ii_buffer) =>
            some { env with
              db := { db with tokens := tokens },
              ii_buffer := ii_buffer,
              ii_buffer_count := env.ii_buffer_count + 1,
              indexed_count := env.indexed_count + 1 }
        else some { env with db := db, indexed_count := env.indexed_count + 1 }
    | _, _ => some env
  match added with
  | none => none
  | some env =>
    if env.ii_buffer ≠ [] ∧
        (env.ii_buffer_count > env.ii_buffer_update_threshold ∨ title = none) then
      match flush_postings env.compress env.db env.ii_buffer with
      | none => none
      | some db => some { env with db := db, ii_buffer := [], ii_buffer_count := 0 }
    else some env

/-- A sequence of `add_document` calls. -/
def add_documents : wiser_env → List (Option (List Nat) × Option (List Nat)) → Option wiser_env
  | env, [] => some env
  | env, (title, body) :: rest =>
    match add_document env title body with
    | none => none
    | some env => add_documents env rest

/-! ## The points of the search loop at which a document is scored -/

/-- The arrays of cursors with which the loop of `search_docs` reaches its
`else` branch, in order: the arguments `cursors` of the calls of
`search_phrase` and of `calc_tf_idf` (while `search_phrase` returns). -/
def scoring_points : Nat → List (List postings_list) → List (List (List postings_list))
  | 0, _ => []
  | _ + 1, [] => []
  | fuel + 1, c0 :: others =>
    match c0 with
    | [] => []
    | p0 :: rest0 =>
      match advance_cursors p0.document_id others with
      | none => []
      | some (next_doc_id, others) =>
        if next_doc_id > 0 then
          scoring_points fuel
            ((p0 :: rest0).dropWhile (fun p => decide (p.document_id < next_doc_id)) :: others)
        else ((p0 :: rest0) :: others) :: scoring_points fuel (rest0 :: others)

/-- The `else` branch of the loop of `search_docs` at every scoring point in
turn: the phrase check and, when it does not return 0, `add_search_result`
for the document of the first cursor with the score of `score_fn`. -/
def score_points {Score : Type} [Zero Score] [Add Score] (enable_phrase_search : Int)
    (score_fn : List inverted_index_value → List (List postings_list) → Score)
    (tokens : List inverted_index_value) :
    List (List (List postings_list)) → List (search_results Score) →
      Option (List (search_results Score))
  | [], results => some results
  | cursors :: points, results =>
    match (if enable_phrase_search ≠ 0 then search_phrase tokens cursors else some (-1)) with
    | none => none
    | some phrase_count =>
      score_points enable_phrase_search score_fn tokens points
        (if phrase_count ≠ 0 then
          add_search_result results
            (match cursors with
             | (p0 :: _) :: _ => p0.document_id
             | _ => 0)
            (score_fn tokens cursors)
         else results)

/-! ## The exact count of `search_phrase` -/

/-- The positions left in the first cursor whose relative position is a
relative position of every other cursor: the matches that the loop of
`search_phrase` still has to count. -/
def phrase_matches (c0 : phrase_search_cursor) (others : List phrase_search_cursor) : List Int :=
  c0.current.filter (fun p => decide (∀ c ∈ others, p - c0.base + c.base ∈ c.current))

/-- Spec side of the phrase count: `r` is a document-relative offset of the
phrase when, for every query token and every offset `q` of the token in the
query, `r + q` is a position of the token in the document (the posting the
token's cursor points at). -/
def document_relative_offset (query_tokens : List inverted_index_value)
    (doc_cursors : List (List postings_list)) (r : Int) : Prop :=
  ∀ x ∈ query_tokens.zip doc_cursors, ∀ qpl ∈ x.1.postings_list.head?, ∀ dpl ∈ x.2.head?,
    ∀ q ∈ qpl.positions, r + q ∈ dpl.positions

/-- One cursor before and after the `for` loop of `search_phrase` at the
relative position `rel`: same base, a suffix of the positions, no position at
`rel` or later lost. -/
def cursor_kept (rel : Int) (c c2 : phrase_search_cursor) : Prop :=
  c2.base = c.base ∧ c2.current <:+ c.current ∧
    ∀ p ∈ c.current, rel ≤ p - c.base → p ∈ c2.current

/-! ## What a flush leaves in the store -/

/-- What the store answers for a token after `update_postings` has handled its
entry: the row with the `docs_count` and the blob passed to
`db_update_postings` when the token has a row, the answer `before` otherwise
and when nothing was passed. -/
def answer_after_update (db : database) (before : get_postings_step) :
    Option (Int × Int × List Nat) → get_postings_step
  | some (token_id, docs_count, postings) =>
    if 1 ≤ token_id ∧ token_id ≤ (db.tokens.length : Int) then
      get_postings_step.row docs_count postings
    else before
  | none => before

/-- Spec side of a flush: the store `db2` after the buffer `buf` was flushed
into the store `db`. The documents are untouched; for every entry of the
buffer `update_postings` has returned on what the store `db` held for its
token, and the row of the token in `db2` holds the `docs_count` and the blob
that it passed to `db_update_postings` (when it passed none, or the token has
no row, the answer of the store is unchanged); the tokens outside of the
buffer are untouched. -/
def buffer_flushed (compress : Int) (db db2 : database) (buf : List inverted_index_value) :
    Prop :=
  db2.documents = db.documents ∧
  (∀ p ∈ buf, ∃ p2 r,
    update_postings compress (db_get_document_count db) (select_postings db p.token_id) p =
      some (p2, r) ∧
    select_postings db2 p.token_id =
      answer_after_update db (select_postings db p.token_id) r) ∧
  ∀ k, k ∉ buf.map (fun p => p.token_id) → select_postings db2 k = select_postings db k

/-! ## Bits: writer and reader -/

theorem land_two_pow_ne_zero (c i : Nat) : (c &&& 2 ^ i ≠ 0) ↔ c.testBit i = true := by
  constructor
  · intro h
    obtain ⟨j, hj⟩ := Nat.ne_zero_implies_bit_true h
    rw [Nat.testBit_and, Nat.testBit_two_pow] at hj
    simp only [Bool.and_eq_true, decide_eq_true_eq] at hj
    rw [hj.2]; exact hj.1
  · intro h h0
    have : (c &&& 2 ^ i).testBit i = true := by
      rw [Nat.testBit_and, Nat.testBit_two_pow]; simp [h]
    rw [h0] at this
    simp at this

theorem mask_eq (k : Nat) (hk : k < 8) : 0x80 >>> k = 2 ^ (7 - k) := by
  interval_cases k <;> rfl

theorem read_bit_cur_at (mem : List Nat) (i c : Nat) (h : mem[i / 8]? = some c) :
    read_bit mem (cur_at i) = ((if c.testBit (7 - i % 8) = true then 1 else 0), cur_at (i + 1)) := by
  have hk : i % 8 < 8 := Nat.mod_lt _ (by decide)
  unfold read_bit cur_at
  simp only [h]
  rw [mask_eq _ hk]
  have hm : (c &&& 2 ^ (7 - i % 8) ≠ 0) ↔ c.testBit (7 - i % 8) = true := land_two_pow_ne_zero _ _
  simp only [hm]
  by_cases h7 : i % 8 = 7
  · have h1 : (i + 1) / 8 = i / 8 + 1 := by omega
    have h2 : (i + 1) % 8 = 0 := by omega
    rw [h1, h2, h7]
    simp
  · have h1 : (i + 1) / 8 = i / 8 := by omega
    have h2 : (i + 1) % 8 = i % 8 + 1 := by omega
    rw [h1, h2]
    have h3 : 2 ^ (7 - i % 8) >>> 1 = 0x80 >>> (i % 8 + 1) := by
      generalize i % 8 = k at hk h7
      interval_cases k <;> first | rfl | omega
    rw [h3]
    have h4 : 0x80 >>> (i % 8 + 1) ≠ 0 := by
      generalize i % 8 = k at hk h7
      interval_cases k <;> first | decide | omega
    simp [h4]

theorem read_bit_end (mem : List Nat) (cur : bit_cursor) (h : mem.length ≤ cur.pos) :
    read_bit mem cur = (-1, cur) := by
  unfold read_bit
  rw [List.getElem?_eq_none h]

theorem getElem?_append_length (l r : List Nat) (a : Nat) : (l ++ a :: r)[l.length]? = some a := by
  rw [List.getElem?_append_right (le_refl _)]; simp

theorem append_buffer_bit_eq (buf : buffer) (x : Nat) :
    append_buffer_bit buf x =
      if buf.bit + 1 = 8 then { bytes := buf.bytes ++ [next_byte buf x], curr_byte := 0, bit := 0 }
      else { bytes := buf.bytes, curr_byte := next_byte buf x, bit := buf.bit + 1 } := by
  unfold append_buffer_bit next_byte
  by_cases hx : x ≠ 0 <;> simp [hx]

theorem next_byte_testBit (buf : buffer) (x j : Nat) (h : buffer_wf buf) (hj : j < 8) :
    (next_byte buf x).testBit j =
      if j = 7 - buf.bit then decide (x ≠ 0)
      else if 8 - buf.bit ≤ j then buf.curr_byte.testBit j else false := by
  obtain ⟨hb, hz⟩ := h
  have hc0 : ∀ i, i < 8 → (if buf.bit = 0 then 0 else buf.curr_byte).testBit i =
      if 8 - buf.bit ≤ i then buf.curr_byte.testBit i else false := by
    intro i hi
    by_cases h0 : buf.bit = 0
    · have : ¬ (8 ≤ i) := by omega
      simp [h0, this]
    · rw [if_neg h0]
      by_cases hle : 8 - buf.bit ≤ i
      · rw [if_pos hle]
      · rw [if_neg hle]; exact hz h0 i (by omega)
  unfold next_byte
  by_cases hx : x ≠ 0
  · rw [if_pos hx, Nat.one_shiftLeft, Nat.testBit_or, Nat.testBit_two_pow, hc0 j hj]
    by_cases hj7 : j = 7 - buf.bit
    · have : ¬ (8 - buf.bit ≤ j) := by omega
      simp [hj7, hx]
    · have h7 : ¬ (7 - buf.bit = j) := fun h => hj7 h.symm
      simp [hj7, h7]
  · rw [if_neg hx, hc0 j hj]
    by_cases hj7 : j = 7 - buf.bit
    · have : ¬ (8 - buf.bit ≤ j) := by omega
      rw [if_pos hj7, if_neg this]
      simp only [ne_eq, Decidable.not_not] at hx
      simp [hx]
    · rw [if_neg hj7]

theorem append_buffer_bit_wf (buf : buffer) (x : Nat) (h : buffer_wf buf) :
    buffer_wf (append_buffer_bit buf x) := by
  have hb := h.1
  rw [append_buffer_bit_eq]
  by_cases h7 : buf.bit + 1 = 8
  · simp [h7, buffer_wf]
  · simp only [h7, if_false, buffer_wf]
    refine ⟨by omega, fun _ j hj => ?_⟩
    rw [next_byte_testBit buf x j h (by omega)]
    have h1 : ¬ (j = 7 - buf.bit) := by omega
    have h2 : ¬ (8 - buf.bit ≤ j) := by omega
    simp [h1, h2]

theorem widx_append_buffer_bit (buf : buffer) (x : Nat) :
    widx (append_buffer_bit buf x) = widx buf + 1 := by
  rw [append_buffer_bit_eq]
  by_cases h7 : buf.bit + 1 = 8
  · simp only [h7, if_true, widx, List.length_append, List.length_singleton]; omega
  · simp only [h7, if_false, widx]; omega

theorem append_buffer_bit_extends (buf : buffer) (x : Nat) (mem : List Nat)
    (h : buffer_wf buf) (he : Extends (append_buffer_bit buf x) mem) :
    Extends buf mem ∧
      read_bit mem (cur_at (widx buf)) = ((if x ≠ 0 then 1 else 0), cur_at (widx buf + 1)) := by
  have hb := h.1
  have hdiv : widx buf / 8 = buf.bytes.length := by unfold widx; omega
  have hmod : widx buf % 8 = buf.bit := by unfold widx; omega
  rw [append_buffer_bit_eq] at he
  -- the byte of `mem` that holds the new bit
  have key : ∃ c, mem[buf.bytes.length]? = some c ∧ (∃ rest, mem = buf.bytes ++ rest) ∧
      ∀ j, 7 - buf.bit ≤ j → j < 8 → c.testBit j = (next_byte buf x).testBit j := by
    by_cases h7 : buf.bit + 1 = 8
    · simp only [h7, if_true] at he
      obtain ⟨⟨rest, hrest⟩, -⟩ := he
      refine ⟨next_byte buf x, ?_, ⟨next_byte buf x :: rest, by simp [hrest]⟩, fun _ _ _ => rfl⟩
      rw [hrest]; simpa using getElem?_append_length buf.bytes rest (next_byte buf x)
    · simp only [h7, if_false] at he
      obtain ⟨hp, hc⟩ := he
      obtain ⟨c, hc1, hc2⟩ := hc (by simp)
      exact ⟨c, hc1, hp, fun j hj1 hj2 => hc2 j (by simp only; omega) hj2⟩
  obtain ⟨c, hc1, hp, hc2⟩ := key
  constructor
  · refine ⟨hp, fun h0 => ⟨c, hc1, fun j hj1 hj2 => ?_⟩⟩
    rw [hc2 j (by omega) hj2, next_byte_testBit buf x j h hj2]
    have h1 : ¬ (j = 7 - buf.bit) := by omega
    simp [h1, hj1]
  · rw [read_bit_cur_at mem (widx buf) c (by rw [hdiv]; exact hc1), hmod,
      hc2 (7 - buf.bit) (by omega) (by omega), next_byte_testBit buf x _ h (by omega)]
    simp

/-! ## Bit lists -/

theorem append_buffer_bit_congr (buf : buffer) (x : Nat) :
    append_buffer_bit buf x = append_buffer_bit buf (if x ≠ 0 then 1 else 0) := by
  by_cases hx : x ≠ 0
  · rw [if_pos hx]
    unfold append_buffer_bit
    simp [hx]
  · rw [if_neg hx]
    simp only [ne_eq, Decidable.not_not] at hx
    rw [hx]

theorem write_bits_append (buf : buffer) (xs ys : List Bool) :
    write_bits buf (xs ++ ys) = write_bits (write_bits buf xs) ys := by
  induction xs generalizing buf with
  | nil => rfl
  | cons x xs ih => simp only [List.cons_append, write_bits]; exact ih _

theorem write_bits_wf (buf : buffer) (bs : List Bool) (h : buffer_wf buf) :
    buffer_wf (write_bits buf bs) := by
  induction bs generalizing buf with
  | nil => exact h
  | cons x xs ih => exact ih _ (append_buffer_bit_wf buf _ h)

theorem widx_write_bits (buf : buffer) (bs : List Bool) :
    widx (write_bits buf bs) = widx buf + bs.length := by
  induction bs generalizing buf with
  | nil => rfl
  | cons x xs ih =>
    simp only [write_bits, List.length_cons]
    rw [ih, widx_append_buffer_bit]; omega

theorem write_bits_extends (buf : buffer) (bs : List Bool) (mem : List Nat)
    (h : buffer_wf buf) (he : Extends (write_bits buf bs) mem) :
    Extends buf mem ∧ Reads mem (widx buf) bs := by
  induction bs generalizing buf with
  | nil => exact ⟨he, trivial⟩
  | cons x xs ih =>
    simp only [write_bits] at he
    obtain ⟨h1, h2⟩ := ih _ (append_buffer_bit_wf buf _ h) he
    obtain ⟨h3, h4⟩ := append_buffer_bit_extends buf _ mem h h1
    refine ⟨h3, ?_, ?_⟩
    · rw [h4]; cases x <;> simp
    · rw [widx_append_buffer_bit] at h2; exact h2

theorem Reads_append (mem : List Nat) (i : Nat) (xs ys : List Bool) :
    Reads mem i (xs ++ ys) ↔ Reads mem i xs ∧ Reads mem (i + xs.length) ys := by
  induction xs generalizing i with
  | nil => simp [Reads]
  | cons x xs ih =>
    have : i + 1 + xs.length = i + (xs.length + 1) := by omega
    show (_ ∧ Reads mem (i + 1) (xs ++ ys)) ↔
      (_ ∧ Reads mem (i + 1) xs) ∧ Reads mem (i + (xs.length + 1)) ys
    rw [ih, this, and_assoc]

theorem Reads_bound (mem : List Nat) (i : Nat) (bs : List Bool) (h : Reads mem i bs) :
    bs = [] ∨ i + bs.length ≤ 8 * mem.length := by
  induction bs generalizing i with
  | nil => exact Or.inl rfl
  | cons x xs ih =>
    right
    obtain ⟨h1, h2⟩ := h
    rcases ih _ h2 with h3 | h3
    · subst h3
      by_contra hlt
      simp only [List.length_singleton] at hlt
      have hlen : mem.length ≤ (cur_at i).pos := by simp only [cur_at]; omega
      rw [read_bit_end mem _ hlen] at h1
      cases x <;> simp at h1
    · simp only [List.length_cons]; omega

theorem append_unary_eq (buf : buffer) (q : Nat) :
    append_unary buf q = write_bits buf (List.replicate q true) := by
  induction q generalizing buf with
  | zero => rfl
  | succ q ih => simp only [append_unary, List.replicate_succ, write_bits, if_true]; exact ih _

theorem append_masked_bits_eq (r k : Nat) (buf : buffer) :
    append_masked_bits r k buf = write_bits buf (masked_bits r k) := by
  induction k generalizing buf with
  | zero => rfl
  | succ k ih =>
    simp only [append_masked_bits, masked_bits, write_bits]
    rw [ih, append_buffer_bit_congr, Nat.one_shiftLeft]
    have : (if r &&& 2 ^ k ≠ 0 then 1 else 0) = (if r.testBit k = true then 1 else 0) := by
      simp only [land_two_pow_ne_zero]
    rw [this]

theorem golomb_encoding_eq (m b t n : Nat) (buf : buffer) :
    golomb_encoding m b t n buf = write_bits buf (golomb_bits m b t n) := by
  unfold golomb_encoding golomb_bits
  simp only [append_unary_eq, append_masked_bits_eq, write_bits_append]
  by_cases hm : m > 1
  · simp only [hm, if_true]
    by_cases hr : n % m < t
    · simp only [hr, if_true]; rfl
    · simp only [hr, if_false]; rfl
  · simp only [hm, if_false]; rfl

theorem masked_bits_length (r k : Nat) : (masked_bits r k).length = k := by
  induction k with
  | zero => rfl
  | succ k ih => simp [masked_bits, ih]

/-! ## Golomb parameters -/

theorem calc_golomb_params_loop_spec (m : Nat) :
    ∀ fuel b l, l = 2 ^ b → m ≤ l + fuel → (b = 0 ∨ 2 ^ (b - 1) < m) →
      (calc_golomb_params_loop m fuel b l).2 = 2 ^ (calc_golomb_params_loop m fuel b l).1 ∧
      m ≤ (calc_golomb_params_loop m fuel b l).2 ∧
      ((calc_golomb_params_loop m fuel b l).1 = 0 ∨
        2 ^ ((calc_golomb_params_loop m fuel b l).1 - 1) < m) := by
  intro fuel
  induction fuel with
  | zero => intro b l hl hm hb; exact ⟨hl, by simpa using hm, hb⟩
  | succ fuel ih =>
    intro b l hl hm hb
    unfold calc_golomb_params_loop
    by_cases hml : m > l
    · rw [if_pos hml]
      have hpos : 0 < l := by rw [hl]; exact Nat.pow_pos (by decide)
      apply ih
      · rw [Nat.shiftLeft_eq, hl, pow_one, pow_succ]
      · rw [Nat.shiftLeft_eq]; omega
      · right; simpa [hl] using hml
    · rw [if_neg hml]
      exact ⟨hl, by omega, hb⟩

theorem calc_golomb_params_spec (m : Int) (b t : Nat) (h : calc_golomb_params m = some (b, t)) :
    0 < m ∧ 2 ^ b = m.toNat + t ∧ (b = 0 ∨ 2 ^ (b - 1) < m.toNat) := by
  unfold calc_golomb_params at h
  by_cases hm : m > 0
  · rw [if_pos hm] at h
    simp only [Option.some.injEq, Prod.mk.injEq] at h
    obtain ⟨h1, h2, h3⟩ := calc_golomb_params_loop_spec m.toNat m.toNat 0 1 rfl (by omega) (Or.inl rfl)
    rw [h.1] at h1 h3
    refine ⟨hm, ?_, h3⟩
    rw [← h.2, ← h1]; omega
  · rw [if_neg hm] at h; exact absurd h (by simp)

theorem shl_or_bit (r : Nat) (x : Bool) :
    (r <<< 1) ||| (if x then (1 : Int) else 0).toNat = 2 * r + (if x then 1 else 0) := by
  cases x
  · simp [Nat.shiftLeft_eq]; omega
  · have := Nat.mul_add_lt_is_or (i := 1) (b := 1) (by decide) r
    simp only [pow_one] at this
    simp only [if_true, Int.toNat_one, Nat.shiftLeft_eq, pow_one]
    rw [Nat.mul_comm r 2, ← this]

theorem golomb_decoding_unary_spec (m : Nat) (mem : List Nat) (q : Nat) :
    ∀ fuel n i, q < fuel → Reads mem i (List.replicate q true ++ [false]) →
      golomb_decoding_unary m mem fuel n (cur_at i) = (n + q * m, cur_at (i + q + 1)) := by
  induction q with
  | zero =>
    intro fuel n i hf hr
    obtain ⟨fuel, rfl⟩ : ∃ f, fuel = f + 1 := ⟨fuel - 1, by omega⟩
    simp only [List.replicate_zero, List.nil_append, Reads] at hr
    simp [golomb_decoding_unary, hr.1]
  | succ q ih =>
    intro fuel n i hf hr
    obtain ⟨fuel, rfl⟩ : ∃ f, fuel = f + 1 := ⟨fuel - 1, by omega⟩
    simp only [List.replicate_succ, List.cons_append, Reads] at hr
    simp only [golomb_decoding_unary, hr.1, if_true]
    rw [ih fuel (n + m) (i + 1) (by omega) hr.2]
    congr 1
    · rw [Nat.succ_mul]; omega
    · congr 1; omega

theorem golomb_decoding_bits_spec (mem : List Nat) (bs : List Bool) :
    ∀ r i, Reads mem i bs →
      golomb_decoding_bits mem bs.length r (cur_at i) = (bits_value r bs, cur_at (i + bs.length)) := by
  induction bs with
  | nil => intro r i _; rfl
  | cons x xs ih =>
    intro r i hr
    obtain ⟨h1, h2⟩ := hr
    simp only [List.length_cons, golomb_decoding_bits, h1]
    have hne : ¬ ((if x = true then (1 : Int) else 0) = -1) := by cases x <;> simp
    rw [if_neg hne, shl_or_bit, ih _ _ h2]
    simp only [bits_value]
    congr 2; omega

theorem bits_value_masked_bits (v k : Nat) : ∀ r, bits_value r (masked_bits v k) = r * 2 ^ k + v % 2 ^ k := by
  induction k with
  | zero => intro r; simp [masked_bits, bits_value, Nat.mod_one]
  | succ k ih =>
    intro r
    simp only [masked_bits, bits_value]
    rw [ih, Nat.mod_pow_succ, Nat.testBit_to_div_mod]
    have h2 : v / 2 ^ k % 2 = 0 ∨ v / 2 ^ k % 2 = 1 := by omega
    rcases h2 with h2 | h2 <;> simp [h2, pow_succ] <;> ring

theorem masked_bits_succ_last (v k : Nat) :
    masked_bits v (k + 1) = masked_bits (v / 2) k ++ [v.testBit 0] := by
  induction k with
  | zero => rfl
  | succ k ih =>
    rw [masked_bits, ih, masked_bits, Nat.testBit_succ]
    rfl

theorem golomb_decoding_spec (m b t n : Nat) (mem : List Nat) (i : Nat)
    (hm : 0 < m) (hb : 2 ^ b = m + t) (hb2 : b = 0 ∨ 2 ^ (b - 1) < m)
    (hr : Reads mem i (golomb_bits m b t n)) :
    golomb_decoding m b t mem (cur_at i) = (n, cur_at (i + (golomb_bits m b t n).length)) := by
  unfold golomb_bits at hr ⊢
  rw [Reads_append] at hr
  obtain ⟨hu, hrest⟩ := hr
  have hbound := Reads_bound mem i _ hu
  simp only [List.append_eq_nil, List.cons_ne_self, and_false, false_or, List.length_append,
    List.length_replicate, List.length_singleton, reduceCtorEq] at hbound hrest
  have hfuel : n / m < 8 * (mem.length - (cur_at i).pos) + 1 := by
    simp only [cur_at]; omega
  have hun := golomb_decoding_unary_spec m mem (n / m) _ 0 i hfuel hu
  have hn : n = n / m * m + n % m := by
    have := Nat.div_add_mod n m
    rw [Nat.mul_comm] at this; omega
  have e : i + n / m + 1 = i + (n / m + 1) := by omega
  rw [e] at hun
  unfold golomb_decoding
  rw [hun]
  simp only [Nat.zero_add, List.length_append, List.length_replicate, List.length_singleton]
  by_cases hm1 : m > 1
  · simp only [hm1, if_true] at hrest ⊢
    have hb0 : b ≠ 0 := by
      intro h0; rw [h0] at hb; simp at hb; omega
    have hpow : 2 ^ b = 2 * 2 ^ (b - 1) := by
      obtain ⟨k, rfl⟩ : ∃ k, b = k + 1 := ⟨b - 1, by omega⟩
      rw [pow_succ]; simp; ring
    have hlt : 2 ^ (b - 1) < m := by rcases hb2 with h | h; exact absurd h hb0; exact h
    have hrm : n % m < m := Nat.mod_lt _ hm
    by_cases hrt : n % m < t
    · simp only [hrt, if_true] at hrest ⊢
      have := golomb_decoding_bits_spec mem _ 0 _ hrest
      rw [masked_bits_length] at this
      rw [this, bits_value_masked_bits, masked_bits_length]
      have hsmall : n % m % 2 ^ (b - 1) = n % m := Nat.mod_eq_of_lt (by omega)
      simp only [Nat.zero_mul, Nat.zero_add, hsmall]
      have : ¬ (n % m ≥ t) := by omega
      rw [if_neg this]
      congr 1
      · omega
      · congr 1; omega
    · simp only [hrt, if_false] at hrest ⊢
      obtain ⟨k, hk⟩ : ∃ k, b = k + 1 := ⟨b - 1, by omega⟩
      rw [hk, masked_bits_succ_last, Reads_append] at hrest
      obtain ⟨hfirst, hlast⟩ := hrest
      have := golomb_decoding_bits_spec mem _ 0 _ hfirst
      rw [masked_bits_length] at this
      have hk1 : b - 1 = k := by omega
      rw [hk1, this, bits_value_masked_bits]
      rw [hk1] at hpow
      have hsmall : (n % m + t) / 2 % 2 ^ k = (n % m + t) / 2 := Nat.mod_eq_of_lt (by omega)
      simp only [Nat.zero_mul, Nat.zero_add, hsmall]
      have hge : (n % m + t) / 2 ≥ t := by omega
      rw [if_pos hge]
      simp only [masked_bits_length, Reads] at hlast
      rw [hlast.1, hk, masked_bits_length]
      have hcur : i + (n / m + 1) + k + 1 = i + (n / m + 1 + (k + 1)) := by omega
      rw [hcur]
      cases hx : (n % m + t).testBit 0
      · have h2 : (n % m + t) % 2 = 0 := by
          rw [Nat.testBit_zero] at hx
          have := of_decide_eq_false hx
          omega
        have h3 : ((n % m + t) / 2) <<< 1 ||| 0 = n % m + t := by
          rw [Nat.or_zero, Nat.shiftLeft_eq]; omega
        simp only [Bool.false_eq_true, if_false, Int.toNat_zero, h3]
        simp only [show ¬ ((0 : Int) = -1) by decide, if_false]
        congr 1
        omega
      · have h2 : (n % m + t) % 2 = 1 := by
          rw [Nat.testBit_zero] at hx
          exact of_decide_eq_true hx
        have h3 : ((n % m + t) / 2) <<< 1 ||| 1 = n % m + t := by
          have := shl_or_bit ((n % m + t) / 2) true
          simp only [if_true, Int.toNat_one] at this
          rw [this]; omega
        simp only [if_true, Int.toNat_one, h3]
        simp only [show ¬ ((1 : Int) = -1) by decide, if_false]
        congr 1
        omega
  · simp only [hm1, if_false, List.length_nil]
    have hm' : m = 1 := by omega
    subst hm'
    congr 1
    · simp

theorem cur_at_widx (buf : buffer) (h : buf.bit < 8) :
    cur_at (widx buf) = { pos := BUFFER_SIZE buf, bit := 0x80 >>> buf.bit } := by
  have hdiv : widx buf / 8 = buf.bytes.length := by unfold widx; omega
  have hmod : widx buf % 8 = buf.bit := by unfold widx; omega
  simp only [cur_at, hdiv, hmod, BUFFER_SIZE]

theorem cur_at_byte (k : Nat) : cur_at (8 * k) = { pos := k, bit := 0x80 } := by
  have hdiv : 8 * k / 8 = k := by omega
  have hmod : 8 * k % 8 = 0 := by omega
  simp only [cur_at, hdiv, hmod]; rfl

theorem append_buffer_wf (buf : buffer) (data : List Nat) : buffer_wf (append_buffer buf data) := by
  simp [buffer_wf, append_buffer]

theorem append_buffer_bit_zero (buf : buffer) (data : List Nat) : (append_buffer buf data).bit = 0 := rfl

theorem append_buffer_length (buf : buffer) (data : List Nat) :
    (append_buffer buf data).bytes.length = aligned_len buf + data.length := by
  unfold append_buffer aligned_len
  by_cases h : buf.bit ≠ 0
  · simp [h]; omega
  · simp [h]

theorem widx_append_buffer (buf : buffer) (data : List Nat) :
    widx (append_buffer buf data) = 8 * (aligned_len buf + data.length) := by
  unfold widx
  rw [append_buffer_length, append_buffer_bit_zero]; rfl

theorem aligned_len_of_bit_zero (buf : buffer) (h : buf.bit = 0) : aligned_len buf = buf.bytes.length := by
  simp [aligned_len, h]

theorem append_buffer_extends (buf : buffer) (data : List Nat) (mem : List Nat)
    (he : Extends (append_buffer buf data) mem) :
    Extends buf mem ∧ ∃ rest, mem.drop (aligned_len buf) = data ++ rest := by
  obtain ⟨⟨rest, hrest⟩, -⟩ := he
  by_cases h : buf.bit ≠ 0
  · have hb : (append_buffer buf data).bytes = (buf.bytes ++ [buf.curr_byte]) ++ data := by
      unfold append_buffer; rw [if_pos h]
    rw [hb] at hrest
    have hlen : aligned_len buf = (buf.bytes ++ [buf.curr_byte]).length := by simp [aligned_len, h]
    refine ⟨⟨⟨buf.curr_byte :: (data ++ rest), by simp [hrest]⟩,
      fun _ => ⟨buf.curr_byte, ?_, fun _ _ _ => rfl⟩⟩, ⟨rest, ?_⟩⟩
    · rw [hrest, List.append_assoc, List.append_assoc]
      exact getElem?_append_length buf.bytes (data ++ rest) buf.curr_byte
    · rw [hlen, hrest, List.append_assoc, List.drop_left]
  · have hb : (append_buffer buf data).bytes = buf.bytes ++ data := by
      unfold append_buffer; rw [if_neg h]
    rw [hb] at hrest
    have hlen : aligned_len buf = buf.bytes.length := by simp [aligned_len, h]
    refine ⟨⟨⟨data ++ rest, by simp [hrest]⟩, fun hb => absurd hb h⟩, ⟨rest, ?_⟩⟩
    rw [hlen, hrest, List.append_assoc, List.drop_left]

theorem align_cursor_cur_at (buf : buffer) (h : buf.bit < 8) :
    align_cursor (cur_at (widx buf)) = cur_at (8 * aligned_len buf) := by
  rw [cur_at_widx buf h, cur_at_byte]
  unfold align_cursor aligned_len BUFFER_SIZE
  by_cases h0 : buf.bit = 0
  · simp [h0]
  · have : 0x80 >>> buf.bit ≠ 0x80 := by
      generalize buf.bit = k at h h0
      interval_cases k <;> first | decide | omega
    simp [h0, this]

/-! ## 32-bit integers in memory -/

theorem bytes_to_int_to_bytes (x : Int) (h1 : -2147483648 ≤ x) (h2 : x < 2147483648) :
    ∀ rest, read_int (int_to_bytes x ++ rest) 0 = some x := by
  intro rest
  simp only [read_int, int_to_bytes, List.drop_zero, List.cons_append, List.nil_append,
    bytes_to_int, Option.some.injEq]
  generalize hu : (x % 4294967296).toNat = u
  have hu1 : (u : Int) = x % 4294967296 := by
    rw [← hu]; exact Int.toNat_of_nonneg (Int.emod_nonneg _ (by decide))
  have hu2 : u < 4294967296 := by
    have := Int.emod_lt_of_pos x (show (0 : Int) < 4294967296 by decide)
    omega
  have hsum : u % 256 + 256 * (u / 256 % 256) + 65536 * (u / 65536 % 256) +
      16777216 * (u / 16777216 % 256) = u := by omega
  rw [hsum]
  split <;> omega

theorem read_int_of_drop (mem : List Nat) (off : Nat) (x : Int) (rest : List Nat)
    (h1 : -2147483648 ≤ x) (h2 : x < 2147483648)
    (hd : mem.drop off = int_to_bytes x ++ rest) : read_int mem off = some x := by
  have := bytes_to_int_to_bytes x h1 h2 rest
  unfold read_int at this ⊢
  rw [hd]
  simpa using this

theorem int_to_bytes_length (x : Int) : (int_to_bytes x).length = 4 := rfl

/-- Writing an `int` on a byte boundary and reading it back. -/
theorem append_int_extends (buf : buffer) (x : Int) (mem : List Nat)
    (h1 : -2147483648 ≤ x) (h2 : x < 2147483648)
    (he : Extends (append_buffer buf (int_to_bytes x)) mem) :
    Extends buf mem ∧ read_int mem (aligned_len buf) = some x := by
  obtain ⟨h3, rest, h4⟩ := append_buffer_extends buf _ mem he
  exact ⟨h3, read_int_of_drop mem _ x rest h1 h2 h4⟩

theorem golomb_encoding_round_trip (m b t n : Nat) (buf : buffer) (mem : List Nat)
    (hm : 0 < m) (hb : 2 ^ b = m + t) (hb2 : b = 0 ∨ 2 ^ (b - 1) < m) (hwf : buffer_wf buf)
    (he : Extends (golomb_encoding m b t n buf) mem) :
    Extends buf mem ∧ buffer_wf (golomb_encoding m b t n buf) ∧
      golomb_decoding m b t mem (cur_at (widx buf)) =
        (n, cur_at (widx (golomb_encoding m b t n buf))) := by
  rw [golomb_encoding_eq] at he ⊢
  obtain ⟨h1, h2⟩ := write_bits_extends buf _ mem hwf he
  refine ⟨h1, write_bits_wf buf _ hwf, ?_⟩
  rw [widx_write_bits]
  exact golomb_decoding_spec m b t n mem _ hm hb hb2 h2

theorem encode_position_gaps_round_trip (mp bp tp : Nat) (mem : List Nat)
    (hm : 0 < mp) (hb : 2 ^ bp = mp + tp) (hb2 : bp = 0 ∨ 2 ^ (bp - 1) < mp) :
    ∀ (ps : List Int) (pre : Int) (buf buf2 : buffer), buffer_wf buf →
      encode_position_gaps mp bp tp ps pre buf = some buf2 → Extends buf2 mem →
      Extends buf mem ∧ buffer_wf buf2 ∧
        decode_position_gaps mp bp tp mem ps.length pre (cur_at (widx buf)) =
          (ps, cur_at (widx buf2)) := by
  intro ps
  induction ps with
  | nil =>
    intro pre buf buf2 hwf henc hext
    simp only [encode_position_gaps, Option.some.injEq] at henc
    subst henc
    exact ⟨hext, hwf, rfl⟩
  | cons p ps ih =>
    intro pre buf buf2 hwf henc hext
    simp only [encode_position_gaps] at henc
    by_cases hgap : p - pre - 1 < 0
    · rw [if_pos hgap] at henc; exact absurd henc (by simp)
    · rw [if_neg hgap] at henc
      obtain ⟨h1, h2, h3⟩ := golomb_encoding_round_trip mp bp tp (p - pre - 1).toNat buf mem hm hb hb2 hwf
        (ih p _ buf2 (by
          rw [golomb_encoding_eq]; exact write_bits_wf _ _ hwf) henc hext).1
      obtain ⟨-, h5, h6⟩ := ih p _ buf2 h2 henc hext
      refine ⟨h1, h5, ?_⟩
      have : pre + (((p - pre - 1).toNat : Int) + 1) = p := by
        rw [Int.toNat_of_nonneg (by omega)]; omega
      simp only [List.length_cons, decode_position_gaps, h3]
      rw [this, h6]

theorem encode_document_gaps_eq (m b t : Nat) :
    ∀ (ps : List postings_list) (pre : Int) (buf : buffer),
      encode_document_gaps m b t ps pre buf =
        encode_position_gaps m b t (ps.map (fun p => p.document_id)) pre buf := by
  intro ps
  induction ps with
  | nil => intro pre buf; rfl
  | cons p ps ih =>
    intro pre buf
    simp only [encode_document_gaps, List.map_cons, encode_position_gaps, ih]

theorem decode_document_gaps_eq (m b t : Nat) (mem : List Nat) :
    ∀ (n : Nat) (pre : Int) (cur : bit_cursor),
      decode_document_gaps m b t mem n pre cur =
        ((decode_position_gaps m b t mem n pre cur).1.map new_node,
          (decode_position_gaps m b t mem n pre cur).2) := by
  intro n
  induction n with
  | zero => intro pre cur; rfl
  | succ n ih =>
    intro pre cur
    simp only [decode_document_gaps, decode_position_gaps, ih, List.map_cons, new_node]
    rw [Int.add_assoc]

theorem encode_postings_positions_round_trip (mem : List Nat) :
    ∀ (ps : List postings_list) (buf buf2 : buffer), buf.bit = 0 →
      (∀ p ∈ ps, posting_fits p) →
      encode_postings_positions ps buf = some buf2 → Extends buf2 mem →
      Extends buf mem ∧ buf2.bit = 0 ∧
        decode_postings_positions mem (ps.map (fun p => new_node p.document_id))
          (cur_at (widx buf)) = some ps := by
  intro ps
  induction ps with
  | nil =>
    intro buf buf2 hbit _ henc hext
    simp only [encode_postings_positions, Option.some.injEq] at henc
    subst henc
    exact ⟨hext, hbit, rfl⟩
  | cons p ps ih =>
    intro buf buf2 hbit hfit henc hext
    obtain ⟨hne, hcount, hcr, hlast⟩ := hfit p (List.mem_cons_self _ _)
    have hpos : 0 < p.positions.length := List.length_pos.mpr hne
    have hc0 : p.positions_count ≠ 0 := by omega
    simp only [encode_postings_positions] at henc
    rw [if_pos hc0] at henc
    cases hl : p.positions.getLast? with
    | none => rw [hl] at henc; exact absurd henc (by simp)
    | some last =>
      rw [hl] at henc hlast
      obtain ⟨hl0, hl1⟩ := hlast last rfl
      simp only at henc
      cases hp : calc_golomb_params (Int.tdiv (last + 1) p.positions_count) with
      | none => rw [hp] at henc; exact absurd henc (by simp)
      | some bt =>
        obtain ⟨bp, tp⟩ := bt
        rw [hp] at henc
        simp only at henc
        obtain ⟨hmp, hb, hb2⟩ := calc_golomb_params_spec _ _ _ hp
        generalize hmpd : Int.tdiv (last + 1) p.positions_count = mp at henc hp hmp hb hb2
        have hmp_le : mp ≤ last + 1 := by
          rw [← hmpd, Int.tdiv_eq_ediv (by omega) (by omega)]
          exact Int.ediv_le_self _ (by omega)
        generalize hb1 : append_buffer buf (int_to_bytes p.positions_count) = buf1 at henc
        generalize hb2' : append_buffer buf1 (int_to_bytes mp) = buf2' at henc
        cases hg : encode_position_gaps mp.toNat bp tp p.positions (-1) buf2' with
        | none => rw [hg] at henc; exact absurd henc (by simp)
        | some buf3 =>
          rw [hg] at henc
          simp only at henc
          -- walk back from the end of the encoding
          obtain ⟨e4, hbit2, hdec⟩ := ih (append_buffer buf3 []) buf2 rfl
            (fun q hq => hfit q (List.mem_cons_of_mem _ hq)) henc hext
          obtain ⟨e3, -⟩ := append_buffer_extends buf3 [] mem e4
          have hwf2 : buffer_wf buf2' := by rw [← hb2']; exact append_buffer_wf _ _
          obtain ⟨e2, hwf3, hgaps⟩ := encode_position_gaps_round_trip mp.toNat bp tp mem
            (by omega) hb hb2 p.positions (-1) buf2' buf3 hwf2 hg e3
          rw [← hb2'] at e2
          obtain ⟨e1, hr2⟩ := append_int_extends buf1 mp mem (by omega) (by omega) e2
          rw [← hb1] at e1
          obtain ⟨e0, hr1⟩ := append_int_extends buf (p.positions_count) mem (by omega) (by omega) e1
          refine ⟨e0, hbit2, ?_⟩
          have hal : aligned_len buf = buf.bytes.length := aligned_len_of_bit_zero buf hbit
          have hal1 : aligned_len buf1 = buf.bytes.length + 4 := by
            rw [aligned_len_of_bit_zero buf1 (by rw [← hb1]; rfl), ← hb1, append_buffer_length,
              hal, int_to_bytes_length]
          rw [hal] at hr1
          rw [hal1] at hr2
          have hw : widx buf = 8 * buf.bytes.length := by simp [widx, hbit]
          have hw2 : widx buf2' = 8 * (buf.bytes.length + 8) := by
            rw [← hb2', widx_append_buffer, hal1, int_to_bytes_length]
          have hw4 : widx (append_buffer buf3 []) = 8 * aligned_len buf3 := by
            rw [widx_append_buffer]; simp
          rw [hw, cur_at_byte]
          simp only [List.map_cons, decode_postings_positions, new_node, hr1, hr2, hp]
          have hcn : p.positions_count.toNat = p.positions.length := by omega
          rw [hcn]
          have hcur : ({ pos := buf.bytes.length + 8, bit := 128 } : bit_cursor) = cur_at (widx buf2') := by
            rw [hw2, cur_at_byte]
          rw [hcur, hgaps]
          simp only
          rw [align_cursor_cur_at buf3 hwf3.1, ← hw4]
          simp only [new_node] at hdec
          rw [hdec]
          simp

theorem chain_of_pairwise (ps : List Int) (pre : Int) (h1 : ∀ x ∈ ps, pre < x)
    (h2 : ps.Pairwise (fun x y => x < y)) : List.Chain (fun x y => x < y) pre ps := by
  rw [List.chain_iff_pairwise]
  exact List.pairwise_cons.mpr ⟨h1, h2⟩

theorem chain_last_ge : ∀ (ps : List Int) (pre : Int), List.Chain (fun x y => x < y) pre ps →
    ∀ last ∈ ps.getLast?, pre + ps.length ≤ last := by
  intro ps
  induction ps with
  | nil => intro pre _ last hl; simp at hl
  | cons p ps ih =>
    intro pre hc last hl
    rw [List.chain_cons] at hc
    cases ps with
    | nil =>
      simp only [List.getLast?_singleton, Option.mem_def, Option.some.injEq] at hl
      subst hl
      simp only [List.length_singleton, Nat.cast_one]; omega
    | cons q qs =>
      rw [List.getLast?_cons_cons] at hl
      have := ih p hc.2 last hl
      simp only [List.length_cons, Nat.cast_add, Nat.cast_one] at this ⊢
      omega

theorem encode_position_gaps_some (mp bp tp : Nat) :
    ∀ (ps : List Int) (pre : Int) (buf : buffer), List.Chain (fun x y => x < y) pre ps →
      ∃ buf2, encode_position_gaps mp bp tp ps pre buf = some buf2 := by
  intro ps
  induction ps with
  | nil => intro pre buf _; exact ⟨buf, rfl⟩
  | cons p ps ih =>
    intro pre buf hc
    rw [List.chain_cons] at hc
    simp only [encode_position_gaps]
    rw [if_neg (by omega)]
    exact ih p _ hc.2

theorem calc_golomb_params_some (m : Int) (h : 0 < m) : ∃ b t, calc_golomb_params m = some (b, t) := by
  unfold calc_golomb_params
  rw [if_pos h]
  exact ⟨_, _, rfl⟩

theorem posting_wf_chain (p : postings_list) (h : posting_wf p) :
    List.Chain (fun x y => x < y) (-1) p.positions :=
  chain_of_pairwise _ _ (fun x hx => by have := h.2.1 x hx; omega) h.2.2.1

theorem posting_wf_param (p : postings_list) (h : posting_wf p) (last : Int)
    (hl : p.positions.getLast? = some last) :
    0 ≤ last ∧ p.positions_count ≤ last + 1 ∧ 0 < p.positions_count ∧
      0 < Int.tdiv (last + 1) p.positions_count ∧
      Int.tdiv (last + 1) p.positions_count ≤ last + 1 := by
  have h1 := chain_last_ge _ _ (posting_wf_chain p h) last hl
  have hpos : 0 < p.positions.length := List.length_pos.mpr h.1
  have hc := h.2.2.2
  have h0 : 0 ≤ last := h.2.1 last (List.mem_of_mem_getLast? hl)
  refine ⟨h0, by omega, by omega, ?_, ?_⟩
  · rw [Int.tdiv_eq_ediv (by omega) (by omega)]
    have := Int.le_ediv_of_mul_le (a := 1) (b := last + 1) (c := p.positions_count) (by omega) (by omega)
    omega
  · rw [Int.tdiv_eq_ediv (by omega) (by omega)]
    exact Int.ediv_le_self _ (by omega)

theorem encode_postings_positions_some : ∀ (ps : List postings_list) (buf : buffer),
    (∀ p ∈ ps, posting_wf p) → ∃ buf2, encode_postings_positions ps buf = some buf2 := by
  intro ps
  induction ps with
  | nil => intro buf _; exact ⟨buf, rfl⟩
  | cons p ps ih =>
    intro buf hwf
    have hp := hwf p (List.mem_cons_self _ _)
    obtain ⟨last, hl⟩ : ∃ last, p.positions.getLast? = some last := by
      cases hq : p.positions.getLast? with
      | none => rw [List.getLast?_eq_none_iff] at hq; exact absurd hq hp.1
      | some last => exact ⟨last, rfl⟩
    obtain ⟨-, -, hc, hm, -⟩ := posting_wf_param p hp last hl
    obtain ⟨bp, tp, hbt⟩ := calc_golomb_params_some _ hm
    simp only [encode_postings_positions]
    rw [if_pos (by omega), hl]
    simp only [hbt]
    obtain ⟨buf3, h3⟩ := encode_position_gaps_some (Int.tdiv (last + 1) p.positions_count).toNat bp tp
      p.positions (-1) (append_buffer (append_buffer buf (int_to_bytes p.positions_count))
        (int_to_bytes (Int.tdiv (last + 1) p.positions_count))) (posting_wf_chain p hp)
    rw [h3]
    exact ih _ (fun q hq => hwf q (List.mem_cons_of_mem _ hq))

theorem encode_postings_positions_bit : ∀ (ps : List postings_list) (buf buf2 : buffer),
    buf.bit = 0 → encode_postings_positions ps buf = some buf2 → buf2.bit = 0 := by
  intro ps
  induction ps with
  | nil =>
    intro buf buf2 hb h
    simp only [encode_postings_positions, Option.some.injEq] at h
    rw [← h]; exact hb
  | cons p ps ih =>
    intro buf buf2 hb h
    simp only [encode_postings_positions] at h
    split at h
    · split at h
      · exact absurd h (by simp)
      · split at h
        · exact absurd h (by simp)
        · split at h
          · exact absurd h (by simp)
          · exact ih _ _ rfl h
    · exact ih _ _ rfl h

theorem Extends_self (buf : buffer) (h : buf.bit = 0) : Extends buf buf.bytes :=
  ⟨⟨[], by simp⟩, fun hb => absurd h hb⟩

theorem posting_fits_of_wf (p : postings_list) (h : posting_wf p)
    (hr : ∀ x ∈ p.positions, x < 1073741824) : posting_fits p := by
  refine ⟨h.1, h.2.2.2, ?_, ?_⟩
  · obtain ⟨last, hl⟩ : ∃ last, p.positions.getLast? = some last := by
      cases hq : p.positions.getLast? with
      | none => rw [List.getLast?_eq_none_iff] at hq; exact absurd hq h.1
      | some last => exact ⟨last, rfl⟩
    have := posting_wf_param p h last hl
    have := hr last (List.mem_of_mem_getLast? hl)
    omega
  · intro x hx
    have := hr x (List.mem_of_mem_getLast? hx)
    have := h.2.1 x (List.mem_of_mem_getLast? hx)
    omega

theorem document_ids_chain (L : List postings_list) (h : postings_wf L) :
    List.Chain (fun x y => x < y) 0 (L.map (fun p => p.document_id)) := by
  apply chain_of_pairwise
  · intro x hx
    obtain ⟨p, hp, rfl⟩ := List.mem_map.mp hx
    have := (h.2.1 p hp).1
    omega
  · rw [List.pairwise_map]; exact h.2.2

/-- C1. Golomb posting-list round trip: for a well-formed posting list `L` and
`documents_count ≥ length L` (all values C ints in the range where the codec's
arithmetic is exact), `encode_postings_golomb` succeeds and
`decode_postings_golomb` on the bytes written returns 0, the list `L`, and
`postings_len = length L`. -/
theorem golomb_postings_round_trip (documents_count : Int) (L : List postings_list)
    (hwf : postings_wf L) (hcount : (L.length : Int) ≤ documents_count)
    (hdc : documents_count ≤ 1073741824) (hrange : postings_in_range L) :
    ∃ buf, encode_postings_golomb documents_count L (L.length : Int) alloc_buffer = some buf ∧
      decode_postings_golomb (BUFFER_PTR buf) = some (0, L, (L.length : Int)) := by
  have hne : L ≠ [] := hwf.1
  have hlen : 0 < L.length := List.length_pos.mpr hne
  have hm : 0 < Int.tdiv documents_count (L.length : Int) := by
    rw [Int.tdiv_eq_ediv (by omega) (by omega)]
    have := Int.le_ediv_of_mul_le (a := 1) (b := documents_count) (c := (L.length : Int))
      (by omega) (by omega)
    omega
  have hmle : Int.tdiv documents_count (L.length : Int) ≤ documents_count := by
    rw [Int.tdiv_eq_ediv (by omega) (by omega)]
    exact Int.ediv_le_self _ (by omega)
  obtain ⟨b, t, hbt⟩ := calc_golomb_params_some _ hm
  obtain ⟨hm0, hb, hb2⟩ := calc_golomb_params_spec _ _ _ hbt
  generalize hmd : Int.tdiv documents_count (L.length : Int) = m at hm hmle hbt hm0 hb hb2
  generalize hb0 : append_buffer alloc_buffer (int_to_bytes (L.length : Int)) = buf0
  generalize hb1 : append_buffer buf0 (int_to_bytes m) = buf1
  obtain ⟨buf2, h2⟩ := encode_position_gaps_some m.toNat b t (L.map (fun p => p.document_id)) 0 buf1
    (document_ids_chain L hwf)
  obtain ⟨buf3, h3⟩ := encode_postings_positions_some L (append_buffer buf2 [])
    (fun p hp => (hwf.2.1 p hp).2)
  have henc : encode_postings_golomb documents_count L (L.length : Int) alloc_buffer = some buf3 := by
    unfold encode_postings_golomb
    rw [if_pos ⟨hne, by omega⟩]
    simp only [hmd, hb0, hb1, hbt, encode_document_gaps_eq, h2, h3]
  refine ⟨buf3, henc, ?_⟩
  -- the memory is the encoded buffer; walk back from its end
  have hbit3 : buf3.bit = 0 := encode_postings_positions_bit L _ buf3 rfl h3
  have e3 : Extends buf3 buf3.bytes := Extends_self buf3 hbit3
  obtain ⟨e2a, -, hdec⟩ := encode_postings_positions_round_trip buf3.bytes L _ buf3 rfl
    (fun p hp => posting_fits_of_wf p (hwf.2.1 p hp).2 (hrange p hp).2) h3 e3
  obtain ⟨e2, -⟩ := append_buffer_extends buf2 [] _ e2a
  have hwf1 : buffer_wf buf1 := by rw [← hb1]; exact append_buffer_wf _ _
  obtain ⟨e1, hwf2, hgaps⟩ := encode_position_gaps_round_trip m.toNat b t buf3.bytes
    (by omega) hb hb2 _ 0 buf1 buf2 hwf1 h2 e2
  rw [← hb1] at e1
  obtain ⟨e0, hr1⟩ := append_int_extends buf0 m _ (by omega) (by omega) e1
  rw [← hb0] at e0
  obtain ⟨-, hr0⟩ := append_int_extends alloc_buffer (L.length : Int) _ (by omega) (by omega) e0
  have hal0 : aligned_len alloc_buffer = 0 := rfl
  have hal1 : aligned_len buf0 = 4 := by
    rw [aligned_len_of_bit_zero buf0 (by rw [← hb0]; rfl), ← hb0, append_buffer_length, hal0,
      int_to_bytes_length]
  rw [hal1] at hr1
  rw [hal0] at hr0
  have hw1 : widx buf1 = 8 * 8 := by
    rw [← hb1, widx_append_buffer, hal1, int_to_bytes_length]
  have hw2 : widx (append_buffer buf2 []) = 8 * aligned_len buf2 := by
    rw [widx_append_buffer]; simp
  unfold decode_postings_golomb BUFFER_PTR
  simp only [hr0, hr1, hbt, Int.toNat_ofNat, decode_document_gaps_eq]
  have hcur : ({ pos := 8, bit := 128 } : bit_cursor) = cur_at (widx buf1) := by
    rw [hw1, cur_at_byte]
  rw [List.length_map] at hgaps
  rw [hcur, hgaps]
  simp only [List.map_map, List.length_map]
  rw [align_cursor_cur_at buf2 hwf2.1, ← hw2]
  have hfun : (new_node ∘ fun p => p.document_id) = fun p : postings_list => new_node p.document_id := rfl
  rw [hfun, hdec]

/-- C3. Golomb-Rice single-value round trip: for `m ≥ 1` with `(b, t)` from
`calc_golomb_params m` and every `n`, in any memory that holds the buffer
after `golomb_encoding m b t n` (whatever follows it), `golomb_decoding m b t`
from the position where the encoding started returns `n` and leaves the
cursor right after the last bit written. -/
theorem golomb_single_round_trip (m b t n : Nat) (buf : buffer) (mem : List Nat)
    (hm : 1 ≤ m) (hparams : calc_golomb_params (m : Int) = some (b, t))
    (hwf : buffer_wf buf) (hmem : Extends (golomb_encoding m b t n buf) mem) :
    golomb_decoding m b t mem (cursor_of buf) = (n, cursor_of (golomb_encoding m b t n buf)) := by
  obtain ⟨-, hb, hb2⟩ := calc_golomb_params_spec _ _ _ hparams
  simp only [Int.toNat_ofNat] at hb hb2
  obtain ⟨-, hwf2, h⟩ := golomb_encoding_round_trip m b t n buf mem (by omega) hb hb2 hwf hmem
  rw [cur_at_widx buf hwf.1, cur_at_widx _ hwf2.1] at h
  exact h

theorem golomb_single_round_trip_witness :
    golomb_decoding 3 2 1 [215, 99] (cursor_of alloc_buffer) =
      (7, cursor_of (golomb_encoding 3 2 1 7 alloc_buffer)) :=
  golomb_single_round_trip 3 2 1 7 alloc_buffer [215, 99] (by decide) (by decide)
    ⟨by decide, fun h => absurd rfl h⟩
    ⟨⟨[215, 99], by decide⟩, fun _ => ⟨215, by decide, by
      have hb : golomb_encoding 3 2 1 7 alloc_buffer = { bytes := [], curr_byte := 208, bit := 5 } := by
        decide
      rw [hb]
      intro j h1 h2
      have h3 : 3 ≤ j := h1
      interval_cases j <;> decide⟩⟩

theorem golomb_postings_round_trip_witness :
    postings_wf [⟨1, [0, 5], 2⟩, ⟨4, [3], 1⟩, ⟨9, [1, 2, 3, 100], 4⟩] ∧
    ∃ buf, encode_postings_golomb 10 [⟨1, [0, 5], 2⟩, ⟨4, [3], 1⟩, ⟨9, [1, 2, 3, 100], 4⟩] 3
        alloc_buffer = some buf ∧
      decode_postings_golomb (BUFFER_PTR buf) =
        some (0, [⟨1, [0, 5], 2⟩, ⟨4, [3], 1⟩, ⟨9, [1, 2, 3, 100], 4⟩], 3) :=
  have hwf : postings_wf [⟨1, [0, 5], 2⟩, ⟨4, [3], 1⟩, ⟨9, [1, 2, 3, 100], 4⟩] := by
    unfold postings_wf posting_wf; decide
  ⟨hwf, golomb_postings_round_trip 10 [⟨1, [0, 5], 2⟩, ⟨4, [3], 1⟩, ⟨9, [1, 2, 3, 100], 4⟩]
    hwf (by decide) (by decide) (by unfold postings_in_range; decide)⟩

theorem append_buffer_aligned (buf : buffer) (data : List Nat) (h : buf.bit = 0) :
    append_buffer buf data = { bytes := buf.bytes ++ data, curr_byte := 0, bit := 0 } := by
  unfold append_buffer
  simp [h]

theorem encode_positions_none_eq (xs : List Int) : ∀ (buf : buffer), buf.bit = 0 →
    xs.foldl (fun buf pos => append_buffer buf (int_to_bytes pos)) buf =
      { bytes := buf.bytes ++ xs.flatMap int_to_bytes, curr_byte := buf.curr_byte, bit := 0 } ∨
    xs.foldl (fun buf pos => append_buffer buf (int_to_bytes pos)) buf =
      { bytes := buf.bytes ++ xs.flatMap int_to_bytes, curr_byte := 0, bit := 0 } := by
  induction xs with
  | nil =>
    intro buf h
    left
    cases buf
    simp at h ⊢
    exact h
  | cons x xs ih =>
    intro buf h
    right
    simp only [List.foldl_cons, List.flatMap_cons]
    rw [append_buffer_aligned buf _ h]
    rcases ih { bytes := buf.bytes ++ int_to_bytes x, curr_byte := 0, bit := 0 } rfl with h1 | h1 <;>
      rw [h1] <;> simp

theorem encode_positions_none_bytes (xs : List Int) (buf : buffer) (h : buf.bit = 0) :
    (xs.foldl (fun buf pos => append_buffer buf (int_to_bytes pos)) buf).bytes =
      buf.bytes ++ xs.flatMap int_to_bytes ∧
    (xs.foldl (fun buf pos => append_buffer buf (int_to_bytes pos)) buf).bit = 0 := by
  rcases encode_positions_none_eq xs buf h with h1 | h1 <;> rw [h1] <;> exact ⟨rfl, rfl⟩

theorem encode_postings_none_bytes (L : List postings_list) : ∀ (buf : buffer), buf.bit = 0 →
    (encode_postings_none L buf).bytes = buf.bytes ++ raw_postings_bytes L ∧
      (encode_postings_none L buf).bit = 0 := by
  induction L with
  | nil => intro buf h; simp [encode_postings_none, raw_postings_bytes, h]
  | cons p ps ih =>
    intro buf h
    unfold encode_postings_none at ih ⊢
    simp only [List.foldl_cons]
    rw [append_buffer_aligned buf _ h, append_buffer_aligned _ _ rfl]
    obtain ⟨h1, h2⟩ := encode_positions_none_bytes p.positions
      { bytes := buf.bytes ++ int_to_bytes p.document_id ++ int_to_bytes p.positions_count,
        curr_byte := 0, bit := 0 } rfl
    obtain ⟨h3, h4⟩ := ih _ h2
    refine ⟨?_, h4⟩
    rw [h3, h1]
    simp [raw_postings_bytes, raw_posting_bytes]

theorem read_int_append (pre rest : List Nat) (x : Int) (h : is_int32 x) :
    read_int (pre ++ (int_to_bytes x ++ rest)) pre.length = some x :=
  read_int_of_drop _ _ x rest h.1 h.2 (List.drop_left _ _)

theorem decode_positions_none_spec (xs : List Int) : ∀ (pre rest : List Nat),
    (∀ x ∈ xs, is_int32 x) →
    decode_positions_none (pre ++ (xs.flatMap int_to_bytes ++ rest)) xs.length pre.length =
      some (xs, pre.length + 4 * xs.length) := by
  induction xs with
  | nil => intro pre rest _; rfl
  | cons x xs ih =>
    intro pre rest h
    simp only [List.flatMap_cons, List.length_cons, decode_positions_none, List.append_assoc]
    rw [read_int_append pre _ x (h x (List.mem_cons_self _ _))]
    have := ih (pre ++ int_to_bytes x) rest (fun y hy => h y (List.mem_cons_of_mem _ hy))
    simp only [List.length_append, int_to_bytes_length, List.append_assoc] at this
    simp only [this]
    congr 2
    omega

theorem raw_posting_bytes_length (p : postings_list) :
    (raw_posting_bytes p).length = 4 * (2 + p.positions.length) := by
  unfold raw_posting_bytes
  simp only [List.length_append, int_to_bytes_length]
  have : ∀ xs : List Int, (xs.flatMap int_to_bytes).length = 4 * xs.length := by
    intro xs
    induction xs with
    | nil => rfl
    | cons x xs ih => simp only [List.flatMap_cons, List.length_append, int_to_bytes_length, ih,
        List.length_cons]; omega
  rw [this]; omega

theorem raw_postings_bytes_length (L : List postings_list) :
    (raw_postings_bytes L).length = 4 * (L.map (fun p => 2 + p.positions.length)).sum := by
  induction L with
  | nil => rfl
  | cons p ps ih =>
    unfold raw_postings_bytes at ih ⊢
    simp only [List.flatMap_cons, List.length_append, ih, raw_posting_bytes_length, List.map_cons,
      List.sum_cons]
    omega

theorem decode_postings_none_loop_spec (L : List postings_list) : ∀ (pre : List Nat) (fuel : Nat),
    (∀ p ∈ L, raw_posting_ok p) → L.length < fuel →
    decode_postings_none_loop (pre ++ raw_postings_bytes L) fuel pre.length = some L := by
  induction L with
  | nil =>
    intro pre fuel _ hf
    obtain ⟨fuel, rfl⟩ : ∃ f, fuel = f + 1 := ⟨fuel - 1, by omega⟩
    simp [decode_postings_none_loop, raw_postings_bytes]
  | cons p ps ih =>
    intro pre fuel hok hf
    obtain ⟨fuel, rfl⟩ : ∃ f, fuel = f + 1 := ⟨fuel - 1, by simp at hf; omega⟩
    obtain ⟨hc, hd, hpc, hx⟩ := hok p (List.mem_cons_self _ _)
    have hlt : pre.length < (pre ++ raw_postings_bytes (p :: ps)).length := by
      simp only [raw_postings_bytes, List.flatMap_cons, List.length_append,
        raw_posting_bytes_length]
      omega
    unfold decode_postings_none_loop
    rw [if_pos hlt]
    have hmem : pre ++ raw_postings_bytes (p :: ps) =
        pre ++ (int_to_bytes p.document_id ++ (int_to_bytes p.positions_count ++
          (p.positions.flatMap int_to_bytes ++ raw_postings_bytes ps))) := by
      simp [raw_postings_bytes, raw_posting_bytes]
    have hr1 : read_int (pre ++ raw_postings_bytes (p :: ps)) pre.length = some p.document_id := by
      rw [hmem]; exact read_int_append pre _ _ hd
    have hr2 : read_int (pre ++ raw_postings_bytes (p :: ps)) (pre.length + 4) =
        some p.positions_count := by
      rw [hmem]
      have := read_int_append (pre ++ int_to_bytes p.document_id)
        (p.positions.flatMap int_to_bytes ++ raw_postings_bytes ps) _ hpc
      simpa [int_to_bytes_length] using this
    have hr3 : decode_positions_none (pre ++ raw_postings_bytes (p :: ps)) p.positions.length
        (pre.length + 8) = some (p.positions, pre.length + 8 + 4 * p.positions.length) := by
      rw [hmem]
      have := decode_positions_none_spec p.positions
        (pre ++ int_to_bytes p.document_id ++ int_to_bytes p.positions_count)
        (raw_postings_bytes ps) hx
      simpa [int_to_bytes_length, Nat.add_assoc] using this
    have hr4 : decode_postings_none_loop (pre ++ raw_postings_bytes (p :: ps)) fuel
        (pre.length + 8 + 4 * p.positions.length) = some ps := by
      have := ih (pre ++ raw_posting_bytes p) fuel
        (fun q hq => hok q (List.mem_cons_of_mem _ hq)) (by simp at hf; omega)
      simp only [List.length_append, raw_posting_bytes_length, List.append_assoc] at this
      have e : pre.length + 4 * (2 + p.positions.length) = pre.length + 8 + 4 * p.positions.length := by
        omega
      rw [e] at this
      simpa [raw_postings_bytes] using this
    have hcn : p.positions_count.toNat = p.positions.length := by omega
    simp only [hr1, hr2, hcn, hr3, hr4]

/-- C2. Raw posting-list round trip: when every `positions_count` is the
number of positions (and the fields are 32-bit ints), `decode_postings_none`
on the bytes written by `encode_postings_none` returns 0, the list `L` and
`postings_len = length L`; the bytes are exactly the 32-bit integers
`document_id, positions_count, position_0, ...` per posting with nothing
before them, `4 * Σ (2 + positions_count)` bytes in all. -/
theorem raw_postings_round_trip (L : List postings_list) (h : ∀ p ∈ L, raw_posting_ok p) :
    decode_postings_none (BUFFER_PTR (encode_postings_none L alloc_buffer)) =
        some (0, L, (L.length : Int)) ∧
      BUFFER_PTR (encode_postings_none L alloc_buffer) = raw_postings_bytes L ∧
      (BUFFER_SIZE (encode_postings_none L alloc_buffer) : Int) =
        4 * (L.map (fun p => 2 + p.positions_count)).sum := by
  have hb : (encode_postings_none L alloc_buffer).bytes = raw_postings_bytes L := by
    have := (encode_postings_none_bytes L alloc_buffer rfl).1
    simpa [alloc_buffer] using this
  refine ⟨?_, hb, ?_⟩
  · unfold decode_postings_none BUFFER_PTR
    rw [hb]
    have := decode_postings_none_loop_spec L [] ((raw_postings_bytes L).length + 1) h (by
      rw [raw_postings_bytes_length]
      have : L.length ≤ (L.map (fun p => 2 + p.positions.length)).sum := by
        clear h hb
        induction L with
        | nil => simp
        | cons p ps ih => simp only [List.length_cons, List.map_cons, List.sum_cons]; omega
      omega)
    simp only [List.nil_append, List.length_nil] at this
    rw [this]
  · unfold BUFFER_SIZE
    rw [hb, raw_postings_bytes_length]
    have : (((L.map (fun p => 2 + p.positions.length)).sum : Nat) : Int) =
        (L.map (fun p => 2 + p.positions_count)).sum := by
      clear hb
      induction L with
      | nil => simp
      | cons p ps ih =>
        simp only [List.map_cons, List.sum_cons, Nat.cast_add]
        rw [ih (fun q hq => h q (List.mem_cons_of_mem _ hq)), (h p (List.mem_cons_self _ _)).1]
        simp
    rw [← this]
    simp

theorem raw_postings_round_trip_witness :
    (∀ p ∈ [(⟨7, [0, -5], 2⟩ : postings_list), ⟨-4, [], 0⟩, ⟨7, [3], 1⟩], raw_posting_ok p) ∧
    decode_postings_none (BUFFER_PTR (encode_postings_none
        [⟨7, [0, -5], 2⟩, ⟨-4, [], 0⟩, ⟨7, [3], 1⟩] alloc_buffer)) =
      some (0, [⟨7, [0, -5], 2⟩, ⟨-4, [], 0⟩, ⟨7, [3], 1⟩], 3) :=
  have h : ∀ p ∈ [(⟨7, [0, -5], 2⟩ : postings_list), ⟨-4, [], 0⟩, ⟨7, [3], 1⟩],
      raw_posting_ok p := by
    unfold raw_posting_ok is_int32; decide
  ⟨h, (raw_postings_round_trip [⟨7, [0, -5], 2⟩, ⟨-4, [], 0⟩, ⟨7, [3], 1⟩] h).1⟩

/-! ## Separators -/

theorem wiser_is_ignored_char_values (c : Nat) :
    wiser_is_ignored_char c = 1 ∨ wiser_is_ignored_char c = 0 := by
  unfold wiser_is_ignored_char
  split <;> simp

/-- C10. Separator set: `wiser_is_ignored_char c` returns 1 exactly for the
code points of the separator set of the specification (and 0 otherwise); in
particular it returns 0 for every ASCII letter and digit. -/
theorem wiser_is_ignored_char_iff (c : Nat) :
    (wiser_is_ignored_char c = 1 ↔ c ∈ separator_set) ∧
      (c ∉ separator_set → wiser_is_ignored_char c = 0) ∧
      (is_ascii_alnum c → wiser_is_ignored_char c = 0) := by
  have key : wiser_is_ignored_char c = 1 ↔ c ∈ separator_set := by
    unfold wiser_is_ignored_char separator_set
    split <;> simp_all
  refine ⟨key, ?_, ?_⟩
  · intro h
    rcases wiser_is_ignored_char_values c with h1 | h1
    · exact absurd (key.mp h1) h
    · exact h1
  · intro h
    rcases wiser_is_ignored_char_values c with h1 | h1
    · have := key.mp h1
      unfold is_ascii_alnum at h
      unfold separator_set at this
      simp only [List.mem_append, List.mem_cons, List.mem_singleton, List.not_mem_nil, or_false] at this
      omega
    · exact h1

/-! ## Posting merger -/

theorem merge_postings_loop_spec : ∀ (fuel : Nat) (pa pb : List postings_list),
    pa.length + pb.length ≤ fuel →
    pa.Pairwise (fun p q => p.document_id < q.document_id) →
    pb.Pairwise (fun p q => p.document_id < q.document_id) →
    (∀ a ∈ pa, ∀ b ∈ pb, a.document_id ≠ b.document_id) →
    ∃ r, merge_postings_loop fuel pa pb = some r ∧ r.Perm (pa ++ pb) ∧
      r.Pairwise (fun p q => p.document_id < q.document_id) := by
  intro fuel
  induction fuel with
  | zero =>
    intro pa pb hlen _ _ _
    have ha : pa = [] := List.length_eq_zero.mp (by omega)
    have hb : pb = [] := List.length_eq_zero.mp (by omega)
    subst ha hb
    exact ⟨[], rfl, List.Perm.refl _, List.Pairwise.nil⟩
  | succ fuel ih =>
    intro pa pb hlen hsa hsb hdis
    cases pa with
    | nil =>
      cases pb with
      | nil => exact ⟨[], rfl, List.Perm.refl _, List.Pairwise.nil⟩
      | cons b pb2 =>
        obtain ⟨r, h1, h2, h3⟩ := ih [] pb2 (by simp at hlen ⊢; omega) List.Pairwise.nil
          (List.Pairwise.of_cons hsb) (by simp)
        refine ⟨b :: r, by simp [merge_postings_loop, h1], by simpa using h2, ?_⟩
        rw [List.pairwise_cons]
        refine ⟨fun q hq => ?_, h3⟩
        have hq2 : q ∈ pb2 := by simpa using h2.subset hq
        exact List.rel_of_pairwise_cons hsb hq2
    | cons a pa2 =>
      cases pb with
      | nil =>
        obtain ⟨r, h1, h2, h3⟩ := ih pa2 [] (by simp at hlen ⊢; omega)
          (List.Pairwise.of_cons hsa) List.Pairwise.nil (by simp)
        refine ⟨a :: r, by simp [merge_postings_loop, h1], by simpa using h2, ?_⟩
        rw [List.pairwise_cons]
        refine ⟨fun q hq => ?_, h3⟩
        have hq2 : q ∈ pa2 := by simpa using h2.subset hq
        exact List.rel_of_pairwise_cons hsa hq2
      | cons b pb2 =>
        have hab : a.document_id ≠ b.document_id :=
          hdis a (List.mem_cons_self _ _) b (List.mem_cons_self _ _)
        by_cases hle : a.document_id ≤ b.document_id
        · obtain ⟨r, h1, h2, h3⟩ := ih pa2 (b :: pb2) (by simp at hlen ⊢; omega)
            (List.Pairwise.of_cons hsa) hsb
            (fun x hx y hy => hdis x (List.mem_cons_of_mem _ hx) y hy)
          refine ⟨a :: r, by simp [merge_postings_loop, hle, h1], ?_, ?_⟩
          · exact List.Perm.cons a h2
          · rw [List.pairwise_cons]
            refine ⟨fun q hq => ?_, h3⟩
            have hq2 : q ∈ pa2 ++ b :: pb2 := h2.subset hq
            rcases List.mem_append.mp hq2 with hq3 | hq3
            · exact List.rel_of_pairwise_cons hsa hq3
            · rcases List.mem_cons.mp hq3 with hq4 | hq4
              · subst hq4; omega
              · have := List.rel_of_pairwise_cons hsb hq4
                omega
        · have hge : a.document_id ≥ b.document_id := by omega
          obtain ⟨r, h1, h2, h3⟩ := ih (a :: pa2) pb2 (by simp at hlen ⊢; omega)
            hsa (List.Pairwise.of_cons hsb)
            (fun x hx y hy => hdis x hx y (List.mem_cons_of_mem _ hy))
          refine ⟨b :: r, by simp [merge_postings_loop, hle, hge, h1], ?_, ?_⟩
          · have : (b :: r).Perm (b :: (a :: pa2 ++ pb2)) := List.Perm.cons b h2
            exact this.trans (List.perm_middle.symm)
          · rw [List.pairwise_cons]
            refine ⟨fun q hq => ?_, h3⟩
            have hq2 : q ∈ a :: pa2 ++ pb2 := h2.subset hq
            rcases List.mem_append.mp hq2 with hq3 | hq3
            · rcases List.mem_cons.mp hq3 with hq4 | hq4
              · subst hq4; omega
              · have := List.rel_of_pairwise_cons hsa hq4
                omega
            · exact List.rel_of_pairwise_cons hsb hq3

/-- C4. `merge_postings` on two posting lists, each strictly ascending by
`document_id` (a posting list has no two postings of one document) and with
no `document_id` in common, returns a list that is strictly increasing by
`document_id` and is a permutation of the postings of both inputs: its length
is the sum of the input lengths and every posting is kept as it is. -/
theorem merge_postings_sorted (pa pb : List postings_list)
    (hsa : pa.Pairwise (fun p q => p.document_id < q.document_id))
    (hsb : pb.Pairwise (fun p q => p.document_id < q.document_id))
    (hdis : ∀ a ∈ pa, ∀ b ∈ pb, a.document_id ≠ b.document_id) :
    ∃ r, merge_postings pa pb = some r ∧
      r.Pairwise (fun p q => p.document_id < q.document_id) ∧
      r.Perm (pa ++ pb) ∧ r.length = pa.length + pb.length := by
  obtain ⟨r, h1, h2, h3⟩ := merge_postings_loop_spec _ pa pb (le_refl _) hsa hsb hdis
  exact ⟨r, h1, h3, h2, by rw [h2.length_eq, List.length_append]⟩

theorem merge_postings_sorted_witness :
    ∃ r, merge_postings [⟨1, [0], 1⟩, ⟨5, [2, 3], 2⟩] [⟨2, [7], 1⟩, ⟨9, [1], 1⟩] = some r ∧
      r.Pairwise (fun p q => p.document_id < q.document_id) ∧
      r.Perm ([⟨1, [0], 1⟩, ⟨5, [2, 3], 2⟩] ++ [⟨2, [7], 1⟩, ⟨9, [1], 1⟩]) ∧
      r.length = 2 + 2 :=
  merge_postings_sorted [⟨1, [0], 1⟩, ⟨5, [2, 3], 2⟩] [⟨2, [7], 1⟩, ⟨9, [1], 1⟩]
    (by decide) (by decide) (by decide)

/-! ## Tokenizer: the calls of `text_to_postings_lists` -/

theorem ngram_len_le (n : Nat) : ∀ (l : List Nat), ngram_len n l ≤ l.length ∧ ngram_len n l ≤ n := by
  induction n with
  | zero => intro l; simp [ngram_len]
  | succ n ih =>
    intro l
    cases l with
    | nil => simp [ngram_len]
    | cons c cs =>
      simp only [ngram_len]
      split
      · have := ih cs; simp only [List.length_cons]; omega
      · simp

theorem ngram_len_pos (n : Nat) (c : Nat) (cs : List Nat) (hn : 1 ≤ n)
    (hc : wiser_is_ignored_char c = 0) : 0 < ngram_len n (c :: cs) := by
  obtain ⟨k, rfl⟩ : ∃ k, n = k + 1 := ⟨n - 1, by omega⟩
  simp [ngram_len, hc]

theorem ngram_skip_length_le : ∀ (l : List Nat), (ngram_skip l).length ≤ l.length := by
  intro l
  induction l with
  | nil => simp [ngram_skip]
  | cons c cs ih =>
    simp only [ngram_skip]
    split
    · simp only [List.length_cons]; omega
    · exact le_refl _

theorem text_to_postings_loop_zero (document_id : Int) (text_len : Nat) :
    ∀ (fuel : Nat) (t : List Nat) (position : Int),
      text_to_postings_loop document_id 0 text_len fuel t position = [] := by
  intro fuel t position
  cases fuel with
  | zero => rfl
  | succ fuel => simp [text_to_postings_loop, ngram_next, ngram_len]

theorem text_to_postings_loop_eq (document_id : Int) (n text_len : Nat) (hn : 1 ≤ n) :
    ∀ (t : List Nat) (fuel : Nat) (position : Int), t.length ≤ fuel →
      text_to_postings_loop document_id n text_len fuel t position =
        (steps_from n text_len t position).filter (step_kept document_id n) := by
  intro t
  induction t with
  | nil =>
    intro fuel position _
    cases fuel with
    | zero => rfl
    | succ fuel =>
      obtain ⟨k, rfl⟩ : ∃ k, n = k + 1 := ⟨n - 1, by omega⟩
      simp [text_to_postings_loop, ngram_next, ngram_skip, ngram_len, steps_from]
  | cons c cs ih =>
    intro fuel position hf
    obtain ⟨fuel, rfl⟩ : ∃ f, fuel = f + 1 := ⟨fuel - 1, by simp at hf; omega⟩
    simp only [List.length_cons, Nat.add_le_add_iff_right] at hf
    by_cases hc : wiser_is_ignored_char c ≠ 0
    · have h1 := ih (fuel + 1) position (by omega)
      simp only [steps_from, hc, if_true, ne_eq, not_false_eq_true]
      rw [← h1]
      simp only [text_to_postings_loop, ngram_next, ngram_skip, hc, if_true, ne_eq,
        not_false_eq_true]
    · simp only [ne_eq, Decidable.not_not] at hc
      have hpos := ngram_len_pos n c cs hn hc
      have hskip : ngram_skip (c :: cs) = c :: cs := by simp [ngram_skip, hc]
      simp only [steps_from, hc, ne_eq, not_true_eq_false, if_false]
      simp only [text_to_postings_loop, ngram_next, hskip, List.drop_succ_cons, List.drop_zero]
      rw [if_neg (by omega), ih fuel (position + 1) hf]
      have hlen : ((c :: cs).take (ngram_len n (c :: cs))).length = ngram_len n (c :: cs) := by
        rw [List.length_take]; exact Nat.min_eq_left (ngram_len_le n _).1
      by_cases hk : ngram_len n (c :: cs) ≥ n ∨ document_id ≠ 0
      · rw [if_pos hk, List.filter_cons_of_pos]
        simp only [step_kept, hlen, decide_eq_true_eq]; exact hk
      · rw [if_neg hk, List.filter_cons_of_neg]
        simp only [step_kept, hlen, decide_eq_true_eq]; exact hk

theorem text_to_postings_calls_eq (document_id : Int) (text : List Nat) (n : Nat) (hn : 1 ≤ n) :
    text_to_postings_calls document_id text n =
      (steps_from n text.length text 0).filter (step_kept document_id n) :=
  text_to_postings_loop_eq document_id n text.length hn text text.length 0 (le_refl _)

theorem nonsep_count_append (a b : List Nat) :
    nonsep_count (a ++ b) = nonsep_count a + nonsep_count b := by
  simp [nonsep_count]

/-- Every step of the tokenizer, seen from the whole text. -/
theorem steps_from_spec (n : Nat) : ∀ (t pre : List Nat) (position : Int),
    position = (nonsep_count pre : Int) →
    ∀ s ∈ steps_from n (pre ++ t).length t position,
      ∃ pre2 c cs, pre ++ t = pre2 ++ c :: cs ∧ wiser_is_ignored_char c = 0 ∧
        s.start = pre2.length ∧ s.position = (nonsep_count pre2 : Int) ∧
        s.token = (c :: cs).take (ngram_len n (c :: cs)) := by
  intro t
  induction t with
  | nil => intro pre position _ s hs; simp [steps_from] at hs
  | cons c cs ih =>
    intro pre position hp s hs
    have happ : pre ++ c :: cs = (pre ++ [c]) ++ cs := by simp
    by_cases hc : wiser_is_ignored_char c ≠ 0
    · simp only [steps_from, hc, if_true, ne_eq, not_false_eq_true] at hs
      rw [happ] at hs ⊢
      refine ih (pre ++ [c]) position ?_ s hs
      rw [nonsep_count_append, hp]
      have : nonsep_count [c] = 0 := by simp [nonsep_count, hc]
      rw [this]; simp
    · simp only [ne_eq, Decidable.not_not] at hc
      simp only [steps_from, hc, ne_eq, not_true_eq_false, if_false, List.mem_cons] at hs
      rcases hs with hs | hs
      · refine ⟨pre, c, cs, rfl, hc, ?_, ?_, ?_⟩
        · rw [hs]; simp
        · rw [hs]; exact hp
        · rw [hs]
      · rw [happ] at hs ⊢
        refine ih (pre ++ [c]) (position + 1) ?_ s hs
        rw [nonsep_count_append, hp]
        have : nonsep_count [c] = 1 := by simp [nonsep_count, hc]
        rw [this]; simp

theorem nonsep_count_le (l : List Nat) : nonsep_count l ≤ l.length :=
  List.length_filter_le _ _

theorem nonsep_count_eq_length_iff (l : List Nat) :
    nonsep_count l = l.length ↔ ∀ c ∈ l, wiser_is_ignored_char c = 0 := by
  unfold nonsep_count
  rw [List.filter_length_eq_length]
  simp

/-- C7, as the code has it. For every text and every token that
`text_to_postings_lists` records: the token is the code points of the text
from index `start` on, and the recorded position is the number of
non-separator code points before `start`, that is `start` minus the number
of separators skipped before it. It is the code-point index `start` exactly
when no separator precedes the token. -/
theorem token_position_spec (document_id : Int) (text : List Nat) (n : Nat) (s : token_step)
    (hs : s ∈ text_to_postings_calls document_id text n) :
    s.token ≠ [] ∧ s.token = (text.drop s.start).take s.token.length ∧
      s.position = (nonsep_count (text.take s.start) : Int) ∧
      s.position ≤ (s.start : Int) ∧
      (s.position = (s.start : Int) ↔ ∀ c ∈ text.take s.start, wiser_is_ignored_char c = 0) := by
  rcases Nat.eq_zero_or_pos n with hn | hn
  · subst hn
    unfold text_to_postings_calls at hs
    rw [text_to_postings_loop_zero] at hs
    simp at hs
  · rw [text_to_postings_calls_eq document_id text n hn] at hs
    have hs2 := (List.mem_filter.mp hs).1
    obtain ⟨pre2, c, cs, htext, hc, hstart, hpos, htok⟩ :=
      steps_from_spec n text [] 0 (by simp [nonsep_count]) s (by simpa using hs2)
    simp only [List.nil_append] at htext
    have htake : text.take s.start = pre2 := by rw [htext, hstart, List.take_left]
    have hdrop : text.drop s.start = c :: cs := by rw [htext, hstart, List.drop_left]
    have hlen : s.token.length = ngram_len n (c :: cs) := by
      rw [htok, List.length_take]; exact Nat.min_eq_left (ngram_len_le n _).1
    have hpos2 := ngram_len_pos n c cs hn hc
    have hle := nonsep_count_le pre2
    refine ⟨?_, ?_, ?_, ?_, ?_⟩
    · intro h; rw [h] at hlen; simp at hlen; omega
    · rw [hdrop, hlen]; exact htok
    · rw [htake]; exact hpos
    · rw [hpos, hstart]; exact_mod_cast hle
    · rw [htake, hpos, hstart, ← nonsep_count_eq_length_iff]
      exact Nat.cast_inj

/-- The text `" ab"`, indexed with `N = 2`: the token `"ab"` starts at code
point 1 of the text and is recorded at position 0. -/
theorem token_position_counterexample :
    text_to_postings_calls 1 [0x20, 0x61, 0x62] 2 =
        [{ start := 1, token := [0x61, 0x62], position := 0 },
         { start := 2, token := [0x62], position := 1 }] ∧
      ¬ (∀ s ∈ text_to_postings_calls 1 [0x20, 0x61, 0x62] 2, s.position = (s.start : Int)) := by
  decide

theorem token_position_spec_witness :
    ({ start := 1, token := [0x61, 0x62], position := 0 } : token_step) ∈
        text_to_postings_calls 1 [0x20, 0x61, 0x62] 2 ∧
      ({ start := 1, token := [0x61, 0x62], position := 0 } : token_step).position =
        (nonsep_count (List.take 1 [0x20, 0x61, 0x62]) : Int) :=
  ⟨by decide, (token_position_spec 1 [0x20, 0x61, 0x62] 2
    { start := 1, token := [0x61, 0x62], position := 0 } (by decide)).2.2.1⟩

theorem step_token_length_le (n text_len : Nat) : ∀ (t : List Nat) (position : Int),
    ∀ s ∈ steps_from n text_len t position, s.token.length ≤ n := by
  intro t
  induction t with
  | nil => intro position s hs; simp [steps_from] at hs
  | cons c cs ih =>
    intro position s hs
    simp only [steps_from] at hs
    split at hs
    · exact ih _ s hs
    · rcases List.mem_cons.mp hs with h | h
      · rw [h]; simp only [List.length_take]
        have := (ngram_len_le n (c :: cs)).2
        omega
      · exact ih _ s h

theorem text_to_postings_calls_indexing (document_id : Int) (text : List Nat) (n : Nat)
    (hn : 1 ≤ n) (hd : document_id ≠ 0) :
    text_to_postings_calls document_id text n = steps_from n text.length text 0 := by
  rw [text_to_postings_calls_eq document_id text n hn, List.filter_eq_self]
  intro s _
  simp [step_kept, hd]

theorem text_to_postings_calls_query (text : List Nat) (n : Nat) (hn : 1 ≤ n) :
    text_to_postings_calls 0 text n =
      (steps_from n text.length text 0).filter (fun s => decide (s.token.length = n)) := by
  rw [text_to_postings_calls_eq 0 text n hn]
  apply List.filter_congr
  intro s hs
  have := step_token_length_le n text.length text 0 s hs
  simp only [step_kept, ne_eq, not_true_eq_false, or_false, decide_eq_decide]
  omega

/-- C8, as the code has it. For `N ≥ 1`: in indexing mode (`document_id ≠ 0`)
`text_to_postings_lists` passes every token of the tokenizer to
`token_to_postings_list`, also the tokens shorter than `N`; in query mode
(`document_id = 0`) it passes on exactly the tokens of `N` code points and
discards the shorter ones. -/
theorem short_token_asymmetry (document_id : Int) (text : List Nat) (n : Nat) (hn : 1 ≤ n) :
    (document_id ≠ 0 →
      text_to_postings_calls document_id text n = steps_from n text.length text 0) ∧
    (document_id = 0 →
      text_to_postings_calls document_id text n =
        (steps_from n text.length text 0).filter (fun s => decide (s.token.length = n))) :=
  ⟨fun hd => text_to_postings_calls_indexing document_id text n hn hd,
   fun hd => by rw [hd]; exact text_to_postings_calls_query text n hn⟩

/-- The text `"a"` with `N = 2`: indexed as document 1 its token `"a"`, shorter
than `N`, is recorded and gets an entry in the index; as a query it is
discarded and the query token table stays empty. -/
theorem short_token_counterexample :
    text_to_postings_calls 1 [0x61] 2 = [{ start := 0, token := [0x61], position := 0 }] ∧
      text_to_postings_lists [] 1 [0x61] 2 [] =
        some ([([0x61], 0)],
          [{ token_id := 1, postings_list := [⟨1, [0], 1⟩], docs_count := 1,
             positions_count := 1 }]) ∧
      text_to_postings_calls 0 [0x61] 2 = [] ∧
      text_to_postings_lists [([0x61], 1)] 0 [0x61] 2 [] = some ([([0x61], 1)], []) := by
  decide

theorem short_token_asymmetry_witness :
    text_to_postings_calls 1 [0x61, 0x62, 0x63] 2 = steps_from 2 3 [0x61, 0x62, 0x63] 0 ∧
      text_to_postings_calls 0 [0x61, 0x62, 0x63] 2 =
        (steps_from 2 3 [0x61, 0x62, 0x63] 0).filter (fun s => decide (s.token.length = 2)) :=
  ⟨(short_token_asymmetry 1 [0x61, 0x62, 0x63] 2 (by decide)).1 (by decide),
   (short_token_asymmetry 0 [0x61, 0x62, 0x63] 2 (by decide)).2 rfl⟩

theorem wiser_is_ignored_char_iff_witness :
    is_ascii_alnum 0x61 ∧ wiser_is_ignored_char 0x61 = 0 :=
  ⟨by unfold is_ascii_alnum; decide,
   (wiser_is_ignored_char_iff 0x61).2.2 (by unfold is_ascii_alnum; decide)⟩

/-! ## Search: intersection of the posting lists -/

theorem cursor_ok_tail (p : postings_list) (c : List postings_list) (h : cursor_ok (p :: c)) :
    cursor_ok c ∧ ∀ d ∈ doc_ids c, p.document_id < d := by
  refine ⟨⟨List.Pairwise.of_cons h.1, fun q hq => h.2 q (List.mem_cons_of_mem _ hq)⟩, ?_⟩
  intro d hd
  obtain ⟨q, hq, rfl⟩ := List.mem_map.mp hd
  exact List.rel_of_pairwise_cons h.1 hq

theorem dropWhile_spec (k : Int) : ∀ (c : List postings_list), cursor_ok c →
    cursor_ok (c.dropWhile (fun p => decide (p.document_id < k))) ∧
      (∀ d ∈ doc_ids (c.dropWhile (fun p => decide (p.document_id < k))), k ≤ d) ∧
      (∀ d, k ≤ d → (d ∈ doc_ids (c.dropWhile (fun p => decide (p.document_id < k))) ↔
        d ∈ doc_ids c)) ∧
      (c.dropWhile (fun p => decide (p.document_id < k))).length ≤ c.length := by
  intro c
  induction c with
  | nil => intro h; simp [doc_ids, cursor_ok]
  | cons p c ih =>
    intro h
    obtain ⟨hc, hgt⟩ := cursor_ok_tail p c h
    by_cases hp : p.document_id < k
    · have hdw : (p :: c).dropWhile (fun p => decide (p.document_id < k)) =
          c.dropWhile (fun p => decide (p.document_id < k)) := by
        simp [List.dropWhile, hp]
      rw [hdw]
      obtain ⟨h1, h2, h3, h4⟩ := ih hc
      refine ⟨h1, h2, fun d hd => ?_, by simp only [List.length_cons]; omega⟩
      rw [h3 d hd]
      simp only [doc_ids, List.map_cons, List.mem_cons]
      constructor
      · exact Or.inr
      · rintro (h5 | h5)
        · omega
        · exact h5
    · have hdw : (p :: c).dropWhile (fun p => decide (p.document_id < k)) = p :: c := by
        simp [List.dropWhile, hp]
      rw [hdw]
      refine ⟨h, fun d hd => ?_, fun d _ => Iff.rfl, le_refl _⟩
      simp only [doc_ids, List.map_cons, List.mem_cons] at hd
      rcases hd with hd | hd
      · omega
      · have := hgt d hd; omega

theorem advance_cursors_spec (doc_id : Int) : ∀ (others : List (List postings_list)),
    (∀ c ∈ others, cursor_ok c) →
    match advance_cursors doc_id others with
    | none => ∃ c ∈ others, ∀ d, doc_id ≤ d → d ∉ doc_ids c
    | some (nd, others2) =>
      (∀ c ∈ others2, cursor_ok c) ∧
      (∀ d, doc_id ≤ d → ((∀ c ∈ others, d ∈ doc_ids c) ↔ (∀ c ∈ others2, d ∈ doc_ids c))) ∧
      ((nd = 0 ∧ ∀ c ∈ others, doc_id ∈ doc_ids c) ∨
        (doc_id < nd ∧ ∃ c ∈ others, ∀ d, doc_id ≤ d → d < nd → d ∉ doc_ids c)) := by
  intro others
  induction others with
  | nil => intro _; simp [advance_cursors]
  | cons cur rest ih =>
    intro hok
    have hcur := hok cur (List.mem_cons_self _ _)
    have hrest : ∀ c ∈ rest, cursor_ok c := fun c hc => hok c (List.mem_cons_of_mem _ hc)
    obtain ⟨h1, h2, h3, -⟩ := dropWhile_spec doc_id cur hcur
    simp only [advance_cursors]
    cases hdw : cur.dropWhile (fun p => decide (p.document_id < doc_id)) with
    | nil =>
      rw [hdw] at h3
      refine ⟨cur, List.mem_cons_self _ _, fun d hd hmem => ?_⟩
      have := (h3 d hd).mpr hmem
      simp [doc_ids] at this
    | cons p ps =>
      rw [hdw] at h1 h2 h3
      have hp : doc_id ≤ p.document_id := h2 _ (by simp [doc_ids])
      have hgt := (cursor_ok_tail p ps h1).2
      have hequiv : ∀ (rest2 : List (List postings_list)),
          (∀ d, doc_id ≤ d → ((∀ c ∈ rest, d ∈ doc_ids c) ↔ (∀ c ∈ rest2, d ∈ doc_ids c))) →
          ∀ d, doc_id ≤ d → ((∀ c ∈ cur :: rest, d ∈ doc_ids c) ↔
            (∀ c ∈ (p :: ps) :: rest2, d ∈ doc_ids c)) := by
        intro rest2 hr d hd
        simp only [List.forall_mem_cons]
        rw [h3 d hd, hr d hd]
      by_cases hne : p.document_id ≠ doc_id
      · dsimp only
        rw [if_pos hne]
        refine ⟨fun c hc => ?_, hequiv rest (fun d _ => Iff.rfl), Or.inr ⟨by omega, cur,
          List.mem_cons_self _ _, fun d hd hlt hmem => ?_⟩⟩
        · rcases List.mem_cons.mp hc with h | h
          · rw [h]; exact h1
          · exact hrest c h
        · have := (h3 d hd).mpr hmem
          simp only [doc_ids, List.map_cons, List.mem_cons] at this
          rcases this with h | h
          · omega
          · have := hgt d h; omega
      · dsimp only
        rw [if_neg hne]
        simp only [ne_eq, Decidable.not_not] at hne
        have ih2 := ih hrest
        cases hadv : advance_cursors doc_id rest with
        | none =>
          rw [hadv] at ih2
          obtain ⟨c, hc, hcd⟩ := ih2
          exact ⟨c, List.mem_cons_of_mem _ hc, hcd⟩
        | some r =>
          obtain ⟨nd, rest2⟩ := r
          rw [hadv] at ih2
          obtain ⟨i1, i2, i3⟩ := ih2
          refine ⟨fun c hc => ?_, hequiv rest2 i2, ?_⟩
          · rcases List.mem_cons.mp hc with h | h
            · rw [h]; exact h1
            · exact i1 c h
          · rcases i3 with ⟨h0, hall⟩ | ⟨hlt, c, hc, hcd⟩
            · left
              refine ⟨h0, fun c hc => ?_⟩
              rcases List.mem_cons.mp hc with h | h
              · rw [h, ← h3 doc_id (le_refl _)]
                simp [doc_ids, hne]
              · exact hall c h
            · exact Or.inr ⟨hlt, c, List.mem_cons_of_mem _ hc, hcd⟩

theorem doc_ids_add_search_result {Score : Type} [Zero Score] [Add Score] :
    ∀ (results : List (search_results Score)) (d : Int) (sc : Score),
      d ∉ results.map (fun r => r.document_id) →
      (add_search_result results d sc).map (fun r => r.document_id) =
        results.map (fun r => r.document_id) ++ [d] := by
  intro results
  induction results with
  | nil => intro d sc _; rfl
  | cons r rs ih =>
    intro d sc hd
    simp only [List.map_cons, List.mem_cons, not_or] at hd
    simp only [add_search_result]
    rw [if_neg (fun h => hd.1 h.symm)]
    simp only [List.map_cons, List.cons_append]
    rw [ih d sc hd.2]

theorem filter_dropWhile (k : Int) (P : Int → Bool) : ∀ (c : List postings_list),
    (∀ d ∈ doc_ids c, d < k → P d = false) →
    (doc_ids c).filter P =
      (doc_ids (c.dropWhile (fun p => decide (p.document_id < k)))).filter P := by
  intro c
  induction c with
  | nil => intro _; rfl
  | cons p c ih =>
    intro h
    by_cases hp : p.document_id < k
    · have hdw : (p :: c).dropWhile (fun p => decide (p.document_id < k)) =
          c.dropWhile (fun p => decide (p.document_id < k)) := by
        simp [List.dropWhile, hp]
      rw [hdw, ← ih (fun d hd => h d (by simp only [doc_ids, List.map_cons, List.mem_cons]; exact Or.inr hd))]
      simp only [doc_ids, List.map_cons]
      rw [List.filter_cons_of_neg]
      rw [h p.document_id (by simp [doc_ids]) hp]
      simp
    · have hdw : (p :: c).dropWhile (fun p => decide (p.document_id < k)) = p :: c := by
        simp [List.dropWhile, hp]
      rw [hdw]

theorem search_docs_loop_spec {Score : Type} [Zero Score] [Add Score]
    (score_fn : List inverted_index_value → List (List postings_list) → Score)
    (tokens : List inverted_index_value) :
    ∀ (fuel : Nat) (c0 : List postings_list) (others : List (List postings_list))
      (results : List (search_results Score)),
      c0.length < fuel → cursor_ok c0 → (∀ c ∈ others, cursor_ok c) →
      (∀ d ∈ doc_ids c0, d ∉ results.map (fun r => r.document_id)) →
      ∃ results2, search_docs_loop 0 score_fn tokens fuel (c0 :: others) results = some results2 ∧
        results2.map (fun r => r.document_id) =
          results.map (fun r => r.document_id) ++
            (doc_ids c0).filter (fun d => decide (∀ c ∈ others, d ∈ doc_ids c)) := by
  intro fuel
  induction fuel with
  | zero => intro c0 others results h; omega
  | succ fuel ih =>
    intro c0 others results hlen hc0 hothers hres
    cases c0 with
    | nil => exact ⟨results, rfl, by simp [doc_ids]⟩
    | cons p0 rest0 =>
      obtain ⟨hrest0, hgt⟩ := cursor_ok_tail p0 rest0 hc0
      have hpos : 0 < p0.document_id := hc0.2 p0 (List.mem_cons_self _ _)
      have hge : ∀ d ∈ doc_ids (p0 :: rest0), p0.document_id ≤ d := by
        intro d hd
        simp only [doc_ids, List.map_cons, List.mem_cons] at hd
        rcases hd with hd | hd
        · omega
        · have := hgt d hd; omega
      have spec := advance_cursors_spec p0.document_id others hothers
      simp only [search_docs_loop]
      cases hadv : advance_cursors p0.document_id others with
      | none =>
        rw [hadv] at spec
        obtain ⟨c, hc, hcd⟩ := spec
        refine ⟨results, rfl, ?_⟩
        have : (doc_ids (p0 :: rest0)).filter (fun d => decide (∀ c ∈ others, d ∈ doc_ids c)) = [] := by
          rw [List.filter_eq_nil_iff]
          intro d hd
          simp only [decide_eq_true_eq]
          intro hall
          exact hcd d (hge d hd) (hall c hc)
        rw [this, List.append_nil]
      | some r =>
        obtain ⟨nd, others2⟩ := r
        rw [hadv] at spec
        obtain ⟨i1, i2, i3⟩ := spec
        dsimp only
        by_cases hnd : nd > 0
        · rw [if_pos hnd]
          have hmis : p0.document_id < nd ∧
              ∃ c ∈ others, ∀ d, p0.document_id ≤ d → d < nd → d ∉ doc_ids c := by
            rcases i3 with ⟨h0, -⟩ | h
            · omega
            · exact h
          obtain ⟨hlt, c, hc, hcd⟩ := hmis
          obtain ⟨d1, d2, -, d4⟩ := dropWhile_spec nd (p0 :: rest0) hc0
          have hdw : (p0 :: rest0).dropWhile (fun p => decide (p.document_id < nd)) =
              rest0.dropWhile (fun p => decide (p.document_id < nd)) := by
            simp [List.dropWhile, hlt]
          have hlen2 : ((p0 :: rest0).dropWhile (fun p => decide (p.document_id < nd))).length
              < fuel := by
            rw [hdw]
            have := (dropWhile_spec nd rest0 hrest0).2.2.2
            simp only [List.length_cons] at hlen
            omega
          have hsub : ∀ d ∈ doc_ids ((p0 :: rest0).dropWhile (fun p => decide (p.document_id < nd))),
              d ∈ doc_ids (p0 :: rest0) := by
            intro d hd
            exact ((dropWhile_spec nd (p0 :: rest0) hc0).2.2.1 d (d2 d hd)).mp hd
          obtain ⟨results2, h1, h2⟩ := ih _ others2 results hlen2 d1 i1
            (fun d hd => hres d (hsub d hd))
          refine ⟨results2, h1, ?_⟩
          rw [h2]
          congr 1
          rw [filter_dropWhile nd _ (p0 :: rest0) (fun d hd hdlt => by
            simp only [decide_eq_false_iff_not]
            intro hall
            exact hcd d (hge d hd) hdlt (hall c hc))]
          apply List.filter_congr
          intro d hd
          have hd2 : p0.document_id ≤ d := by have := d2 d hd; omega
          simp only [decide_eq_decide]
          exact (i2 d hd2).symm
        · rw [if_neg hnd]
          have hall : ∀ c ∈ others, p0.document_id ∈ doc_ids c := by
            rcases i3 with ⟨-, h⟩ | ⟨h, -⟩
            · exact h
            · omega
          simp only [ne_eq, not_true_eq_false, if_false]
          have hm1 : ¬ ((-1 : Int) = 0) := by decide
          simp only [hm1, not_false_eq_true, if_true]
          have hnot : p0.document_id ∉ results.map (fun r => r.document_id) :=
            hres _ (by simp [doc_ids])
          obtain ⟨results2, h1, h2⟩ := ih rest0 others2
            (add_search_result results p0.document_id (score_fn tokens ((p0 :: rest0) :: others2)))
            (by simp only [List.length_cons] at hlen; omega) hrest0 i1
            (fun d hd => by
              rw [doc_ids_add_search_result results _ _ hnot]
              simp only [List.mem_append, List.mem_singleton, not_or]
              refine ⟨hres d (by simp only [doc_ids, List.map_cons, List.mem_cons]; exact Or.inr hd), ?_⟩
              have := hgt d hd; omega)
          refine ⟨results2, h1, ?_⟩
          rw [h2, doc_ids_add_search_result results _ _ hnot]
          simp only [doc_ids, List.map_cons, List.append_assoc, List.singleton_append]
          rw [List.filter_cons_of_pos (by simp only [decide_eq_true_eq]; exact hall)]
          congr 2
          apply List.filter_congr
          intro d hd
          have hd2 : p0.document_id ≤ d := by have := hgt d hd; omega
          simp only [decide_eq_decide]
          exact (i2 d hd2).symm

theorem fetch_cursors_spec (fetch : Int → Int × List postings_list) :
    ∀ (tokens : List inverted_index_value),
      (∀ t ∈ tokens, t.token_id ≠ 0 ∧ (fetch t.token_id).1 = 0) →
      (fetch_cursors fetch tokens = none ∧ ∃ t ∈ tokens, (fetch t.token_id).2 = []) ∨
        fetch_cursors fetch tokens = some (tokens.map (fun t => (fetch t.token_id).2)) := by
  intro tokens
  induction tokens with
  | nil => intro _; right; rfl
  | cons t ts ih =>
    intro h
    obtain ⟨h1, h2⟩ := h t (List.mem_cons_self _ _)
    simp only [fetch_cursors]
    rw [if_neg h1, if_neg (by simp [h2])]
    by_cases he : (fetch t.token_id).2 = []
    · rw [if_pos he]
      exact Or.inl ⟨rfl, t, List.mem_cons_self _ _, he⟩
    · rw [if_neg he]
      rcases ih (fun x hx => h x (List.mem_cons_of_mem _ hx)) with ⟨h3, x, hx, hxe⟩ | h3
      · left
        rw [h3]
        exact ⟨rfl, x, List.mem_cons_of_mem _ hx, hxe⟩
      · right
        rw [h3]; rfl

/-- C5. Intersection: with phrase search disabled, for query tokens (at least
one) with non-zero token ids whose fetched posting lists are strictly
increasing by positive `document_id`, `search_docs` on empty results returns
results whose document ids are exactly the ids present in all the posting
lists, each once. -/
theorem search_docs_intersection {Score : Type} [Zero Score] [Add Score] [LT Score]
    [DecidableRel (fun a b : Score => a < b)]
    (fetch : Int → Int × List postings_list)
    (score_fn : List inverted_index_value → List (List postings_list) → Score)
    (tokens : List inverted_index_value) (hne : tokens ≠ [])
    (hid : ∀ t ∈ tokens, t.token_id ≠ 0)
    (hfetch : ∀ t ∈ tokens, (fetch t.token_id).1 = 0 ∧ cursor_ok (fetch t.token_id).2) :
    ∃ results, search_docs fetch 0 score_fn [] tokens = some results ∧
      (results.map (fun r => r.document_id)).Nodup ∧
      ∀ d, d ∈ results.map (fun r => r.document_id) ↔
        ∀ t ∈ tokens, d ∈ doc_ids (fetch t.token_id).2 := by
  have hperm := List.perm_insertionSort docs_count_desc tokens
  have hmem : ∀ t, t ∈ tokens.insertionSort docs_count_desc ↔ t ∈ tokens := fun t => hperm.mem_iff
  unfold search_docs
  rw [if_neg hne]
  dsimp only
  generalize tokens.insertionSort docs_count_desc = sorted at hperm hmem
  rcases fetch_cursors_spec fetch sorted
    (fun t ht => ⟨hid t ((hmem t).mp ht), (hfetch t ((hmem t).mp ht)).1⟩) with
    ⟨h1, t, ht, hte⟩ | h1
  · rw [h1]
    refine ⟨[], rfl, List.nodup_nil, fun d => ?_⟩
    simp only [List.insertionSort, List.map_nil, List.not_mem_nil, false_iff]
    intro hall
    have := hall t ((hmem t).mp ht)
    rw [hte] at this
    simp [doc_ids] at this
  · rw [h1]
    cases sorted with
    | nil => exact absurd (hperm.symm.eq_nil) hne
    | cons t0 ts =>
      simp only [List.map_cons]
      obtain ⟨results2, h2, h3⟩ := search_docs_loop_spec score_fn (t0 :: ts)
        ((fetch t0.token_id).2.length + 1) (fetch t0.token_id).2
        (ts.map (fun t => (fetch t.token_id).2)) [] (by omega)
        (hfetch t0 ((hmem t0).mp (List.mem_cons_self _ _))).2
        (fun c hc => by
          obtain ⟨t, ht, rfl⟩ := List.mem_map.mp hc
          exact (hfetch t ((hmem t).mp (List.mem_cons_of_mem _ ht))).2)
        (fun d _ => by simp)
      rw [h2]
      refine ⟨results2.insertionSort score_desc, rfl, ?_, fun d => ?_⟩
      · have hp : List.Perm ((results2.insertionSort score_desc).map (fun r => r.document_id))
            (results2.map (fun r => r.document_id)) :=
          (List.perm_insertionSort score_desc results2).map _
        rw [hp.nodup_iff, h3]
        simp only [List.map_nil, List.nil_append]
        apply List.Nodup.filter
        have := (hfetch t0 ((hmem t0).mp (List.mem_cons_self _ _))).2.1
        unfold doc_ids
        show List.Pairwise (fun a b => a ≠ b) _
        rw [List.pairwise_map]
        exact this.imp (fun h => by omega)
      · have hp : List.Perm ((results2.insertionSort score_desc).map (fun r => r.document_id))
            (results2.map (fun r => r.document_id)) :=
          (List.perm_insertionSort score_desc results2).map _
        rw [hp.mem_iff, h3]
        simp only [List.map_nil, List.nil_append, List.mem_filter, decide_eq_true_eq,
          List.mem_map, forall_exists_index, and_imp, forall_apply_eq_imp_iff₂]
        constructor
        · rintro ⟨h4, h5⟩ t ht
          rcases List.mem_cons.mp ((hmem t).mpr ht) with h | h
          · rw [h]; exact h4
          · exact h5 t h
        · intro hall
          exact ⟨hall t0 ((hmem t0).mp (List.mem_cons_self _ _)),
            fun t ht => hall t ((hmem t).mp (List.mem_cons_of_mem _ ht))⟩

/-! ## UTF-8 encoding of a token -/

theorem land_shift (c j k : Nat) : (c &&& ((2 ^ j - 1) <<< k)) >>> k = c / 2 ^ k % 2 ^ j := by
  apply Nat.eq_of_testBit_eq
  intro i
  rw [← Nat.shiftRight_eq_div_pow]
  simp only [Nat.testBit_shiftRight, Nat.testBit_and, Nat.testBit_shiftLeft,
    Nat.testBit_two_pow_sub_one, Nat.testBit_mod_two_pow]
  have h1 : k + i ≥ k := by omega
  have h2 : k + i - k = i := by omega
  simp only [h1, h2, decide_True, Bool.true_and]
  rw [Bool.and_comm]

theorem lor_high (a i x : Nat) (h : x < 2 ^ i) : x ||| (2 ^ i * a) = 2 ^ i * a + x := by
  rw [Nat.or_comm, ← Nat.mul_add_lt_is_or h]

theorem utf8_low (c : Nat) : (c &&& 0x3f) ||| 0x80 = 128 + c % 64 := by
  have h1 : c &&& 0x3f = c % 64 := Nat.and_pow_two_sub_one_eq_mod c 6
  rw [h1]
  exact lor_high 1 7 (c % 64) (by have := Nat.mod_lt c (show 64 > 0 by decide); omega)

theorem utf8_mid6 (c : Nat) : ((c &&& 0xfc0) >>> 6) ||| 0x80 = 128 + c / 64 % 64 := by
  have h1 : (c &&& 0xfc0) >>> 6 = c / 64 % 64 := land_shift c 6 6
  rw [h1]
  exact lor_high 1 7 (c / 64 % 64) (by have := Nat.mod_lt (c / 64) (show 64 > 0 by decide); omega)

theorem utf8_mid12 (c : Nat) : ((c &&& 0x3f000) >>> 12) ||| 0x80 = 128 + c / 4096 % 64 := by
  have h1 : (c &&& 0x3f000) >>> 12 = c / 4096 % 64 := land_shift c 6 12
  rw [h1]
  exact lor_high 1 7 (c / 4096 % 64) (by have := Nat.mod_lt (c / 4096) (show 64 > 0 by decide); omega)

theorem utf8_lead2 (c : Nat) : ((c &&& 0x7c0) >>> 6) ||| 0xc0 = 192 + c / 64 % 32 := by
  have h1 : (c &&& 0x7c0) >>> 6 = c / 64 % 32 := land_shift c 5 6
  rw [h1]
  exact lor_high 3 6 (c / 64 % 32) (by have := Nat.mod_lt (c / 64) (show 32 > 0 by decide); omega)

theorem utf8_lead3 (c : Nat) : ((c &&& 0xf000) >>> 12) ||| 0xe0 = 224 + c / 4096 % 16 := by
  have h1 : (c &&& 0xf000) >>> 12 = c / 4096 % 16 := land_shift c 4 12
  rw [h1]
  exact lor_high 7 5 (c / 4096 % 16) (by have := Nat.mod_lt (c / 4096) (show 16 > 0 by decide); omega)

theorem utf8_lead4 (c : Nat) : ((c &&& 0x1c0000) >>> 18) ||| 0xf0 = 240 + c / 262144 % 8 := by
  have h1 : (c &&& 0x1c0000) >>> 18 = c / 262144 % 8 := land_shift c 3 18
  rw [h1]
  exact lor_high 15 4 (c / 262144 % 8) (by have := Nat.mod_lt (c / 262144) (show 8 > 0 by decide); omega)

theorem utf32toutf8_loop_cons (c : Nat) (cs : List Nat) :
    utf32toutf8_loop (c :: cs) =
      match utf32toutf8_loop cs with
      | none => none
      | some rest => if c < 0x200000 then some (utf8_bytes c ++ rest) else none := by
  simp only [utf32toutf8_loop, utf8_low, utf8_mid6, utf8_mid12, utf8_lead2, utf8_lead3,
    utf8_lead4, utf8_bytes]
  cases utf32toutf8_loop cs with
  | none => rfl
  | some rest =>
    dsimp only
    by_cases h1 : c < 0x80
    · have h2 : c < 0x800 := by omega
      have h3 : c < 0x200000 := by omega
      simp [h1, h2, h3]
    · by_cases h2 : c < 0x800
      · have h3 : c < 0x200000 := by omega
        simp [h1, h2, h3]
      · by_cases h3 : c < 0x10000
        · have h4 : c < 0x200000 := by omega
          simp [h1, h2, h3, h4]
        · by_cases h4 : c < 0x200000
          · simp [h1, h2, h3, h4]
          · simp [h2, h3, h4]

theorem utf8_bytes_inj (c1 c2 : Nat) (r1 r2 : List Nat) (h1 : c1 < 0x200000) (h2 : c2 < 0x200000)
    (h : utf8_bytes c1 ++ r1 = utf8_bytes c2 ++ r2) : c1 = c2 ∧ r1 = r2 := by
  unfold utf8_bytes at h
  split at h <;> split at h <;> (try split at h) <;> (try split at h) <;>
    (try split at h) <;> (try split at h) <;>
    simp only [List.cons_append, List.nil_append, List.cons.injEq] at h <;>
    first
    | (refine ⟨?_, ?_⟩ <;> first | omega | (obtain ⟨-, rfl⟩ := h; rfl) | (obtain ⟨-, -, rfl⟩ := h; rfl) | (obtain ⟨-, -, -, rfl⟩ := h; rfl) | (obtain ⟨-, -, -, -, rfl⟩ := h; rfl))
    | omega

theorem utf32toutf8_loop_inj : ∀ (a b : List Nat) (x : List Nat),
    utf32toutf8_loop a = some x → utf32toutf8_loop b = some x → a = b := by
  intro a
  induction a with
  | nil =>
    intro b x ha hb
    simp only [utf32toutf8_loop, Option.some.injEq] at ha
    subst ha
    cases b with
    | nil => rfl
    | cons c cs =>
      rw [utf32toutf8_loop_cons] at hb
      cases hcs : utf32toutf8_loop cs with
      | none => rw [hcs] at hb; simp at hb
      | some rest =>
        rw [hcs] at hb
        dsimp only at hb
        split at hb
        · simp only [Option.some.injEq] at hb
          have : (utf8_bytes c ++ rest).length = 0 := by rw [hb]; rfl
          unfold utf8_bytes at this
          split at this <;> (try split at this) <;> (try split at this) <;> simp at this
        · simp at hb
  | cons c cs ih =>
    intro b x ha hb
    rw [utf32toutf8_loop_cons] at ha
    cases hcs : utf32toutf8_loop cs with
    | none => rw [hcs] at ha; simp at ha
    | some rest =>
      rw [hcs] at ha
      dsimp only at ha
      by_cases hc : c < 0x200000
      · rw [if_pos hc] at ha
        simp only [Option.some.injEq] at ha
        cases b with
        | nil =>
          simp only [utf32toutf8_loop, Option.some.injEq] at hb
          rw [← hb] at ha
          have : (utf8_bytes c ++ rest).length = 0 := by rw [ha]; rfl
          unfold utf8_bytes at this
          split at this <;> (try split at this) <;> (try split at this) <;> simp at this
        | cons c2 cs2 =>
          rw [utf32toutf8_loop_cons] at hb
          cases hcs2 : utf32toutf8_loop cs2 with
          | none => rw [hcs2] at hb; simp at hb
          | some rest2 =>
            rw [hcs2] at hb
            dsimp only at hb
            by_cases hc2 : c2 < 0x200000
            · rw [if_pos hc2] at hb
              simp only [Option.some.injEq] at hb
              obtain ⟨e1, e2⟩ := utf8_bytes_inj c c2 rest rest2 hc hc2 (ha.trans hb.symm)
              subst e1 e2
              rw [ih cs2 rest hcs hcs2]
            · rw [if_neg hc2] at hb; simp at hb
      · rw [if_neg hc] at ha; simp at ha

theorem utf32toutf8_eq_some (a x : List Nat) (h : utf32toutf8 a = some x) :
    utf32toutf8_loop a = some x := by
  unfold utf32toutf8 at h
  split at h
  · simp at h
  · exact h

/-- Two tokens with the same UTF-8 bytes are the same code points. -/
theorem utf32toutf8_inj (a b x : List Nat) (ha : utf32toutf8 a = some x)
    (hb : utf32toutf8 b = some x) : a = b :=
  utf32toutf8_loop_inj a b x (utf32toutf8_eq_some a x ha) (utf32toutf8_eq_some b x hb)

theorem utf32toutf8_some : ∀ (a : List Nat), (∀ c ∈ a, c < 0x200000) → ∃ x, utf32toutf8 a = some x := by
  intro a h
  have h1 : ∃ n, uchar2utf8_size a = some n := by
    induction a with
    | nil => exact ⟨0, rfl⟩
    | cons c cs ih =>
      obtain ⟨n, hn⟩ := ih (fun x hx => h x (List.mem_cons_of_mem _ hx))
      have hc := h c (List.mem_cons_self _ _)
      simp only [uchar2utf8_size, hn]
      split
      · split <;> exact ⟨_, rfl⟩
      · split
        · exact ⟨_, rfl⟩
        · exact ⟨_, rfl⟩
  have h2 : ∃ x, utf32toutf8_loop a = some x := by
    induction a with
    | nil => exact ⟨[], rfl⟩
    | cons c cs ih =>
      obtain ⟨x, hx⟩ := ih (fun y hy => h y (List.mem_cons_of_mem _ hy))
        (by
          obtain ⟨n, hn⟩ := h1
          simp only [uchar2utf8_size] at hn
          cases hq : uchar2utf8_size cs with
          | none => rw [hq] at hn; simp at hn
          | some m => exact ⟨m, rfl⟩)
      rw [utf32toutf8_loop_cons, hx]
      dsimp only
      rw [if_pos (h c (List.mem_cons_self _ _))]
      exact ⟨_, rfl⟩
  obtain ⟨n, hn⟩ := h1
  obtain ⟨x, hx⟩ := h2
  exact ⟨x, by unfold utf32toutf8; rw [hn]; exact hx⟩

/-! ## Token store -/

theorem select_token_ge (str : List Nat) : ∀ (T : tokens_table) (k i d : Int),
    select_token str T k = some (i, d) → k ≤ i := by
  intro T
  induction T with
  | nil => intro k i d h; simp [select_token] at h
  | cons row rows ih =>
    intro k i d h
    obtain ⟨tok, dc⟩ := row
    simp only [select_token] at h
    split at h
    · simp only [Option.some.injEq, Prod.mk.injEq] at h; omega
    · have := ih _ _ _ h; omega

theorem select_token_append (str : List Nat) (ext : tokens_table) : ∀ (T : tokens_table) (k : Int)
    (r : Int × Int), select_token str T k = some r → select_token str (T ++ ext) k = some r := by
  intro T
  induction T with
  | nil => intro k r h; simp [select_token] at h
  | cons row rows ih =>
    intro k r h
    obtain ⟨tok, dc⟩ := row
    simp only [select_token, List.cons_append] at h ⊢
    split
    · rename_i heq; rw [if_pos heq] at h; exact h
    · rename_i hne; rw [if_neg hne] at h; exact ih _ _ h

theorem select_token_append_new (str : List Nat) : ∀ (T : tokens_table) (k : Int),
    select_token str T k = none →
    select_token str (T ++ [(str, 0)]) k = some (k + T.length, 0) := by
  intro T
  induction T with
  | nil => intro k _; simp [select_token]
  | cons row rows ih =>
    intro k h
    obtain ⟨tok, dc⟩ := row
    simp only [select_token, List.cons_append] at h ⊢
    split
    · rename_i heq; rw [if_pos heq] at h; simp at h
    · rename_i hne
      rw [if_neg hne] at h
      have := ih _ h
      show select_token str (rows ++ [(str, 0)]) (k + 1) = _
      rw [this]
      simp only [List.length_cons, Nat.cast_add, Nat.cast_one, Option.some.injEq, Prod.mk.injEq,
        and_true]
      omega

theorem select_token_inj (s1 s2 : List Nat) : ∀ (T : tokens_table) (k i d1 d2 : Int),
    select_token s1 T k = some (i, d1) → select_token s2 T k = some (i, d2) → s1 = s2 := by
  intro T
  induction T with
  | nil => intro k i d1 d2 h; simp [select_token] at h
  | cons row rows ih =>
    intro k i d1 d2 h1 h2
    obtain ⟨tok, dc⟩ := row
    simp only [select_token] at h1 h2
    by_cases e1 : tok = s1
    · by_cases e2 : tok = s2
      · rw [← e1, ← e2]
      · rw [if_pos e1] at h1
        rw [if_neg e2] at h2
        simp only [Option.some.injEq, Prod.mk.injEq] at h1
        have := select_token_ge s2 rows _ _ _ h2
        omega
    · rw [if_neg e1] at h1
      by_cases e2 : tok = s2
      · rw [if_pos e2] at h2
        simp only [Option.some.injEq, Prod.mk.injEq] at h2
        have := select_token_ge s1 rows _ _ _ h1
        omega
      · rw [if_neg e2] at h2
        exact ih _ _ _ _ h1 h2

theorem db_get_token_id_eq (T : tokens_table) (str : List Nat) (insert : Int) :
    db_get_token_id T str insert =
      match select_token str T 1 with
      | some (id, dc) => (T, id, dc)
      | none => if insert ≠ 0 then (T ++ [(str, 0)], 1 + (T.length : Int), 0) else (T, 0, 0) := by
  unfold db_get_token_id
  cases hs : select_token str T 1 with
  | none =>
    by_cases hi : insert ≠ 0
    · simp only [hi, if_true, ne_eq, not_false_eq_true, select_token_append_new str T 1 hs]
    · simp only [hi, if_false, hs]
  | some r =>
    obtain ⟨id, dc⟩ := r
    by_cases hi : insert ≠ 0
    · simp only [hi, if_true, ne_eq, not_false_eq_true, hs]
    · simp only [hi, if_false, hs]

theorem db_get_token_id_spec (T : tokens_table) (str : List Nat) (insert : Int) :
    (∃ ext, (db_get_token_id T str insert).1 = T ++ ext) ∧
      (insert = 0 → (db_get_token_id T str insert).1 = T) ∧
      (db_get_token_id T str insert).2.1 = token_id_in (db_get_token_id T str insert).1 str ∧
      (insert ≠ 0 → ∃ id dc, select_token str (db_get_token_id T str insert).1 1 = some (id, dc)) := by
  rw [db_get_token_id_eq]
  cases hs : select_token str T 1 with
  | none =>
    by_cases hi : insert ≠ 0
    · have h2 := select_token_append_new str T 1 hs
      rw [if_pos hi]
      refine ⟨⟨[(str, 0)], rfl⟩, fun h => absurd h hi, ?_, fun _ => ⟨_, _, h2⟩⟩
      show 1 + (T.length : Int) = token_id_in (T ++ [(str, 0)]) str
      unfold token_id_in
      rw [h2]
    · rw [if_neg hi]
      refine ⟨⟨[], (List.append_nil T).symm⟩, fun _ => rfl, ?_, fun h => absurd h hi⟩
      show (0 : Int) = token_id_in T str
      unfold token_id_in
      rw [hs]
  | some r =>
    obtain ⟨id, dc⟩ := r
    refine ⟨⟨[], (List.append_nil T).symm⟩, fun _ => rfl, ?_, fun _ => ⟨id, dc, hs⟩⟩
    show id = token_id_in T str
    unfold token_id_in
    rw [hs]

theorem token_id_in_append (T ext : tokens_table) (str : List Nat) (id dc : Int)
    (h : select_token str T 1 = some (id, dc)) : token_id_in (T ++ ext) str = token_id_in T str := by
  unfold token_id_in
  rw [select_token_append str ext T 1 _ h, h]

/-! ## In-memory index built by `text_to_postings_lists` -/

theorem token_to_postings_list_eq (T : tokens_table) (d : Int) (tok : List Nat) (pos : Int)
    (H : inverted_index_hash) :
    token_to_postings_list T d tok pos H =
      (index_add d (db_get_token_id T tok d).2.1 (db_get_token_id T tok d).2.2 pos H).map
        (fun H2 => ((db_get_token_id T tok d).1, H2)) := by
  unfold token_to_postings_list index_add
  dsimp only
  cases HASH_FIND_INT H (db_get_token_id T tok d).2.1 with
  | none => simp [create_new_inverted_index, create_new_postings_list]
  | some e =>
    dsimp only
    cases e.postings_list with
    | nil => rfl
    | cons pl pls => rfl

theorem HASH_FIND_INT_some (H : inverted_index_hash) (k : Int) (e : inverted_index_value)
    (h : HASH_FIND_INT H k = some e) : e ∈ H ∧ e.token_id = k := by
  unfold HASH_FIND_INT at h
  refine ⟨List.mem_of_find?_eq_some h, ?_⟩
  have := List.find?_some h
  simpa using this

theorem HASH_FIND_INT_hash_write (e2 : inverted_index_value) : ∀ (H : inverted_index_hash)
    (e : inverted_index_value), HASH_FIND_INT H e2.token_id = some e →
    ∀ k, HASH_FIND_INT (hash_write e2 H) k =
      if k = e2.token_id then some e2 else HASH_FIND_INT H k := by
  intro H
  induction H with
  | nil => intro e h; simp [HASH_FIND_INT] at h
  | cons x xs ih =>
    intro e h k
    unfold HASH_FIND_INT at h ih ⊢
    simp only [hash_write]
    by_cases hx : x.token_id = e2.token_id
    · rw [if_pos hx]
      by_cases hk : k = e2.token_id
      · rw [if_pos hk]; simp [List.find?, hk]
      · rw [if_neg hk]
        have hk2 : ¬ (e2.token_id = k) := fun h => hk h.symm
        have hk3 : ¬ (x.token_id = k) := by rw [hx]; exact hk2
        simp [List.find?, hk2, hk3]
    · rw [if_neg hx]
      have hfx : List.find? (fun e => decide (e.token_id = e2.token_id)) (x :: xs) =
          List.find? (fun e => decide (e.token_id = e2.token_id)) xs := by
        simp [List.find?, hx]
      rw [hfx] at h
      by_cases hxk : x.token_id = k
      · have hk : ¬ (k = e2.token_id) := by rw [← hxk]; exact hx
        rw [if_neg hk]
        simp [List.find?, hxk]
      · have := ih e h k
        simp only [List.find?, hxk, decide_False] at this ⊢
        exact this

theorem mem_hash_write (e2 : inverted_index_value) : ∀ (H : inverted_index_hash)
    (x : inverted_index_value), x ∈ hash_write e2 H → x = e2 ∨ x ∈ H := by
  intro H
  induction H with
  | nil => intro x h; simp [hash_write] at h
  | cons y ys ih =>
    intro x h
    simp only [hash_write] at h
    split at h
    · rcases List.mem_cons.mp h with h | h
      · exact Or.inl h
      · exact Or.inr (List.mem_cons_of_mem _ h)
    · rcases List.mem_cons.mp h with h | h
      · exact Or.inr (by rw [h]; exact List.mem_cons_self _ _)
      · rcases ih x h with h | h
        · exact Or.inl h
        · exact Or.inr (List.mem_cons_of_mem _ h)

theorem index_add_spec (d k dc pos : Int) (H : inverted_index_hash) (hok : index_ok d H) :
    ∃ H2, index_add d k dc pos H = some H2 ∧ index_ok d H2 ∧
      ∀ k2, positions_of H2 k2 = if k2 = k then positions_of H k ++ [pos] else positions_of H k2 := by
  unfold index_add
  cases hf : HASH_FIND_INT H k with
  | none =>
    dsimp only
    refine ⟨_, rfl, ?_, ?_⟩
    · intro e he
      rcases List.mem_append.mp he with h | h
      · exact hok e h
      · simp only [List.mem_singleton] at h
        rw [h]
        exact ⟨[pos], by simp, rfl, rfl⟩
    · intro k2
      unfold positions_of HASH_FIND_INT at *
      rw [List.find?_append]
      by_cases hk : k2 = k
      · rw [if_pos hk, hk, hf]
        simp [List.find?]
      · rw [if_neg hk]
        cases hf2 : List.find? (fun e => decide (e.token_id = k2)) H with
        | none =>
          have : ¬ (k = k2) := fun h => hk h.symm
          simp [List.find?, this]
        | some e => simp
  | some e =>
    obtain ⟨hmem, hkey⟩ := HASH_FIND_INT_some H k e hf
    obtain ⟨ps, hps, hpl, hpc⟩ := hok e hmem
    dsimp only
    rw [hpl]
    dsimp only
    refine ⟨_, rfl, ?_, ?_⟩
    · intro x hx
      rcases mem_hash_write _ H x hx with h | h
      · rw [h]
        refine ⟨ps ++ [pos], by simp, ?_, ?_⟩
        · simp
        · simp [hpc]
      · exact hok x h
    · intro k2
      subst hkey
      have hw := HASH_FIND_INT_hash_write
        { e with
          postings_list :=
            [{ document_id := d, positions := ps ++ [pos],
               positions_count := (ps.length : Int) + 1 }],
          positions_count := e.positions_count + 1 } H e hf k2
      unfold positions_of
      rw [hw]
      by_cases hk : k2 = e.token_id
      · rw [if_pos hk, if_pos hk, hf]
        dsimp only
        rw [hpl]
      · rw [if_neg hk, if_neg hk]

/-! ## The bytes that `utf32toutf8` stores and the array `t_8` -/

theorem utf32toutf8_loop_length : ∀ (u : List Nat) (n : Nat), uchar2utf8_size u = some n →
    ∃ bytes, utf32toutf8_loop u = some bytes ∧ bytes.length = n ∧
      bytes.length ≤ u.length * MAX_UTF8_SIZE ∧
      ((∃ c ∈ u, c < 0x10000) → bytes.length + 1 ≤ u.length * MAX_UTF8_SIZE) := by
  intro u
  induction u with
  | nil =>
    intro n h
    simp only [uchar2utf8_size, Option.some.injEq] at h
    exact ⟨[], rfl, by rw [← h]; rfl, by simp, by simp⟩
  | cons c cs ih =>
    intro n h
    simp only [uchar2utf8_size] at h
    cases hs : uchar2utf8_size cs with
    | none => rw [hs] at h; simp at h
    | some size =>
      rw [hs] at h
      dsimp only at h
      obtain ⟨rest, hrest, hlen, hle, hlt⟩ := ih size hs
      have h4 : MAX_UTF8_SIZE = 4 := rfl
      have hmem : ∀ P : Nat → Prop, (∃ x ∈ c :: cs, P x) ↔ P c ∨ ∃ x ∈ cs, P x := by
        intro P; simp
      simp only [utf32toutf8_loop, hrest]
      rw [hmem]
      rw [h4] at hle hlt ⊢
      simp only [List.length_cons]
      by_cases h1 : c < 0x800
      · rw [if_pos h1] at h ⊢
        by_cases h2 : c < 0x80
        · rw [if_pos h2] at h ⊢
          simp only [Option.some.injEq] at h
          refine ⟨_, rfl, by simp only [List.length_cons]; omega,
            by simp only [List.length_cons]; omega, fun _ => by
              simp only [List.length_cons]; omega⟩
        · rw [if_neg h2] at h ⊢
          simp only [Option.some.injEq] at h
          refine ⟨_, rfl, by simp only [List.length_cons]; omega,
            by simp only [List.length_cons]; omega, fun _ => by
              simp only [List.length_cons]; omega⟩
      · rw [if_neg h1] at h ⊢
        by_cases h3 : c < 0x10000
        · rw [if_pos h3] at h ⊢
          simp only [Option.some.injEq] at h
          refine ⟨_, rfl, by simp only [List.length_cons]; omega,
            by simp only [List.length_cons]; omega, fun _ => by
              simp only [List.length_cons]; omega⟩
        · rw [if_neg h3] at h ⊢
          by_cases h5 : c < 0x200000
          · rw [if_pos h5] at h ⊢
            simp only [Option.some.injEq] at h
            refine ⟨_, rfl, by simp only [List.length_cons]; omega,
              by simp only [List.length_cons]; omega, fun hex => ?_⟩
            rcases hex with hc | hex
            · omega
            · have := hlt hex
              simp only [List.length_cons]; omega
          · rw [if_neg h5] at h
            simp at h

/-- What holds of the destination of `utf32toutf8`: for `L` code points below
`0x200000` the bytes before the terminator are `uchar2utf8_size` many, at
most `L * MAX_UTF8_SIZE`, and `*str_size` is their number; a destination of
`L * MAX_UTF8_SIZE + 1` bytes is large enough, and one of `L * MAX_UTF8_SIZE`
bytes is when a code point is below `0x10000`. -/
theorem utf32toutf8_into_fits (u : List Nat) (h : ∀ c ∈ u, c < 0x200000) :
    ∃ bytes, utf32toutf8 u = some bytes ∧ uchar2utf8_size u = some bytes.length ∧
      bytes.length ≤ u.length * MAX_UTF8_SIZE ∧
      utf32toutf8_into u (u.length * MAX_UTF8_SIZE + 1) = some (bytes ++ [0], bytes.length) ∧
      ((∃ c ∈ u, c < 0x10000) →
        utf32toutf8_into u (u.length * MAX_UTF8_SIZE) = some (bytes ++ [0], bytes.length)) := by
  obtain ⟨x, hx⟩ := utf32toutf8_some u h
  have hl := utf32toutf8_eq_some u x hx
  cases hs : uchar2utf8_size u with
  | none => unfold utf32toutf8 at hx; rw [hs] at hx; simp at hx
  | some n =>
    obtain ⟨bytes, hb, hlen, hle, hlt⟩ := utf32toutf8_loop_length u n hs
    rw [hl] at hb
    simp only [Option.some.injEq] at hb
    subst hb
    refine ⟨x, hx, by rw [hlen], hle, ?_, ?_⟩
    · unfold utf32toutf8_into
      rw [hs, hl]
      dsimp only
      rw [if_neg (by rw [List.length_append, List.length_singleton]; omega), hlen]
    · intro hex
      have := hlt hex
      unfold utf32toutf8_into
      rw [hs, hl]
      dsimp only
      rw [if_neg (by rw [List.length_append, List.length_singleton]; omega), hlen]

theorem utf32toutf8_length_le (u bytes : List Nat) (h : utf32toutf8 u = some bytes) :
    bytes.length ≤ u.length * MAX_UTF8_SIZE ∧
      ((∃ c ∈ u, c < 0x10000) → bytes.length + 1 ≤ u.length * MAX_UTF8_SIZE) := by
  unfold utf32toutf8 at h
  cases hs : uchar2utf8_size u with
  | none => rw [hs] at h; simp at h
  | some k =>
    rw [hs] at h
    dsimp only at h
    obtain ⟨bytes2, hb, -, hle, hlt⟩ := utf32toutf8_loop_length u k hs
    rw [hb] at h
    simp only [Option.some.injEq] at h
    rw [← h]
    exact ⟨hle, hlt⟩

/-- What a returning `utf32toutf8` has stored: the first `*str_size` bytes of
`str` are the converted token, and the NUL after them is inside `str`. -/
theorem utf32toutf8_into_some (u : List Nat) (cap : Nat) (t_8 : List Nat) (t_8_size : Nat)
    (h : utf32toutf8_into u cap = some (t_8, t_8_size)) :
    utf32toutf8 u = some (t_8.take t_8_size) ∧ t_8_size + 1 ≤ cap := by
  unfold utf32toutf8_into at h
  cases hs : uchar2utf8_size u with
  | none => rw [hs] at h; simp at h
  | some k =>
    obtain ⟨bytes, hb, hlen, -, -⟩ := utf32toutf8_loop_length u k hs
    rw [hs] at h
    dsimp only at h
    rw [hb] at h
    dsimp only at h
    by_cases hc : cap < (bytes ++ [0]).length
    · rw [if_pos hc] at h; simp at h
    · rw [if_neg hc] at h
      simp only [Option.some.injEq, Prod.mk.injEq] at h
      obtain ⟨h1, h2⟩ := h
      rw [List.length_append, List.length_singleton] at hc
      refine ⟨?_, by omega⟩
      unfold utf32toutf8
      rw [hs]
      dsimp only
      rw [hb, ← h1, ← h2, ← hlen]
      simp

theorem utf32toutf8_into_of_fits (u : List Nat) (cap : Nat) (bytes : List Nat)
    (h : utf32toutf8 u = some bytes) (hfit : bytes.length + 1 ≤ cap) :
    utf32toutf8_into u cap = some (bytes ++ [0], bytes.length) := by
  unfold utf32toutf8 at h
  unfold utf32toutf8_into
  cases hs : uchar2utf8_size u with
  | none => rw [hs] at h; simp at h
  | some k =>
    rw [hs] at h
    dsimp only at h ⊢
    obtain ⟨bytes2, hb, hlen, -, -⟩ := utf32toutf8_loop_length u k hs
    rw [hb] at h
    simp only [Option.some.injEq] at h
    subst h
    rw [hb]
    dsimp only
    rw [if_neg (by rw [List.length_append, List.length_singleton]; omega), hlen]

/-- Every token that `text_to_postings_lists` converts fits the array `t_8`
when the code points are below `0x200000` and the text is in
`tokens_fit_t_8`. -/
theorem text_to_postings_calls_fit (d : Int) (text : List Nat) (n : Nat)
    (hcp : ∀ c ∈ text, c < 0x200000) (hfit : tokens_fit_t_8 n text) :
    ∀ s ∈ text_to_postings_calls d text n,
      ∃ r, utf32toutf8_into s.token (n * MAX_UTF8_SIZE) = some r := by
  intro s hs
  by_cases hn : 1 ≤ n
  · rw [text_to_postings_calls_eq d text n hn] at hs
    have hs2 := (List.mem_filter.mp hs).1
    have hle := step_token_length_le n text.length text 0 s hs2
    obtain ⟨pre2, c, cs, htext, -, -, -, htok⟩ :=
      steps_from_spec n text [] 0 rfl s (by rw [List.nil_append]; exact hs2)
    rw [List.nil_append] at htext
    have hcp2 : ∀ x ∈ s.token, x < 0x200000 := by
      intro x hx
      rw [htok] at hx
      apply hcp x
      rw [htext]
      exact List.mem_append_right _ (List.mem_of_mem_take hx)
    obtain ⟨bytes, hb⟩ := utf32toutf8_some s.token hcp2
    obtain ⟨hble, hblt⟩ := utf32toutf8_length_le s.token bytes hb
    have h4 : MAX_UTF8_SIZE = 4 := rfl
    rw [h4] at hble hblt ⊢
    refine ⟨_, utf32toutf8_into_of_fits s.token _ bytes hb ?_⟩
    by_cases hfull : s.token.length = n
    · have hk : ngram_len n (c :: cs) = n := by
        have h1 := ngram_len_le n (c :: cs)
        have h2 : s.token.length ≤ ngram_len n (c :: cs) := by
          rw [htok, List.length_take]; exact Nat.min_le_left _ _
        omega
      have hdrop : text.drop pre2.length = c :: cs := by
        rw [htext, List.drop_left]
      have hwin : (text.drop pre2.length).take n = s.token := by
        rw [hdrop, htok, hk]
      have hi : pre2.length < text.length := by
        rw [htext, List.length_append, List.length_cons]; omega
      obtain ⟨x, hx, hxlt⟩ := hfit pre2.length hi hn (by rw [hwin]; exact hfull)
      rw [hwin] at hx
      have := hblt ⟨x, hx, hxlt⟩
      rw [hfull] at this
      exact this
    · have : s.token.length + 1 ≤ n := by omega
      have h5 : (s.token.length + 1) * 4 ≤ n * 4 := Nat.mul_le_mul_right 4 this
      omega
  · have h0 : n = 0 := by omega
    subst h0
    unfold text_to_postings_calls at hs
    rw [text_to_postings_loop_zero] at hs
    exact absurd hs (List.not_mem_nil _)

theorem step_key_eq (T : tokens_table) (s : token_step) (t8 : List Nat)
    (h : utf32toutf8 s.token = some t8) : step_key T s = token_id_in T t8 := by
  unfold step_key
  rw [h]

theorem text_to_postings_fold_spec (d : Int) (n : Nat) : ∀ (ss : List token_step)
    (T : tokens_table) (H : inverted_index_hash), index_ok d H →
    (∀ s ∈ ss, ∃ r, utf32toutf8_into s.token (n * MAX_UTF8_SIZE) = some r) →
    ∃ T2 H2, text_to_postings_fold d n ss T H = some (T2, H2) ∧ index_ok d H2 ∧
      (∃ ext, T2 = T ++ ext) ∧ (d = 0 → T2 = T) ∧
      (d ≠ 0 → ∀ s ∈ ss, ∃ t8 id dc, utf32toutf8 s.token = some t8 ∧
        select_token t8 T2 1 = some (id, dc)) ∧
      ∀ k, positions_of H2 k = positions_of H k ++
        ((ss.filter (fun s => decide (step_key T2 s = k))).map (fun s => s.position)) := by
  intro ss
  induction ss with
  | nil =>
    intro T H hok _
    exact ⟨T, H, rfl, hok, ⟨[], by simp⟩, fun _ => rfl, fun _ s hs => absurd hs (List.not_mem_nil _),
      fun k => by simp⟩
  | cons s ss ih =>
    intro T H hok hcp
    obtain ⟨⟨t_8, t_8_size⟩, hinto⟩ := hcp s (List.mem_cons_self _ _)
    obtain ⟨ht8, -⟩ := utf32toutf8_into_some s.token _ t_8 t_8_size hinto
    obtain ⟨t8, ht8def⟩ : ∃ t8, t8 = t_8.take t_8_size := ⟨_, rfl⟩
    rw [← ht8def] at ht8
    obtain ⟨⟨ext1, hext1⟩, hq, hid, hfound⟩ := db_get_token_id_spec T t8 d
    obtain ⟨H1, hadd, hok1, hpos1⟩ := index_add_spec d (db_get_token_id T t8 d).2.1
      (db_get_token_id T t8 d).2.2 s.position H hok
    obtain ⟨T2, H2, hfold, hok2, ⟨ext2, hext2⟩, hq2, hfound2, hpos2⟩ :=
      ih (db_get_token_id T t8 d).1 H1 hok1 (fun x hx => hcp x (List.mem_cons_of_mem _ hx))
    have hkey : step_key T2 s = (db_get_token_id T t8 d).2.1 := by
      rw [step_key_eq T2 s t8 ht8, hid]
      by_cases hd : d = 0
      · rw [hq2 hd]
      · obtain ⟨id, dc, hsel⟩ := hfound hd
        rw [hext2, token_id_in_append _ ext2 t8 id dc hsel]
    refine ⟨T2, H2, ?_, hok2, ⟨ext1 ++ ext2, by rw [hext2, hext1, List.append_assoc]⟩, ?_, ?_, ?_⟩
    · simp only [text_to_postings_fold, hinto, ← ht8def, token_to_postings_list_eq, hadd,
        Option.map_some']
      exact hfold
    · intro hd
      rw [hq2 hd, hq hd]
    · intro hd x hx
      rcases List.mem_cons.mp hx with h | h
      · obtain ⟨id, dc, hsel⟩ := hfound hd
        rw [h]
        exact ⟨t8, id, dc, ht8, by rw [hext2]; exact select_token_append t8 ext2 _ 1 _ hsel⟩
      · exact hfound2 hd x h
    · intro k
      rw [hpos2 k, hpos1 k]
      by_cases hk : k = (db_get_token_id T t8 d).2.1
      · rw [if_pos hk, List.filter_cons_of_pos (by simp only [decide_eq_true_eq]; rw [hkey, hk])]
        rw [← hk]
        simp
      · rw [if_neg hk, List.filter_cons_of_neg (by
          simp only [decide_eq_true_eq]; rw [hkey]; exact fun h => hk h.symm)]

theorem positions_of_nil (k : Int) : positions_of [] k = [] := rfl

/-- The entry of a token id with at least one position. -/
theorem entry_of_positions (d : Int) (H : inverted_index_hash) (hok : index_ok d H) (k : Int)
    (h : positions_of H k ≠ []) :
    ∃ e, HASH_FIND_INT H k = some e ∧ e.token_id = k ∧
      e.postings_list = [{ document_id := d, positions := positions_of H k,
                           positions_count := ((positions_of H k).length : Int) }] ∧
      e.positions_count = ((positions_of H k).length : Int) := by
  unfold positions_of at h ⊢
  cases hf : HASH_FIND_INT H k with
  | none => rw [hf] at h; exact absurd rfl h
  | some e =>
    obtain ⟨hmem, hkey⟩ := HASH_FIND_INT_some H k e hf
    obtain ⟨ps, -, hpl, hpc⟩ := hok e hmem
    refine ⟨e, rfl, hkey, ?_, ?_⟩
    · dsimp only; rw [hpl]
    · dsimp only; rw [hpl]; exact hpc

theorem occurrences_eq_range (g : List Nat) : ∀ (t : List Nat) (j : Int),
    occurrences g t j =
      ((List.range t.length).filter (fun i => decide ((t.drop i).take g.length = g))).map
        (fun (i : Nat) => j + (i : Int)) := by
  intro t
  induction t with
  | nil => intro j; rfl
  | cons c cs ih =>
    intro j
    simp only [occurrences, List.length_cons, List.range_succ_eq_map, List.filter_cons,
      List.drop_zero, List.filter_map, List.map_map]
    have hfun : ((fun i => decide (List.take g.length (List.drop i (c :: cs)) = g)) ∘ Nat.succ) =
        fun i => decide (List.take g.length (List.drop i cs) = g) := by
      funext i; simp
    have hfun2 : ((fun (i : Nat) => j + (i : Int)) ∘ Nat.succ) = fun (i : Nat) => j + 1 + (i : Int) := by
      funext i; simp only [Function.comp, Nat.succ_eq_add_one, Nat.cast_add, Nat.cast_one]; omega
    rw [hfun]
    by_cases h : List.take g.length (c :: cs) = g
    · simp only [h, if_true, decide_True, List.map_cons, Nat.cast_zero, Int.add_zero]
      rw [ih (j + 1), List.map_map, hfun2]
    · simp only [h, if_false, decide_False, Bool.false_eq_true]
      rw [ih (j + 1), List.map_map, hfun2]

theorem start_offsets_eq (g b : List Nat) : start_offsets g b = occurrences g b 0 := by
  rw [occurrences_eq_range]
  unfold start_offsets
  congr 1
  funext i; simp

theorem ngram_len_sepfree (n : Nat) : ∀ (t : List Nat), (∀ c ∈ t, wiser_is_ignored_char c = 0) →
    ngram_len n t = min n t.length := by
  induction n with
  | zero => intro t _; simp [ngram_len]
  | succ n ih =>
    intro t h
    cases t with
    | nil => simp [ngram_len]
    | cons c cs =>
      simp only [ngram_len, h c (List.mem_cons_self _ _), if_true, List.length_cons]
      rw [ih cs (fun x hx => h x (List.mem_cons_of_mem _ hx))]
      omega

theorem steps_from_filter_token (n text_len : Nat) (g : List Nat)
    (hg : g.length = n) : ∀ (t : List Nat) (position : Int),
    (∀ c ∈ t, wiser_is_ignored_char c = 0) →
    ((steps_from n text_len t position).filter (fun s => decide (s.token = g))).map
      (fun s => s.position) = occurrences g t position := by
  intro t
  induction t with
  | nil => intro position _; rfl
  | cons c cs ih =>
    intro position h
    have hc := h c (List.mem_cons_self _ _)
    have hcs : ∀ x ∈ cs, wiser_is_ignored_char x = 0 := fun x hx => h x (List.mem_cons_of_mem _ hx)
    simp only [steps_from, hc, ne_eq, not_true_eq_false, if_false, occurrences]
    rw [ngram_len_sepfree n (c :: cs) h]
    have hiff : (List.take (min n (c :: cs).length) (c :: cs) = g) ↔
        (List.take g.length (c :: cs) = g) := by
      rw [hg]
      by_cases hlen : n ≤ (c :: cs).length
      · rw [Nat.min_eq_left hlen]
      · have h1 : min n (c :: cs).length = (c :: cs).length := Nat.min_eq_right (by omega)
        rw [h1, List.take_length, List.take_of_length_le (by omega)]
    by_cases hm : List.take g.length (c :: cs) = g
    · rw [if_pos hm, List.filter_cons_of_pos (by simp only [decide_eq_true_eq]; exact hiff.mpr hm)]
      simp only [List.map_cons]
      rw [ih (position + 1) hcs]
    · rw [if_neg hm, List.filter_cons_of_neg (by
        simp only [decide_eq_true_eq]; exact fun h => hm (hiff.mp h))]
      rw [ih (position + 1) hcs]

theorem step_tokens_subset (n text_len : Nat) : ∀ (t : List Nat) (position : Int),
    ∀ s ∈ steps_from n text_len t position, ∀ c ∈ s.token, c ∈ t := by
  intro t
  induction t with
  | nil => intro position s hs; simp [steps_from] at hs
  | cons c cs ih =>
    intro position s hs x hx
    simp only [steps_from] at hs
    split at hs
    · exact List.mem_cons_of_mem _ (ih _ s hs x hx)
    · rcases List.mem_cons.mp hs with h | h
      · rw [h] at hx
        exact List.mem_of_mem_take hx
      · exact List.mem_cons_of_mem _ (ih _ s h x hx)

/-- C9. Index completeness: for a non-zero document id `d`, `N ≥ 1` and a body
`b` of code points (below `0x200000`) without separators whose tokens fit the
array `t_8` (among any `N` consecutive code points one is below `0x10000`),
`text_to_postings_lists`
into an empty buffer succeeds, and for every N-gram `g` that occurs in `b` the
token of `g` is in the token table and its entry in the buffer holds exactly
one posting: document `d`, the increasing list of all start offsets of `g` in
`b`, and their number as `positions_count`. -/
theorem index_completeness (table : tokens_table) (d : Int) (b : List Nat) (n : Nat)
    (hd : d ≠ 0) (hn : 1 ≤ n) (hsep : ∀ c ∈ b, wiser_is_ignored_char c = 0)
    (hcp : ∀ c ∈ b, c < 0x200000) (hfit : tokens_fit_t_8 n b) :
    ∃ table2 index, text_to_postings_lists table d b n [] = some (table2, index) ∧
      ∀ g : List Nat, g.length = n → (∃ i, (b.drop i).take n = g) →
        ∃ g8 token_id docs_count e, utf32toutf8 g = some g8 ∧
          select_token g8 table2 1 = some (token_id, docs_count) ∧
          HASH_FIND_INT index token_id = some e ∧
          e.postings_list = [{ document_id := d, positions := start_offsets g b,
                               positions_count := ((start_offsets g b).length : Int) }] := by
  have hcalls : text_to_postings_calls d b n = steps_from n b.length b 0 :=
    text_to_postings_calls_indexing d b n hn hd
  have hcp2 : ∀ s ∈ steps_from n b.length b 0,
      ∃ r, utf32toutf8_into s.token (n * MAX_UTF8_SIZE) = some r := by
    have := text_to_postings_calls_fit d b n hcp hfit
    rw [hcalls] at this
    exact this
  obtain ⟨T2, H2, hfold, hok2, -, -, hfound, hpos⟩ :=
    text_to_postings_fold_spec d n (steps_from n b.length b 0) table []
      (fun e he => absurd he (List.not_mem_nil _)) hcp2
  refine ⟨T2, H2, ?_, ?_⟩
  · unfold text_to_postings_lists
    rw [hcalls, hfold]
    simp
  · intro g hg hocc
    -- the positions of the steps whose token is `g`
    have hocc2 : start_offsets g b ≠ [] := by
      obtain ⟨i, hi⟩ := hocc
      unfold start_offsets
      have hlt : i < b.length := by
        by_contra hlt
        rw [List.drop_eq_nil_of_le (by omega)] at hi
        simp only [List.take_nil] at hi
        rw [← hi] at hg
        simp at hg; omega
      intro hnil
      have : (i : Int) ∈ ((List.range b.length).filter
          (fun j => decide ((b.drop j).take g.length = g))).map (fun (j : Nat) => (j : Int)) := by
        apply List.mem_map.mpr
        exact ⟨i, List.mem_filter.mpr ⟨List.mem_range.mpr hlt, by
          simp only [decide_eq_true_eq]; rw [hg]; exact hi⟩, rfl⟩
      rw [hnil] at this
      exact absurd this (List.not_mem_nil _)
    have hsteps := steps_from_filter_token n b.length g hg b 0 hsep
    rw [← start_offsets_eq] at hsteps
    obtain ⟨s0, hs0, hs0g⟩ : ∃ s ∈ steps_from n b.length b 0, s.token = g := by
      cases hfl : (steps_from n b.length b 0).filter (fun s => decide (s.token = g)) with
      | nil => rw [hfl] at hsteps; exact absurd hsteps.symm hocc2
      | cons s rest =>
        have : s ∈ (steps_from n b.length b 0).filter (fun s => decide (s.token = g)) := by
          rw [hfl]; exact List.mem_cons_self _ _
        obtain ⟨h1, h2⟩ := List.mem_filter.mp this
        exact ⟨s, h1, by simpa using h2⟩
    obtain ⟨g8, id, dc, hg8, hsel⟩ := hfound hd s0 hs0
    rw [hs0g] at hg8
    have hkeyg : token_id_in T2 g8 = id := by unfold token_id_in; rw [hsel]
    have hfilter : (steps_from n b.length b 0).filter (fun s => decide (step_key T2 s = id)) =
        (steps_from n b.length b 0).filter (fun s => decide (s.token = g)) := by
      apply List.filter_congr
      intro s hs
      simp only [decide_eq_decide]
      obtain ⟨t8, id2, dc2, ht8, hsel2⟩ := hfound hd s hs
      rw [step_key_eq T2 s t8 ht8]
      constructor
      · intro hk
        have hid2 : token_id_in T2 t8 = id2 := by unfold token_id_in; rw [hsel2]
        rw [hid2] at hk
        rw [hk] at hsel2
        have := select_token_inj t8 g8 T2 1 id dc2 dc hsel2 hsel
        rw [this] at ht8
        exact utf32toutf8_inj s.token g g8 ht8 hg8
      · intro htok
        rw [htok, hg8] at ht8
        simp only [Option.some.injEq] at ht8
        rw [← ht8, hkeyg]
    have hp := hpos id
    rw [positions_of_nil, List.nil_append, hfilter, hsteps] at hp
    obtain ⟨e, he1, -, he3, -⟩ := entry_of_positions d H2 hok2 id (by rw [hp]; exact hocc2)
    rw [hp] at he3
    exact ⟨g8, id, dc, e, hg8, hsel, he1, he3⟩

theorem index_completeness_witness :
    ∃ table2 index, text_to_postings_lists [] 1 [0x61, 0x10000, 0x63, 0x61, 0x10000, 0x63] 2 [] =
        some (table2, index) ∧
      ∀ g : List Nat, g.length = 2 →
        (∃ i, ([0x61, 0x10000, 0x63, 0x61, 0x10000, 0x63].drop i).take 2 = g) →
        ∃ g8 token_id docs_count e, utf32toutf8 g = some g8 ∧
          select_token g8 table2 1 = some (token_id, docs_count) ∧
          HASH_FIND_INT index token_id = some e ∧
          e.postings_list =
            [{ document_id := 1,
               positions := start_offsets g [0x61, 0x10000, 0x63, 0x61, 0x10000, 0x63],
               positions_count :=
                 ((start_offsets g [0x61, 0x10000, 0x63, 0x61, 0x10000, 0x63]).length : Int) }] :=
  index_completeness [] 1 [0x61, 0x10000, 0x63, 0x61, 0x10000, 0x63] 2 (by decide) (by decide)
    (by decide) (by decide) (by decide)

theorem search_docs_intersection_witness :
    ∃ results,
      @search_docs Nat _ _ _ _
          (fun id => if id = 1 then (0, [⟨1, [0], 1⟩, ⟨3, [0], 1⟩, ⟨9, [2], 1⟩])
            else (0, [⟨3, [1], 1⟩, ⟨4, [0], 1⟩, ⟨9, [3], 1⟩]))
          0 (fun _ _ => 1) []
          [⟨1, [⟨0, [0], 1⟩], 3, 1⟩, ⟨2, [⟨0, [1], 1⟩], 3, 1⟩] = some results ∧
        (results.map (fun r => r.document_id)).Nodup ∧
        ∀ d, d ∈ results.map (fun r => r.document_id) ↔
          ∀ t ∈ [(⟨1, [⟨0, [0], 1⟩], 3, 1⟩ : inverted_index_value), ⟨2, [⟨0, [1], 1⟩], 3, 1⟩],
            d ∈ doc_ids ((fun id : Int => if id = 1
              then ((0 : Int), [(⟨1, [0], 1⟩ : postings_list), ⟨3, [0], 1⟩, ⟨9, [2], 1⟩])
              else (0, [⟨3, [1], 1⟩, ⟨4, [0], 1⟩, ⟨9, [3], 1⟩])) t.token_id).2 :=
  @search_docs_intersection Nat _ _ _ _
    (fun id => if id = 1 then (0, [⟨1, [0], 1⟩, ⟨3, [0], 1⟩, ⟨9, [2], 1⟩])
      else (0, [⟨3, [1], 1⟩, ⟨4, [0], 1⟩, ⟨9, [3], 1⟩]))
    (fun _ _ => 1) [⟨1, [⟨0, [0], 1⟩], 3, 1⟩, ⟨2, [⟨0, [1], 1⟩], 3, 1⟩]
    (by decide) (by decide) (by unfold cursor_ok; decide)

/-! ## Search: phrase check -/

theorem dropWhile_cons_spec {α : Type} (f : α → Bool) : ∀ (l : List α) (x : α) (xs : List α),
    l.dropWhile f = x :: xs → f x = false ∧ ∀ y ∈ x :: xs, y ∈ l := by
  intro l
  induction l with
  | nil => intro x xs h; simp at h
  | cons a l ih =>
    intro x xs h
    by_cases ha : f a = true
    · rw [List.dropWhile_cons_of_pos ha] at h
      obtain ⟨h1, h2⟩ := ih x xs h
      exact ⟨h1, fun y hy => List.mem_cons_of_mem _ (h2 y hy)⟩
    · rw [List.dropWhile_cons_of_neg ha] at h
      simp only [List.cons.injEq] at h
      obtain ⟨rfl, rfl⟩ := h
      exact ⟨by simpa using ha, fun y hy => hy⟩

theorem dropWhile_subset {α : Type} (f : α → Bool) (l : List α) : ∀ y ∈ l.dropWhile f, y ∈ l := by
  intro y hy
  cases h : l.dropWhile f with
  | nil => rw [h] at hy; exact absurd hy (List.not_mem_nil _)
  | cons x xs => rw [h] at hy; exact (dropWhile_cons_spec f l x xs h).2 y hy

theorem forall₂_mem_left {α β : Type} {R : α → β → Prop} : ∀ {l1 : List α} {l2 : List β},
    List.Forall₂ R l1 l2 → ∀ a ∈ l1, ∃ b ∈ l2, R a b := by
  intro l1 l2 h
  induction h with
  | nil => intro a ha; exact absurd ha (List.not_mem_nil _)
  | cons hab _ ih =>
    intro a ha
    rcases List.mem_cons.mp ha with h1 | h1
    · rw [h1]; exact ⟨_, List.mem_cons_self _ _, hab⟩
    · obtain ⟨b, hb, hr⟩ := ih a h1
      exact ⟨b, List.mem_cons_of_mem _ hb, hr⟩

theorem forall₂_refl_of {α : Type} {R : α → α → Prop} (hr : ∀ a, R a a) : ∀ (l : List α),
    List.Forall₂ R l l := by
  intro l
  induction l with
  | nil => exact List.Forall₂.nil
  | cons a l ih => exact List.Forall₂.cons (hr a) ih

theorem forall₂_trans_of {α : Type} {R : α → α → Prop} (ht : ∀ a b c, R a b → R b c → R a c) :
    ∀ {l1 l2 l3 : List α}, List.Forall₂ R l1 l2 → List.Forall₂ R l2 l3 → List.Forall₂ R l1 l3 := by
  intro l1 l2 l3 h12
  induction h12 generalizing l3 with
  | nil => intro h; cases h; exact List.Forall₂.nil
  | cons hab _ ih =>
    intro h
    cases h with
    | cons hbc hrest => exact List.Forall₂.cons (ht _ _ _ hab hbc) (ih hrest)

theorem phrase_advance_spec (rel : Int) : ∀ (others : List phrase_search_cursor) (nr : Int)
    (others2 : List phrase_search_cursor), phrase_advance rel others = some (nr, others2) →
    List.Forall₂ cursor_le others others2 ∧
      ((nr = rel ∧ ∀ cur ∈ others2, ∃ p ps, cur.current = p :: ps ∧ p - cur.base = rel) ∨
        rel < nr) := by
  intro others
  induction others with
  | nil =>
    intro nr others2 h
    simp only [phrase_advance, Option.some.injEq, Prod.mk.injEq] at h
    obtain ⟨rfl, rfl⟩ := h
    exact ⟨List.Forall₂.nil, Or.inl ⟨rfl, fun cur hc => absurd hc (List.not_mem_nil _)⟩⟩
  | cons cur rest ih =>
    intro nr others2 h
    simp only [phrase_advance] at h
    cases hdw : cur.current.dropWhile (fun p => decide (p - cur.base < rel)) with
    | nil => rw [hdw] at h; simp at h
    | cons p ps =>
      rw [hdw] at h
      dsimp only at h
      obtain ⟨hp, hsub⟩ := dropWhile_cons_spec _ _ p ps hdw
      simp only [decide_eq_false_iff_not, not_lt] at hp
      have hle : cursor_le cur { cur with current := p :: ps } := ⟨rfl, hsub⟩
      by_cases hne : p - cur.base ≠ rel
      · rw [if_pos hne] at h
        simp only [Option.some.injEq, Prod.mk.injEq] at h
        obtain ⟨rfl, rfl⟩ := h
        exact ⟨List.Forall₂.cons hle (forall₂_refl_of (fun a => ⟨rfl, fun p hp => hp⟩) rest),
          Or.inr (by omega)⟩
      · rw [if_neg hne] at h
        simp only [ne_eq, Decidable.not_not] at hne
        cases hadv : phrase_advance rel rest with
        | none => rw [hadv] at h; simp at h
        | some r =>
          obtain ⟨nr2, rest2⟩ := r
          rw [hadv] at h
          simp only [Option.some.injEq, Prod.mk.injEq] at h
          obtain ⟨rfl, rfl⟩ := h
          obtain ⟨h1, h2⟩ := ih nr2 rest2 hadv
          refine ⟨List.Forall₂.cons hle h1, ?_⟩
          rcases h2 with ⟨h3, h4⟩ | h3
          · left
            refine ⟨h3, fun c hc => ?_⟩
            rcases List.mem_cons.mp hc with h5 | h5
            · rw [h5]; exact ⟨p, ps, rfl, hne⟩
            · exact h4 c h5
          · exact Or.inr h3

theorem search_phrase_loop_sound : ∀ (fuel : Nat) (cs : List phrase_search_cursor) (count : Int),
    search_phrase_loop fuel cs count ≠ count →
    ∃ rel, ∀ cur ∈ cs, ∃ p ∈ cur.current, p - cur.base = rel := by
  intro fuel
  induction fuel with
  | zero => intro cs count h; exact absurd rfl h
  | succ fuel ih =>
    intro cs count h
    cases cs with
    | nil => exact absurd rfl h
    | cons c0 others =>
      simp only [search_phrase_loop] at h
      cases hc : c0.current with
      | nil => rw [hc] at h; exact absurd rfl h
      | cons p0 rest0 =>
        rw [hc] at h
        dsimp only at h
        cases hadv : phrase_advance (p0 - c0.base) others with
        | none => rw [hadv] at h; exact absurd rfl h
        | some r =>
          obtain ⟨nr, others2⟩ := r
          rw [hadv] at h
          dsimp only at h
          obtain ⟨hle, hcase⟩ := phrase_advance_spec _ others nr others2 hadv
          have transfer : ∀ rel, (∀ cur ∈ others2, ∃ p ∈ cur.current, p - cur.base = rel) →
              ∀ cur ∈ others, ∃ p ∈ cur.current, p - cur.base = rel := by
            intro rel hall cur hcur
            obtain ⟨cur2, hcur2, hb, hs⟩ := forall₂_mem_left hle cur hcur
            obtain ⟨p, hp, hpr⟩ := hall cur2 hcur2
            exact ⟨p, hs p hp, by rw [← hb]; exact hpr⟩
          by_cases hgt : nr > p0 - c0.base
          · rw [if_pos hgt] at h
            obtain ⟨rel, hrel⟩ := ih _ _ h
            refine ⟨rel, fun cur hcur => ?_⟩
            rcases List.mem_cons.mp hcur with h1 | h1
            · obtain ⟨p, hp, hpr⟩ := hrel _ (List.mem_cons_self _ _)
              rw [h1, hc]
              exact ⟨p, dropWhile_subset (fun p => decide (p - c0.base < nr)) (p0 :: rest0) p hp, hpr⟩
            · exact transfer rel (fun c hc2 => hrel c (List.mem_cons_of_mem _ hc2)) cur h1
          · have hal : ∀ cur ∈ others2, ∃ p ps, cur.current = p :: ps ∧ p - cur.base = p0 - c0.base := by
              rcases hcase with ⟨-, h2⟩ | h2
              · exact h2
              · omega
            refine ⟨p0 - c0.base, fun cur hcur => ?_⟩
            rcases List.mem_cons.mp hcur with h1 | h1
            · rw [h1, hc]; exact ⟨p0, List.mem_cons_self _ _, rfl⟩
            · refine transfer _ (fun c hc2 => ?_) cur h1
              obtain ⟨p, ps, h3, h4⟩ := hal c hc2
              exact ⟨p, by rw [h3]; exact List.mem_cons_self _ _, h4⟩

theorem advance_cursors_sound (doc_id : Int) : ∀ (others : List (List postings_list)) (nd : Int)
    (others2 : List (List postings_list)), advance_cursors doc_id others = some (nd, others2) →
    List.Forall₂ doc_cursor_le others others2 ∧
      ((nd = 0 ∧ ∀ c ∈ others2, ∃ p ps, c = p :: ps ∧ p.document_id = doc_id) ∨
        (∃ c ∈ others, ∃ p ∈ c, p.document_id = nd)) := by
  intro others
  induction others with
  | nil =>
    intro nd others2 h
    simp only [advance_cursors, Option.some.injEq, Prod.mk.injEq] at h
    obtain ⟨rfl, rfl⟩ := h
    exact ⟨List.Forall₂.nil, Or.inl ⟨rfl, fun c hc => absurd hc (List.not_mem_nil _)⟩⟩
  | cons cur rest ih =>
    intro nd others2 h
    simp only [advance_cursors] at h
    cases hdw : cur.dropWhile (fun p => decide (p.document_id < doc_id)) with
    | nil => rw [hdw] at h; simp at h
    | cons p ps =>
      rw [hdw] at h
      dsimp only at h
      obtain ⟨-, hsub⟩ := dropWhile_cons_spec _ _ p ps hdw
      by_cases hne : p.document_id ≠ doc_id
      · rw [if_pos hne] at h
        simp only [Option.some.injEq, Prod.mk.injEq] at h
        obtain ⟨rfl, rfl⟩ := h
        exact ⟨List.Forall₂.cons hsub (forall₂_refl_of (fun a p hp => hp) rest),
          Or.inr ⟨cur, List.mem_cons_self _ _, p, hsub p (List.mem_cons_self _ _), rfl⟩⟩
      · rw [if_neg hne] at h
        simp only [ne_eq, Decidable.not_not] at hne
        cases hadv : advance_cursors doc_id rest with
        | none => rw [hadv] at h; simp at h
        | some r =>
          obtain ⟨nd2, rest2⟩ := r
          rw [hadv] at h
          simp only [Option.some.injEq, Prod.mk.injEq] at h
          obtain ⟨rfl, rfl⟩ := h
          obtain ⟨h1, h2⟩ := ih nd2 rest2 hadv
          refine ⟨List.Forall₂.cons hsub h1, ?_⟩
          rcases h2 with ⟨h3, h4⟩ | ⟨c, hc, q, hq, hqd⟩
          · left
            refine ⟨h3, fun c hc => ?_⟩
            rcases List.mem_cons.mp hc with h5 | h5
            · rw [h5]; exact ⟨p, ps, rfl, hne⟩
            · exact h4 c h5
          · exact Or.inr ⟨c, List.mem_cons_of_mem _ hc, q, hq, hqd⟩

theorem mem_add_search_result {Score : Type} [Zero Score] [Add Score] :
    ∀ (results : List (search_results Score)) (d : Int) (sc : Score) (r : search_results Score),
      r ∈ add_search_result results d sc →
      r.document_id = d ∨ r.document_id ∈ results.map (fun x => x.document_id) := by
  intro results
  induction results with
  | nil =>
    intro d sc r h
    simp only [add_search_result, List.mem_singleton] at h
    left; rw [h]
  | cons x xs ih =>
    intro d sc r h
    simp only [add_search_result] at h
    split at h
    · rename_i hx
      rcases List.mem_cons.mp h with h1 | h1
      · left; rw [h1]; exact hx
      · right; simp only [List.map_cons, List.mem_cons]; right
        exact List.mem_map.mpr ⟨r, h1, rfl⟩
    · rcases List.mem_cons.mp h with h1 | h1
      · right; simp only [List.map_cons, List.mem_cons]; left; rw [h1]
      · rcases ih d sc r h1 with h2 | h2
        · exact Or.inl h2
        · right; simp only [List.map_cons, List.mem_cons]; exact Or.inr h2

theorem search_docs_loop_sound {Score : Type} [Zero Score] [Add Score] (e : Int)
    (score_fn : List inverted_index_value → List (List postings_list) → Score)
    (tokens : List inverted_index_value) :
    ∀ (fuel : Nat) (cursors : List (List postings_list)) (results results2 : List (search_results Score)),
      (∀ c ∈ cursors, ∀ p ∈ c, 0 < p.document_id) →
      search_docs_loop e score_fn tokens fuel cursors results = some results2 →
      ∀ r ∈ results2, r.document_id ∈ results.map (fun x => x.document_id) ∨
        ∃ cursors2, List.Forall₂ doc_cursor_le cursors cursors2 ∧
          (∀ c ∈ cursors2, ∃ p ps, c = p :: ps ∧ p.document_id = r.document_id) ∧
          (e ≠ 0 → ∃ count, search_phrase tokens cursors2 = some count ∧ count ≠ 0) := by
  intro fuel
  induction fuel with
  | zero =>
    intro cursors results results2 _ h r hr
    simp only [search_docs_loop, Option.some.injEq] at h
    left; rw [← h] at hr; exact List.mem_map.mpr ⟨r, hr, rfl⟩
  | succ fuel ih =>
    intro cursors results results2 hpos h r hr
    have keep : ∀ (res : List (search_results Score)), some res = some results2 →
        r.document_id ∈ res.map (fun x => x.document_id) := by
      intro res hres
      simp only [Option.some.injEq] at hres
      rw [← hres] at hr; exact List.mem_map.mpr ⟨r, hr, rfl⟩
    cases cursors with
    | nil => exact Or.inl (keep _ h)
    | cons c0 others =>
      cases c0 with
      | nil => exact Or.inl (keep _ h)
      | cons p0 rest0 =>
        simp only [search_docs_loop] at h
        cases hadv : advance_cursors p0.document_id others with
        | none => rw [hadv] at h; exact Or.inl (keep _ h)
        | some a =>
          obtain ⟨nd, others2⟩ := a
          rw [hadv] at h
          dsimp only at h
          obtain ⟨hle, hcase⟩ := advance_cursors_sound _ others nd others2 hadv
          have hpos2 : ∀ c ∈ others2, ∀ p ∈ c, 0 < p.document_id := by
            intro c hc p hp
            have hflip : List.Forall₂ (fun a b => doc_cursor_le b a) others2 others := hle.flip
            obtain ⟨c1, hc1, hsub⟩ := forall₂_mem_left hflip c hc
            exact hpos c1 (List.mem_cons_of_mem _ hc1) p (hsub p hp)
          by_cases hnd : nd > 0
          · rw [if_pos hnd] at h
            have hsub0 : doc_cursor_le (p0 :: rest0)
                ((p0 :: rest0).dropWhile (fun p => decide (p.document_id < nd))) :=
              dropWhile_subset _ _
            rcases ih _ results results2 (by
              intro c hc p hp
              rcases List.mem_cons.mp hc with h1 | h1
              · rw [h1] at hp
                exact hpos _ (List.mem_cons_self _ _) p (hsub0 p hp)
              · exact hpos2 c h1 p hp) h r hr with h1 | ⟨cursors2, h2, h3, h4⟩
            · exact Or.inl h1
            · right
              refine ⟨cursors2, ?_, h3, h4⟩
              exact forall₂_trans_of (fun a b c hab hbc p hp => hab p (hbc p hp))
                (List.Forall₂.cons hsub0 hle) h2
          · rw [if_neg hnd] at h
            have hal : ∀ c ∈ others2, ∃ p ps, c = p :: ps ∧ p.document_id = p0.document_id := by
              rcases hcase with ⟨-, h2⟩ | ⟨c, hc, q, hq, hqd⟩
              · exact h2
              · have := hpos c (List.mem_cons_of_mem _ hc) q hq
                omega
            have hhere : List.Forall₂ doc_cursor_le ((p0 :: rest0) :: others)
                ((p0 :: rest0) :: others2) := List.Forall₂.cons (fun p hp => hp) hle
            have hheads : ∀ c ∈ (p0 :: rest0) :: others2,
                ∃ p ps, c = p :: ps ∧ p.document_id = p0.document_id := by
              intro c hc
              rcases List.mem_cons.mp hc with h1 | h1
              · exact ⟨p0, rest0, h1, rfl⟩
              · exact hal c h1
            cases hph : (if e ≠ 0 then search_phrase tokens ((p0 :: rest0) :: others2)
                else some (-1)) with
            | none => rw [hph] at h; simp at h
            | some count =>
              rw [hph] at h
              dsimp only at h
              have hrec := ih _ _ results2 (by
                intro c hc p hp
                rcases List.mem_cons.mp hc with h1 | h1
                · rw [h1] at hp
                  exact hpos _ (List.mem_cons_self _ _) p (List.mem_cons_of_mem _ hp)
                · exact hpos2 c h1 p hp) h r hr
              rcases hrec with h1 | ⟨cursors2, h2, h3, h4⟩
              · by_cases hcount : count ≠ 0
                · rw [if_pos hcount] at h1
                  obtain ⟨x, hx, hxr⟩ := List.mem_map.mp h1
                  rcases mem_add_search_result results _ _ x hx with h5 | h5
                  · right
                    refine ⟨_, hhere, ?_, ?_⟩
                    · intro c hc
                      obtain ⟨p, ps, hc1, hc2⟩ := hheads c hc
                      exact ⟨p, ps, hc1, by rw [hc2, ← hxr, h5]⟩
                    · intro he
                      rw [if_pos he] at hph
                      exact ⟨count, hph, hcount⟩
                  · left; rw [← hxr]; exact h5
                · rw [if_neg hcount] at h1
                  exact Or.inl h1
              · right
                refine ⟨cursors2, ?_, h3, h4⟩
                exact forall₂_trans_of (fun a b c hab hbc p hp => hab p (hbc p hp))
                  (List.Forall₂.cons (fun p hp => List.mem_cons_of_mem _ hp) hle) h2

theorem forall₂_and_right {α β : Type} {R : α → β → Prop} {P : β → Prop} :
    ∀ {l1 : List α} {l2 : List β}, List.Forall₂ R l1 l2 → (∀ b ∈ l2, P b) →
      List.Forall₂ (fun a b => R a b ∧ P b) l1 l2 := by
  intro l1 l2 h
  induction h with
  | nil => intro _; exact List.Forall₂.nil
  | cons hab _ ih =>
    intro hp
    exact List.Forall₂.cons ⟨hab, hp _ (List.mem_cons_self _ _)⟩
      (ih (fun b hb => hp b (List.mem_cons_of_mem _ hb)))

theorem fetch_cursors_some (fetch : Int → Int × List postings_list) :
    ∀ (tokens : List inverted_index_value) (cursors : List (List postings_list)),
      fetch_cursors fetch tokens = some cursors →
      cursors = tokens.map (fun t => (fetch t.token_id).2) ∧ ∀ t ∈ tokens, t.token_id ≠ 0 := by
  intro tokens
  induction tokens with
  | nil =>
    intro cursors h
    simp only [fetch_cursors, Option.some.injEq] at h
    exact ⟨h.symm, fun t ht => absurd ht (List.not_mem_nil _)⟩
  | cons t ts ih =>
    intro cursors h
    simp only [fetch_cursors] at h
    split at h
    · simp at h
    · rename_i hid
      split at h
      · simp at h
      · split at h
        · simp at h
        · cases hr : fetch_cursors fetch ts with
          | none => rw [hr] at h; simp at h
          | some cs =>
            rw [hr] at h
            simp only [Option.map_some', Option.some.injEq] at h
            obtain ⟨h1, h2⟩ := ih cs hr
            refine ⟨by rw [← h, h1]; rfl, fun x hx => ?_⟩
            rcases List.mem_cons.mp hx with h3 | h3
            · rw [h3]; exact hid
            · exact h2 x h3

theorem phrase_cursors_init_spec {S : inverted_index_value → List postings_list → Prop} :
    ∀ {tokens : List inverted_index_value} {cursors : List (List postings_list)},
      List.Forall₂ S tokens cursors →
      ∀ pcs, phrase_cursors_init tokens cursors = some pcs →
      ∀ t ∈ tokens, ∃ c qpl qrest dpl drest, S t c ∧ t.postings_list = qpl :: qrest ∧
        c = dpl :: drest ∧
        ∀ q ∈ qpl.positions, ({ base := q, current := dpl.positions } : phrase_search_cursor) ∈ pcs := by
  intro tokens cursors h
  induction h with
  | nil => intro pcs _ t ht; exact absurd ht (List.not_mem_nil _)
  | @cons t c ts cs hs _ ih =>
    intro pcs hinit x hx
    simp only [phrase_cursors_init] at hinit
    cases hq : t.postings_list with
    | nil => rw [hq] at hinit; simp at hinit
    | cons qpl qrest =>
      cases c with
      | nil => rw [hq] at hinit; simp at hinit
      | cons dpl drest =>
        rw [hq] at hinit
        dsimp only at hinit
        cases hr : phrase_cursors_init ts cs with
        | none => rw [hr] at hinit; simp at hinit
        | some rest =>
          rw [hr] at hinit
          simp only [Option.map_some', Option.some.injEq] at hinit
          rcases List.mem_cons.mp hx with h1 | h1
          · rw [h1]
            refine ⟨_, qpl, qrest, dpl, drest, hs, hq, rfl, fun q hqm => ?_⟩
            rw [← hinit]
            exact List.mem_append_left _ (List.mem_map.mpr ⟨q, hqm, rfl⟩)
          · obtain ⟨c2, qpl2, qrest2, dpl2, drest2, h2, h3, h4, h5⟩ := ih rest hr x h1
            refine ⟨c2, qpl2, qrest2, dpl2, drest2, h2, h3, h4, fun q hqm => ?_⟩
            rw [← hinit]
            exact List.mem_append_right _ (h5 q hqm)

theorem search_phrase_sound (tokens : List inverted_index_value)
    (cursors : List (List postings_list)) (count : Int)
    (h : search_phrase tokens cursors = some count) (hc : count ≠ 0) :
    ∃ pcs rel, phrase_cursors_init tokens cursors = some pcs ∧
      ∀ cur ∈ pcs, ∃ p ∈ cur.current, p - cur.base = rel := by
  unfold search_phrase at h
  cases hinit : phrase_cursors_init tokens cursors with
  | none => rw [hinit] at h; simp at h
  | some pcs =>
    rw [hinit] at h
    dsimp only at h
    split at h
    · simp at h
    cases pcs with
    | nil => simp at h
    | cons c0 others =>
      simp only [Option.some.injEq] at h
      obtain ⟨rel, hrel⟩ := search_phrase_loop_sound _ (c0 :: others) 0 (by rw [h]; exact hc)
      exact ⟨c0 :: others, rel, rfl, hrel⟩

/-- Soundness of `search_docs` with phrase search: every document in the
results has, in the fetched posting list of every query token, a posting
whose positions contain `rel + q` for every position `q` of the token in the
query, for one `rel`. -/
theorem search_docs_sound {Score : Type} [Zero Score] [Add Score] [LT Score]
    [DecidableRel (fun a b : Score => a < b)]
    (fetch : Int → Int × List postings_list) (e : Int) (he : e ≠ 0)
    (score_fn : List inverted_index_value → List (List postings_list) → Score)
    (tokens : List inverted_index_value) (results : List (search_results Score))
    (hpos : ∀ t ∈ tokens, ∀ p ∈ (fetch t.token_id).2, 0 < p.document_id)
    (h : search_docs fetch e score_fn [] tokens = some results) :
    ∀ r ∈ results, ∃ rel : Int, ∀ t ∈ tokens, t.token_id ≠ 0 ∧
      ∃ qpl qrest dpl, t.postings_list = qpl :: qrest ∧ dpl ∈ (fetch t.token_id).2 ∧
        dpl.document_id = r.document_id ∧ ∀ q ∈ qpl.positions, ∃ p ∈ dpl.positions, p - q = rel := by
  intro r hr
  unfold search_docs at h
  by_cases hne : tokens = []
  · rw [if_pos hne] at h
    simp only [Option.some.injEq] at h
    rw [← h] at hr; exact absurd hr (List.not_mem_nil _)
  · rw [if_neg hne] at h
    dsimp only at h
    have hperm := List.perm_insertionSort docs_count_desc tokens
    have hmem : ∀ t, t ∈ tokens.insertionSort docs_count_desc ↔ t ∈ tokens := fun t => hperm.mem_iff
    generalize tokens.insertionSort docs_count_desc = sorted at h hmem
    cases hf : fetch_cursors fetch sorted with
    | none =>
      rw [hf] at h
      simp only [Option.map_some', Option.some.injEq, List.insertionSort] at h
      rw [← h] at hr; exact absurd hr (List.not_mem_nil _)
    | some cursors =>
      rw [hf] at h
      dsimp only at h
      obtain ⟨hcur, hids⟩ := fetch_cursors_some fetch sorted cursors hf
      have hex : ∃ fuel, (search_docs_loop e score_fn sorted fuel cursors []).map
          (fun results => results.insertionSort score_desc) = some results := by
        cases cursors with
        | nil => exact ⟨_, h⟩
        | cons c0 cs => exact ⟨_, h⟩
      clear h
      obtain ⟨fuel, h⟩ := hex
      cases hl : search_docs_loop e score_fn sorted fuel cursors [] with
      | none => rw [hl] at h; simp at h
      | some res =>
        rw [hl] at h
        simp only [Option.map_some', Option.some.injEq] at h
        have hr2 : r ∈ res := by
          rw [← h] at hr
          exact (List.perm_insertionSort score_desc res).mem_iff.mp hr
        have hposc : ∀ c ∈ cursors, ∀ p ∈ c, 0 < p.document_id := by
          intro c hc p hp
          rw [hcur] at hc
          obtain ⟨t, ht, rfl⟩ := List.mem_map.mp hc
          exact hpos t ((hmem t).mp ht) p hp
        rcases search_docs_loop_sound e score_fn sorted fuel cursors [] res hposc hl r hr2 with
          h1 | ⟨cursors2, h2, h3, h4⟩
        · simp at h1
        · obtain ⟨count, hcount, hc0⟩ := h4 he
          obtain ⟨pcs, rel, hinit, hrel⟩ := search_phrase_sound sorted cursors2 count hcount hc0
          rw [hcur, List.forall₂_map_left_iff] at h2
          have h5 : List.Forall₂ (fun t c2 => doc_cursor_le (fetch t.token_id).2 c2 ∧
              ∃ p ps, c2 = p :: ps ∧ p.document_id = r.document_id) sorted cursors2 :=
            forall₂_and_right h2 h3
          refine ⟨rel, fun t ht => ⟨hids t ((hmem t).mpr ht), ?_⟩⟩
          obtain ⟨c, qpl, qrest, dpl, drest, ⟨hsub, p, ps, hcp, hpd⟩, hq, hcd, hall⟩ :=
            phrase_cursors_init_spec h5 pcs hinit t ((hmem t).mpr ht)
          rw [hcd] at hcp hsub
          simp only [List.cons.injEq] at hcp
          refine ⟨qpl, qrest, dpl, hq, hsub dpl (List.mem_cons_self _ _), by rw [hcp.1]; exact hpd,
            fun q hqm => ?_⟩
          obtain ⟨p2, hp2, hp3⟩ := hrel _ (hall q hqm)
          exact ⟨p2, hp2, hp3⟩

theorem uchar2utf8_size_bound : ∀ (a : List Nat) (k : Nat), uchar2utf8_size a = some k →
    ∀ c ∈ a, c < 0x200000 := by
  intro a
  induction a with
  | nil => intro k _ c hc; exact absurd hc (List.not_mem_nil _)
  | cons x xs ih =>
    intro k h c hc
    simp only [uchar2utf8_size] at h
    cases hr : uchar2utf8_size xs with
    | none => rw [hr] at h; simp at h
    | some size =>
      rw [hr] at h
      rcases List.mem_cons.mp hc with h1 | h1
      · rw [h1]
        by_contra hlt
        have h2 : ¬ x < 0x800 := by omega
        have h3 : ¬ x < 0x10000 := by omega
        dsimp only at h
        rw [if_neg h2, if_neg h3, if_neg hlt] at h
        simp at h
      · exact ih size hr c h1

theorem utf32toutf8_bound (a x : List Nat) (h : utf32toutf8 a = some x) :
    ∀ c ∈ a, c < 0x200000 := by
  unfold utf32toutf8 at h
  cases hs : uchar2utf8_size a with
  | none => rw [hs] at h; simp at h
  | some k => exact uchar2utf8_size_bound a k hs

theorem text_to_postings_fold_bound (d : Int) (n : Nat) : ∀ (ss : List token_step)
    (T : tokens_table) (H : inverted_index_hash) (r : tokens_table × inverted_index_hash),
    text_to_postings_fold d n ss T H = some r →
    ∀ s ∈ ss, ∃ r8, utf32toutf8_into s.token (n * MAX_UTF8_SIZE) = some r8 := by
  intro ss
  induction ss with
  | nil => intro T H r _ s hs; exact absurd hs (List.not_mem_nil _)
  | cons s0 ss ih =>
    intro T H r h s hs
    simp only [text_to_postings_fold] at h
    cases hu : utf32toutf8_into s0.token (n * MAX_UTF8_SIZE) with
    | none => rw [hu] at h; simp at h
    | some r8 =>
      obtain ⟨t_8, t_8_size⟩ := r8
      rw [hu] at h
      dsimp only at h
      cases ht : token_to_postings_list T d (t_8.take t_8_size) s0.position H with
      | none => rw [ht] at h; simp at h
      | some p =>
        rw [ht] at h
        dsimp only at h
        rcases List.mem_cons.mp hs with h1 | h1
        · rw [h1]; exact ⟨_, hu⟩
        · exact ih p.1 p.2 r h s h1

/-- What one call of `text_to_postings_lists` into an empty buffer records. -/
theorem text_to_postings_lists_spec (T : tokens_table) (d : Int) (text : List Nat) (n : Nat)
    (T2 : tokens_table) (H : inverted_index_hash)
    (h : text_to_postings_lists T d text n [] = some (T2, H)) :
    index_ok d H ∧ (d = 0 → T2 = T) ∧
      ∀ k, positions_of H k =
        ((text_to_postings_calls d text n).filter (fun s => decide (step_key T2 s = k))).map
          (fun s => s.position) := by
  unfold text_to_postings_lists at h
  cases hf : text_to_postings_fold d n (text_to_postings_calls d text n) T [] with
  | none => rw [hf] at h; simp at h
  | some p =>
    rw [hf] at h
    simp only [ne_eq, not_true_eq_false, if_false, Option.some.injEq] at h
    have hcp := text_to_postings_fold_bound d n _ T [] p hf
    obtain ⟨T3, H3, hfold, hok, -, hq, -, hpos⟩ :=
      text_to_postings_fold_spec d n (text_to_postings_calls d text n) T []
        (fun e he => absurd he (List.not_mem_nil _)) hcp
    rw [hf] at hfold
    simp only [Option.some.injEq] at hfold
    rw [hfold] at h
    simp only [Prod.mk.injEq] at h
    obtain ⟨h1, h2⟩ := h
    subst h1; subst h2
    refine ⟨hok, hq, fun k => ?_⟩
    rw [hpos k, positions_of_nil, List.nil_append]

theorem step_key_inj (T : tokens_table) (s1 s2 : token_step)
    (h : step_key T s1 = step_key T s2) (h0 : step_key T s1 ≠ 0) : s1.token = s2.token := by
  have key : ∀ s : token_step, step_key T s ≠ 0 →
      ∃ t8 dc, utf32toutf8 s.token = some t8 ∧ select_token t8 T 1 = some (step_key T s, dc) := by
    intro s hs
    unfold step_key at hs ⊢
    cases hu : utf32toutf8 s.token with
    | none => rw [hu] at hs; exact absurd rfl hs
    | some t8 =>
      rw [hu] at hs
      dsimp only at hs ⊢
      unfold token_id_in at hs ⊢
      cases hsel : select_token t8 T 1 with
      | none => rw [hsel] at hs; exact absurd rfl hs
      | some p => exact ⟨t8, p.2, rfl, by rw [hsel]⟩
  obtain ⟨a, da, ha1, ha2⟩ := key s1 h0
  obtain ⟨b, db, hb1, hb2⟩ := key s2 (by rw [← h]; exact h0)
  rw [← h] at hb2
  have hab := select_token_inj a b T 1 _ da db ha2 hb2
  rw [hab] at ha1
  exact utf32toutf8_inj s1.token s2.token b ha1 hb1

/-! ## N-grams of a query in a body -/

/-- The N-grams of a text without separators are tokenizer steps: the one
that starts at code point `i` gets position `i`. -/
theorem steps_from_sepfree (n : Nat) (q : List Nat) (hq : ∀ c ∈ q, wiser_is_ignored_char c = 0)
    (i : Nat) (hi : i + n ≤ q.length) (hn : 1 ≤ n) :
    ∃ s ∈ steps_from n q.length q 0, s.token = (q.drop i).take n ∧ s.position = (i : Int) := by
  have hg : ((q.drop i).take n).length = n := by
    rw [List.length_take, List.length_drop]; omega
  have hsteps := steps_from_filter_token n q.length _ hg q 0 hq
  rw [← start_offsets_eq] at hsteps
  have hmem : (i : Int) ∈ start_offsets ((q.drop i).take n) q := by
    unfold start_offsets
    apply List.mem_map.mpr
    refine ⟨i, List.mem_filter.mpr ⟨List.mem_range.mpr (by omega), ?_⟩, rfl⟩
    simp only [decide_eq_true_eq]
    rw [hg]
  rw [← hsteps] at hmem
  obtain ⟨s, hs, hsp⟩ := List.mem_map.mp hmem
  obtain ⟨hs1, hs2⟩ := List.mem_filter.mp hs
  exact ⟨s, hs1, by simpa using hs2, hsp⟩

/-- A tokenizer step stands in the text, after a part of the text that holds
as many non-separator code points as its position says. -/
theorem steps_from_decomp (n : Nat) (body : List Nat) (s : token_step)
    (hs : s ∈ steps_from n body.length body 0) :
    ∃ pre post, body = pre ++ s.token ++ post ∧ (nonsep_count pre : Int) = s.position := by
  obtain ⟨pre2, c, cs, hbody, -, -, hpos, htok⟩ :=
    steps_from_spec n body [] 0 (by simp [nonsep_count]) s (by simpa using hs)
  simp only [List.nil_append] at hbody
  refine ⟨pre2, (c :: cs).drop (ngram_len n (c :: cs)), ?_, hpos.symm⟩
  rw [htok, List.append_assoc, List.take_append_drop]
  exact hbody

theorem nonsep_count_cons_pos (x : Nat) (l : List Nat) (hx : wiser_is_ignored_char x = 0) :
    nonsep_count (x :: l) = nonsep_count l + 1 := by
  simp [nonsep_count, hx]

theorem prefix_eq_of_nonsep_count (A B r1 r2 : List Nat) (x y : Nat)
    (h : A ++ x :: r1 = B ++ y :: r2) (hx : wiser_is_ignored_char x = 0)
    (hy : wiser_is_ignored_char y = 0) (hc : nonsep_count A = nonsep_count B) : A = B := by
  rcases List.append_eq_append_iff.mp h with ⟨a, hB, hr⟩ | ⟨c, hA, hr⟩
  · cases a with
    | nil => rw [hB]; simp
    | cons z zs =>
      simp only [List.cons_append, List.cons.injEq] at hr
      rw [hB, nonsep_count_append, nonsep_count_cons_pos z zs (by rw [← hr.1]; exact hx)] at hc
      omega
  · cases c with
    | nil => rw [hA]; simp
    | cons z zs =>
      simp only [List.cons_append, List.cons.injEq] at hr
      rw [hA, nonsep_count_append, nonsep_count_cons_pos z zs (by rw [← hr.1]; exact hy)] at hc
      omega

/-- Consecutive N-grams of a query at consecutive positions of a body, for
`N ≥ 2`, overlap in the body: the body contains the whole query. -/
theorem ngram_chain (n : Nat) (hn : 2 ≤ n) (q body : List Nat) (rel : Int)
    (hq : ∀ c ∈ q, wiser_is_ignored_char c = 0) (hL : n ≤ q.length)
    (hsteps : ∀ i, i + n ≤ q.length → ∃ pre post, body = pre ++ (q.drop i).take n ++ post ∧
      (nonsep_count pre : Int) = rel + (i : Int)) :
    ∃ pre post, body = pre ++ q ++ post := by
  have main : ∀ i, i + n ≤ q.length → ∃ pre post, body = pre ++ q.take (i + n) ++ post ∧
      (nonsep_count pre : Int) = rel := by
    intro i
    induction i with
    | zero =>
      intro hi
      obtain ⟨pre, post, h1, h2⟩ := hsteps 0 hi
      refine ⟨pre, post, ?_, by simpa using h2⟩
      simpa using h1
    | succ i ih =>
      intro hi
      obtain ⟨pre, post, h1, h2⟩ := ih (by omega)
      obtain ⟨pre2, post2, h3, h4⟩ := hsteps (i + 1) hi
      -- the code point of the query at `i + 1`
      have hlt : i + 1 < q.length := by omega
      have hdrop : q.drop (i + 1) = q[i + 1] :: q.drop (i + 2) := List.drop_eq_getElem_cons hlt
      have hx : wiser_is_ignored_char q[i + 1] = 0 := hq _ (List.getElem_mem _)
      have hA : nonsep_count (q.take (i + 1)) = i + 1 := by
        have := (nonsep_count_eq_length_iff (q.take (i + 1))).mpr
          (fun c hc => hq c (List.mem_of_mem_take hc))
        rw [this, List.length_take]; omega
      have e1 : q.take (i + n) = q.take (i + 1) ++ q[i + 1] :: (q.drop (i + 2)).take (n - 2) := by
        have : i + n = (i + 1) + ((n - 2) + 1) := by omega
        rw [this, List.take_add, hdrop, List.take_succ_cons]
      have e2 : (q.drop (i + 1)).take n = q[i + 1] :: (q.drop (i + 2)).take (n - 1) := by
        have : n = (n - 1) + 1 := by omega
        rw [hdrop]
        nth_rewrite 1 [this]
        rw [List.take_succ_cons]
      have hpre : pre ++ q.take (i + 1) = pre2 := by
        apply prefix_eq_of_nonsep_count _ _ ((q.drop (i + 2)).take (n - 2) ++ post)
          ((q.drop (i + 2)).take (n - 1) ++ post2) q[i + 1] q[i + 1] ?_ hx hx ?_
        · rw [h1, e1, e2] at h3
          simpa using h3
        · rw [nonsep_count_append, hA]
          have : ((nonsep_count pre + (i + 1) : Nat) : Int) = (nonsep_count pre2 : Int) := by
            rw [h4]; push_cast; rw [h2]
          exact_mod_cast this
      refine ⟨pre, post2, ?_, h2⟩
      have e3 : q.take (i + 1 + n) = q.take (i + 1) ++ (q.drop (i + 1)).take n :=
        List.take_add _ _ _
      rw [h3, ← hpre, e3]
      simp only [List.append_assoc]
  obtain ⟨pre, post, h1, -⟩ := main (q.length - n) (by omega)
  have : q.length - n + n = q.length := by omega
  rw [this, List.take_length] at h1
  exact ⟨pre, post, h1⟩

/-- C6, as the code has it. Phrase search soundness for `N ≥ 2` and a query
without separator code points: with phrase search enabled and a database
that holds the index of the documents, every document that `search` returns
is a stored document whose body contains the query as a contiguous run of
code points. (A query shorter than `N` returns nothing.) -/
theorem phrase_search_sound {Score : Type} [Zero Score] [Add Score] [LT Score]
    [DecidableRel (fun a b : Score => a < b)]
    (table : tokens_table) (documents : Int → Option (List Nat))
    (fetch : Int → Int × List postings_list) (n : Nat) (enable_phrase_search : Int)
    (score_fn : List inverted_index_value → List (List postings_list) → Score)
    (query : List Nat) (results : List (search_results Score))
    (hn : 2 ≤ n) (he : enable_phrase_search ≠ 0)
    (hsep : ∀ c ∈ query, wiser_is_ignored_char c = 0)
    (hidx : index_of table n documents fetch)
    (h : search table fetch n enable_phrase_search score_fn query = some results) :
    ∀ r ∈ results, ∃ body, documents r.document_id = some body ∧
      ∃ pre post, body = pre ++ query ++ post := by
  intro r hr
  have hn1 : 1 ≤ n := by omega
  unfold search at h
  by_cases hlen : query.length < n
  · rw [if_pos hlen] at h
    simp only [Option.some.injEq] at h
    rw [← h] at hr
    exact absurd hr (List.not_mem_nil _)
  · rw [if_neg hlen] at h
    unfold split_query_to_tokens at h
    cases hq : text_to_postings_lists table 0 query n [] with
    | none => rw [hq] at h; simp at h
    | some p =>
      obtain ⟨T2, QH⟩ := p
      rw [hq] at h
      dsimp only at h
      obtain ⟨hok, hT, hpos⟩ := text_to_postings_lists_spec table 0 query n T2 QH hq
      have hT2 := hT rfl
      subst hT2
      obtain ⟨rel, hall⟩ := search_docs_sound fetch enable_phrase_search he score_fn QH results
        (fun t _ p hp => (hidx t.token_id p hp).1) h r hr
      have hsteps : ∀ i, i + n ≤ query.length → ∃ body, documents r.document_id = some body ∧
          ∃ pre post, body = pre ++ (query.drop i).take n ++ post ∧
            (nonsep_count pre : Int) = rel + (i : Int) := by
        intro i hi
        obtain ⟨s, hs, hstok, hspos⟩ := steps_from_sepfree n query hsep i hi hn1
        have hslen : s.token.length = n := by
          rw [hstok, List.length_take, List.length_drop]; omega
        have hscall : s ∈ text_to_postings_calls 0 query n := by
          rw [text_to_postings_calls_query query n hn1]
          exact List.mem_filter.mpr ⟨hs, by simpa using hslen⟩
        have himem : (i : Int) ∈ positions_of QH (step_key T2 s) := by
          rw [hpos]
          exact List.mem_map.mpr ⟨s, List.mem_filter.mpr ⟨hscall, by simp⟩, hspos⟩
        obtain ⟨e0, he0, hkey, hpl, -⟩ := entry_of_positions 0 QH hok (step_key T2 s)
          (List.ne_nil_of_mem himem)
        obtain ⟨he0mem, -⟩ := HASH_FIND_INT_some QH _ e0 he0
        obtain ⟨hk0, qpl, qrest, dpl, hqpl, hdpl, hdid, hrel⟩ := hall e0 he0mem
        rw [hpl] at hqpl
        simp only [List.cons.injEq] at hqpl
        obtain ⟨p, hp, hprel⟩ := hrel (i : Int) (by rw [← hqpl.1]; exact himem)
        rw [hkey] at hdpl hk0
        obtain ⟨hdpos, body, index, hdoc, hindex, hposd⟩ := hidx _ dpl hdpl
        obtain ⟨-, -, hpos2⟩ := text_to_postings_lists_spec T2 dpl.document_id body n T2 index hindex
        rw [← hposd, hpos2, text_to_postings_calls_indexing _ body n hn1 (by omega)] at hp
        obtain ⟨s2, hs2, hs2pos⟩ := List.mem_map.mp hp
        obtain ⟨hs2mem, hs2key⟩ := List.mem_filter.mp hs2
        simp only [decide_eq_true_eq] at hs2key
        have htok : s2.token = s.token :=
          (step_key_inj T2 s s2 hs2key.symm hk0).symm
        obtain ⟨pre, post, hbody, hcount⟩ := steps_from_decomp n body s2 hs2mem
        refine ⟨body, by rw [← hdid]; exact hdoc, pre, post, ?_, ?_⟩
        · rw [← hstok, ← htok]; exact hbody
        · rw [hcount, hs2pos]; omega
      obtain ⟨body, hdoc, -⟩ := hsteps 0 (by omega)
      refine ⟨body, hdoc, ngram_chain n hn query body rel hsep (by omega) ?_⟩
      intro i hi
      obtain ⟨body2, hdoc2, hrest⟩ := hsteps i hi
      rw [hdoc] at hdoc2
      simp only [Option.some.injEq] at hdoc2
      rw [hdoc2]
      exact hrest

/-! ## Search on the database of two documents -/

/-- The example database is what the indexer builds: `text_to_postings_lists`
on document 1 and then on document 2, into the same buffer, gives the four
tokens and the postings of `example_fetch` (the column `docs_count` of the
token table is written later, when the buffer is flushed). -/
theorem example_indexing :
    (text_to_postings_lists [] 1 [0x61, 0x62, 0x63] 2 []).bind
        (fun p => text_to_postings_lists p.1 2 [0x61, 0x62] 2 p.2) =
      some ([([0x61, 0x62], 0), ([0x62, 0x63], 0), ([0x63], 0), ([0x62], 0)],
        [⟨1, [⟨1, [0], 1⟩, ⟨2, [0], 1⟩], 2, 1⟩, ⟨2, [⟨1, [1], 1⟩], 1, 1⟩,
         ⟨3, [⟨1, [2], 1⟩], 1, 1⟩, ⟨4, [⟨2, [1], 1⟩], 1, 1⟩]) := by
  decide

theorem example_index_of : index_of example_tokens 2 example_documents example_fetch := by
  have h1 : text_to_postings_lists example_tokens 1 [0x61, 0x62, 0x63] 2 [] =
      some (example_tokens,
        [⟨1, [⟨1, [0], 1⟩], 1, 1⟩, ⟨2, [⟨1, [1], 1⟩], 1, 1⟩, ⟨3, [⟨1, [2], 1⟩], 1, 1⟩]) := by
    decide
  have h2 : text_to_postings_lists example_tokens 2 [0x61, 0x62] 2 [] =
      some (example_tokens, [⟨1, [⟨2, [0], 1⟩], 1, 1⟩, ⟨4, [⟨2, [1], 1⟩], 1, 1⟩]) := by
    decide
  intro token_id pl hpl
  unfold example_fetch at hpl
  split_ifs at hpl with k1 k2 k3 k4
  · simp only [List.mem_cons, List.mem_singleton, List.not_mem_nil, or_false] at hpl
    rcases hpl with h | h
    · rw [h, k1]; exact ⟨by decide, _, _, rfl, h1, rfl⟩
    · rw [h, k1]; exact ⟨by decide, _, _, rfl, h2, rfl⟩
  · simp only [List.mem_singleton] at hpl
    rw [hpl, k2]; exact ⟨by decide, _, _, rfl, h1, rfl⟩
  · simp only [List.mem_singleton] at hpl
    rw [hpl, k3]; exact ⟨by decide, _, _, rfl, h1, rfl⟩
  · simp only [List.mem_singleton] at hpl
    rw [hpl, k4]; exact ⟨by decide, _, _, rfl, h2, rfl⟩
  · exact absurd hpl (List.not_mem_nil _)

/-- The query `"ab."` of three code points with `N = 2` and phrase search
enabled, on the database of the documents `"abc"` and `"ab"`: both documents
are returned, and neither body contains `"ab."`. -/
theorem phrase_search_counterexample :
    index_of example_tokens 2 example_documents example_fetch ∧
      (@search Nat _ _ _ _ example_tokens example_fetch 2 1 (fun _ _ => 1)
          [0x61, 0x62, 0x2E]).map (fun results => results.map (fun r => r.document_id)) =
        some [1, 2] ∧
      example_documents 1 = some [0x61, 0x62, 0x63] ∧
      example_documents 2 = some [0x61, 0x62] ∧
      (¬ ∃ pre post, [0x61, 0x62, 0x63] = pre ++ [0x61, 0x62, 0x2E] ++ post) ∧
      ¬ ∃ pre post, [0x61, 0x62] = pre ++ [0x61, 0x62, 0x2E] ++ post := by
  refine ⟨example_index_of, by decide, rfl, rfl, ?_, ?_⟩
  · rintro ⟨pre, post, h⟩
    have hl := congrArg List.length h
    simp only [List.length_append, List.length_cons, List.length_nil] at hl
    have hpre : pre = [] := List.eq_nil_of_length_eq_zero (by omega)
    rw [hpre] at h
    simp at h
  · rintro ⟨pre, post, h⟩
    have hl := congrArg List.length h
    simp only [List.length_append, List.length_cons, List.length_nil] at hl
    omega

theorem phrase_search_sound_witness :
    @search Nat _ _ _ _ example_tokens example_fetch 2 1 (fun _ _ => 1) [0x61, 0x62, 0x63] =
        some [⟨1, 0 + 1⟩] ∧
      ∀ r ∈ [(⟨1, 0 + 1⟩ : search_results Nat)], ∃ body,
        example_documents r.document_id = some body ∧
          ∃ pre post, body = pre ++ [0x61, 0x62, 0x63] ++ post :=
  ⟨rfl, phrase_search_sound example_tokens example_documents example_fetch 2 1 (fun _ _ => 1)
    [0x61, 0x62, 0x63] [⟨1, 0 + 1⟩] (by decide) (by decide) (by decide) example_index_of rfl⟩

/-! ## Fuel of the search loops -/

theorem length_dropWhile_le {α : Type} (f : α → Bool) : ∀ (l : List α),
    (l.dropWhile f).length ≤ l.length := by
  intro l
  induction l with
  | nil => simp
  | cons x xs ih =>
    simp only [List.dropWhile_cons]
    split
    · simp only [List.length_cons]; omega
    · exact le_refl _

theorem advance_cursors_next (doc_id : Int) : ∀ (others : List (List postings_list)) (nd : Int)
    (others2 : List (List postings_list)), advance_cursors doc_id others = some (nd, others2) →
    nd = 0 ∨ doc_id < nd := by
  intro others
  induction others with
  | nil =>
    intro nd others2 h
    simp only [advance_cursors, Option.some.injEq, Prod.mk.injEq] at h
    exact Or.inl h.1.symm
  | cons cur rest ih =>
    intro nd others2 h
    simp only [advance_cursors] at h
    cases hdw : cur.dropWhile (fun p => decide (p.document_id < doc_id)) with
    | nil => rw [hdw] at h; simp at h
    | cons p ps =>
      rw [hdw] at h
      dsimp only at h
      have hp := (dropWhile_cons_spec _ cur p ps hdw).1
      simp only [decide_eq_false_iff_not, not_lt] at hp
      by_cases hne : p.document_id ≠ doc_id
      · rw [if_pos hne] at h
        simp only [Option.some.injEq, Prod.mk.injEq] at h
        right; omega
      · rw [if_neg hne] at h
        cases hr : advance_cursors doc_id rest with
        | none => rw [hr] at h; simp at h
        | some a =>
          rw [hr] at h
          simp only [Option.some.injEq, Prod.mk.injEq] at h
          rw [← h.1]
          exact ih a.1 a.2 hr

/-- The fuel of `search_phrase_loop` is enough as soon as it exceeds the number
of positions left in the first cursor: the loop then ends because the cursor is
exhausted or a later cursor is, as in the C code. -/
theorem search_phrase_loop_fuel : ∀ (fuel1 fuel2 : Nat) (c0 : phrase_search_cursor)
    (others : List phrase_search_cursor) (count : Int),
    c0.current.length < fuel1 → c0.current.length < fuel2 →
    search_phrase_loop fuel1 (c0 :: others) count = search_phrase_loop fuel2 (c0 :: others) count := by
  intro fuel1
  induction fuel1 with
  | zero => intro fuel2 c0 others count h; omega
  | succ fuel1 ih =>
    intro fuel2 c0 others count h1 h2
    cases fuel2 with
    | zero => omega
    | succ fuel2 =>
      simp only [search_phrase_loop]
      cases hcur : c0.current with
      | nil => rfl
      | cons p0 rest0 =>
        rw [hcur] at h1 h2
        simp only [List.length_cons] at h1 h2
        dsimp only
        cases hadv : phrase_advance (p0 - c0.base) others with
        | none => rfl
        | some a =>
          dsimp only
          by_cases hgt : a.1 > p0 - c0.base
          · rw [if_pos hgt, if_pos hgt]
            have hlen : ((p0 :: rest0).dropWhile (fun p => decide (p - c0.base < a.1))).length ≤
                rest0.length := by
              rw [List.dropWhile_cons_of_pos (by simpa using hgt)]
              exact length_dropWhile_le _ _
            exact ih fuel2 _ _ _ (by dsimp only; omega) (by dsimp only; omega)
          · rw [if_neg hgt, if_neg hgt]
            exact ih fuel2 _ _ _ (by dsimp only; omega) (by dsimp only; omega)

/-- The fuel of `search_docs_loop` is enough as soon as it exceeds the number
of postings left in the first cursor. -/
theorem search_docs_loop_fuel {Score : Type} [Zero Score] [Add Score] (e : Int)
    (score_fn : List inverted_index_value → List (List postings_list) → Score)
    (tokens : List inverted_index_value) :
    ∀ (fuel1 fuel2 : Nat) (c0 : List postings_list) (others : List (List postings_list))
      (results : List (search_results Score)),
      c0.length < fuel1 → c0.length < fuel2 →
      search_docs_loop e score_fn tokens fuel1 (c0 :: others) results =
        search_docs_loop e score_fn tokens fuel2 (c0 :: others) results := by
  intro fuel1
  induction fuel1 with
  | zero => intro fuel2 c0 others results h; omega
  | succ fuel1 ih =>
    intro fuel2 c0 others results h1 h2
    cases fuel2 with
    | zero => omega
    | succ fuel2 =>
      cases c0 with
      | nil => rfl
      | cons p0 rest0 =>
        simp only [List.length_cons] at h1 h2
        simp only [search_docs_loop]
        cases hadv : advance_cursors p0.document_id others with
        | none => rfl
        | some a =>
          dsimp only
          have hnext := advance_cursors_next p0.document_id others a.1 a.2 hadv
          by_cases hgt : a.1 > 0
          · rw [if_pos hgt, if_pos hgt]
            have hlt : p0.document_id < a.1 := by omega
            have hlen : ((p0 :: rest0).dropWhile
                (fun p => decide (p.document_id < a.1))).length ≤ rest0.length := by
              rw [List.dropWhile_cons_of_pos (by simpa using hlt)]
              exact length_dropWhile_le _ _
            exact ih fuel2 _ _ _ (by omega) (by omega)
          · rw [if_neg hgt, if_neg hgt]
            cases (if e ≠ 0 then search_phrase tokens ((p0 :: rest0) :: a.2) else some (-1)) with
            | none => rfl
            | some phrase_count => exact ih fuel2 _ _ _ (by omega) (by omega)

/-! ## Golomb parameter 0 -/

theorem calc_golomb_params_nonpos (m : Int) (h : m ≤ 0) : calc_golomb_params m = none := by
  unfold calc_golomb_params
  rw [if_neg (by omega)]

/-- C11, as the code has it. When `encode_postings_golomb` is called with a
list that is not empty and `0 ≤ documents_count < postings_len`, the
parameter `m = documents_count / postings_len` is 0, no other value is put in
its place: `calc_golomb_params` is called with 0, its assertion `m > 0`
fails and the encoder stops there. -/
theorem encode_postings_golomb_zero_param (documents_count postings_len : Int)
    (postings : List postings_list) (postings_e : buffer) (hne : postings ≠ [])
    (h0 : 0 ≤ documents_count) (hlt : documents_count < postings_len) :
    Int.tdiv documents_count postings_len = 0 ∧ calc_golomb_params 0 = none ∧
      encode_postings_golomb documents_count postings postings_len postings_e = none := by
  have hm : Int.tdiv documents_count postings_len = 0 := by
    rw [Int.tdiv_eq_ediv h0 (by omega)]
    exact Int.ediv_eq_zero_of_lt h0 hlt
  refine ⟨hm, calc_golomb_params_nonpos 0 (le_refl _), ?_⟩
  unfold encode_postings_golomb
  dsimp only
  rw [if_pos ⟨hne, by omega⟩, hm, calc_golomb_params_nonpos 0 (le_refl _)]

/-- Two postings and `documents_count = 1`: `m = 1 / 2 = 0`, and the encoder
fails; with `m = 1` in its place the two gaps would have been encoded. -/
theorem encode_postings_golomb_zero_counterexample :
    Int.tdiv 1 2 = 0 ∧
      encode_postings_golomb 1 [⟨1, [0], 1⟩, ⟨2, [0], 1⟩] 2 alloc_buffer = none ∧
      encode_document_gaps 1 0 0 [⟨1, [0], 1⟩, ⟨2, [0], 1⟩] 0 alloc_buffer =
        some { bytes := [], curr_byte := 0, bit := 2 } := by
  decide

theorem encode_postings_golomb_zero_param_witness :
    Int.tdiv 1 2 = 0 ∧ calc_golomb_params 0 = none ∧
      encode_postings_golomb 1 [⟨1, [0], 1⟩, ⟨2, [0], 1⟩] 2 alloc_buffer = none :=
  encode_postings_golomb_zero_param 1 2 [⟨1, [0], 1⟩, ⟨2, [0], 1⟩] alloc_buffer (by decide)
    (by decide) (by decide)

/-! ## Truncated Golomb input -/

/-- `decode_postings_golomb` has no other return value than 0. -/
theorem decode_postings_golomb_returns_zero (postings_e : List Nat)
    (r : Int × List postings_list × Int) (h : decode_postings_golomb postings_e = some r) :
    r.1 = 0 := by
  unfold decode_postings_golomb at h
  split at h
  · split at h
    · simp at h
    · dsimp only at h
      split at h
      · simp at h
      · simp only [Option.some.injEq] at h
        rw [← h]
  · simp at h

/-- C12: the encoding of the posting list `[(1, [0, 5, 300])]` with
`documents_count = 1` is 20 bytes long. On its first 19 bytes
`decode_postings_golomb` returns 0 and a list whose last position is 206; on
its first 9 bytes it reads the headers of the positions outside of the
buffer. -/
theorem decode_postings_golomb_truncated :
    (encode_postings_golomb 1 [⟨1, [0, 5, 300], 3⟩] 1 alloc_buffer).map BUFFER_PTR =
        some [1, 0, 0, 0, 1, 0, 0, 0, 0, 3, 0, 0, 0, 100, 0, 0, 0, 0, 19, 122] ∧
      decode_postings_golomb [1, 0, 0, 0, 1, 0, 0, 0, 0, 3, 0, 0, 0, 100, 0, 0, 0, 0, 19, 122] =
        some (0, [⟨1, [0, 5, 300], 3⟩], 1) ∧
      decode_postings_golomb [1, 0, 0, 0, 1, 0, 0, 0, 0, 3, 0, 0, 0, 100, 0, 0, 0, 0, 19] =
        some (0, [⟨1, [0, 5, 206], 3⟩], 1) ∧
      decode_postings_golomb [1, 0, 0, 0, 1, 0, 0, 0, 0] = none := by
  decide

/-! ## `fetch_postings` -/

theorem decode_postings_positions_length (mem : List Nat) :
    ∀ (pls : List postings_list) (cur : bit_cursor) (r : List postings_list),
      decode_postings_positions mem pls cur = some r → r.length = pls.length := by
  intro pls
  induction pls with
  | nil =>
    intro cur r h
    simp only [decode_postings_positions, Option.some.injEq] at h
    rw [← h]
  | cons pl pls ih =>
    intro cur r h
    simp only [decode_postings_positions] at h
    split at h
    · split at h
      · simp at h
      · split at h
        · simp at h
        · rename_i rest hrest
          simp only [Option.some.injEq] at h
          rw [← h, List.length_cons, List.length_cons, ih _ rest hrest]
    · simp at h

theorem decode_postings_golomb_length (postings_e : List Nat) (ret len : Int)
    (L : List postings_list) (h : decode_postings_golomb postings_e = some (ret, L, len)) :
    ret = 0 ∧ len = (L.length : Int) := by
  unfold decode_postings_golomb at h
  split at h
  · split at h
    · simp at h
    · dsimp only at h
      split at h
      · simp at h
      · rename_i postings hpost
        simp only [Option.some.injEq, Prod.mk.injEq] at h
        obtain ⟨h1, h2, h3⟩ := h
        have := decode_postings_positions_length _ _ _ _ hpost
        refine ⟨h1.symm, ?_⟩
        rw [← h3, ← h2, this]
  · simp at h

theorem decode_postings_none_length (postings_e : List Nat) (ret len : Int)
    (L : List postings_list) (h : decode_postings_none postings_e = some (ret, L, len)) :
    ret = 0 ∧ len = (L.length : Int) := by
  unfold decode_postings_none at h
  split at h
  · simp at h
  · simp only [Option.some.injEq, Prod.mk.injEq] at h
    obtain ⟨h1, h2, h3⟩ := h
    exact ⟨h1.symm, by rw [← h3, ← h2]⟩

/-- Both decoders return 0 and the length of the list they have built. -/
theorem decode_postings_length (compress : Int) (postings_e : List Nat) (ret len : Int)
    (L : List postings_list) (h : decode_postings compress postings_e = some (ret, L, len)) :
    ret = 0 ∧ len = (L.length : Int) := by
  unfold decode_postings at h
  split at h
  · exact decode_postings_none_length postings_e ret len L h
  · split at h
    · exact decode_postings_golomb_length postings_e ret len L h
    · simp at h

/-- What `fetch_postings` returns has the length of the list as
`*postings_len`. -/
theorem fetch_postings_length (compress : Int) (step : get_postings_step)
    (postings_len : Option Int) (rc len : Int)
    (L : List postings_list) (h : fetch_postings compress step postings_len = some (rc, L, len)) :
    len = (L.length : Int) := by
  unfold fetch_postings at h
  dsimp only at h
  split at h
  · cases hd : decode_postings compress (db_get_postings step).2.2 with
    | none => rw [hd] at h; simp at h
    | some r =>
      obtain ⟨ret, L2, len2⟩ := r
      rw [hd] at h
      have hlen := (decode_postings_length compress _ ret len2 L2 hd).2
      dsimp only at h
      split at h
      · simp only [Option.some.injEq, Prod.mk.injEq] at h
        rw [← h.2.1, ← h.2.2]; exact hlen
      · split at h
        · cases postings_len with
          | none => simp at h
          | some v =>
            simp only [Option.some.injEq, Prod.mk.injEq] at h
            rw [← h.2.1, ← h.2.2]; exact hlen
        · simp only [Option.some.injEq, Prod.mk.injEq] at h
          rw [← h.2.1, ← h.2.2]; exact hlen
  · simp only [Option.some.injEq, Prod.mk.injEq] at h
    rw [← h.2.1, ← h.2.2]
    rfl

/-- What `fetch_postings` returns. When the database answers with a row whose
blob is not empty and the decoder returns a list `L` (the decoders never
return an error themselves): with a pointer `postings_len` it returns `-1` if
the stored `docs_count` differs from the length of `L` and 0 otherwise, with
`L` and its length; with `postings_len = NULL` it returns 0 with `L` when the
counts agree and does not return when they differ. When the decoder does not
return, neither does `fetch_postings`. With an empty blob, or no row, it
returns the status of the database (0 for a row and for `SQLITE_DONE`, the
result code otherwise) with an empty list and length 0. -/
theorem fetch_postings_spec (compress : Int) (postings_len : Option Int) :
    (∀ (docs_count : Int) (blob : List Nat) (ret len : Int) (L : List postings_list),
      blob ≠ [] → decode_postings compress blob = some (ret, L, len) →
        ret = 0 ∧ len = (L.length : Int) ∧
        (∀ v : Int, fetch_postings compress (get_postings_step.row docs_count blob) (some v) =
          some ((if docs_count ≠ (L.length : Int) then -1 else 0), L, (L.length : Int))) ∧
        fetch_postings compress (get_postings_step.row docs_count blob) none =
          (if docs_count ≠ (L.length : Int) then none else some (0, L, (L.length : Int)))) ∧
    (∀ (docs_count : Int) (blob : List Nat), blob ≠ [] → decode_postings compress blob = none →
        fetch_postings compress (get_postings_step.row docs_count blob) postings_len = none) ∧
    (∀ docs_count : Int,
        fetch_postings compress (get_postings_step.row docs_count []) postings_len =
          some (0, [], 0)) ∧
    (∀ rc : Int, fetch_postings compress (get_postings_step.code rc) postings_len =
        some ((if rc = SQLITE_DONE then 0 else rc), [], 0)) := by
  refine ⟨?_, ?_, ?_, ?_⟩
  · intro docs_count blob ret len L hne hdec
    obtain ⟨hret, hlen⟩ := decode_postings_length compress blob ret len L hdec
    have hl : blob.length ≠ 0 := fun h => hne (List.length_eq_zero.mp h)
    refine ⟨hret, hlen, fun v => ?_, ?_⟩
    · unfold fetch_postings
      simp only [db_get_postings]
      rw [if_pos ⟨trivial, hl⟩, hdec]
      dsimp only
      rw [hret, hlen]
      by_cases hc : docs_count ≠ (L.length : Int)
      · simp [hc]
      · simp [hc]
    · unfold fetch_postings
      simp only [db_get_postings]
      rw [if_pos ⟨trivial, hl⟩, hdec]
      dsimp only
      rw [hret, hlen]
      by_cases hc : docs_count ≠ (L.length : Int)
      · simp [hc]
      · simp [hc]
  · intro docs_count blob hne hdec
    have hl : blob.length ≠ 0 := fun h => hne (List.length_eq_zero.mp h)
    unfold fetch_postings
    simp only [db_get_postings]
    rw [if_pos ⟨trivial, hl⟩, hdec]
  · intro docs_count
    unfold fetch_postings
    simp [db_get_postings]
  · intro rc
    unfold fetch_postings
    simp [db_get_postings]

/-- C13. A row of the store with `docs_count = 3` whose blob holds one posting
(raw format). Called as `search_docs` calls it, with `postings_len = NULL`,
`fetch_postings` does not return `-1`: the branch of the count mismatch reads
`*postings_len` for its message. With a pointer (as in `update_postings`) it
returns `-1` with the decoded list, and with the stored count 1 it returns 0
for both. -/
theorem fetch_postings_null_postings_len :
    fetch_postings compress_none
        (get_postings_step.row 3 [7, 0, 0, 0, 1, 0, 0, 0, 5, 0, 0, 0]) none = none ∧
    fetch_postings compress_none
        (get_postings_step.row 3 [7, 0, 0, 0, 1, 0, 0, 0, 5, 0, 0, 0]) (some 0) =
      some (-1, [⟨7, [5], 1⟩], 1) ∧
    fetch_postings compress_none
        (get_postings_step.row 1 [7, 0, 0, 0, 1, 0, 0, 0, 5, 0, 0, 0]) none =
      some (0, [⟨7, [5], 1⟩], 1) ∧
    fetch_postings compress_none
        (get_postings_step.row 1 [7, 0, 0, 0, 1, 0, 0, 0, 5, 0, 0, 0]) (some 0) =
      some (0, [⟨7, [5], 1⟩], 1) := by
  decide

/-! ## `merge_postings` without preconditions -/

theorem merge_postings_loop_perm : ∀ (fuel : Nat) (pa pb : List postings_list),
    pa.length + pb.length ≤ fuel →
    ∃ r, merge_postings_loop fuel pa pb = some r ∧ r.Perm (pa ++ pb) := by
  intro fuel
  induction fuel with
  | zero =>
    intro pa pb hlen
    have ha : pa = [] := List.length_eq_zero.mp (by omega)
    have hb : pb = [] := List.length_eq_zero.mp (by omega)
    subst ha hb
    exact ⟨[], rfl, List.Perm.refl _⟩
  | succ fuel ih =>
    intro pa pb hlen
    cases pa with
    | nil =>
      cases pb with
      | nil => exact ⟨[], rfl, List.Perm.refl _⟩
      | cons b pb2 =>
        simp only [List.length_cons, List.length_nil] at hlen
        obtain ⟨r, h1, h2⟩ := ih [] pb2 (by simp only [List.length_nil]; omega)
        refine ⟨b :: r, by simp only [merge_postings_loop, h1, Option.map_some'], ?_⟩
        simpa using h2
    | cons a pa2 =>
      cases pb with
      | nil =>
        simp only [List.length_cons, List.length_nil] at hlen
        obtain ⟨r, h1, h2⟩ := ih pa2 [] (by simp only [List.length_nil]; omega)
        refine ⟨a :: r, by simp only [merge_postings_loop, h1, Option.map_some'], ?_⟩
        simpa using h2
      | cons b pb2 =>
        simp only [List.length_cons] at hlen
        by_cases hab : a.document_id ≤ b.document_id
        · obtain ⟨r, h1, h2⟩ := ih pa2 (b :: pb2) (by simp only [List.length_cons]; omega)
          refine ⟨a :: r, by simp only [merge_postings_loop, hab, if_true, h1, Option.map_some'], ?_⟩
          exact List.Perm.cons a h2
        · have hba : a.document_id ≥ b.document_id := by omega
          obtain ⟨r, h1, h2⟩ := ih (a :: pa2) pb2 (by simp only [List.length_cons]; omega)
          refine ⟨b :: r, by
            simp only [merge_postings_loop, hab, if_false, hba, if_true, h1, Option.map_some'], ?_⟩
          exact (List.Perm.cons b h2).trans (List.perm_middle.symm)

/-- `merge_postings` never reaches `abort()` and keeps every posting. -/
theorem merge_postings_perm (pa pb : List postings_list) :
    ∃ r, merge_postings pa pb = some r ∧ r.Perm (pa ++ pb) ∧ r.length = pa.length + pb.length := by
  obtain ⟨r, h1, h2⟩ := merge_postings_loop_perm _ pa pb (le_refl _)
  exact ⟨r, h1, h2, by rw [h2.length_eq, List.length_append]⟩

theorem merge_postings_nil_left (pb : List postings_list) : merge_postings [] pb = some pb := by
  obtain ⟨r, h1, h2, -⟩ := merge_postings_perm [] pb
  have hsuff : ∀ (fuel : Nat) (l : List postings_list), l.length ≤ fuel →
      merge_postings_loop fuel [] l = some l := by
    intro fuel
    induction fuel with
    | zero =>
      intro l hl
      have : l = [] := List.length_eq_zero.mp (by omega)
      subst this; rfl
    | succ fuel ih =>
      intro l hl
      cases l with
      | nil => rfl
      | cons b l2 =>
        simp only [List.length_cons] at hl
        simp only [merge_postings_loop, ih l2 (by omega), Option.map_some']
  unfold merge_postings
  exact hsuff _ pb (by simp)

/-! ## Invariants of `merge_inverted_index` -/

/-- A property of the entries that merging two entries keeps is kept by
`merge_inverted_index`, which always returns. -/
theorem merge_inverted_index_inv (P : inverted_index_value → Prop)
    (hmerge : ∀ (t p : inverted_index_value) (m : List postings_list), P t → P p →
      merge_postings t.postings_list p.postings_list = some m →
      P { t with postings_list := m, docs_count := t.docs_count + p.docs_count }) :
    ∀ (to_be_added base : inverted_index_hash), (∀ e ∈ base, P e) → (∀ e ∈ to_be_added, P e) →
      ∃ R, merge_inverted_index base to_be_added = some R ∧ ∀ e ∈ R, P e := by
  intro to_be_added
  induction to_be_added with
  | nil => intro base hb _; exact ⟨base, rfl, hb⟩
  | cons p rest ih =>
    intro base hb ha
    have hp := ha p (List.mem_cons_self _ _)
    have hrest : ∀ e ∈ rest, P e := fun e he => ha e (List.mem_cons_of_mem _ he)
    simp only [merge_inverted_index]
    cases hf : HASH_FIND_INT base p.token_id with
    | none =>
      dsimp only
      apply ih (base ++ [p]) _ hrest
      intro e he
      rcases List.mem_append.mp he with h | h
      · exact hb e h
      · simp only [List.mem_singleton] at h
        rw [h]; exact hp
    | some t =>
      dsimp only
      obtain ⟨m, hm, -, -⟩ := merge_postings_perm t.postings_list p.postings_list
      rw [hm]
      dsimp only
      apply ih _ _ hrest
      intro e he
      rcases mem_hash_write _ base e he with h | h
      · rw [h]
        exact hmerge t p m (hb t (HASH_FIND_INT_some base _ t hf).1) hp hm
      · exact hb e h

/-! ## Invariant I3: `positions_count` is the number of positions -/

theorem index_add_I3 (d k dc pos : Int) (H H2 : inverted_index_hash) (hI : index_I3 H)
    (h : index_add d k dc pos H = some H2) : index_I3 H2 := by
  unfold index_add at h
  cases hf : HASH_FIND_INT H k with
  | none =>
    rw [hf] at h
    simp only [Option.some.injEq] at h
    rw [← h]
    intro e he p hp
    rcases List.mem_append.mp he with h1 | h1
    · exact hI e h1 p hp
    · simp only [List.mem_singleton] at h1
      rw [h1] at hp
      simp only [List.mem_singleton] at hp
      rw [hp]
      simp [posting_I3]
  | some e0 =>
    rw [hf] at h
    dsimp only at h
    have he0 := (HASH_FIND_INT_some H k e0 hf).1
    cases hpl : e0.postings_list with
    | nil => rw [hpl] at h; simp at h
    | cons pl pls =>
      rw [hpl] at h
      simp only [Option.some.injEq] at h
      rw [← h]
      intro e he p hp
      rcases mem_hash_write _ H e he with h1 | h1
      · rw [h1] at hp
        rcases List.mem_cons.mp hp with h2 | h2
        · have := hI e0 he0 pl (by rw [hpl]; exact List.mem_cons_self _ _)
          rw [h2]
          unfold posting_I3 at this ⊢
          simp only [List.length_append, List.length_singleton, Nat.cast_add, Nat.cast_one]
          omega
        · exact hI e0 he0 p (by rw [hpl]; exact List.mem_cons_of_mem _ h2)
      · exact hI e h1 p hp

theorem token_to_postings_list_I3 (T : tokens_table) (d : Int) (tok : List Nat) (pos : Int)
    (H : inverted_index_hash) (r : tokens_table × inverted_index_hash) (hI : index_I3 H)
    (h : token_to_postings_list T d tok pos H = some r) : index_I3 r.2 := by
  rw [token_to_postings_list_eq] at h
  cases ha : index_add d (db_get_token_id T tok d).2.1 (db_get_token_id T tok d).2.2 pos H with
  | none => rw [ha] at h; simp at h
  | some H2 =>
    rw [ha] at h
    simp only [Option.map_some', Option.some.injEq] at h
    rw [← h]
    exact index_add_I3 _ _ _ _ H H2 hI ha

theorem text_to_postings_fold_I3 (d : Int) (n : Nat) : ∀ (ss : List token_step)
    (T : tokens_table) (H : inverted_index_hash) (r : tokens_table × inverted_index_hash),
    index_I3 H → text_to_postings_fold d n ss T H = some r → index_I3 r.2 := by
  intro ss
  induction ss with
  | nil =>
    intro T H r hI h
    simp only [text_to_postings_fold, Option.some.injEq] at h
    rw [← h]; exact hI
  | cons s ss ih =>
    intro T H r hI h
    simp only [text_to_postings_fold] at h
    cases hu : utf32toutf8_into s.token (n * MAX_UTF8_SIZE) with
    | none => rw [hu] at h; simp at h
    | some r8 =>
      obtain ⟨t_8, t_8_size⟩ := r8
      rw [hu] at h
      dsimp only at h
      cases ht : token_to_postings_list T d (t_8.take t_8_size) s.position H with
      | none => rw [ht] at h; simp at h
      | some p =>
        rw [ht] at h
        dsimp only at h
        exact ih p.1 p.2 r
          (token_to_postings_list_I3 T d (t_8.take t_8_size) s.position H p hI ht) h

theorem merge_postings_I3 (pa pb : List postings_list) (ha : ∀ p ∈ pa, posting_I3 p)
    (hb : ∀ p ∈ pb, posting_I3 p) :
    ∃ r, merge_postings pa pb = some r ∧ ∀ p ∈ r, posting_I3 p := by
  obtain ⟨r, h1, h2, -⟩ := merge_postings_perm pa pb
  refine ⟨r, h1, fun p hp => ?_⟩
  rcases List.mem_append.mp (h2.mem_iff.mp hp) with h | h
  · exact ha p h
  · exact hb p h

theorem merge_inverted_index_I3 (base to_be_added : inverted_index_hash) (hb : index_I3 base)
    (ha : index_I3 to_be_added) :
    ∃ R, merge_inverted_index base to_be_added = some R ∧ index_I3 R := by
  apply merge_inverted_index_inv (fun e => ∀ p ∈ e.postings_list, posting_I3 p) _ to_be_added
    base hb ha
  intro t p m ht hp hm q hq
  obtain ⟨r, h1, h2⟩ := merge_postings_I3 t.postings_list p.postings_list ht hp
  rw [hm] at h1
  simp only [Option.some.injEq] at h1
  rw [h1] at hq
  exact h2 q hq

theorem text_to_postings_lists_I3 (T : tokens_table) (d : Int) (text : List Nat) (n : Nat)
    (postings : inverted_index_hash) (r : tokens_table × inverted_index_hash)
    (hI : index_I3 postings) (h : text_to_postings_lists T d text n postings = some r) :
    index_I3 r.2 := by
  unfold text_to_postings_lists at h
  cases hf : text_to_postings_fold d n (text_to_postings_calls d text n) T [] with
  | none => rw [hf] at h; simp at h
  | some p =>
    rw [hf] at h
    dsimp only at h
    have hB : index_I3 p.2 := text_to_postings_fold_I3 d n _ T [] p
      (fun e he => absurd he (List.not_mem_nil _)) hf
    by_cases hne : postings ≠ []
    · rw [if_pos hne] at h
      obtain ⟨R, hR, hRI⟩ := merge_inverted_index_I3 postings p.2 hI hB
      rw [hR] at h
      simp only [Option.map_some', Option.some.injEq] at h
      rw [← h]; exact hRI
    · rw [if_neg hne] at h
      simp only [Option.some.injEq] at h
      rw [← h]; exact hB

theorem text_to_postings_lists_seq_I3 (n : Nat) : ∀ (docs : List (Int × List Nat))
    (T : tokens_table) (postings : inverted_index_hash)
    (r : tokens_table × inverted_index_hash), index_I3 postings →
    text_to_postings_lists_seq n docs T postings = some r → index_I3 r.2 := by
  intro docs
  induction docs with
  | nil =>
    intro T postings r hI h
    simp only [text_to_postings_lists_seq, Option.some.injEq] at h
    rw [← h]; exact hI
  | cons doc docs ih =>
    intro T postings r hI h
    obtain ⟨d, text⟩ := doc
    simp only [text_to_postings_lists_seq] at h
    cases hc : text_to_postings_lists T d text n postings with
    | none => rw [hc] at h; simp at h
    | some p =>
      rw [hc] at h
      dsimp only at h
      exact ih p.1 p.2 r (text_to_postings_lists_I3 T d text n postings p hI hc) h

/-- C16. Invariant I3. An empty index has it; `token_to_postings_list` and
`text_to_postings_lists` keep it (the posting they create or extend has
`positions_count` equal to the number of its positions), also over a
sequence of calls; `merge_postings` and `merge_inverted_index` always return
and keep it. -/
theorem positions_count_invariant :
    index_I3 [] ∧
    (∀ (T : tokens_table) (d : Int) (tok : List Nat) (pos : Int) (H : inverted_index_hash)
      (r : tokens_table × inverted_index_hash), index_I3 H →
      token_to_postings_list T d tok pos H = some r → index_I3 r.2) ∧
    (∀ (T : tokens_table) (d : Int) (text : List Nat) (n : Nat) (postings : inverted_index_hash)
      (r : tokens_table × inverted_index_hash), index_I3 postings →
      text_to_postings_lists T d text n postings = some r → index_I3 r.2) ∧
    (∀ (n : Nat) (docs : List (Int × List Nat)) (T : tokens_table)
      (r : tokens_table × inverted_index_hash),
      text_to_postings_lists_seq n docs T [] = some r → index_I3 r.2) ∧
    (∀ pa pb : List postings_list, (∀ p ∈ pa, posting_I3 p) → (∀ p ∈ pb, posting_I3 p) →
      ∃ r, merge_postings pa pb = some r ∧ ∀ p ∈ r, posting_I3 p) ∧
    (∀ base to_be_added : inverted_index_hash, index_I3 base → index_I3 to_be_added →
      ∃ R, merge_inverted_index base to_be_added = some R ∧ index_I3 R) :=
  ⟨fun _ he => absurd he (List.not_mem_nil _),
   token_to_postings_list_I3, text_to_postings_lists_I3,
   fun n docs T r h => text_to_postings_lists_seq_I3 n docs T [] r
     (fun _ he => absurd he (List.not_mem_nil _)) h,
   merge_postings_I3, merge_inverted_index_I3⟩

theorem positions_count_invariant_witness :
    text_to_postings_lists_seq 2 [(1, [0x61, 0x62, 0x61, 0x62]), (2, [0x61, 0x62])] [] [] =
        some ([([0x61, 0x62], 0), ([0x62, 0x61], 0), ([0x62], 0)],
          [⟨1, [⟨1, [0, 2], 2⟩, ⟨2, [0], 1⟩], 2, 2⟩, ⟨2, [⟨1, [1], 1⟩], 1, 1⟩,
           ⟨3, [⟨1, [3], 1⟩, ⟨2, [1], 1⟩], 2, 1⟩]) ∧
      index_I3 [⟨1, [⟨1, [0, 2], 2⟩, ⟨2, [0], 1⟩], 2, 2⟩, ⟨2, [⟨1, [1], 1⟩], 1, 1⟩,
           ⟨3, [⟨1, [3], 1⟩, ⟨2, [1], 1⟩], 2, 1⟩] :=
  ⟨by decide, positions_count_invariant.2.2.2.1 2
    [(1, [0x61, 0x62, 0x61, 0x62]), (2, [0x61, 0x62])] []
    ([([0x61, 0x62], 0), ([0x62, 0x61], 0), ([0x62], 0)],
      [⟨1, [⟨1, [0, 2], 2⟩, ⟨2, [0], 1⟩], 2, 2⟩, ⟨2, [⟨1, [1], 1⟩], 1, 1⟩,
       ⟨3, [⟨1, [3], 1⟩, ⟨2, [1], 1⟩], 2, 1⟩]) (by decide)⟩

/-! ## The buffer built by one call of `text_to_postings_lists` -/

theorem map_token_id_hash_write (e2 : inverted_index_value) : ∀ (H : inverted_index_hash),
    (hash_write e2 H).map (fun e => e.token_id) = H.map (fun e => e.token_id) := by
  intro H
  induction H with
  | nil => rfl
  | cons x xs ih =>
    simp only [hash_write]
    split
    · rename_i hx
      simp only [List.map_cons, hx]
    · simp only [List.map_cons, ih]

theorem HASH_FIND_INT_none (H : inverted_index_hash) (k : Int) (h : HASH_FIND_INT H k = none) :
    k ∉ H.map (fun e => e.token_id) := by
  unfold HASH_FIND_INT at h
  rw [List.find?_eq_none] at h
  intro hk
  obtain ⟨e, he, hek⟩ := List.mem_map.mp hk
  exact h e he (by simpa using hek)

theorem fresh_index_mono (d b b2 : Int) (H : inverted_index_hash) (hb : b ≤ b2)
    (h : fresh_index d b H) : fresh_index d b2 H := by
  refine ⟨h.1, fun e he => ?_⟩
  obtain ⟨h1, ps, h2, h3, h4, h5⟩ := h.2 e he
  exact ⟨h1, ps, h2, h3, h4, fun x hx => lt_of_lt_of_le (h5 x hx) hb⟩

theorem index_add_fresh (d k dc pos : Int) (H : inverted_index_hash)
    (hok : fresh_index d pos H) :
    ∃ H2, index_add d k dc pos H = some H2 ∧ fresh_index d (pos + 1) H2 := by
  unfold index_add
  cases hf : HASH_FIND_INT H k with
  | none =>
    dsimp only
    refine ⟨_, rfl, ?_, ?_⟩
    · rw [List.map_append, List.nodup_append]
      refine ⟨hok.1, by simp, ?_⟩
      intro a ha hb
      simp only [List.map_cons, List.map_nil, List.mem_singleton] at hb
      rw [hb] at ha
      exact HASH_FIND_INT_none H k hf ha
    · intro e he
      rcases List.mem_append.mp he with h | h
      · exact (fresh_index_mono d pos (pos + 1) H (by omega) hok).2 e h
      · simp only [List.mem_singleton] at h
        rw [h]
        refine ⟨fun hd => by simp [hd], [pos], by simp, rfl, by simp, ?_⟩
        intro x hx
        simp only [List.mem_singleton] at hx
        omega
  | some e =>
    obtain ⟨hmem, hkey⟩ := HASH_FIND_INT_some H k e hf
    obtain ⟨hdc, ps, hps, hpl, hsorted, hbound⟩ := hok.2 e hmem
    dsimp only
    rw [hpl]
    dsimp only
    refine ⟨_, rfl, ?_, ?_⟩
    · rw [map_token_id_hash_write]
      exact hok.1
    · intro x hx
      rcases mem_hash_write _ H x hx with h | h
      · rw [h]
        refine ⟨hdc, ps ++ [pos], by simp, by simp, ?_, ?_⟩
        · rw [List.pairwise_append]
          refine ⟨hsorted, by simp, ?_⟩
          intro a ha b hb
          simp only [List.mem_singleton] at hb
          rw [hb]; exact hbound a ha
        · intro a ha
          rcases List.mem_append.mp ha with h1 | h1
          · have := hbound a h1; omega
          · simp only [List.mem_singleton] at h1
            omega
      · exact (fresh_index_mono d pos (pos + 1) H (by omega) hok).2 x h

theorem text_to_postings_fold_fresh (d : Int) (n : Nat) : ∀ (ss : List token_step)
    (T : tokens_table) (H : inverted_index_hash) (b : Int)
    (r : tokens_table × inverted_index_hash),
    ss.Pairwise (fun s1 s2 => s1.position < s2.position) → (∀ s ∈ ss, b ≤ s.position) →
    fresh_index d b H → text_to_postings_fold d n ss T H = some r →
    ∃ b2, fresh_index d b2 r.2 := by
  intro ss
  induction ss with
  | nil =>
    intro T H b r _ _ hok h
    simp only [text_to_postings_fold, Option.some.injEq] at h
    rw [← h]; exact ⟨b, hok⟩
  | cons s ss ih =>
    intro T H b r hpw hb hok h
    simp only [text_to_postings_fold] at h
    cases hu : utf32toutf8_into s.token (n * MAX_UTF8_SIZE) with
    | none => rw [hu] at h; simp at h
    | some r8 =>
      obtain ⟨t_8, t_8_size⟩ := r8
      obtain ⟨t8, ht8def⟩ : ∃ t8, t8 = t_8.take t_8_size := ⟨_, rfl⟩
      rw [hu] at h
      dsimp only at h
      rw [← ht8def, token_to_postings_list_eq] at h
      obtain ⟨H2, hadd, hok2⟩ := index_add_fresh d (db_get_token_id T t8 d).2.1
        (db_get_token_id T t8 d).2.2 s.position H
        (fresh_index_mono d b s.position H (hb s (List.mem_cons_self _ _)) hok)
      rw [hadd] at h
      simp only [Option.map_some'] at h
      rw [List.pairwise_cons] at hpw
      refine ih _ H2 (s.position + 1) r hpw.2 (fun x hx => ?_) hok2 h
      have := hpw.1 x hx
      omega

theorem steps_from_positions (n text_len : Nat) : ∀ (t : List Nat) (position : Int),
    (steps_from n text_len t position).Pairwise (fun s1 s2 => s1.position < s2.position) ∧
      ∀ s ∈ steps_from n text_len t position, position ≤ s.position := by
  intro t
  induction t with
  | nil => intro position; simp [steps_from]
  | cons c cs ih =>
    intro position
    simp only [steps_from]
    split
    · exact ih position
    · obtain ⟨h1, h2⟩ := ih (position + 1)
      refine ⟨List.pairwise_cons.mpr ⟨fun s hs => ?_, h1⟩, fun s hs => ?_⟩
      · have := h2 s hs
        show position < s.position
        omega
      · rcases List.mem_cons.mp hs with h | h
        · rw [h]
        · have := h2 s h
          omega

theorem text_to_postings_calls_positions (d : Int) (text : List Nat) (n : Nat) :
    (text_to_postings_calls d text n).Pairwise (fun s1 s2 => s1.position < s2.position) ∧
      ∀ s ∈ text_to_postings_calls d text n, 0 ≤ s.position := by
  rcases Nat.eq_zero_or_pos n with hn | hn
  · subst hn
    unfold text_to_postings_calls
    rw [text_to_postings_loop_zero]
    simp
  · rw [text_to_postings_calls_eq d text n hn]
    obtain ⟨h1, h2⟩ := steps_from_positions n text.length text 0
    exact ⟨h1.sublist (List.filter_sublist _), fun s hs => h2 s (List.mem_filter.mp hs).1⟩

/-- The buffer that the loop of `text_to_postings_lists` builds. -/
theorem text_to_postings_calls_fresh (T : tokens_table) (d : Int) (text : List Nat) (n : Nat)
    (r : tokens_table × inverted_index_hash)
    (h : text_to_postings_fold d n (text_to_postings_calls d text n) T [] = some r) :
    ∃ b, fresh_index d b r.2 := by
  obtain ⟨h1, h2⟩ := text_to_postings_calls_positions d text n
  exact text_to_postings_fold_fresh d n _ T [] 0 r h1 h2
    ⟨List.nodup_nil, fun e he => absurd he (List.not_mem_nil _)⟩ h

/-! ## Totality of `text_to_postings_lists` -/

theorem merge_inverted_index_some (base to_be_added : inverted_index_hash) :
    ∃ R, merge_inverted_index base to_be_added = some R := by
  obtain ⟨R, hR, -⟩ := merge_inverted_index_inv (fun _ => True) (fun _ _ _ _ _ _ => trivial)
    to_be_added base (fun _ _ => trivial) (fun _ _ => trivial)
  exact ⟨R, hR⟩

theorem text_to_postings_calls_tokens (d : Int) (text : List Nat) (n : Nat) :
    ∀ s ∈ text_to_postings_calls d text n, ∀ c ∈ s.token, c ∈ text := by
  rcases Nat.eq_zero_or_pos n with hn | hn
  · subst hn
    unfold text_to_postings_calls
    rw [text_to_postings_loop_zero]
    intro s hs; exact absurd hs (List.not_mem_nil _)
  · rw [text_to_postings_calls_eq d text n hn]
    intro s hs c hc
    exact step_tokens_subset n text.length text 0 s (List.mem_filter.mp hs).1 c hc

/-- `text_to_postings_lists` returns on every text of code points that
`utf32toutf8` accepts and whose tokens fit the array `t_8`. -/
theorem text_to_postings_lists_some (T : tokens_table) (d : Int) (text : List Nat) (n : Nat)
    (postings : inverted_index_hash) (hcp : ∀ c ∈ text, c < 0x200000)
    (hfit : tokens_fit_t_8 n text) :
    ∃ r, text_to_postings_lists T d text n postings = some r := by
  obtain ⟨T2, H2, hfold, -⟩ :=
    text_to_postings_fold_spec d n (text_to_postings_calls d text n) T []
      (fun e he => absurd he (List.not_mem_nil _))
      (text_to_postings_calls_fit d text n hcp hfit)
  unfold text_to_postings_lists
  rw [hfold]
  dsimp only
  by_cases hne : postings ≠ []
  · rw [if_pos hne]
    obtain ⟨R, hR⟩ := merge_inverted_index_some postings H2
    rw [hR]
    exact ⟨_, rfl⟩
  · rw [if_neg hne]
    exact ⟨_, rfl⟩

theorem text_to_postings_lists_seq_some (n : Nat) : ∀ (docs : List (Int × List Nat))
    (T : tokens_table) (postings : inverted_index_hash),
    (∀ doc ∈ docs, ∀ c ∈ doc.2, c < 0x200000) →
    (∀ doc ∈ docs, tokens_fit_t_8 n doc.2) →
    ∃ r, text_to_postings_lists_seq n docs T postings = some r := by
  intro docs
  induction docs with
  | nil => intro T postings _ _; exact ⟨_, rfl⟩
  | cons doc docs ih =>
    intro T postings hcp hfit
    obtain ⟨d, text⟩ := doc
    obtain ⟨r, hr⟩ := text_to_postings_lists_some T d text n postings
      (hcp (d, text) (List.mem_cons_self _ _)) (hfit (d, text) (List.mem_cons_self _ _))
    simp only [text_to_postings_lists_seq, hr]
    exact ih r.1 r.2 (fun x hx => hcp x (List.mem_cons_of_mem _ hx))
      (fun x hx => hfit x (List.mem_cons_of_mem _ hx))

/-! ## `docs_count` and the length of the posting list -/

theorem text_to_postings_lists_docs_count (T : tokens_table) (d : Int) (text : List Nat)
    (n : Nat) (postings : inverted_index_hash) (r : tokens_table × inverted_index_hash)
    (hd : d ≠ 0) (hI : ∀ e ∈ postings, e.docs_count = (e.postings_list.length : Int))
    (h : text_to_postings_lists T d text n postings = some r) :
    ∀ e ∈ r.2, e.docs_count = (e.postings_list.length : Int) := by
  unfold text_to_postings_lists at h
  cases hf : text_to_postings_fold d n (text_to_postings_calls d text n) T [] with
  | none => rw [hf] at h; simp at h
  | some p =>
    rw [hf] at h
    dsimp only at h
    obtain ⟨b, hfresh⟩ := text_to_postings_calls_fresh T d text n p hf
    have hB : ∀ e ∈ p.2, e.docs_count = (e.postings_list.length : Int) := by
      intro e he
      obtain ⟨h1, ps, -, h3, -⟩ := hfresh.2 e he
      rw [h1 hd, h3]; rfl
    by_cases hne : postings ≠ []
    · rw [if_pos hne] at h
      obtain ⟨R, hR, hRI⟩ := merge_inverted_index_inv
        (fun e => e.docs_count = (e.postings_list.length : Int))
        (fun t q m ht hq hm => by
          obtain ⟨m2, h1, -, h3⟩ := merge_postings_perm t.postings_list q.postings_list
          rw [hm] at h1
          simp only [Option.some.injEq] at h1
          show t.docs_count + q.docs_count = (m.length : Int)
          rw [h1, h3, ht, hq]; push_cast; rfl) p.2 postings hI hB
      rw [hR] at h
      simp only [Option.map_some', Option.some.injEq] at h
      rw [← h]; exact hRI
    · rw [if_neg hne] at h
      simp only [Option.some.injEq] at h
      rw [← h]; exact hB

theorem text_to_postings_lists_seq_docs_count (n : Nat) : ∀ (docs : List (Int × List Nat))
    (T : tokens_table) (postings : inverted_index_hash)
    (r : tokens_table × inverted_index_hash), (∀ doc ∈ docs, doc.1 ≠ 0) →
    (∀ e ∈ postings, e.docs_count = (e.postings_list.length : Int)) →
    text_to_postings_lists_seq n docs T postings = some r →
    ∀ e ∈ r.2, e.docs_count = (e.postings_list.length : Int) := by
  intro docs
  induction docs with
  | nil =>
    intro T postings r _ hI h
    simp only [text_to_postings_lists_seq, Option.some.injEq] at h
    rw [← h]; exact hI
  | cons doc docs ih =>
    intro T postings r hd hI h
    obtain ⟨d, text⟩ := doc
    simp only [text_to_postings_lists_seq] at h
    cases hc : text_to_postings_lists T d text n postings with
    | none => rw [hc] at h; simp at h
    | some p =>
      rw [hc] at h
      dsimp only at h
      exact ih p.1 p.2 r (fun x hx => hd x (List.mem_cons_of_mem _ hx))
        (text_to_postings_lists_docs_count T d text n postings p
          (hd (d, text) (List.mem_cons_self _ _)) hI hc) h

/-- C14. In a buffer built by a sequence of `text_to_postings_lists` calls
with non-zero document ids, every entry's `docs_count` is the length of its
posting list; the calls return for texts of code points below `0x200000`
whose tokens fit the array `t_8` (`tokens_fit_t_8`). When `update_postings` flushes such an entry and `fetch_postings`
returns 0 with the list `old`, it encodes the list `merge_postings old
p->postings_list`, whose length is the sum of both lengths, and passes that
length as `docs_count` to `db_update_postings`, together with the encoded
bytes. -/
theorem docs_count_invariant (compress documents_count : Int) :
    (∀ (n : Nat) (docs : List (Int × List Nat)) (T : tokens_table),
      (∀ doc ∈ docs, doc.1 ≠ 0) →
      (∀ r, text_to_postings_lists_seq n docs T [] = some r →
        ∀ e ∈ r.2, e.docs_count = (e.postings_list.length : Int)) ∧
      ((∀ doc ∈ docs, ∀ c ∈ doc.2, c < 0x200000) → (∀ doc ∈ docs, tokens_fit_t_8 n doc.2) →
        ∃ r, text_to_postings_lists_seq n docs T [] = some r)) ∧
    (∀ (step : get_postings_step) (p : inverted_index_value) (old : List postings_list)
      (old_len : Int), p.docs_count = (p.postings_list.length : Int) →
      fetch_postings compress step (some 0) = some (0, old, old_len) →
      ∃ merged, merge_postings old p.postings_list = some merged ∧
        merged.length = old.length + p.postings_list.length ∧
        update_postings compress documents_count step p =
          (encode_postings compress documents_count merged (merged.length : Int)
              alloc_buffer).map
            (fun buf =>
              ({ p with postings_list := merged, docs_count := (merged.length : Int) },
                some (p.token_id, (merged.length : Int), BUFFER_PTR buf)))) := by
  constructor
  · intro n docs T hd
    exact ⟨fun r hr => text_to_postings_lists_seq_docs_count n docs T [] r hd
        (fun e he => absurd he (List.not_mem_nil _)) hr,
      fun hcp hfit => text_to_postings_lists_seq_some n docs T [] hcp hfit⟩
  · intro step p old old_len hinv hfetch
    have hlen := fetch_postings_length compress step (some 0) 0 old_len old hfetch
    obtain ⟨merged, hm, -, hml⟩ := merge_postings_perm old p.postings_list
    refine ⟨merged, hm, hml, ?_⟩
    have hdc : p.docs_count + old_len = (merged.length : Int) := by
      rw [hml, hinv, hlen]; push_cast; omega
    unfold update_postings
    rw [hfetch]
    dsimp only
    rw [if_pos rfl]
    by_cases h0 : old_len ≠ 0
    · rw [if_pos h0, hm]
      simp only [Option.map_some']
      rw [hdc]
      cases encode_postings compress documents_count merged (merged.length : Int)
        alloc_buffer with
      | none => rfl
      | some buf => rfl
    · rw [if_neg h0]
      have hold : old = [] := by
        apply List.length_eq_zero.mp
        have : (old.length : Int) = 0 := by rw [← hlen]; omega
        exact_mod_cast this
      rw [hold, merge_postings_nil_left] at hm
      simp only [Option.some.injEq] at hm
      rw [← hm, ← hinv]
      dsimp only
      cases encode_postings compress documents_count p.postings_list p.docs_count
        alloc_buffer with
      | none => rfl
      | some buf => rfl

theorem docs_count_invariant_witness :
    (∃ r, text_to_postings_lists_seq 2 [(1, [0x61, 0x62, 0x61]), (2, [0x10000, 0x62])] [] [] =
        some r ∧ ∀ e ∈ r.2, e.docs_count = (e.postings_list.length : Int)) ∧
    fetch_postings compress_none
        (get_postings_step.row 1 [7, 0, 0, 0, 1, 0, 0, 0, 5, 0, 0, 0]) (some 0) =
      some (0, [⟨7, [5], 1⟩], 1) ∧
    ∃ merged, merge_postings [⟨7, [5], 1⟩] [⟨9, [0], 1⟩] = some merged ∧
      merged.length = 1 + 1 ∧
      update_postings compress_none 9
          (get_postings_step.row 1 [7, 0, 0, 0, 1, 0, 0, 0, 5, 0, 0, 0])
          ⟨4, [⟨9, [0], 1⟩], 1, 1⟩ =
        (encode_postings compress_none 9 merged (merged.length : Int) alloc_buffer).map
          (fun buf =>
            ({ token_id := 4, postings_list := merged, docs_count := (merged.length : Int),
               positions_count := 1 },
              some (4, (merged.length : Int), BUFFER_PTR buf))) :=
  ⟨(((docs_count_invariant compress_none 9).1 2
        [(1, [0x61, 0x62, 0x61]), (2, [0x10000, 0x62])] [] (by decide)).2
        (by decide) (by decide)).elim
      (fun r hr => ⟨r, hr, ((docs_count_invariant compress_none 9).1 2
        [(1, [0x61, 0x62, 0x61]), (2, [0x10000, 0x62])] [] (by decide)).1 r hr⟩),
    by decide, (docs_count_invariant compress_none 9).2
    (get_postings_step.row 1 [7, 0, 0, 0, 1, 0, 0, 0, 5, 0, 0, 0])
    ⟨4, [⟨9, [0], 1⟩], 1, 1⟩ [⟨7, [5], 1⟩] 1 (by decide) (by decide)⟩

/-! ## Invariant I2: the order of the postings and of the positions -/

/-- `merge_inverted_index` with three properties of the entries: `P` for the
entries of `base` before they are merged, `Q` for the entries added (no two
with one token id), `P2` for the entries afterwards. -/
theorem merge_inverted_index_inv2 (P Q P2 : inverted_index_value → Prop)
    (hP : ∀ e, P e → P2 e) (hQ : ∀ e, Q e → P2 e)
    (hmerge : ∀ (t p : inverted_index_value) (m : List postings_list), P t → Q p →
      merge_postings t.postings_list p.postings_list = some m →
      P2 { t with postings_list := m, docs_count := t.docs_count + p.docs_count }) :
    ∀ (to_be_added base : inverted_index_hash),
      (to_be_added.map (fun e => e.token_id)).Nodup → (∀ e ∈ to_be_added, Q e) →
      (∀ e ∈ base, P e ∨ (P2 e ∧ e.token_id ∉ to_be_added.map (fun e => e.token_id))) →
      ∃ R, merge_inverted_index base to_be_added = some R ∧ ∀ e ∈ R, P2 e := by
  intro to_be_added
  induction to_be_added with
  | nil =>
    intro base _ _ hb
    refine ⟨base, rfl, fun e he => ?_⟩
    rcases hb e he with h | h
    · exact hP e h
    · exact h.1
  | cons p rest ih =>
    intro base hnd ha hb
    simp only [List.map_cons, List.nodup_cons] at hnd
    have hp := ha p (List.mem_cons_self _ _)
    have hrest : ∀ e ∈ rest, Q e := fun e he => ha e (List.mem_cons_of_mem _ he)
    have hold : ∀ e ∈ base, P e ∨ (P2 e ∧ e.token_id ∉ rest.map (fun e => e.token_id)) := by
      intro e he
      rcases hb e he with h | h
      · exact Or.inl h
      · refine Or.inr ⟨h.1, fun hm => h.2 ?_⟩
        simp only [List.map_cons, List.mem_cons]
        exact Or.inr hm
    simp only [merge_inverted_index]
    cases hf : HASH_FIND_INT base p.token_id with
    | none =>
      dsimp only
      apply ih (base ++ [p]) hnd.2 hrest
      intro e he
      rcases List.mem_append.mp he with h | h
      · exact hold e h
      · simp only [List.mem_singleton] at h
        rw [h]
        exact Or.inr ⟨hQ p hp, hnd.1⟩
    | some t =>
      dsimp only
      obtain ⟨htm, htk⟩ := HASH_FIND_INT_some base _ t hf
      obtain ⟨m, hm, -, -⟩ := merge_postings_perm t.postings_list p.postings_list
      rw [hm]
      dsimp only
      have hPt : P t := by
        rcases hb t htm with h | h
        · exact h
        · exfalso
          apply h.2
          simp only [List.map_cons, List.mem_cons]
          exact Or.inl htk
      apply ih _ hnd.2 hrest
      intro e he
      rcases mem_hash_write _ base e he with h | h
      · rw [h]
        refine Or.inr ⟨hmerge t p m hPt hp hm, ?_⟩
        show t.token_id ∉ rest.map (fun e => e.token_id)
        rw [htk]; exact hnd.1
      · exact hold e h

/-- One call of `text_to_postings_lists` for a document whose id is above
all the ids in the buffer keeps I2. -/
theorem text_to_postings_lists_I2 (T : tokens_table) (d : Int) (text : List Nat) (n : Nat)
    (postings : inverted_index_hash) (r : tokens_table × inverted_index_hash)
    (hI : ∀ e ∈ postings, postings_I2 e.postings_list ∧
      ∀ p ∈ e.postings_list, p.document_id < d)
    (h : text_to_postings_lists T d text n postings = some r) :
    ∀ e ∈ r.2, postings_I2 e.postings_list ∧ ∀ p ∈ e.postings_list, p.document_id ≤ d := by
  unfold text_to_postings_lists at h
  cases hf : text_to_postings_fold d n (text_to_postings_calls d text n) T [] with
  | none => rw [hf] at h; simp at h
  | some B =>
    rw [hf] at h
    dsimp only at h
    obtain ⟨b, hfresh⟩ := text_to_postings_calls_fresh T d text n B hf
    have hQ : ∀ e ∈ B.2, ∃ ps : List Int, ps.Pairwise (fun x y => x < y) ∧
        e.postings_list =
          [{ document_id := d, positions := ps, positions_count := (ps.length : Int) }] := by
      intro e he
      obtain ⟨-, ps, -, h3, h4, -⟩ := hfresh.2 e he
      exact ⟨ps, h4, h3⟩
    have hQP : ∀ e : inverted_index_value, (∃ ps : List Int, ps.Pairwise (fun x y => x < y) ∧
        e.postings_list =
          [{ document_id := d, positions := ps, positions_count := (ps.length : Int) }]) →
        postings_I2 e.postings_list ∧ ∀ p ∈ e.postings_list, p.document_id ≤ d := by
      rintro e ⟨ps, h1, h2⟩
      rw [h2]
      refine ⟨⟨List.pairwise_singleton _ _, fun p hp => ?_⟩, fun p hp => ?_⟩
      · simp only [List.mem_singleton] at hp
        rw [hp]; exact h1
      · simp only [List.mem_singleton] at hp
        rw [hp]
    by_cases hne : postings ≠ []
    · rw [if_pos hne] at h
      obtain ⟨R, hR, hRI⟩ := merge_inverted_index_inv2
        (fun e => postings_I2 e.postings_list ∧ ∀ p ∈ e.postings_list, p.document_id < d)
        (fun e => ∃ ps : List Int, ps.Pairwise (fun x y => x < y) ∧
          e.postings_list =
            [{ document_id := d, positions := ps, positions_count := (ps.length : Int) }])
        (fun e => postings_I2 e.postings_list ∧ ∀ p ∈ e.postings_list, p.document_id ≤ d)
        (fun e he => ⟨he.1, fun p hp => le_of_lt (he.2 p hp)⟩) hQP
        (fun t q m ht hq hm => by
          obtain ⟨ps, hps, hq2⟩ := hq
          obtain ⟨hq3, hq4⟩ := hQP q ⟨ps, hps, hq2⟩
          obtain ⟨m2, h1, h2, h3⟩ := merge_postings_loop_spec _ t.postings_list q.postings_list
            (le_refl _) ht.1.1 hq3.1 (fun a ha b hb => by
              have := ht.2 a ha
              rw [hq2] at hb
              simp only [List.mem_singleton] at hb
              rw [hb]
              exact ne_of_lt this)
          have hmm : m = m2 := by
            unfold merge_postings at hm
            rw [hm] at h1
            exact Option.some.inj h1
          subst hmm
          refine ⟨⟨h3, fun p hp => ?_⟩, fun p hp => ?_⟩
          · rcases List.mem_append.mp (h2.mem_iff.mp hp) with h5 | h5
            · exact ht.1.2 p h5
            · exact hq3.2 p h5
          · rcases List.mem_append.mp (h2.mem_iff.mp hp) with h5 | h5
            · exact le_of_lt (ht.2 p h5)
            · exact hq4 p h5)
        B.2 postings hfresh.1 hQ (fun e he => Or.inl (hI e he))
      rw [hR] at h
      simp only [Option.map_some', Option.some.injEq] at h
      rw [← h]; exact hRI
    · rw [if_neg hne] at h
      simp only [Option.some.injEq] at h
      rw [← h]
      exact fun e he => hQP e (hQ e he)

theorem text_to_postings_lists_seq_I2 (n : Nat) : ∀ (docs : List (Int × List Nat))
    (T : tokens_table) (postings : inverted_index_hash)
    (r : tokens_table × inverted_index_hash) (d0 : Int),
    (∀ e ∈ postings, postings_I2 e.postings_list ∧ ∀ p ∈ e.postings_list, p.document_id ≤ d0) →
    (∀ doc ∈ docs, d0 < doc.1) → docs.Pairwise (fun a b => a.1 < b.1) →
    text_to_postings_lists_seq n docs T postings = some r →
    ∀ e ∈ r.2, postings_I2 e.postings_list := by
  intro docs
  induction docs with
  | nil =>
    intro T postings r d0 hI _ _ h
    simp only [text_to_postings_lists_seq, Option.some.injEq] at h
    rw [← h]; exact fun e he => (hI e he).1
  | cons doc docs ih =>
    intro T postings r d0 hI hd hpw h
    obtain ⟨d, text⟩ := doc
    simp only [text_to_postings_lists_seq] at h
    cases hc : text_to_postings_lists T d text n postings with
    | none => rw [hc] at h; simp at h
    | some p =>
      rw [hc] at h
      dsimp only at h
      have hd0 : d0 < d := hd (d, text) (List.mem_cons_self _ _)
      rw [List.pairwise_cons] at hpw
      exact ih p.1 p.2 r d
        (text_to_postings_lists_I2 T d text n postings p
          (fun e he => ⟨(hI e he).1, fun q hq => lt_of_le_of_lt ((hI e he).2 q hq) hd0⟩) hc)
        (fun x hx => hpw.1 x hx) hpw.2 h

/-- C15. Invariant I2 in the buffer: after a sequence of
`text_to_postings_lists` calls into one buffer, empty at the start, with
strictly increasing document ids, zero or not, every posting list of the
buffer is strictly increasing by `document_id` and the positions of every
posting are strictly increasing; the calls return for texts of code points
below `0x200000` whose tokens fit the array `t_8` (`tokens_fit_t_8`). -/
theorem buffer_ordering_invariant (n : Nat) (docs : List (Int × List Nat)) (T : tokens_table)
    (hinc : docs.Pairwise (fun a b => a.1 < b.1)) :
    (∀ r, text_to_postings_lists_seq n docs T [] = some r →
      ∀ e ∈ r.2, e.postings_list.Pairwise (fun p q => p.document_id < q.document_id) ∧
        ∀ p ∈ e.postings_list, p.positions.Pairwise (fun x y => x < y)) ∧
    ((∀ doc ∈ docs, ∀ c ∈ doc.2, c < 0x200000) → (∀ doc ∈ docs, tokens_fit_t_8 n doc.2) →
      ∃ r, text_to_postings_lists_seq n docs T [] = some r) := by
  refine ⟨?_, fun hcp hfit => text_to_postings_lists_seq_some n docs T [] hcp hfit⟩
  intro r hr
  cases docs with
  | nil =>
    simp only [text_to_postings_lists_seq, Option.some.injEq] at hr
    rw [← hr]
    intro e he; exact absurd he (List.not_mem_nil _)
  | cons doc rest =>
    exact text_to_postings_lists_seq_I2 n (doc :: rest) T [] r (doc.1 - 1)
      (fun e he => absurd he (List.not_mem_nil _))
      (fun x hx => by
        rcases List.mem_cons.mp hx with h | h
        · rw [h]; omega
        · have := (List.pairwise_cons.mp hinc).1 x h
          omega) hinc hr

theorem buffer_ordering_invariant_witness :
    ∃ r, text_to_postings_lists_seq 2 [(1, [0x61, 0x62, 0x61, 0x62]), (2, [0x10000, 0x62])]
        [] [] = some r ∧
      ∀ e ∈ r.2, e.postings_list.Pairwise (fun p q => p.document_id < q.document_id) ∧
        ∀ p ∈ e.postings_list, p.positions.Pairwise (fun x y => x < y) :=
  have h := buffer_ordering_invariant 2 [(1, [0x61, 0x62, 0x61, 0x62]), (2, [0x10000, 0x62])]
    [] (by decide)
  (h.2 (by decide) (by decide)).elim (fun r hr => ⟨r, hr, h.1 r hr⟩)

/-! ## `merge_inverted_index` -/

theorem merge_inverted_index_loop_eq (to_be_added : inverted_index_hash) :
    ∀ base : inverted_index_hash,
      merge_inverted_index_loop base to_be_added =
        (merge_inverted_index base to_be_added).map (fun R => (R, [])) := by
  induction to_be_added with
  | nil => intro base; rfl
  | cons p rest ih =>
    intro base
    simp only [merge_inverted_index_loop, merge_inverted_index]
    cases HASH_FIND_INT base p.token_id with
    | none => exact ih _
    | some t =>
      dsimp only
      cases merge_postings t.postings_list p.postings_list with
      | none => rfl
      | some m => exact ih _

theorem HASH_FIND_INT_cons (p : inverted_index_value) (rest : inverted_index_hash) (k : Int) :
    HASH_FIND_INT (p :: rest) k = if p.token_id = k then some p else HASH_FIND_INT rest k := by
  unfold HASH_FIND_INT
  by_cases h : p.token_id = k
  · simp [List.find?, h]
  · simp [List.find?, h]

theorem HASH_FIND_INT_of_not_mem (H : inverted_index_hash) (k : Int)
    (h : k ∉ H.map (fun e => e.token_id)) : HASH_FIND_INT H k = none := by
  unfold HASH_FIND_INT
  rw [List.find?_eq_none]
  intro e he hk
  exact h (List.mem_map.mpr ⟨e, he, by simpa using hk⟩)

theorem HASH_FIND_INT_of_mem : ∀ (H : inverted_index_hash),
    (H.map (fun e => e.token_id)).Nodup → ∀ e ∈ H, HASH_FIND_INT H e.token_id = some e := by
  intro H
  induction H with
  | nil => intro _ e he; exact absurd he (List.not_mem_nil _)
  | cons x xs ih =>
    intro hnd e he
    simp only [List.map_cons, List.nodup_cons] at hnd
    rw [HASH_FIND_INT_cons]
    rcases List.mem_cons.mp he with h | h
    · rw [h, if_pos rfl]
    · have hne : x.token_id ≠ e.token_id := by
        intro heq
        exact hnd.1 (List.mem_map.mpr ⟨e, h, heq.symm⟩)
      rw [if_neg hne]
      exact ih hnd.2 e h

theorem HASH_FIND_INT_append_new (base : inverted_index_hash) (p : inverted_index_value)
    (h : HASH_FIND_INT base p.token_id = none) (k : Int) :
    HASH_FIND_INT (base ++ [p]) k =
      if k = p.token_id then some p else HASH_FIND_INT base k := by
  unfold HASH_FIND_INT at h ⊢
  rw [List.find?_append]
  by_cases hk : k = p.token_id
  · rw [if_pos hk, hk, h]
    simp [List.find?]
  · rw [if_neg hk]
    cases List.find? (fun e => decide (e.token_id = k)) base with
    | none =>
      have : ¬ (p.token_id = k) := fun h2 => hk h2.symm
      simp [List.find?, this]
    | some e => simp

/-- The table that `merge_inverted_index` returns, entry by entry. -/
theorem merge_inverted_index_lookup : ∀ (to_be_added base : inverted_index_hash),
    (to_be_added.map (fun e => e.token_id)).Nodup →
    ∃ R, merge_inverted_index base to_be_added = some R ∧
      ∀ k, HASH_FIND_INT R k = merge_index base to_be_added k := by
  intro to_be_added
  induction to_be_added with
  | nil =>
    intro base _
    exact ⟨base, rfl, fun k => rfl⟩
  | cons p rest ih =>
    intro base hnd
    simp only [List.map_cons, List.nodup_cons] at hnd
    have hrest : HASH_FIND_INT rest p.token_id = none := HASH_FIND_INT_of_not_mem rest _ hnd.1
    simp only [merge_inverted_index]
    cases hf : HASH_FIND_INT base p.token_id with
    | none =>
      dsimp only
      obtain ⟨R, hR, hlook⟩ := ih (base ++ [p]) hnd.2
      refine ⟨R, hR, fun k => ?_⟩
      rw [hlook k]
      unfold merge_index
      rw [HASH_FIND_INT_cons, HASH_FIND_INT_append_new base p hf]
      by_cases hk : k = p.token_id
      · rw [hk, hrest, if_pos rfl, if_pos rfl, hf]
      · rw [if_neg hk, if_neg (fun h => hk h.symm)]
    | some t =>
      dsimp only
      obtain ⟨m, hm, -, -⟩ := merge_postings_perm t.postings_list p.postings_list
      rw [hm]
      dsimp only
      obtain ⟨R, hR, hlook⟩ := ih (hash_write
        { t with postings_list := m, docs_count := t.docs_count + p.docs_count } base) hnd.2
      refine ⟨R, hR, fun k => ?_⟩
      have htk := (HASH_FIND_INT_some base _ t hf).2
      have hw := HASH_FIND_INT_hash_write
        { t with postings_list := m, docs_count := t.docs_count + p.docs_count } base t
        (by show HASH_FIND_INT base t.token_id = some t; rw [htk]; exact hf)
      rw [hlook k]
      unfold merge_index
      rw [HASH_FIND_INT_cons, hw k]
      by_cases hk : k = p.token_id
      · have hk2 : k = t.token_id := by rw [htk]; exact hk
        rw [if_pos hk2]
        rw [hk, hrest, if_pos rfl, hf]
        dsimp only
        rw [hm]
        rfl
      · have hk2 : ¬ k = t.token_id := by rw [htk]; exact hk
        rw [if_neg hk2, if_neg (fun h => hk h.symm)]

/-- C17. `merge_inverted_index(base, to_be_added)` with a `base` that is not
empty (and a table `to_be_added`, in which no two entries have one token
id) returns, and empties `to_be_added`. For every entry `p` of
`to_be_added`: when `base` has an entry `t` with its token id, that entry
becomes `t` with the posting list `merge_postings(t, p)` and the sum of both
`docs_count`; otherwise `p` is the entry of its token id in `base`. The entry
found in `base` under any other token id is the same as before. -/
theorem merge_inverted_index_spec (base to_be_added : inverted_index_hash) (hbase : base ≠ [])
    (hnd : (to_be_added.map (fun e => e.token_id)).Nodup) :
    ∃ R, merge_inverted_index_loop base to_be_added = some (R, []) ∧
      merge_inverted_index base to_be_added = some R ∧ R ≠ [] ∧
      (∀ p ∈ to_be_added, ∀ t, HASH_FIND_INT base p.token_id = some t →
        ∃ merged, merge_postings t.postings_list p.postings_list = some merged ∧
          HASH_FIND_INT R p.token_id =
            some { t with postings_list := merged,
                          docs_count := t.docs_count + p.docs_count }) ∧
      (∀ p ∈ to_be_added, HASH_FIND_INT base p.token_id = none →
        HASH_FIND_INT R p.token_id = some p) ∧
      (∀ k, (∀ p ∈ to_be_added, p.token_id ≠ k) → HASH_FIND_INT R k = HASH_FIND_INT base k) := by
  obtain ⟨R, hR, hlook⟩ := merge_inverted_index_lookup to_be_added base hnd
  refine ⟨R, by rw [merge_inverted_index_loop_eq, hR]; rfl, hR, ?_, ?_, ?_, ?_⟩
  · -- the first entry of `base` is still found
    cases base with
    | nil => exact absurd rfl hbase
    | cons b0 bs =>
      intro hnil
      have h0 := hlook b0.token_id
      rw [hnil] at h0
      unfold merge_index at h0
      rw [HASH_FIND_INT_cons, if_pos rfl] at h0
      cases hadd : HASH_FIND_INT to_be_added b0.token_id with
      | none => rw [hadd] at h0; simp [HASH_FIND_INT] at h0
      | some p =>
        rw [hadd] at h0
        dsimp only at h0
        obtain ⟨m, hm, -, -⟩ := merge_postings_perm b0.postings_list p.postings_list
        rw [hm] at h0
        simp [HASH_FIND_INT] at h0
  · intro p hp t ht
    obtain ⟨m, hm, -, -⟩ := merge_postings_perm t.postings_list p.postings_list
    refine ⟨m, hm, ?_⟩
    rw [hlook p.token_id]
    unfold merge_index
    rw [HASH_FIND_INT_of_mem to_be_added hnd p hp, ht]
    dsimp only
    rw [hm]
    rfl
  · intro p hp hnone
    rw [hlook p.token_id]
    unfold merge_index
    rw [HASH_FIND_INT_of_mem to_be_added hnd p hp, hnone]
  · intro k hk
    rw [hlook k]
    unfold merge_index
    rw [HASH_FIND_INT_of_not_mem to_be_added k (by
      intro hmem
      obtain ⟨p, hp, hpk⟩ := List.mem_map.mp hmem
      exact hk p hp hpk)]

theorem merge_inverted_index_spec_witness :
    ∃ R, merge_inverted_index_loop [⟨1, [⟨1, [0], 1⟩], 1, 1⟩, ⟨2, [⟨1, [1], 1⟩], 1, 1⟩]
          [⟨2, [⟨3, [0, 4], 2⟩], 1, 2⟩, ⟨5, [⟨3, [1], 1⟩], 1, 1⟩] = some (R, []) ∧
      merge_inverted_index [⟨1, [⟨1, [0], 1⟩], 1, 1⟩, ⟨2, [⟨1, [1], 1⟩], 1, 1⟩]
          [⟨2, [⟨3, [0, 4], 2⟩], 1, 2⟩, ⟨5, [⟨3, [1], 1⟩], 1, 1⟩] = some R ∧ R ≠ [] ∧
      (∀ p ∈ [(⟨2, [⟨3, [0, 4], 2⟩], 1, 2⟩ : inverted_index_value), ⟨5, [⟨3, [1], 1⟩], 1, 1⟩],
        ∀ t, HASH_FIND_INT [⟨1, [⟨1, [0], 1⟩], 1, 1⟩, ⟨2, [⟨1, [1], 1⟩], 1, 1⟩] p.token_id =
            some t →
        ∃ merged, merge_postings t.postings_list p.postings_list = some merged ∧
          HASH_FIND_INT R p.token_id =
            some { t with postings_list := merged,
                          docs_count := t.docs_count + p.docs_count }) ∧
      (∀ p ∈ [(⟨2, [⟨3, [0, 4], 2⟩], 1, 2⟩ : inverted_index_value), ⟨5, [⟨3, [1], 1⟩], 1, 1⟩],
        HASH_FIND_INT [⟨1, [⟨1, [0], 1⟩], 1, 1⟩, ⟨2, [⟨1, [1], 1⟩], 1, 1⟩] p.token_id = none →
        HASH_FIND_INT R p.token_id = some p) ∧
      (∀ k, (∀ p ∈ [(⟨2, [⟨3, [0, 4], 2⟩], 1, 2⟩ : inverted_index_value),
            ⟨5, [⟨3, [1], 1⟩], 1, 1⟩], p.token_id ≠ k) →
        HASH_FIND_INT R k =
          HASH_FIND_INT [⟨1, [⟨1, [0], 1⟩], 1, 1⟩, ⟨2, [⟨1, [1], 1⟩], 1, 1⟩] k) :=
  merge_inverted_index_spec [⟨1, [⟨1, [0], 1⟩], 1, 1⟩, ⟨2, [⟨1, [1], 1⟩], 1, 1⟩]
    [⟨2, [⟨3, [0, 4], 2⟩], 1, 2⟩, ⟨5, [⟨3, [1], 1⟩], 1, 1⟩] (by decide) (by decide)

/-! ## The token sort of `search_docs` -/

/-- After the token sort of `search_docs` every token is followed only by
tokens with at most its `docs_count`: the first token, which drives the
walk, has the largest `docs_count`. -/
theorem docs_count_sort_descending (tokens : List inverted_index_value) :
    (tokens.insertionSort docs_count_desc).Pairwise (fun a b => b.docs_count ≤ a.docs_count) := by
  haveI : IsTotal inverted_index_value docs_count_desc :=
    ⟨fun a b => by unfold docs_count_desc; omega⟩
  haveI : IsTrans inverted_index_value docs_count_desc :=
    ⟨fun a b c hab hbc => by unfold docs_count_desc at *; omega⟩
  have h := List.sorted_insertionSort docs_count_desc tokens
  refine List.Pairwise.imp ?_ h
  intro a b hab
  unfold docs_count_desc at hab
  omega

/-- C18: three query tokens with `docs_count` 1, 3 and 2. The sort of
`search_docs` puts them in the order 3, 2, 1, and the cursors are filled in
that order: cursor 0 belongs to the token with the largest `docs_count`. -/
theorem docs_count_sort_example :
    (List.insertionSort docs_count_desc
        [⟨1, [⟨0, [0], 1⟩], 1, 1⟩, ⟨2, [⟨0, [1], 1⟩], 3, 1⟩, ⟨3, [⟨0, [2], 1⟩], 2, 1⟩]).map
      (fun t => (t.token_id, t.docs_count)) = [(2, 3), (3, 2), (1, 1)] ∧
    fetch_cursors (fun id => (0, [⟨id, [0], 1⟩]))
      (List.insertionSort docs_count_desc
        [⟨1, [⟨0, [0], 1⟩], 1, 1⟩, ⟨2, [⟨0, [1], 1⟩], 3, 1⟩, ⟨3, [⟨0, [2], 1⟩], 2, 1⟩]) =
      some [[⟨2, [0], 1⟩], [⟨3, [0], 1⟩], [⟨1, [0], 1⟩]] := by
  decide

/-! ## Queries without results -/

theorem fetch_cursors_none (fetch : Int → Int × List postings_list) :
    ∀ (tokens : List inverted_index_value),
      (∃ t ∈ tokens, t.token_id = 0 ∨ (fetch t.token_id).2 = []) →
      fetch_cursors fetch tokens = none := by
  intro tokens
  induction tokens with
  | nil => rintro ⟨t, ht, -⟩; exact absurd ht (List.not_mem_nil _)
  | cons x xs ih =>
    rintro ⟨t, ht, hbad⟩
    simp only [fetch_cursors]
    split
    · rfl
    · rename_i hid
      split
      · rfl
      · split
        · rfl
        · rename_i hne
          rcases List.mem_cons.mp ht with h | h
          · rw [h] at hbad
            rcases hbad with h1 | h1
            · exact absurd h1 hid
            · exact absurd h1 hne
          · rw [ih ⟨t, h, hbad⟩]
            rfl

/-- C19. When one of the query tokens has `token_id = 0`, or the posting list
fetched for one of them is empty, `search_docs` returns the results it was
given, sorted by score: no document is added, whatever is fetched for the
other tokens and whether phrase search is enabled or not. -/
theorem search_docs_unknown_token {Score : Type} [Zero Score] [Add Score] [LT Score]
    [DecidableRel (fun a b : Score => a < b)]
    (fetch : Int → Int × List postings_list) (enable_phrase_search : Int)
    (score_fn : List inverted_index_value → List (List postings_list) → Score)
    (results : List (search_results Score)) (tokens : List inverted_index_value)
    (h : ∃ t ∈ tokens, t.token_id = 0 ∨ (fetch t.token_id).2 = []) :
    search_docs fetch enable_phrase_search score_fn results tokens =
        some (results.insertionSort score_desc) ∧
      (results.insertionSort score_desc).Perm results ∧
      search_docs fetch enable_phrase_search score_fn [] tokens = some [] := by
  have hne : tokens ≠ [] := by
    obtain ⟨t, ht, -⟩ := h
    exact List.ne_nil_of_mem ht
  have hnone : fetch_cursors fetch (tokens.insertionSort docs_count_desc) = none := by
    apply fetch_cursors_none
    obtain ⟨t, ht, hbad⟩ := h
    exact ⟨t, (List.perm_insertionSort docs_count_desc tokens).mem_iff.mpr ht, hbad⟩
  have key : ∀ res : List (search_results Score),
      search_docs fetch enable_phrase_search score_fn res tokens =
        some (res.insertionSort score_desc) := by
    intro res
    unfold search_docs
    rw [if_neg hne]
    dsimp only
    rw [hnone]
    rfl
  exact ⟨key results, List.perm_insertionSort score_desc results, key []⟩

theorem search_docs_unknown_token_witness :
    @search_docs Nat _ _ _ _ (fun id => if id = 1 then (0, [⟨1, [0], 1⟩, ⟨2, [0], 1⟩]) else (0, []))
        1 (fun _ _ => 1) [] [⟨1, [⟨0, [0], 1⟩], 2, 1⟩, ⟨0, [⟨0, [1], 1⟩], 0, 1⟩] = some [] :=
  (@search_docs_unknown_token Nat _ _ _ _
    (fun id => if id = 1 then (0, [⟨1, [0], 1⟩, ⟨2, [0], 1⟩]) else (0, []))
    1 (fun _ _ => 1) [] [⟨1, [⟨0, [0], 1⟩], 2, 1⟩, ⟨0, [⟨0, [1], 1⟩], 0, 1⟩]
    ⟨⟨0, [⟨0, [1], 1⟩], 0, 1⟩, by decide, Or.inl rfl⟩).2.2

/-- C20. A query of fewer than `token_len` code points: `search` gives no
result, whatever the token table and the postings in the database are (the
query is not split into tokens and nothing is fetched). -/
theorem search_too_short {Score : Type} [Zero Score] [Add Score] [LT Score]
    [DecidableRel (fun a b : Score => a < b)]
    (table : tokens_table) (fetch : Int → Int × List postings_list) (token_len : Nat)
    (enable_phrase_search : Int)
    (score_fn : List inverted_index_value → List (List postings_list) → Score)
    (query32 : List Nat) (h : query32.length < token_len) :
    search table fetch token_len enable_phrase_search score_fn query32 = some [] := by
  unfold search
  rw [if_pos h]

theorem search_too_short_witness :
    @search Nat _ _ _ _ example_tokens example_fetch 2 1 (fun _ _ => 1) [0x61] = some [] :=
  search_too_short example_tokens example_fetch 2 1 (fun _ _ => 1) [0x61] (by decide)

/-! ## The bit format of the Golomb code -/

theorem bits_value_zero_masked_bits (v k : Nat) (h : v < 2 ^ k) :
    bits_value 0 (masked_bits v k) = v := by
  rw [bits_value_masked_bits, Nat.zero_mul, Nat.zero_add, Nat.mod_eq_of_lt h]

/-- C30. The bit format of the Golomb-Rice code: for `m ≥ 1` with the
parameters `(b, t)` of `calc_golomb_params` (`b` is the least exponent with
`2^b ≥ m` and `t = 2^b - m`) and every `n`, `golomb_encoding` appends with
`append_buffer_bit` exactly `n / m` one-bits, one zero-bit, and then, with
`r = n % m`: nothing when `m = 1`; the `b - 1` bits of `r`, most significant
first, when `m > 1` and `r < t`; the `b` bits of `r + t`, most significant
first, otherwise. -/
theorem golomb_bit_format (m b t n : Nat) (buf : buffer)
    (hparams : calc_golomb_params (m : Int) = some (b, t)) :
    1 ≤ m ∧ m ≤ 2 ^ b ∧ (∀ k, m ≤ 2 ^ k → b ≤ k) ∧ t = 2 ^ b - m ∧
    ∃ rem : List Bool,
      golomb_encoding m b t n buf =
        write_bits buf (List.replicate (n / m) true ++ [false] ++ rem) ∧
      (m = 1 → rem = []) ∧
      (1 < m → n % m < t → rem.length = b - 1 ∧ rem = masked_bits (n % m) (b - 1) ∧
        bits_value 0 rem = n % m) ∧
      (1 < m → t ≤ n % m → rem.length = b ∧ rem = masked_bits (n % m + t) b ∧
        bits_value 0 rem = n % m + t) := by
  obtain ⟨h0, hpow, hmin⟩ := calc_golomb_params_spec (m : Int) b t hparams
  simp only [Int.toNat_ofNat] at hpow hmin
  have hm : 1 ≤ m := by omega
  have hmin2 : ∀ k, m ≤ 2 ^ k → b ≤ k := by
    intro k hk
    rcases hmin with h | h
    · omega
    · by_contra hlt
      have : k ≤ b - 1 := by omega
      have := Nat.pow_le_pow_right (show 0 < 2 by decide) this
      omega
  refine ⟨hm, by omega, hmin2, by omega, ?_⟩
  have hr : n % m < m := Nat.mod_lt _ (by omega)
  refine ⟨if m > 1 then (if n % m < t then masked_bits (n % m) (b - 1)
      else masked_bits (n % m + t) b) else [], ?_, ?_, ?_, ?_⟩
  · rw [golomb_encoding_eq]; rfl
  · intro h1
    rw [if_neg (by omega)]
  · intro h1 hlt
    rw [if_pos h1, if_pos hlt]
    refine ⟨masked_bits_length _ _, rfl, bits_value_zero_masked_bits _ _ ?_⟩
    -- `t < 2^(b-1)` because `2^(b-1) < m`
    rcases hmin with h | h
    · rw [h] at hpow; simp at hpow; omega
    · have hb : b = (b - 1) + 1 := by
        rcases Nat.eq_zero_or_pos b with hb0 | hb0
        · rw [hb0] at hpow; simp at hpow; omega
        · omega
      have h2 : 2 ^ b = 2 * 2 ^ (b - 1) := by
        nth_rewrite 1 [hb]
        rw [pow_succ]; ring
      omega
  · intro h1 hge
    rw [if_pos h1, if_neg (by omega)]
    exact ⟨masked_bits_length _ _, rfl, bits_value_zero_masked_bits _ _ (by omega)⟩

theorem golomb_bit_format_witness :
    1 ≤ 5 ∧ 5 ≤ 2 ^ 3 ∧ (∀ k, 5 ≤ 2 ^ k → 3 ≤ k) ∧ 3 = 2 ^ 3 - 5 ∧
    ∃ rem : List Bool,
      golomb_encoding 5 3 3 17 alloc_buffer =
        write_bits alloc_buffer (List.replicate (17 / 5) true ++ [false] ++ rem) ∧
      (5 = 1 → rem = []) ∧
      (1 < 5 → 17 % 5 < 3 → rem.length = 3 - 1 ∧ rem = masked_bits (17 % 5) (3 - 1) ∧
        bits_value 0 rem = 17 % 5) ∧
      (1 < 5 → 3 ≤ 17 % 5 → rem.length = 3 ∧ rem = masked_bits (17 % 5 + 3) 3 ∧
        bits_value 0 rem = 17 % 5 + 3) :=
  golomb_bit_format 5 3 3 17 alloc_buffer (by decide)

/-! ## Round trip of the text codec -/

set_option maxRecDepth 100000 in
theorem utf8_skip_table_2 (c : Nat) (h1 : 0xC0 ≤ c) (h2 : c < 0xE0) :
    utf8_skip_table[c - 0x80]? = some 2 := by
  interval_cases c <;> rfl

set_option maxRecDepth 100000 in
theorem utf8_skip_table_3 (c : Nat) (h1 : 0xE0 ≤ c) (h2 : c < 0xF0) :
    utf8_skip_table[c - 0x80]? = some 3 := by
  interval_cases c <;> rfl

set_option maxRecDepth 100000 in
theorem utf8_skip_table_4 (c : Nat) (h1 : 0xF0 ≤ c) (h2 : c < 0xF8) :
    utf8_skip_table[c - 0x80]? = some 4 := by
  interval_cases c <;> rfl

/-- One step of the inner loop of `utf8toutf32`: six more bits. -/
theorem utf8_step (u b : Nat) : (u <<< 6) ||| (b &&& 0x3f) = 64 * u + b % 64 := by
  have h1 : b &&& 0x3f = b % 64 := Nat.and_pow_two_sub_one_eq_mod b 6
  have h2 : b % 64 < 2 ^ 6 := Nat.mod_lt _ (by decide)
  rw [h1, Nat.shiftLeft_eq, Nat.mul_comm u, ← Nat.mul_add_lt_is_or h2]

theorem utf8_lead_mask (c s : Nat) : c &&& ((1 <<< (7 - s)) - 1) = c % 2 ^ (7 - s) := by
  rw [Nat.one_shiftLeft]
  exact Nat.and_pow_two_sub_one_eq_mod c (7 - s)

set_option maxRecDepth 100000 in
theorem utf8toutf32_loop_cons (fuel c : Nat) (cs : List Nat) :
    utf8toutf32_loop (fuel + 1) (c :: cs) =
      if c < 0x80 then (utf8toutf32_loop fuel cs).map (fun rest => c :: rest)
      else
        match utf8_skip_table[c - 0x80]? with
        | none => none
        | some s =>
          if s = 0 then none
          else if cs.length < s - 1 then none
          else
            (utf8toutf32_loop fuel (cs.drop (s - 1))).map
              (fun rest => (cs.take (s - 1)).foldl (fun u b => (u <<< 6) ||| (b &&& 0x3f))
                (c &&& ((1 <<< (7 - s)) - 1)) :: rest) := rfl

set_option maxRecDepth 100000 in
theorem utf8_len_loop_cons (fuel c len : Nat) (cs : List Nat) :
    utf8_len_loop (fuel + 1) (c :: cs) len =
      if c < 0x80 then utf8_len_loop fuel cs (len + 1)
      else
        match utf8_skip_table[c - 0x80]? with
        | none => none
        | some s =>
          if s = 0 then none
          else utf8_len_loop fuel ((c :: cs).drop s) (len + 1) := rfl

/-- The decoder reads back one encoded code point. -/
theorem utf8toutf32_loop_bytes (c fuel : Nat) (rest : List Nat) (hc : c < 0x200000) :
    utf8toutf32_loop (fuel + 1) (utf8_bytes c ++ rest) =
      (utf8toutf32_loop fuel rest).map (fun r => c :: r) := by
  unfold utf8_bytes
  by_cases h1 : c < 0x80
  · rw [if_pos h1, List.singleton_append, utf8toutf32_loop_cons, if_pos h1]
  · rw [if_neg h1]
    by_cases h2 : c < 0x800
    · rw [if_pos h2]
      have hl : ¬ (192 + c / 64 % 32 < 0x80) := by omega
      have ht := utf8_skip_table_2 (192 + c / 64 % 32) (by omega) (by omega)
      have hv : 64 * ((192 + c / 64 % 32) % 2 ^ (7 - 2)) + (128 + c % 64) % 64 = c := by
        norm_num; omega
      rw [List.cons_append, List.cons_append, List.nil_append, utf8toutf32_loop_cons,
        if_neg hl, ht]
      dsimp only
      rw [if_neg (by decide), if_neg (by simp)]
      simp only [Nat.add_one_sub_one, List.take_succ_cons, List.take_zero, List.foldl_cons,
        List.foldl_nil, List.drop_succ_cons, List.drop_zero, utf8_step, utf8_lead_mask, hv]
    · rw [if_neg h2]
      by_cases h3 : c < 0x10000
      · rw [if_pos h3]
        have hl : ¬ (224 + c / 4096 % 16 < 0x80) := by omega
        have ht := utf8_skip_table_3 (224 + c / 4096 % 16) (by omega) (by omega)
        have hv : 64 * (64 * ((224 + c / 4096 % 16) % 2 ^ (7 - 3)) + (128 + c / 64 % 64) % 64) +
            (128 + c % 64) % 64 = c := by
          norm_num; omega
        rw [List.cons_append, List.cons_append, List.cons_append, List.nil_append,
          utf8toutf32_loop_cons, if_neg hl, ht]
        dsimp only
        rw [if_neg (by decide), if_neg (by simp)]
        simp only [Nat.add_one_sub_one, List.take_succ_cons, List.take_zero, List.foldl_cons,
          List.foldl_nil, List.drop_succ_cons, List.drop_zero, utf8_step, utf8_lead_mask, hv]
      · rw [if_neg h3]
        have hl : ¬ (240 + c / 262144 % 8 < 0x80) := by omega
        have ht := utf8_skip_table_4 (240 + c / 262144 % 8) (by omega) (by omega)
        have hv : 64 * (64 * (64 * ((240 + c / 262144 % 8) % 2 ^ (7 - 4)) +
            (128 + c / 4096 % 64) % 64) + (128 + c / 64 % 64) % 64) + (128 + c % 64) % 64 = c := by
          norm_num; omega
        rw [List.cons_append, List.cons_append, List.cons_append, List.cons_append,
          List.nil_append, utf8toutf32_loop_cons, if_neg hl, ht]
        dsimp only
        rw [if_neg (by decide), if_neg (by simp)]
        simp only [Nat.add_one_sub_one, List.take_succ_cons, List.take_zero, List.foldl_cons,
          List.foldl_nil, List.drop_succ_cons, List.drop_zero, utf8_step, utf8_lead_mask, hv]

theorem utf8_len_loop_bytes (c fuel len : Nat) (rest : List Nat) :
    utf8_len_loop (fuel + 1) (utf8_bytes c ++ rest) len = utf8_len_loop fuel rest (len + 1) := by
  unfold utf8_bytes
  by_cases h1 : c < 0x80
  · rw [if_pos h1, List.singleton_append, utf8_len_loop_cons, if_pos h1]
  · rw [if_neg h1]
    by_cases h2 : c < 0x800
    · rw [if_pos h2]
      have hl : ¬ (192 + c / 64 % 32 < 0x80) := by omega
      have ht := utf8_skip_table_2 (192 + c / 64 % 32) (by omega) (by omega)
      rw [List.cons_append, List.cons_append, List.nil_append, utf8_len_loop_cons,
        if_neg hl, ht]
      dsimp only
      rw [if_neg (by decide)]
      rfl
    · rw [if_neg h2]
      by_cases h3 : c < 0x10000
      · rw [if_pos h3]
        have hl : ¬ (224 + c / 4096 % 16 < 0x80) := by omega
        have ht := utf8_skip_table_3 (224 + c / 4096 % 16) (by omega) (by omega)
        rw [List.cons_append, List.cons_append, List.cons_append, List.nil_append,
          utf8_len_loop_cons, if_neg hl, ht]
        dsimp only
        rw [if_neg (by decide)]
        rfl
      · rw [if_neg h3]
        have hl : ¬ (240 + c / 262144 % 8 < 0x80) := by omega
        have ht := utf8_skip_table_4 (240 + c / 262144 % 8) (by omega) (by omega)
        rw [List.cons_append, List.cons_append, List.cons_append, List.cons_append,
          List.nil_append, utf8_len_loop_cons, if_neg hl, ht]
        dsimp only
        rw [if_neg (by decide)]
        rfl

theorem utf8_bytes_length_pos (c : Nat) : 1 ≤ (utf8_bytes c).length := by
  unfold utf8_bytes
  split
  · simp
  · split
    · simp
    · split <;> simp

theorem utf8toutf32_loop_nil (fuel : Nat) : utf8toutf32_loop fuel [] = some [] := by
  cases fuel <;> rfl

theorem utf8_len_loop_nil (fuel len : Nat) : utf8_len_loop fuel [] len = some len := by
  cases fuel <;> rfl

theorem utf8toutf32_loop_encode : ∀ (u bytes : List Nat), utf32toutf8_loop u = some bytes →
    ∀ fuel, bytes.length ≤ fuel →
      utf8toutf32_loop fuel bytes = some u ∧
        ∀ len, utf8_len_loop fuel bytes len = some (len + u.length) := by
  intro u
  induction u with
  | nil =>
    intro bytes h fuel _
    simp only [utf32toutf8_loop, Option.some.injEq] at h
    rw [← h]
    exact ⟨utf8toutf32_loop_nil fuel, fun len => by rw [utf8_len_loop_nil]; rfl⟩
  | cons c cs ih =>
    intro bytes h fuel hfuel
    rw [utf32toutf8_loop_cons] at h
    cases hr : utf32toutf8_loop cs with
    | none => rw [hr] at h; simp at h
    | some rest =>
      rw [hr] at h
      dsimp only at h
      by_cases hc : c < 0x200000
      · rw [if_pos hc] at h
        simp only [Option.some.injEq] at h
        rw [← h] at hfuel ⊢
        have hpos := utf8_bytes_length_pos c
        rw [List.length_append] at hfuel
        cases fuel with
        | zero => omega
        | succ f =>
          obtain ⟨h1, h2⟩ := ih rest hr f (by omega)
          refine ⟨?_, fun len => ?_⟩
          · rw [utf8toutf32_loop_bytes c f rest hc, h1]; rfl
          · rw [utf8_len_loop_bytes c f len rest, h2 (len + 1), List.length_cons]
            congr 1; omega
      · rw [if_neg hc] at h; simp at h

/-- C23. Text codec round trip: for every sequence `u` of code points below
`0x200000`, `utf32toutf8` returns bytes on which `utf8toutf32` returns 0,
the sequence `u` and `ustr_len = length u`. -/
theorem utf8_round_trip (u : List Nat) (h : ∀ c ∈ u, c < 0x200000) :
    ∃ str, utf32toutf8 u = some str ∧ utf8toutf32 str = some (0, u, u.length) := by
  obtain ⟨str, hstr⟩ := utf32toutf8_some u h
  refine ⟨str, hstr, ?_⟩
  obtain ⟨h1, h2⟩ := utf8toutf32_loop_encode u str (utf32toutf8_eq_some u str hstr) str.length
    (le_refl _)
  unfold utf8toutf32 utf8_len
  rw [h2 0, h1]
  simp

theorem utf8_round_trip_witness :
    ∃ str, utf32toutf8 [0x61, 0xE9, 0x4E2D, 0x1F600, 0, 0x1FFFFF] = some str ∧
      utf8toutf32 str = some (0, [0x61, 0xE9, 0x4E2D, 0x1F600, 0, 0x1FFFFF],
        [0x61, 0xE9, 0x4E2D, 0x1F600, 0, 0x1FFFFF].length) :=
  utf8_round_trip [0x61, 0xE9, 0x4E2D, 0x1F600, 0, 0x1FFFFF] (by decide)

/-! ## Range of the decoded code points -/

set_option maxRecDepth 100000 in
theorem utf8_skip_table_byte (c : Nat) (h1 : 0x80 ≤ c) (h2 : c < 0x100) :
    ∃ s, utf8_skip_table[c - 0x80]? = some s ∧ (s = 0 ↔ malformed_lead c = true) ∧
      s ≤ 6 ∧ (c < 0xF8 → s ≤ 4) := by
  interval_cases c <;> exact ⟨_, rfl, by decide, by decide, by decide⟩

theorem utf8_skip_table_none (c : Nat) (h : 0x100 ≤ c) : utf8_skip_table[c - 0x80]? = none := by
  apply List.getElem?_eq_none
  have : utf8_skip_table.length = 128 := rfl
  omega

theorem utf8toutf32_loop_zero (str : List Nat) : utf8toutf32_loop 0 str = some [] := rfl

theorem utf8_fold_bound : ∀ (l : List Nat) (v : Nat),
    l.foldl (fun u b => (u <<< 6) ||| (b &&& 0x3f)) v < (v + 1) * 64 ^ l.length := by
  intro l
  induction l with
  | nil => intro v; simp
  | cons b bs ih =>
    intro v
    rw [List.foldl_cons, utf8_step, List.length_cons, pow_succ]
    refine lt_of_lt_of_le (ih _) ?_
    have hb : b % 64 < 64 := Nat.mod_lt _ (by decide)
    have h1 : 64 * v + b % 64 + 1 ≤ (v + 1) * 64 := by omega
    calc (64 * v + b % 64 + 1) * 64 ^ bs.length ≤ ((v + 1) * 64) * 64 ^ bs.length :=
          Nat.mul_le_mul_right _ h1
      _ = (v + 1) * (64 ^ bs.length * 64) := by ring

theorem utf8toutf32_loop_bound : ∀ (fuel : Nat) (str ustr : List Nat),
    utf8toutf32_loop fuel str = some ustr →
      (∀ c ∈ ustr, c < 2 ^ 31) ∧ ((∀ b ∈ str, b < 0xF8) → ∀ c ∈ ustr, c < 0x200000) := by
  intro fuel
  induction fuel with
  | zero =>
    intro str ustr h
    rw [utf8toutf32_loop_zero, Option.some.injEq] at h
    subst h
    simp
  | succ f ih =>
    intro str ustr h
    cases str with
    | nil =>
      rw [utf8toutf32_loop_nil, Option.some.injEq] at h
      subst h
      simp
    | cons c cs =>
      rw [utf8toutf32_loop_cons] at h
      by_cases h1 : c < 0x80
      · rw [if_pos h1] at h
        cases hr : utf8toutf32_loop f cs with
        | none => rw [hr] at h; simp at h
        | some r =>
          rw [hr] at h
          simp only [Option.map_some', Option.some.injEq] at h
          subst h
          obtain ⟨i1, i2⟩ := ih cs r hr
          refine ⟨?_, fun hb => ?_⟩
          · intro x hx
            rcases List.mem_cons.1 hx with rfl | hx
            · omega
            · exact i1 x hx
          · intro x hx
            rcases List.mem_cons.1 hx with rfl | hx
            · omega
            · exact i2 (fun b hb2 => hb b (List.mem_cons_of_mem _ hb2)) x hx
      · rw [if_neg h1] at h
        by_cases h2 : c < 0x100
        · obtain ⟨s, hs, _, hs6, hs4⟩ := utf8_skip_table_byte c (by omega) h2
          rw [hs] at h
          dsimp only at h
          by_cases hz : s = 0
          · rw [if_pos hz] at h; simp at h
          · rw [if_neg hz] at h
            by_cases hl : cs.length < s - 1
            · rw [if_pos hl] at h; simp at h
            · rw [if_neg hl] at h
              cases hr : utf8toutf32_loop f (cs.drop (s - 1)) with
              | none => rw [hr] at h; simp at h
              | some r =>
                rw [hr] at h
                simp only [Option.map_some', Option.some.injEq] at h
                subst h
                obtain ⟨i1, i2⟩ := ih _ r hr
                have hb := utf8_fold_bound (cs.take (s - 1)) (c &&& ((1 <<< (7 - s)) - 1))
                rw [utf8_lead_mask, List.length_take, Nat.min_eq_left (by omega)] at hb
                have hm : c % 2 ^ (7 - s) < 2 ^ (7 - s) := Nat.mod_lt _ (by positivity)
                have hk : (c % 2 ^ (7 - s) + 1) * 64 ^ (s - 1) ≤ 2 ^ (7 - s) * 64 ^ (s - 1) :=
                  Nat.mul_le_mul_right _ hm
                refine ⟨?_, fun hbs => ?_⟩
                · intro x hx
                  rcases List.mem_cons.1 hx with rfl | hx
                  · have hs' : s = 1 ∨ s = 2 ∨ s = 3 ∨ s = 4 ∨ s = 5 ∨ s = 6 := by omega
                    rcases hs' with rfl | rfl | rfl | rfl | rfl | rfl <;>
                      norm_num at hk <;> rw [utf8_lead_mask] <;> omega
                  · exact i1 x hx
                · intro x hx
                  rcases List.mem_cons.1 hx with rfl | hx
                  · have h4 := hs4 (hbs c (List.mem_cons_self _ _))
                    have hs' : s = 1 ∨ s = 2 ∨ s = 3 ∨ s = 4 := by omega
                    rcases hs' with rfl | rfl | rfl | rfl <;>
                      norm_num at hk <;> rw [utf8_lead_mask] <;> omega
                  · exact i2 (fun b hb2 => hbs b
                      (List.mem_cons_of_mem _ (List.mem_of_mem_drop hb2))) x hx
        · rw [utf8_skip_table_none c (by omega)] at h
          simp at h

theorem uchar2utf8_size_none : ∀ (u : List Nat),
    uchar2utf8_size u = none ↔ ∃ c ∈ u, 0x200000 ≤ c := by
  intro u
  induction u with
  | nil => simp [uchar2utf8_size]
  | cons c cs ih =>
    simp only [uchar2utf8_size, List.mem_cons, exists_eq_or_imp]
    cases hq : uchar2utf8_size cs with
    | none =>
      have := ih.1 hq
      simp only [this, or_true]
    | some n =>
      have hn : ¬ ∃ c ∈ cs, 0x200000 ≤ c := fun hh => by
        rw [← ih, hq] at hh; simp at hh
      simp only [hn, or_false]
      constructor
      · intro h
        by_contra hc
        revert h
        split_ifs <;> simp_all
      · intro h
        split_ifs <;> first | rfl | omega

theorem utf32toutf8_none (u : List Nat) :
    utf32toutf8 u = none ↔ ∃ c ∈ u, 0x200000 ≤ c := by
  constructor
  · intro h
    by_contra hc
    obtain ⟨x, hx⟩ := utf32toutf8_some u (fun c hcu => by
      by_contra hge
      exact hc ⟨c, hcu, by omega⟩)
    rw [h] at hx
    simp at hx
  · intro h
    unfold utf32toutf8
    rw [(uchar2utf8_size_none u).2 h]

set_option maxRecDepth 100000 in
/-- C24 (counterexample). The five bytes `F8 88 80 80 80` are accepted by
`utf8toutf32`, which returns the code point `0x200000`. -/
theorem codec_code_point_range_counterexample :
    ∃ ustr n, utf8toutf32 [0xF8, 0x88, 0x80, 0x80, 0x80] = some (0, ustr, n) ∧
      ¬ ∀ c ∈ ustr, c ≤ 0x1FFFFF :=
  ⟨[0x200000], 1, by decide, by decide⟩

/-- C24 (amended). `uchar2utf8_size` and `utf32toutf8` abort exactly when the
input contains a code point `>= 0x200000`; `utf8toutf32` either aborts or
returns code points below `2^31`, and on an input without a byte `>= 0xF8`
it returns only code points `<= 0x1FFFFF`. -/
theorem codec_code_point_range :
    (∀ u, uchar2utf8_size u = none ↔ ∃ c ∈ u, 0x200000 ≤ c) ∧
    (∀ u, utf32toutf8 u = none ↔ ∃ c ∈ u, 0x200000 ≤ c) ∧
    (∀ str ustr n, utf8toutf32 str = some (0, ustr, n) →
      (∀ c ∈ ustr, c < 2 ^ 31) ∧
      ((∀ b ∈ str, b < 0xF8) → ∀ c ∈ ustr, c ≤ 0x1FFFFF)) := by
  refine ⟨uchar2utf8_size_none, utf32toutf8_none, ?_⟩
  intro str ustr n h
  unfold utf8toutf32 at h
  cases hl : utf8_len str with
  | none => rw [hl] at h; simp at h
  | some ulen =>
    rw [hl] at h
    dsimp only at h
    cases hr : utf8toutf32_loop str.length str with
    | none => rw [hr] at h; simp at h
    | some r =>
      rw [hr] at h
      simp only [Option.some.injEq, Prod.mk.injEq, true_and] at h
      obtain ⟨i1, i2⟩ := utf8toutf32_loop_bound _ _ _ hr
      rw [h.1] at i1 i2
      exact ⟨i1, fun hb c hc => Nat.le_of_lt_succ (i2 hb c hc)⟩

set_option maxRecDepth 100000 in
theorem codec_code_point_range_witness :
    (uchar2utf8_size [0x41, 0x200000] = none ↔ ∃ c ∈ [0x41, 0x200000], 0x200000 ≤ c) ∧
    (utf8toutf32 [0xF7, 0xBF, 0xBF, 0xBF] = some (0, [0x1FFFFF], 1)) ∧
    (∀ b ∈ [0xF7, 0xBF, 0xBF, 0xBF], b < 0xF8) ∧ (∀ c ∈ [0x1FFFFF], c ≤ 0x1FFFFF) :=
  ⟨codec_code_point_range.1 [0x41, 0x200000], by decide, by decide,
    (codec_code_point_range.2.2 [0xF7, 0xBF, 0xBF, 0xBF] [0x1FFFFF] 1 (by decide)).2
      (by decide)⟩

/-! ## Malformed lead bytes -/

theorem utf8_char_cases (ch : List Nat) (h : utf8_char ch = true) :
    ∃ c tail, ch = c :: tail ∧
      ((c < 0x80 ∧ tail = []) ∨
        (0x80 ≤ c ∧ utf8_skip_table[c - 0x80]? = some (tail.length + 1))) := by
  cases ch with
  | nil => simp [utf8_char] at h
  | cons c tail =>
    refine ⟨c, tail, rfl, ?_⟩
    unfold utf8_char at h
    dsimp only at h
    by_cases hc : c < 0x80
    · rw [if_pos hc] at h
      exact Or.inl ⟨hc, List.isEmpty_iff.1 h⟩
    · rw [if_neg hc] at h
      simp only [Bool.and_eq_true, beq_iff_eq] at h
      exact Or.inr ⟨by omega, h.2⟩

theorem utf8toutf32_loop_char (ch rest : List Nat) (fuel : Nat) (h : utf8_char ch = true) :
    ∃ u, utf8toutf32_loop (fuel + 1) (ch ++ rest) =
      (utf8toutf32_loop fuel rest).map (fun r => u :: r) := by
  obtain ⟨c, tail, rfl, h | h⟩ := utf8_char_cases ch h
  · obtain ⟨hc, rfl⟩ := h
    exact ⟨c, by rw [List.singleton_append, utf8toutf32_loop_cons, if_pos hc]⟩
  · obtain ⟨hc, ht⟩ := h
    refine ⟨tail.foldl (fun u b => (u <<< 6) ||| (b &&& 0x3f))
      (c &&& ((1 <<< (7 - (tail.length + 1))) - 1)), ?_⟩
    rw [List.cons_append, utf8toutf32_loop_cons, if_neg (by omega), ht]
    dsimp only
    rw [if_neg (by omega), if_neg (by simp), Nat.add_sub_cancel, List.drop_left,
      List.take_left]

theorem utf8_len_loop_char (ch rest : List Nat) (fuel len : Nat) (h : utf8_char ch = true) :
    utf8_len_loop (fuel + 1) (ch ++ rest) len = utf8_len_loop fuel rest (len + 1) := by
  obtain ⟨c, tail, rfl, h | h⟩ := utf8_char_cases ch h
  · obtain ⟨hc, rfl⟩ := h
    rw [List.singleton_append, utf8_len_loop_cons, if_pos hc]
  · obtain ⟨hc, ht⟩ := h
    rw [List.cons_append, utf8_len_loop_cons, if_neg (by omega), ht]
    dsimp only
    rw [if_neg (by omega), List.drop_succ_cons, List.drop_left]

theorem utf8_chars_loops : ∀ (chars : List (List Nat)), (∀ ch ∈ chars, utf8_char ch = true) →
    ∀ (fuel : Nat) (rest : List Nat),
      (∃ us : List Nat, us.length = chars.length ∧
        utf8toutf32_loop (chars.length + fuel) (chars.flatten ++ rest) =
          (utf8toutf32_loop fuel rest).map (fun r => us ++ r)) ∧
      ∀ len, utf8_len_loop (chars.length + fuel) (chars.flatten ++ rest) len =
        utf8_len_loop fuel rest (len + chars.length) := by
  intro chars
  induction chars with
  | nil =>
    intro _ fuel rest
    refine ⟨⟨[], rfl, ?_⟩, fun len => ?_⟩
    · simp
    · simp
  | cons ch chars ih =>
    intro h fuel rest
    have hch := h ch (List.mem_cons_self _ _)
    obtain ⟨⟨us, hus, h1⟩, h2⟩ := ih (fun x hx => h x (List.mem_cons_of_mem _ hx)) fuel rest
    have e : (ch :: chars).length + fuel = (chars.length + fuel) + 1 := by
      rw [List.length_cons]; omega
    refine ⟨?_, fun len => ?_⟩
    · obtain ⟨u, hu⟩ := utf8toutf32_loop_char ch (chars.flatten ++ rest) (chars.length + fuel) hch
      refine ⟨u :: us, by simp [hus], ?_⟩
      rw [e, List.flatten_cons, List.append_assoc, hu, h1]
      cases utf8toutf32_loop fuel rest <;> simp
    · rw [e, List.flatten_cons, List.append_assoc, utf8_len_loop_char _ _ _ _ hch, h2,
        List.length_cons]
      congr 1; omega

theorem utf8_char_length_pos (ch : List Nat) (h : utf8_char ch = true) : 1 ≤ ch.length := by
  obtain ⟨c, tail, rfl, _⟩ := utf8_char_cases ch h
  simp

theorem utf8_chars_length : ∀ (chars : List (List Nat)), (∀ ch ∈ chars, utf8_char ch = true) →
    chars.length ≤ chars.flatten.length := by
  intro chars
  induction chars with
  | nil => intro _; simp
  | cons ch chars ih =>
    intro h
    have h1 := utf8_char_length_pos ch (h ch (List.mem_cons_self _ _))
    have h2 := ih (fun x hx => h x (List.mem_cons_of_mem _ hx))
    rw [List.flatten_cons, List.length_append, List.length_cons]
    omega

theorem utf8_len_loop_malformed (fuel c len : Nat) (rest : List Nat)
    (h : malformed_lead c = true) : utf8_len_loop (fuel + 1) (c :: rest) len = none := by
  have hc : 0x80 ≤ c ∧ c < 0x100 := by
    unfold malformed_lead at h
    simp only [Bool.or_eq_true, Bool.and_eq_true, decide_eq_true_eq, beq_iff_eq] at h
    omega
  obtain ⟨s, hs, hz, _, _⟩ := utf8_skip_table_byte c hc.1 hc.2
  rw [utf8_len_loop_cons, if_neg (by omega), hs]
  dsimp only
  rw [if_pos (hz.2 h)]

/-- Every byte string splits into complete characters followed by nothing, by
a malformed lead byte, or by a lead byte with too few bytes after it. -/
theorem utf8_decompose : ∀ (n : Nat) (str : List Nat), str.length ≤ n → (∀ b ∈ str, b < 0x100) →
    ∃ chars : List (List Nat), (∀ ch ∈ chars, utf8_char ch = true) ∧
      (str = chars.flatten ∨
        (∃ c rest, malformed_lead c = true ∧ str = chars.flatten ++ c :: rest) ∨
        (∃ c tail s, 0x80 ≤ c ∧ utf8_skip_table[c - 0x80]? = some s ∧ tail.length + 1 < s ∧
          str = chars.flatten ++ c :: tail)) := by
  intro n
  induction n with
  | zero =>
    intro str hn _
    have : str = [] := List.length_eq_zero.1 (by omega)
    exact ⟨[], by simp, Or.inl (by simp [this])⟩
  | succ n ih =>
    intro str hn hb
    cases str with
    | nil => exact ⟨[], by simp, Or.inl (by simp)⟩
    | cons c cs =>
      have hc := hb c (List.mem_cons_self _ _)
      have hcs : ∀ b ∈ cs, b < 0x100 := fun b hb2 => hb b (List.mem_cons_of_mem _ hb2)
      rw [List.length_cons] at hn
      have key : ∀ (ch rest : List Nat), utf8_char ch = true → c :: cs = ch ++ rest →
          rest.length ≤ n → (∀ b ∈ rest, b < 0x100) →
          ∃ chars : List (List Nat), (∀ ch ∈ chars, utf8_char ch = true) ∧
            (c :: cs = chars.flatten ∨
              (∃ c2 rest2, malformed_lead c2 = true ∧ c :: cs = chars.flatten ++ c2 :: rest2) ∨
              (∃ c2 tail s, 0x80 ≤ c2 ∧ utf8_skip_table[c2 - 0x80]? = some s ∧
                tail.length + 1 < s ∧ c :: cs = chars.flatten ++ c2 :: tail)) := by
        intro ch rest hch e hl hr
        obtain ⟨chars, hchars, hcase⟩ := ih rest hl hr
        refine ⟨ch :: chars, ?_, ?_⟩
        · intro x hx
          rcases List.mem_cons.1 hx with rfl | hx
          · exact hch
          · exact hchars x hx
        · rcases hcase with h | ⟨c2, rest2, hm, h⟩ | ⟨c2, tail, s, h80, ht, hlt, h⟩
          · exact Or.inl (by rw [e, h, List.flatten_cons])
          · exact Or.inr (Or.inl ⟨c2, rest2, hm, by rw [e, h, List.flatten_cons, List.append_assoc]⟩)
          · exact Or.inr (Or.inr ⟨c2, tail, s, h80, ht, hlt,
              by rw [e, h, List.flatten_cons, List.append_assoc]⟩)
      by_cases h1 : c < 0x80
      · exact key [c] cs (by simp [utf8_char, h1]) rfl (by omega) hcs
      · obtain ⟨s, hs, hz, _, _⟩ := utf8_skip_table_byte c (by omega) hc
        by_cases h0 : s = 0
        · exact ⟨[], by simp, Or.inr (Or.inl ⟨c, cs, hz.1 h0, by simp⟩)⟩
        · by_cases hl : cs.length + 1 < s
          · exact ⟨[], by simp, Or.inr (Or.inr ⟨c, cs, s, by omega, hs, hl, by simp⟩)⟩
          · have hlen : (cs.take (s - 1)).length = s - 1 := by
              rw [List.length_take]; omega
            have hnm : malformed_lead c = false := by
              cases hm : malformed_lead c with
              | false => rfl
              | true => exact absurd (hz.2 hm) h0
            refine key (c :: cs.take (s - 1)) (cs.drop (s - 1)) ?_ ?_ ?_ ?_
            · unfold utf8_char
              dsimp only
              rw [if_neg h1, hnm, hlen, hs]
              have : s - 1 + 1 = s := by omega
              simp [this]
            · rw [List.cons_append, List.take_append_drop]
            · rw [List.length_drop]; omega
            · exact fun b hb2 => hcs b (List.mem_of_mem_drop hb2)

/-- C25. On an input made of complete characters `utf8toutf32` returns 0 and
as many code points as there are characters; when the complete characters are
followed by a malformed lead byte (`0x80`-`0xBF`, `0xFE`, `0xFF`), `utf8_len`
and with it `utf8toutf32` aborts; and every byte string is of one of these
two forms, or ends in a lead byte with too few bytes after it. -/
theorem utf8toutf32_malformed_lead :
    (∀ chars : List (List Nat), (∀ ch ∈ chars, utf8_char ch = true) →
      ∃ u, utf8toutf32 chars.flatten = some (0, u, chars.length) ∧ u.length = chars.length) ∧
    (∀ (chars : List (List Nat)) (c : Nat) (rest : List Nat),
      (∀ ch ∈ chars, utf8_char ch = true) → malformed_lead c = true →
        utf8_len (chars.flatten ++ c :: rest) = none ∧
        utf8toutf32 (chars.flatten ++ c :: rest) = none) ∧
    (∀ str : List Nat, (∀ b ∈ str, b < 0x100) →
      ∃ chars : List (List Nat), (∀ ch ∈ chars, utf8_char ch = true) ∧
        (str = chars.flatten ∨
          (∃ c rest, malformed_lead c = true ∧ str = chars.flatten ++ c :: rest) ∨
          (∃ c tail s, 0x80 ≤ c ∧ utf8_skip_table[c - 0x80]? = some s ∧ tail.length + 1 < s ∧
            str = chars.flatten ++ c :: tail))) := by
  refine ⟨?_, ?_, fun str hb => utf8_decompose str.length str (le_refl _) hb⟩
  · intro chars h
    have hlen := utf8_chars_length chars h
    obtain ⟨⟨us, hus, h1⟩, h2⟩ := utf8_chars_loops chars h (chars.flatten.length - chars.length) []
    have e : chars.length + (chars.flatten.length - chars.length) = chars.flatten.length := by omega
    rw [List.append_nil, e] at h1 h2
    refine ⟨us, ?_, hus⟩
    unfold utf8toutf32 utf8_len
    rw [h2 0, utf8_len_loop_nil, h1, utf8toutf32_loop_nil]
    simp
  · intro chars c rest h hm
    have hlen := utf8_chars_length chars h
    obtain ⟨_, h2⟩ := utf8_chars_loops chars h
      ((chars.flatten ++ c :: rest).length - chars.length - 1 + 1) (c :: rest)
    have e : chars.length + ((chars.flatten ++ c :: rest).length - chars.length - 1 + 1) =
        (chars.flatten ++ c :: rest).length := by
      rw [List.length_append, List.length_cons]; omega
    rw [e] at h2
    have hnone : utf8_len (chars.flatten ++ c :: rest) = none := by
      unfold utf8_len
      rw [h2 0, utf8_len_loop_malformed _ _ _ _ hm]
    refine ⟨hnone, ?_⟩
    unfold utf8toutf32
    rw [hnone]

set_option maxRecDepth 100000 in
theorem utf8toutf32_malformed_lead_witness :
    (∀ ch ∈ [[0x61], [0xC3, 0xA9], [0xE4, 0xB8, 0xAD]], utf8_char ch = true) ∧
    (∃ u, utf8toutf32 [[0x61], [0xC3, 0xA9], [0xE4, 0xB8, 0xAD]].flatten =
        some (0, u, [[0x61], [0xC3, 0xA9], [0xE4, 0xB8, 0xAD]].length) ∧
      u.length = [[0x61], [0xC3, 0xA9], [0xE4, 0xB8, 0xAD]].length) ∧
    malformed_lead 0x80 = true ∧
    utf8toutf32 ([[0x61], [0xC3, 0xA9]].flatten ++ 0x80 :: [0x62]) = none :=
  ⟨by decide, utf8toutf32_malformed_lead.1 [[0x61], [0xC3, 0xA9], [0xE4, 0xB8, 0xAD]] (by decide),
    by decide,
    (utf8toutf32_malformed_lead.2.1 [[0x61], [0xC3, 0xA9]] 0x80 [0x62] (by decide)
      (by decide)).2⟩

/-! ## Bit appends on the block -/

theorem Mem.alloc_buffer_ok : Mem.buffer_ok Mem.alloc_buffer := by
  refine ⟨by simp [Mem.alloc_buffer], by simp [Mem.alloc_buffer], by simp [Mem.alloc_buffer], ?_⟩
  intro h
  exact absurd rfl h

/-- One call of `append_buffer_bit` in closed form. -/
theorem Mem.append_buffer_bit_closed (buf : Mem.buffer) (x : Int) (h : Mem.buffer_ok buf) :
    ∃ (mem : List (Option Nat)) (c : Nat),
      Mem.append_buffer_bit buf x =
        some (if buf.bit + 1 = 8 then { mem := mem, curr := buf.curr + 1, bit := 0 }
          else { mem := mem, curr := buf.curr, bit := buf.bit + 1 }) ∧
      mem.length = (if buf.mem.length ≤ buf.curr then 2 * buf.mem.length else buf.mem.length) ∧
      buf.curr < mem.length ∧
      (∀ i, i ≠ buf.curr → i < buf.mem.length → mem[i]? = buf.mem[i]?) ∧
      (∀ i, buf.mem.length ≤ i → i ≠ buf.curr → i < mem.length → mem[i]? = some none) ∧
      mem[buf.curr]? = some (some c) ∧
      (∀ c0, buf.bit ≠ 0 → buf.mem[buf.curr]? = some (some c0) →
        c = next_byte { bytes := [], curr_byte := c0, bit := buf.bit } x.natAbs) ∧
      (buf.bit = 0 → c = next_byte { bytes := [], curr_byte := 0, bit := 0 } x.natAbs) := by
  obtain ⟨h32, hcurr, hbit, hbyte⟩ := h
  have h32' : 32 ≤ buf.mem.length := h32
  obtain ⟨M, hM, hlen, hlt, hpre, hpost⟩ : ∃ M : List (Option Nat),
      (if buf.curr ≥ buf.mem.length then Mem.enlarge_buffer buf else buf) =
        { mem := M, curr := buf.curr, bit := buf.bit } ∧
      M.length = (if buf.mem.length ≤ buf.curr then 2 * buf.mem.length else buf.mem.length) ∧
      buf.curr < M.length ∧
      (∀ i, i < buf.mem.length → M[i]? = buf.mem[i]?) ∧
      (∀ i, buf.mem.length ≤ i → i < M.length → M[i]? = some none) := by
    by_cases hfull : buf.mem.length ≤ buf.curr
    · refine ⟨buf.mem ++ List.replicate buf.mem.length none, ?_, ?_, ?_, ?_, ?_⟩
      · rw [if_pos hfull]; rfl
      · rw [if_pos hfull, List.length_append, List.length_replicate]; omega
      · rw [List.length_append, List.length_replicate]; omega
      · intro i hi
        rw [List.getElem?_append_left hi]
      · intro i hi hi2
        rw [List.length_append, List.length_replicate] at hi2
        rw [List.getElem?_append_right hi, List.getElem?_replicate, if_pos (by omega)]
    · refine ⟨buf.mem, ?_, ?_, ?_, ?_, ?_⟩
      · rw [if_neg hfull]
      · rw [if_neg hfull]
      · omega
      · intro i _; rfl
      · intro i hi hi2; omega
  unfold Mem.append_buffer_bit
  rw [hM]
  dsimp only
  rw [if_neg (by omega)]
  by_cases h0 : buf.bit = 0
  · -- a new byte: `*curr = 0` first
    have hset : (M.set buf.curr (some 0))[buf.curr]? = some (some 0) := by
      rw [List.getElem?_set_self hlt]
    rw [if_pos h0]
    by_cases hx : x = 0
    · refine ⟨M.set buf.curr (some 0), 0, ?_, ?_, ?_, ?_, ?_, hset, ?_, ?_⟩
      · by_cases h7 : buf.bit + 1 = 8 <;> simp [hx, h7]
      · rw [List.length_set]; exact hlen
      · rw [List.length_set]; exact hlt
      · intro i hi hi2
        rw [List.getElem?_set_ne (Ne.symm hi)]; exact hpre i hi2
      · intro i hi hi2 hi3
        rw [List.length_set] at hi3
        rw [List.getElem?_set_ne (Ne.symm hi2)]; exact hpost i hi hi3
      · intro c0 hb; exact absurd h0 hb
      · intro _; simp [next_byte, hx]
    · refine ⟨(M.set buf.curr (some 0)).set buf.curr (some (0 ||| (1 <<< (7 - buf.bit)))),
        0 ||| (1 <<< (7 - buf.bit)), ?_, ?_, ?_, ?_, ?_, ?_, ?_, ?_⟩
      · rw [if_pos hx, hset]
        dsimp only
        by_cases h7 : buf.bit + 1 = 8 <;> simp [h7]
      · rw [List.length_set, List.length_set]; exact hlen
      · rw [List.length_set, List.length_set]; exact hlt
      · intro i hi hi2
        rw [List.getElem?_set_ne (Ne.symm hi), List.getElem?_set_ne (Ne.symm hi)]
        exact hpre i hi2
      · intro i hi hi2 hi3
        rw [List.length_set, List.length_set] at hi3
        rw [List.getElem?_set_ne (Ne.symm hi2), List.getElem?_set_ne (Ne.symm hi2)]
        exact hpost i hi hi3
      · rw [List.getElem?_set_self (by rw [List.length_set]; exact hlt)]
      · intro c0 hb; exact absurd h0 hb
      · intro _
        have : x.natAbs ≠ 0 := Int.natAbs_ne_zero.2 hx
        simp [next_byte, this, h0]
  · -- the byte under construction
    obtain ⟨c0, hc0, _⟩ := hbyte h0
    have hin : buf.curr < buf.mem.length := by
      by_contra hn
      rw [List.getElem?_eq_none (by omega)] at hc0
      exact absurd hc0 (by simp)
    have hMc : M[buf.curr]? = some (some c0) := by rw [hpre _ hin, hc0]
    rw [if_neg h0]
    by_cases hx : x = 0
    · refine ⟨M, c0, ?_, hlen, hlt, fun i _ hi2 => hpre i hi2,
        fun i hi hi2 hi3 => hpost i hi hi3, hMc, ?_, fun hb => absurd hb h0⟩
      · by_cases h7 : buf.bit + 1 = 8 <;> simp [hx, h7]
      · intro c1 _ hc1
        rw [hc0] at hc1
        simp only [Option.some.injEq] at hc1
        simp [next_byte, hx, h0, hc1]
    · refine ⟨M.set buf.curr (some (c0 ||| (1 <<< (7 - buf.bit)))),
        c0 ||| (1 <<< (7 - buf.bit)), ?_, ?_, ?_, ?_, ?_, ?_, ?_, fun hb => absurd hb h0⟩
      · rw [if_pos hx, hMc]
        dsimp only
        by_cases h7 : buf.bit + 1 = 8 <;> simp [h7]
      · rw [List.length_set]; exact hlen
      · rw [List.length_set]; exact hlt
      · intro i hi hi2
        rw [List.getElem?_set_ne (Ne.symm hi)]; exact hpre i hi2
      · intro i hi hi2 hi3
        rw [List.length_set] at hi3
        rw [List.getElem?_set_ne (Ne.symm hi2)]; exact hpost i hi hi3
      · rw [List.getElem?_set_self hlt]
      · intro c1 _ hc1
        rw [hc0] at hc1
        simp only [Option.some.injEq] at hc1
        have : x.natAbs ≠ 0 := Int.natAbs_ne_zero.2 hx
        simp [next_byte, this, h0, hc1]

/-- The byte that one call of `append_buffer_bit` leaves under the old `curr`. -/
theorem Mem.append_buffer_bit_byte (buf : Mem.buffer) (x : Int) (h : Mem.buffer_ok buf) :
    ∃ (buf1 : Mem.buffer) (c : Nat),
      Mem.append_buffer_bit buf x = some buf1 ∧
      buf1.curr = (if buf.bit + 1 = 8 then buf.curr + 1 else buf.curr) ∧
      buf1.bit = (if buf.bit + 1 = 8 then 0 else buf.bit + 1) ∧
      buf1.mem.length =
        (if buf.mem.length ≤ buf.curr then 2 * buf.mem.length else buf.mem.length) ∧
      buf.curr < buf1.mem.length ∧
      (∀ i, i ≠ buf.curr → i < buf.mem.length → buf1.mem[i]? = buf.mem[i]?) ∧
      buf1.mem[buf.curr]? = some (some c) ∧
      c.testBit (7 - buf.bit) = decide (x ≠ 0) ∧
      (∀ j, j < 7 - buf.bit → c.testBit j = false) ∧
      (∀ c0, buf.bit ≠ 0 → buf.mem[buf.curr]? = some (some c0) →
        ∀ j, 8 - buf.bit ≤ j → j < 8 → c.testBit j = c0.testBit j) := by
  obtain ⟨mem, c, heq, hlen, hlt, hpre, _, hc, hnz, hz⟩ := Mem.append_buffer_bit_closed buf x h
  obtain ⟨h32, hcurr, hbit, hbyte⟩ := h
  have hxn : decide (x.natAbs ≠ 0) = decide (x ≠ 0) := by
    by_cases hx : x = 0
    · simp [hx]
    · have : x.natAbs ≠ 0 := Int.natAbs_ne_zero.2 hx
      simp [hx]
  -- the byte as a `next_byte` of a well-formed abstract buffer
  obtain ⟨a, ha, hwf, hbit_a, hold⟩ : ∃ a : Wiser.buffer, c = next_byte a x.natAbs ∧ buffer_wf a ∧
      a.bit = buf.bit ∧
      (∀ c0, buf.bit ≠ 0 → buf.mem[buf.curr]? = some (some c0) → a.curr_byte = c0) := by
    by_cases h0 : buf.bit = 0
    · refine ⟨{ bytes := [], curr_byte := 0, bit := 0 }, hz h0, ⟨by decide, fun hne => absurd rfl hne⟩,
        h0.symm, fun c0 hne => absurd h0 hne⟩
    · obtain ⟨c0, hc0, hlow⟩ := hbyte h0
      refine ⟨{ bytes := [], curr_byte := c0, bit := buf.bit }, hnz c0 h0 hc0,
        ⟨hbit, fun _ => hlow⟩, rfl, ?_⟩
      intro c1 _ hc1
      rw [hc0] at hc1
      simp only [Option.some.injEq] at hc1
      exact hc1
  refine ⟨_, c, heq, ?_, ?_, ?_, ?_, ?_, ?_, ?_, ?_, ?_⟩
  · split <;> rfl
  · split <;> rfl
  · split <;> exact hlen
  · split <;> exact hlt
  · intro i hi hi2
    split <;> exact hpre i hi hi2
  · split <;> exact hc
  · rw [ha, next_byte_testBit a _ _ hwf (by omega), hbit_a, if_pos rfl, hxn]
  · intro j hj
    rw [ha, next_byte_testBit a _ _ hwf (by omega), hbit_a, if_neg (by omega),
      if_neg (by omega)]
  · intro c0 hne hc0 j hj hj8
    rw [ha, next_byte_testBit a _ _ hwf hj8, hbit_a, if_neg (by omega), if_pos hj,
      hold c0 hne hc0]

theorem Mem.append_buffer_bit_ok (buf : Mem.buffer) (x : Int) (h : Mem.buffer_ok buf) :
    ∃ buf1, Mem.append_buffer_bit buf x = some buf1 ∧ Mem.buffer_ok buf1 ∧
      8 * buf1.curr + buf1.bit = 8 * buf.curr + buf.bit + 1 ∧
      buf.mem.length ≤ buf1.mem.length ∧
      ∀ i, i < buf.curr → buf1.mem[i]? = buf.mem[i]? := by
  obtain ⟨buf1, c, heq, hcurr1, hbit1, hlen, hlt, hpre, hc, _, hlow, _⟩ :=
    Mem.append_buffer_bit_byte buf x h
  obtain ⟨h32, hcurr, hbit, hbyte⟩ := h
  have hlen2 : buf.mem.length ≤ buf1.mem.length := by
    rw [hlen]; split <;> omega
  refine ⟨buf1, heq, ⟨le_trans h32 hlen2, ?_, ?_, ?_⟩, ?_, hlen2, ?_⟩
  · rw [hcurr1]; split <;> omega
  · rw [hbit1]; split <;> omega
  · intro hne
    by_cases h7 : buf.bit + 1 = 8
    · rw [hbit1, if_pos h7] at hne; exact absurd rfl hne
    · rw [hcurr1, hbit1, if_neg h7, if_neg h7]
      exact ⟨c, hc, fun j hj => hlow j (by omega)⟩
  · rw [hcurr1, hbit1]; split <;> omega
  · intro i hi
    exact hpre i (by omega) (by omega)

theorem Mem.append_buffer_bit_holds (buf : Mem.buffer) (x : Int) (done : List Int)
    (h : Mem.buffer_ok buf) (hd : Mem.holds_bits buf done) :
    ∃ buf1, Mem.append_buffer_bit buf x = some buf1 ∧ Mem.buffer_ok buf1 ∧
      Mem.holds_bits buf1 (done ++ [x]) := by
  obtain ⟨buf1, hbuf1, hok1, _⟩ := Mem.append_buffer_bit_ok buf x h
  obtain ⟨buf2, c, heq, hcurr1, hbit1, _, _, hpre, hc, hnew, _, hold⟩ :=
    Mem.append_buffer_bit_byte buf x h
  rw [hbuf1] at heq
  simp only [Option.some.injEq] at heq
  subst heq
  obtain ⟨h32, hcurr, hbit, hbyte⟩ := h
  obtain ⟨hdc, hdb, hbits⟩ := hd
  refine ⟨buf1, hbuf1, hok1, ?_, ?_, ?_⟩
  · rw [hcurr1, List.length_append, List.length_singleton]; split <;> omega
  · rw [hbit1, List.length_append, List.length_singleton]; split <;> omega
  · intro i hi
    rw [List.length_append, List.length_singleton] at hi
    by_cases hin : i < done.length
    · obtain ⟨ci, hci, hti⟩ := hbits i hin
      rw [List.getElem_append_left hin]
      by_cases hsame : i / 8 = buf.curr
      · have hne : buf.bit ≠ 0 := by omega
        rw [hsame] at hci ⊢
        refine ⟨c, hc, ?_⟩
        rw [hold ci hne hci (7 - i % 8) (by omega) (by omega), hti]
      · refine ⟨ci, ?_, hti⟩
        rw [hpre (i / 8) hsame (by omega), hci]
    · have hi2 : i = done.length := by omega
      subst hi2
      refine ⟨c, ?_, ?_⟩
      · rw [← hdc]; exact hc
      · rw [← hdb, hnew]
        simp

theorem Mem.append_bits_holds : ∀ (bits : List Int) (buf : Mem.buffer) (done : List Int),
    Mem.buffer_ok buf → Mem.holds_bits buf done →
    ∃ buf1, Mem.append_bits buf bits = some buf1 ∧ Mem.buffer_ok buf1 ∧
      Mem.holds_bits buf1 (done ++ bits) := by
  intro bits
  induction bits with
  | nil =>
    intro buf done h hd
    exact ⟨buf, rfl, h, by rw [List.append_nil]; exact hd⟩
  | cons x xs ih =>
    intro buf done h hd
    obtain ⟨buf1, h1, hok1, hd1⟩ := Mem.append_buffer_bit_holds buf x done h hd
    obtain ⟨buf2, h2, hok2, hd2⟩ := ih buf1 (done ++ [x]) hok1 hd1
    refine ⟨buf2, ?_, hok2, ?_⟩
    · simp only [Mem.append_bits, h1]
      exact h2
    · rw [List.append_assoc] at hd2
      exact hd2

/-- C26. Bit order: `k` calls of `append_buffer_bit` on a freshly allocated
buffer succeed and leave `curr` at byte `k / 8` with `bit = k % 8`; the
`i`-th appended bit is stored in byte `i / 8` at bit position `7 - i % 8`, as
1 for a non-zero argument and as 0 for zero, and the unused low bits of a
partly written last byte are 0. -/
theorem append_buffer_bit_order (bits : List Int) :
    ∃ buf, Mem.append_bits Mem.alloc_buffer bits = some buf ∧
      buf.curr = bits.length / 8 ∧ buf.bit = bits.length % 8 ∧
      (∀ i (h : i < bits.length), ∃ c, buf.mem[i / 8]? = some (some c) ∧
        c.testBit (7 - i % 8) = decide (bits[i] ≠ 0)) ∧
      (bits.length % 8 ≠ 0 → ∃ c, buf.mem[bits.length / 8]? = some (some c) ∧
        ∀ j, j < 8 - bits.length % 8 → c.testBit j = false) := by
  obtain ⟨buf, h1, hok, hd⟩ := Mem.append_bits_holds bits Mem.alloc_buffer []
    Mem.alloc_buffer_ok ⟨rfl, rfl, fun i hi => absurd hi (by simp)⟩
  rw [List.nil_append] at hd
  obtain ⟨hdc, hdb, hbits⟩ := hd
  refine ⟨buf, h1, hdc, hdb, hbits, ?_⟩
  intro hne
  obtain ⟨c, hc, hlow⟩ := hok.2.2.2 (by rw [hdb]; exact hne)
  rw [hdc] at hc
  rw [hdb] at hlow
  exact ⟨c, hc, hlow⟩

theorem append_buffer_bit_order_witness :
    ∃ buf, Mem.append_bits Mem.alloc_buffer [1, 0, -3, 1, 0, 0, 0, 1, 1, 0] = some buf ∧
      buf.curr = [1, 0, -3, 1, 0, 0, 0, 1, 1, (0 : Int)].length / 8 ∧
      buf.bit = [1, 0, -3, 1, 0, 0, 0, 1, 1, (0 : Int)].length % 8 ∧
      (∀ i (h : i < [1, 0, -3, 1, 0, 0, 0, 1, 1, (0 : Int)].length),
        ∃ c, buf.mem[i / 8]? = some (some c) ∧
          c.testBit (7 - i % 8) = decide ([1, 0, -3, 1, 0, 0, 0, 1, 1, (0 : Int)][i] ≠ 0)) ∧
      ([1, 0, -3, 1, 0, 0, 0, 1, 1, (0 : Int)].length % 8 ≠ 0 →
        ∃ c, buf.mem[[1, 0, -3, 1, 0, 0, 0, 1, 1, (0 : Int)].length / 8]? = some (some c) ∧
          ∀ j, j < 8 - [1, 0, -3, 1, 0, 0, 0, 1, 1, (0 : Int)].length % 8 →
            c.testBit j = false) :=
  append_buffer_bit_order [1, 0, -3, 1, 0, 0, 0, 1, 1, 0]

/-- The ten bits `1 0 1 1 0 0 0 1 1 0` give the bytes `0xB1 0x80`. -/
theorem append_bits_example :
    (Mem.append_bits Mem.alloc_buffer [1, 0, -3, 1, 0, 0, 0, 1, 1, 0]).map
      (fun buf => (buf.mem.take 2, buf.curr, buf.bit)) = some ([some 0xB1, some 0x80], 1, 2) := by
  decide

/-! ## Byte appends on the block -/

/-- A call of `append_buffer` whose data fit into the block after the one
enlargement: it returns `data_size`, leaves `curr` byte-aligned behind the
copied data, and changes no byte below the aligned write position. -/
theorem Mem.append_buffer_fits (buf : Mem.buffer) (data : List Nat) (n : Nat)
    (h : Mem.buffer_ok buf) (hdata : n ≤ data.length)
    (hfit : (if buf.bit ≠ 0 then buf.curr + 1 else buf.curr) + n ≤ 2 * buf.mem.length) :
    ∃ buf1, Mem.append_buffer buf (some data) n = some (buf1, n) ∧ Mem.buffer_ok buf1 ∧
      buf1.bit = 0 ∧ buf1.curr = (if buf.bit ≠ 0 then buf.curr + 1 else buf.curr) + n ∧
      buf.mem.length ≤ buf1.mem.length ∧
      (∀ i, i < (if buf.bit ≠ 0 then buf.curr + 1 else buf.curr) → buf1.mem[i]? = buf.mem[i]?) ∧
      (∀ j (hj : j < n),
        buf1.mem[(if buf.bit ≠ 0 then buf.curr + 1 else buf.curr) + j]? =
          some (some (data[j]))) := by
  obtain ⟨h32, hcurr, hbit, hbyte⟩ := h
  have h32' : 32 ≤ buf.mem.length := h32
  generalize hA : (if buf.bit ≠ 0 then buf.curr + 1 else buf.curr) = A at hfit ⊢
  have hAle : A ≤ buf.mem.length := by
    by_cases h0 : buf.bit ≠ 0
    · obtain ⟨c0, hc0, _⟩ := hbyte h0
      have hin : buf.curr < buf.mem.length := by
        by_contra hn
        rw [List.getElem?_eq_none (by omega)] at hc0
        exact absurd hc0 (by simp)
      rw [if_pos h0] at hA; omega
    · rw [if_neg h0] at hA; omega
  have e1 : (if buf.bit ≠ 0 then { buf with curr := buf.curr + 1, bit := 0 } else buf) =
      { mem := buf.mem, curr := A, bit := 0 } := by
    by_cases h0 : buf.bit ≠ 0
    · rw [if_pos h0] at hA ⊢; rw [← hA]
    · rw [if_neg h0] at hA ⊢
      have : buf.bit = 0 := not_not.1 h0
      rw [← hA, ← this]
  obtain ⟨M, hM, hlen, hMlen, hpre⟩ : ∃ M : List (Option Nat),
      (if A + n > buf.mem.length then
          Mem.enlarge_buffer { mem := buf.mem, curr := A, bit := 0 }
        else { mem := buf.mem, curr := A, bit := 0 }) = { mem := M, curr := A, bit := 0 } ∧
      A + n ≤ M.length ∧ buf.mem.length ≤ M.length ∧
      (∀ i, i < buf.mem.length → M[i]? = buf.mem[i]?) := by
    by_cases hbig : A + n > buf.mem.length
    · refine ⟨buf.mem ++ List.replicate buf.mem.length none, ?_, ?_, ?_, ?_⟩
      · rw [if_pos hbig]; rfl
      · rw [List.length_append, List.length_replicate]; omega
      · rw [List.length_append, List.length_replicate]; omega
      · intro i hi
        rw [List.getElem?_append_left hi]
    · exact ⟨buf.mem, by rw [if_neg hbig], by omega, le_refl _, fun i _ => rfl⟩
  have hmemlen : (M.take A ++ (data.take n).map some ++ M.drop (A + n)).length = M.length := by
    simp only [List.length_append, List.length_take, List.length_map, List.length_drop]
    omega
  have hleft : ∀ i, i < A →
      (M.take A ++ (data.take n).map some ++ M.drop (A + n))[i]? = buf.mem[i]? := by
    intro i hi
    rw [List.append_assoc, List.getElem?_append_left (by rw [List.length_take]; omega),
      List.getElem?_take_of_lt hi, hpre i (by omega)]
  have hright : ∀ j (hj : j < n),
      (M.take A ++ (data.take n).map some ++ M.drop (A + n))[A + j]? = some (some (data[j])) := by
    intro j hj
    have hlA : (M.take A).length = A := by rw [List.length_take]; omega
    rw [List.append_assoc, List.getElem?_append_right (by omega), hlA, Nat.add_sub_cancel_left,
      List.getElem?_append_left (by rw [List.length_map, List.length_take]; omega),
      List.getElem?_map, List.getElem?_take_of_lt hj, List.getElem?_eq_getElem (by omega)]
    rfl
  unfold Mem.append_buffer
  rw [e1]
  dsimp only
  rw [hM]
  dsimp only
  by_cases hn : n = 0
  · subst hn
    rw [if_pos rfl]
    refine ⟨{ mem := M, curr := A, bit := 0 }, rfl, ⟨by dsimp only; omega, by dsimp only; omega,
      Nat.zero_lt_succ 7, fun hne => absurd rfl hne⟩, rfl, rfl, hMlen, fun i hi => hpre i (by omega), ?_⟩
    intro j hj
    omega
  · rw [if_neg hn, if_neg (by omega)]
    refine ⟨_, rfl, ⟨?_, ?_, Nat.zero_lt_succ 7, fun hne => absurd rfl hne⟩, rfl, rfl, ?_, hleft, hright⟩
    · dsimp only; rw [hmemlen]; omega
    · dsimp only; rw [hmemlen]; omega
    · dsimp only; rw [hmemlen]; omega

/-- A call of `append_buffer` with `NULL`: nothing is copied and `curr` only
moves to the byte boundary. -/
theorem Mem.append_buffer_null (buf : Mem.buffer) (n : Nat) (h : Mem.buffer_ok buf) :
    ∃ buf1, Mem.append_buffer buf none n = some (buf1, n) ∧ Mem.buffer_ok buf1 ∧
      buf1.bit = 0 ∧ buf1.curr = (if buf.bit ≠ 0 then buf.curr + 1 else buf.curr) ∧
      buf.mem.length ≤ buf1.mem.length ∧
      (n = 0 → buf1.mem = buf.mem) ∧
      (∀ i, i < buf.mem.length → buf1.mem[i]? = buf.mem[i]?) := by
  obtain ⟨h32, hcurr, hbit, hbyte⟩ := h
  have h32' : 32 ≤ buf.mem.length := h32
  generalize hA : (if buf.bit ≠ 0 then buf.curr + 1 else buf.curr) = A
  have hAle : A ≤ buf.mem.length := by
    by_cases h0 : buf.bit ≠ 0
    · obtain ⟨c0, hc0, _⟩ := hbyte h0
      have hin : buf.curr < buf.mem.length := by
        by_contra hn
        rw [List.getElem?_eq_none (by omega)] at hc0
        exact absurd hc0 (by simp)
      rw [if_pos h0] at hA; omega
    · rw [if_neg h0] at hA; omega
  have e1 : (if buf.bit ≠ 0 then { buf with curr := buf.curr + 1, bit := 0 } else buf) =
      { mem := buf.mem, curr := A, bit := 0 } := by
    by_cases h0 : buf.bit ≠ 0
    · rw [if_pos h0] at hA ⊢; rw [← hA]
    · rw [if_neg h0] at hA ⊢
      have : buf.bit = 0 := not_not.1 h0
      rw [← hA, ← this]
  unfold Mem.append_buffer
  rw [e1]
  dsimp only
  by_cases hbig : A + n > buf.mem.length
  · rw [if_pos hbig]
    refine ⟨_, rfl, ⟨?_, ?_, Nat.zero_lt_succ 7, fun hne => absurd rfl hne⟩, rfl, rfl, ?_, ?_, ?_⟩
    · simp only [Mem.enlarge_buffer, List.length_append, List.length_replicate]; omega
    · simp only [Mem.enlarge_buffer, List.length_append, List.length_replicate]; omega
    · simp only [Mem.enlarge_buffer, List.length_append, List.length_replicate]; omega
    · intro hn; omega
    · intro i hi
      simp only [Mem.enlarge_buffer]
      rw [List.getElem?_append_left hi]
  · rw [if_neg hbig]
    exact ⟨_, rfl, ⟨h32, hAle, Nat.zero_lt_succ 7, fun hne => absurd rfl hne⟩, rfl, rfl, le_refl _,
      fun _ => rfl, fun i _ => rfl⟩

/-- C27. A first call `append_buffer(buf, data, 65)` on a freshly allocated
buffer: the block of 32 bytes is enlarged once, to 64 bytes, and `memcpy`
then writes 65 bytes into it, past `tail`. -/
theorem append_buffer_past_tail :
    Mem.append_buffer Mem.alloc_buffer (some (List.replicate 65 0)) 65 = none ∧
    (Mem.enlarge_buffer Mem.alloc_buffer).mem.length = 64 := by
  decide

/-! ## The size of the buffer -/

theorem Mem.buffer_ok_aligned (buf : Mem.buffer) (h : Mem.buffer_ok buf) :
    (if buf.bit ≠ 0 then buf.curr + 1 else buf.curr) ≤ buf.mem.length := by
  obtain ⟨_, hcurr, _, hbyte⟩ := h
  by_cases h0 : buf.bit ≠ 0
  · obtain ⟨c0, hc0, _⟩ := hbyte h0
    have hin : buf.curr < buf.mem.length := by
      by_contra hn
      rw [List.getElem?_eq_none (by omega)] at hc0
      exact absurd hc0 (by simp)
    rw [if_pos h0]; omega
  · rw [if_neg h0]; exact hcurr

theorem Mem.run_bits_written : ∀ (calls : List Mem.call) (buf : Mem.buffer) (w : Nat),
    Mem.buffer_ok buf → 8 * buf.curr + buf.bit = w →
    (∀ d n, Mem.call.bytes (some d) n ∈ calls → n ≤ d.length ∧ n ≤ BUFFER_INIT_MIN) →
    ∃ buf1, Mem.run buf calls = some buf1 ∧ Mem.buffer_ok buf1 ∧
      8 * buf1.curr + buf1.bit = Mem.bits_written w calls := by
  intro calls
  induction calls with
  | nil =>
    intro buf w h hw _
    exact ⟨buf, rfl, h, hw⟩
  | cons c cs ih =>
    intro buf w h hw hcalls
    have hcs : ∀ d n, Mem.call.bytes (some d) n ∈ cs → n ≤ d.length ∧ n ≤ BUFFER_INIT_MIN :=
      fun d n hm => hcalls d n (List.mem_cons_of_mem _ hm)
    have hA := Mem.buffer_ok_aligned buf h
    have hb8 : buf.bit < 8 := h.2.2.1
    have h32 : 32 ≤ buf.mem.length := h.1
    have hAw : 8 * (if buf.bit ≠ 0 then buf.curr + 1 else buf.curr) = 8 * ((w + 7) / 8) := by
      by_cases h0 : buf.bit ≠ 0
      · rw [if_pos h0]; omega
      · rw [if_neg h0]; omega
    cases c with
    | bit x =>
      obtain ⟨buf1, h1, hok1, hw1, _⟩ := Mem.append_buffer_bit_ok buf x h
      obtain ⟨buf2, h2, hok2, hw2⟩ := ih buf1 (w + 1) hok1 (by omega) hcs
      exact ⟨buf2, by simp only [Mem.run, h1]; exact h2, hok2, hw2⟩
    | bytes data n =>
      cases data with
      | none =>
        obtain ⟨buf1, h1, hok1, hb1, hc1, _⟩ := Mem.append_buffer_null buf n h
        obtain ⟨buf2, h2, hok2, hw2⟩ := ih buf1 (8 * ((w + 7) / 8)) hok1
          (by rw [hb1, hc1, hAw]; rfl) hcs
        refine ⟨buf2, by simp only [Mem.run, h1]; exact h2, hok2, ?_⟩
        rw [hw2]
        simp [Mem.bits_written]
      | some d =>
        obtain ⟨hd, hn⟩ := hcalls d n (List.mem_cons_self _ _)
        have hn32 : n ≤ 32 := hn
        obtain ⟨buf1, h1, hok1, hb1, hc1, _⟩ := Mem.append_buffer_fits buf d n h hd (by omega)
        obtain ⟨buf2, h2, hok2, hw2⟩ := ih buf1 (8 * ((w + 7) / 8) + 8 * n) hok1
          (by rw [hb1, hc1, ← hAw]; omega) hcs
        refine ⟨buf2, by simp only [Mem.run, h1]; exact h2, hok2, ?_⟩
        rw [hw2]
        simp [Mem.bits_written]

/-- C28 (counterexample). After one `append_buffer_bit` call on a fresh buffer
the first byte holds one bit, and `BUFFER_SIZE` is 0, not 1. -/
theorem buffer_size_counterexample :
    ∃ buf, Mem.run Mem.alloc_buffer [Mem.call.bit 1] = some buf ∧
      buf.mem[0]? = some (some 0x80) ∧ buf.bit = 1 ∧
      Mem.bits_written 0 [Mem.call.bit 1] = 1 ∧
      Mem.BUFFER_SIZE buf = 0 ∧
      Mem.BUFFER_SIZE buf ≠ (Mem.bits_written 0 [Mem.call.bit 1] + 7) / 8 :=
  ⟨{ mem := some 0x80 :: List.replicate 31 none, curr := 0, bit := 1 }, by decide, by decide,
    by decide, by decide, by decide, by decide⟩

/-- C28 (amended). After every sequence of `append_buffer_bit` and
`append_buffer` calls on a fresh buffer, each byte call copying at most
`BUFFER_INIT_MIN` bytes of its data, `BUFFER_SIZE` is the number of whole
bytes written: the number of bits between `head` and the write position,
divided by eight and rounded down. A last byte that holds fewer than eight
bits is written in the block at offset `BUFFER_SIZE` and is not counted;
`BUFFER_SIZE` counts every written byte exactly when `bit` is 0. -/
theorem buffer_size_whole_bytes (calls : List Mem.call)
    (h : ∀ d n, Mem.call.bytes (some d) n ∈ calls → n ≤ d.length ∧ n ≤ BUFFER_INIT_MIN) :
    ∃ buf, Mem.run Mem.alloc_buffer calls = some buf ∧
      Mem.BUFFER_SIZE buf = Mem.bits_written 0 calls / 8 ∧
      buf.bit = Mem.bits_written 0 calls % 8 ∧
      (buf.bit ≠ 0 → ∃ c, buf.mem[Mem.BUFFER_SIZE buf]? = some (some c)) ∧
      (Mem.BUFFER_SIZE buf = (Mem.bits_written 0 calls + 7) / 8 ↔ buf.bit = 0) := by
  obtain ⟨buf, h1, hok, hw⟩ := Mem.run_bits_written calls Mem.alloc_buffer 0
    Mem.alloc_buffer_ok rfl h
  have hb8 : buf.bit < 8 := hok.2.2.1
  refine ⟨buf, h1, ?_, ?_, ?_, ?_⟩
  · unfold Mem.BUFFER_SIZE; omega
  · omega
  · intro hne
    obtain ⟨c, hc, _⟩ := hok.2.2.2 hne
    exact ⟨c, hc⟩
  · unfold Mem.BUFFER_SIZE; omega

theorem buffer_size_whole_bytes_witness :
    ∃ buf, Mem.run Mem.alloc_buffer
        [Mem.call.bit 1, Mem.call.bytes (some [7, 8, 9, 10]) 4, Mem.call.bit 0,
          Mem.call.bit 1, Mem.call.bytes none 0, Mem.call.bit 1] = some buf ∧
      Mem.BUFFER_SIZE buf = Mem.bits_written 0
        [Mem.call.bit 1, Mem.call.bytes (some [7, 8, 9, 10]) 4, Mem.call.bit 0,
          Mem.call.bit 1, Mem.call.bytes none 0, Mem.call.bit 1] / 8 ∧
      buf.bit = Mem.bits_written 0
        [Mem.call.bit 1, Mem.call.bytes (some [7, 8, 9, 10]) 4, Mem.call.bit 0,
          Mem.call.bit 1, Mem.call.bytes none 0, Mem.call.bit 1] % 8 ∧
      (buf.bit ≠ 0 → ∃ c, buf.mem[Mem.BUFFER_SIZE buf]? = some (some c)) ∧
      (Mem.BUFFER_SIZE buf = (Mem.bits_written 0
        [Mem.call.bit 1, Mem.call.bytes (some [7, 8, 9, 10]) 4, Mem.call.bit 0,
          Mem.call.bit 1, Mem.call.bytes none 0, Mem.call.bit 1] + 7) / 8 ↔ buf.bit = 0) :=
  buffer_size_whole_bytes _ (by
    intro d n hm
    simp only [List.mem_cons, Mem.call.bytes.injEq, Option.some.injEq, List.mem_singleton,
      reduceCtorEq, false_or, or_false, false_and, and_false, List.not_mem_nil] at hm
    obtain ⟨rfl, rfl⟩ := hm
    decide)

/-! ## Order of the search results -/

theorem add_search_result_new {Score : Type} [Zero Score] [Add Score] :
    ∀ (results : List (search_results Score)) (d : Int) (s : Score),
      (∀ r ∈ results, r.document_id ≠ d) →
      add_search_result results d s = results ++ [{ document_id := d, score := 0 + s }] := by
  intro results
  induction results with
  | nil => intro d s _; rfl
  | cons r rs ih =>
    intro d s h
    simp only [add_search_result]
    rw [if_neg (h r (List.mem_cons_self _ _)),
      ih d s (fun x hx => h x (List.mem_cons_of_mem _ hx))]
    rfl

/-- The results that the loop of `search_docs` collects are in strictly
increasing order of `document_id` when the first cursor is. -/
theorem search_docs_loop_increasing {Score : Type} [Zero Score] [Add Score] (e : Int)
    (score_fn : List inverted_index_value → List (List postings_list) → Score)
    (tokens : List inverted_index_value) :
    ∀ (fuel : Nat) (cursors : List (List postings_list))
      (results out : List (search_results Score)),
      results.Pairwise (fun a b => a.document_id < b.document_id) →
      (∀ c0, cursors.head? = some c0 →
        c0.Pairwise (fun p q => p.document_id < q.document_id) ∧
        ∀ r ∈ results, ∀ p ∈ c0, r.document_id < p.document_id) →
      search_docs_loop e score_fn tokens fuel cursors results = some out →
      out.Pairwise (fun a b => a.document_id < b.document_id) := by
  intro fuel
  induction fuel with
  | zero =>
    intro cursors results out hres _ h
    simp only [search_docs_loop, Option.some.injEq] at h
    rw [← h]; exact hres
  | succ fuel ih =>
    intro cursors results out hres hc h
    cases cursors with
    | nil =>
      simp only [search_docs_loop, Option.some.injEq] at h
      rw [← h]; exact hres
    | cons c0 others =>
      obtain ⟨hc0, hlt⟩ := hc c0 rfl
      cases c0 with
      | nil =>
        simp only [search_docs_loop, Option.some.injEq] at h
        rw [← h]; exact hres
      | cons p0 rest0 =>
        simp only [search_docs_loop] at h
        cases hadv : advance_cursors p0.document_id others with
        | none =>
          rw [hadv] at h
          simp only [Option.some.injEq] at h
          rw [← h]; exact hres
        | some r =>
          obtain ⟨next_doc_id, others2⟩ := r
          rw [hadv] at h
          dsimp only at h
          by_cases hn : next_doc_id > 0
          · rw [if_pos hn] at h
            refine ih _ results out hres ?_ h
            intro c hc
            simp only [List.head?_cons, Option.some.injEq] at hc
            subst hc
            have hsub : List.Sublist
                ((p0 :: rest0).dropWhile (fun p => decide (p.document_id < next_doc_id)))
                (p0 :: rest0) := List.dropWhile_sublist _
            exact ⟨hc0.sublist hsub, fun r hr p hp => hlt r hr p (hsub.subset hp)⟩
          · rw [if_neg hn] at h
            have hrest : rest0.Pairwise (fun p q => p.document_id < q.document_id) :=
              (List.pairwise_cons.1 hc0).2
            have hp0 : ∀ q ∈ rest0, p0.document_id < q.document_id :=
              (List.pairwise_cons.1 hc0).1
            cases hph : (if e ≠ 0 then search_phrase tokens ((p0 :: rest0) :: others2)
                else some (-1)) with
            | none => rw [hph] at h; simp at h
            | some phrase_count =>
              rw [hph] at h
              dsimp only at h
              by_cases hz : phrase_count ≠ 0
              · rw [if_pos hz] at h
                have hnew : ∀ r ∈ results, r.document_id ≠ p0.document_id := fun r hr =>
                  ne_of_lt (hlt r hr p0 (List.mem_cons_self _ _))
                rw [add_search_result_new results _ _ hnew] at h
                refine ih _ _ out ?_ ?_ h
                · rw [List.pairwise_append]
                  refine ⟨hres, List.pairwise_singleton _ _, ?_⟩
                  intro a ha b hb
                  rw [List.mem_singleton] at hb
                  subst hb
                  exact hlt a ha p0 (List.mem_cons_self _ _)
                · intro c hc
                  simp only [List.head?_cons, Option.some.injEq] at hc
                  subst hc
                  refine ⟨hrest, ?_⟩
                  intro r hr p hp
                  rcases List.mem_append.1 hr with hr | hr
                  · exact hlt r hr p (List.mem_cons_of_mem _ hp)
                  · rw [List.mem_singleton] at hr
                    subst hr
                    exact hp0 p hp
              · rw [if_neg hz] at h
                refine ih _ results out hres ?_ h
                intro c hc
                simp only [List.head?_cons, Option.some.injEq] at hc
                subst hc
                exact ⟨hrest, fun r hr p hp => hlt r hr p (List.mem_cons_of_mem _ hp)⟩

/-- With phrase search disabled the loop of `search_docs` always returns. -/
theorem search_docs_loop_returns {Score : Type} [Zero Score] [Add Score]
    (score_fn : List inverted_index_value → List (List postings_list) → Score)
    (tokens : List inverted_index_value) :
    ∀ (fuel : Nat) (cursors : List (List postings_list)) (results : List (search_results Score)),
      ∃ out, search_docs_loop 0 score_fn tokens fuel cursors results = some out := by
  intro fuel
  induction fuel with
  | zero => intro cursors results; exact ⟨results, rfl⟩
  | succ fuel ih =>
    intro cursors results
    cases cursors with
    | nil => exact ⟨results, rfl⟩
    | cons c0 others =>
      cases c0 with
      | nil => exact ⟨results, rfl⟩
      | cons p0 rest0 =>
        simp only [search_docs_loop]
        cases hadv : advance_cursors p0.document_id others with
        | none => exact ⟨results, rfl⟩
        | some r =>
          obtain ⟨next_doc_id, others2⟩ := r
          dsimp only
          by_cases hn : next_doc_id > 0
          · rw [if_pos hn]; exact ih _ _
          · rw [if_neg hn]
            simp only [ne_eq, not_true_eq_false, if_false]
            exact ih _ _

/-- Insertion into a list sorted by `r` that keeps, among elements that `r`
does not separate, the order `S` in which they arrived. -/
theorem orderedInsert_stable {α : Type} (r S : α → α → Prop) [DecidableRel r]
    (htot : ∀ a b, r a b ∨ r b a) (htrans : ∀ a b c, r a b → r b c → r a c) (a : α) :
    ∀ (l : List α), l.Pairwise (fun x y => r x y ∧ (r y x → S x y)) → (∀ b ∈ l, S a b) →
      (l.orderedInsert r a).Pairwise (fun x y => r x y ∧ (r y x → S x y)) := by
  intro l
  induction l with
  | nil => intro _ _; simp
  | cons b l ih =>
    intro hl hS
    rw [List.orderedInsert]
    by_cases hab : r a b
    · rw [if_pos hab]
      refine List.pairwise_cons.2 ⟨?_, hl⟩
      intro x hx
      rcases List.mem_cons.1 hx with rfl | hx
      · exact ⟨hab, fun _ => hS _ (List.mem_cons_self _ _)⟩
      · exact ⟨htrans a b x hab ((List.pairwise_cons.1 hl).1 x hx).1,
          fun _ => hS x (List.mem_cons_of_mem _ hx)⟩
    · rw [if_neg hab]
      refine List.pairwise_cons.2 ⟨?_, ih (List.pairwise_cons.1 hl).2
        (fun x hx => hS x (List.mem_cons_of_mem _ hx))⟩
      intro x hx
      rcases (List.mem_orderedInsert r).1 hx with rfl | hx
      · exact ⟨(htot x b).resolve_left hab, fun h => absurd h hab⟩
      · exact (List.pairwise_cons.1 hl).1 x hx

/-- The sort of `HASH_SORT` is stable. -/
theorem insertionSort_stable {α : Type} (r S : α → α → Prop) [DecidableRel r]
    (htot : ∀ a b, r a b ∨ r b a) (htrans : ∀ a b c, r a b → r b c → r a c) :
    ∀ (l : List α), l.Pairwise S →
      (l.insertionSort r).Pairwise (fun x y => r x y ∧ (r y x → S x y)) := by
  intro l
  induction l with
  | nil => intro _; simp
  | cons a l ih =>
    intro h
    rw [List.insertionSort]
    refine orderedInsert_stable r S htot htrans a _ (ih (List.pairwise_cons.1 h).2) ?_
    intro b hb
    exact (List.pairwise_cons.1 h).1 b ((List.perm_insertionSort r l).mem_iff.1 hb)

/-- C21. Result order: for scores in a linear order, posting lists fetched in
strictly increasing order of `document_id` and results that are empty
before the call, the results of `search_docs` are in non-increasing order of
score, and of two results with equal score the one with the smaller
`document_id` comes first; with phrase search disabled `search_docs` always
returns. -/
theorem search_docs_result_order {Score : Type} [Zero Score] [Add Score] [LinearOrder Score]
    (fetch : Int → Int × List postings_list) (e : Int)
    (score_fn : List inverted_index_value → List (List postings_list) → Score)
    (tokens : List inverted_index_value)
    (hfetch : ∀ t ∈ tokens,
      (fetch t.token_id).2.Pairwise (fun p q => p.document_id < q.document_id)) :
    (∀ out, search_docs fetch e score_fn [] tokens = some out →
      out.Pairwise (fun a b => b.score ≤ a.score ∧
        (a.score = b.score → a.document_id < b.document_id))) ∧
    (e = 0 → ∃ out, search_docs fetch e score_fn [] tokens = some out) := by
  have hperm := List.perm_insertionSort docs_count_desc tokens
  have hsort : ∀ found : List (search_results Score),
      found.Pairwise (fun a b => a.document_id < b.document_id) →
      (found.insertionSort score_desc).Pairwise (fun a b => b.score ≤ a.score ∧
        (a.score = b.score → a.document_id < b.document_id)) := by
    intro found hf
    have h := insertionSort_stable (@score_desc Score _)
      (fun a b => a.document_id < b.document_id)
      (fun a b => by
        unfold score_desc
        rcases le_total a.score b.score with h | h
        · exact Or.inr (not_lt.2 h)
        · exact Or.inl (not_lt.2 h))
      (fun a b c hab hbc => by
        unfold score_desc at *
        exact not_lt.2 (le_trans (not_lt.1 hbc) (not_lt.1 hab)))
      found hf
    refine h.imp ?_
    intro a b hab
    unfold score_desc at hab
    exact ⟨not_lt.1 hab.1, fun heq => hab.2 (not_lt.2 (le_of_eq heq))⟩
  constructor
  · intro out h
    unfold search_docs at h
    by_cases hne : tokens = []
    · rw [if_pos hne] at h
      simp only [Option.some.injEq] at h
      rw [← h]; exact List.Pairwise.nil
    · rw [if_neg hne] at h
      dsimp only at h
      cases hf : fetch_cursors fetch (tokens.insertionSort docs_count_desc) with
      | none =>
        rw [hf] at h
        simp only [Option.map_some', Option.some.injEq] at h
        rw [← h]
        exact hsort [] List.Pairwise.nil
      | some cursors =>
        rw [hf] at h
        dsimp only at h
        obtain ⟨hcs, _⟩ := fetch_cursors_some fetch _ cursors hf
        have hex : ∃ fuel, (search_docs_loop e score_fn (tokens.insertionSort docs_count_desc)
            fuel cursors []).map (fun results => results.insertionSort score_desc) = some out :=
          ⟨_, h⟩
        obtain ⟨fuel, h⟩ := hex
        cases hl : search_docs_loop e score_fn (tokens.insertionSort docs_count_desc)
            fuel cursors [] with
        | none => rw [hl] at h; simp at h
        | some found =>
          rw [hl] at h
          simp only [Option.map_some', Option.some.injEq] at h
          rw [← h]
          refine hsort found (search_docs_loop_increasing e score_fn _ _ cursors [] found
            List.Pairwise.nil ?_ hl)
          intro c0 hc0
          refine ⟨?_, fun r hr => absurd hr (List.not_mem_nil _)⟩
          have hmem : c0 ∈ cursors := List.mem_of_mem_head? hc0
          rw [hcs] at hmem
          obtain ⟨t, ht, rfl⟩ := List.mem_map.1 hmem
          exact hfetch t (hperm.mem_iff.1 ht)
  · intro he
    subst he
    unfold search_docs
    by_cases hne : tokens = []
    · rw [if_pos hne]; exact ⟨[], rfl⟩
    · rw [if_neg hne]
      dsimp only
      cases hf : fetch_cursors fetch (tokens.insertionSort docs_count_desc) with
      | none => exact ⟨_, rfl⟩
      | some cursors =>
        dsimp only
        have hall : ∀ fuel, ∃ out,
            (search_docs_loop 0 score_fn (tokens.insertionSort docs_count_desc) fuel cursors
              []).map (fun results => results.insertionSort score_desc) = some out := by
          intro fuel
          obtain ⟨found, hfound⟩ := search_docs_loop_returns score_fn
            (tokens.insertionSort docs_count_desc) fuel cursors []
          rw [hfound]
          exact ⟨_, rfl⟩
        exact hall _

theorem search_docs_result_order_witness :
    (∀ t ∈ [(⟨1, [⟨0, [0], 1⟩], 3, 1⟩ : inverted_index_value), ⟨2, [⟨0, [1], 1⟩], 3, 1⟩],
      ((fun id : Int => if id = 1
          then ((0 : Int), [(⟨1, [0], 1⟩ : postings_list), ⟨3, [0, 5], 2⟩, ⟨9, [2], 1⟩])
          else (0, [⟨1, [1], 1⟩, ⟨3, [1, 6], 2⟩, ⟨9, [3], 1⟩])) t.token_id).2.Pairwise
        (fun p q => p.document_id < q.document_id)) ∧
    (∀ out,
      @search_docs Nat _ _ _ _
          (fun id => if id = 1 then (0, [⟨1, [0], 1⟩, ⟨3, [0, 5], 2⟩, ⟨9, [2], 1⟩])
            else (0, [⟨1, [1], 1⟩, ⟨3, [1, 6], 2⟩, ⟨9, [3], 1⟩]))
          0 (fun _ cs => (cs.map (fun c => (c.headD ⟨0, [], 0⟩).positions_count.toNat)).sum) []
          [⟨1, [⟨0, [0], 1⟩], 3, 1⟩, ⟨2, [⟨0, [1], 1⟩], 3, 1⟩] = some out →
      out.Pairwise (fun a b => b.score ≤ a.score ∧
        (a.score = b.score → a.document_id < b.document_id))) ∧
    ((0 : Int) = 0 → ∃ out,
      @search_docs Nat _ _ _ _
          (fun id => if id = 1 then (0, [⟨1, [0], 1⟩, ⟨3, [0, 5], 2⟩, ⟨9, [2], 1⟩])
            else (0, [⟨1, [1], 1⟩, ⟨3, [1, 6], 2⟩, ⟨9, [3], 1⟩]))
          0 (fun _ cs => (cs.map (fun c => (c.headD ⟨0, [], 0⟩).positions_count.toNat)).sum) []
          [⟨1, [⟨0, [0], 1⟩], 3, 1⟩, ⟨2, [⟨0, [1], 1⟩], 3, 1⟩] = some out) :=
  ⟨by decide,
    @search_docs_result_order Nat _ _ _
      (fun id => if id = 1 then (0, [⟨1, [0], 1⟩, ⟨3, [0, 5], 2⟩, ⟨9, [2], 1⟩])
        else (0, [⟨1, [1], 1⟩, ⟨3, [1, 6], 2⟩, ⟨9, [3], 1⟩]))
      0 (fun _ cs => (cs.map (fun c => (c.headD ⟨0, [], 0⟩).positions_count.toNat)).sum)
      [⟨1, [⟨0, [0], 1⟩], 3, 1⟩, ⟨2, [⟨0, [1], 1⟩], 3, 1⟩] (by decide)⟩

/-- Three matching documents with the scores 2, 4 and 2: the document with
the highest score comes first, the two with equal score follow in the order
of their ids. -/
theorem result_order_example :
    (@search_docs Nat _ _ _ _
        (fun id => if id = 1 then (0, [⟨1, [0], 1⟩, ⟨3, [0, 5], 2⟩, ⟨9, [2], 1⟩])
          else (0, [⟨1, [1], 1⟩, ⟨3, [1, 6], 2⟩, ⟨9, [3], 1⟩]))
        0 (fun _ cs => (cs.map (fun c => (c.headD ⟨0, [], 0⟩).positions_count.toNat)).sum) []
        [⟨1, [⟨0, [0], 1⟩], 3, 1⟩, ⟨2, [⟨0, [1], 1⟩], 3, 1⟩]).map
      (fun out => out.map (fun r => (r.document_id, r.score))) =
      some [(3, 4), (1, 2), (9, 2)] := by
  decide

/-! ## Monotonicity of the score -/

theorem calc_tf_idf_loop_eq {Score : Type} [Add Score] [Mul Score] [Div Score] [IntCast Score]
    (log2 : Score → Score) (indexed_count : Int) :
    ∀ (query_tokens : List inverted_index_value) (doc_cursors : List (List postings_list))
      (currents : List postings_list) (score : Score),
      doc_cursors.map List.head? = currents.map some →
      query_tokens.length = currents.length →
      calc_tf_idf_loop log2 indexed_count query_tokens.length query_tokens doc_cursors score =
        some ((tf_idf_terms log2 indexed_count query_tokens currents).foldl
          (fun s t => s + t) score) := by
  intro query_tokens
  induction query_tokens with
  | nil =>
    intro doc_cursors currents score _ hlen
    cases currents with
    | nil => rfl
    | cons p ps => simp at hlen
  | cons qt qts ih =>
    intro doc_cursors currents score hcur hlen
    cases currents with
    | nil => simp at hlen
    | cons p ps =>
      cases doc_cursors with
      | nil => simp at hcur
      | cons c cs =>
        simp only [List.map_cons, List.cons.injEq] at hcur
        obtain ⟨hc, hcs⟩ := hcur
        cases c with
        | nil => simp at hc
        | cons current rest =>
          simp only [List.head?_cons, Option.some.injEq] at hc
          subst hc
          simp only [List.length_cons, Nat.add_right_cancel_iff] at hlen
          simp only [List.length_cons, calc_tf_idf_loop]
          rw [ih cs ps _ hcs hlen]
          rfl

theorem foldl_add_mono {Score : Type} [OrderedAddCommMonoid Score] :
    ∀ (xs ys : List Score) (a b : Score), a ≤ b → List.Forall₂ (fun x y => x ≤ y) xs ys →
      xs.foldl (fun s t => s + t) a ≤ ys.foldl (fun s t => s + t) b := by
  intro xs ys a b hab h
  induction h generalizing a b with
  | nil => exact hab
  | cons hxy _ ih => exact ih _ _ (add_le_add hab hxy)

theorem tf_idf_terms_mono_tf {Score : Type} [LinearOrderedField Score] (log2 : Score → Score)
    (indexed_count : Int) :
    ∀ (query_tokens : List inverted_index_value) (currents currents2 : List postings_list),
      List.Forall₂ (fun (x : inverted_index_value × postings_list) q =>
        x.2.positions_count ≤ q.positions_count ∧
        (x.2.positions_count < q.positions_count →
          0 ≤ log2 ((indexed_count : Score) / (x.1.docs_count : Score))))
        (query_tokens.zip currents) currents2 →
      query_tokens.length = currents.length →
      List.Forall₂ (fun x y => x ≤ y) (tf_idf_terms log2 indexed_count query_tokens currents)
        (tf_idf_terms log2 indexed_count query_tokens currents2) := by
  intro query_tokens
  induction query_tokens with
  | nil => intro _ _ _ _; simp [tf_idf_terms]
  | cons qt qts ih =>
    intro currents currents2 h hlen
    cases currents with
    | nil => simp at hlen
    | cons p ps =>
      rw [List.zip_cons_cons] at h
      cases h with
      | cons hp hrest =>
        simp only [List.length_cons, Nat.add_right_cancel_iff] at hlen
        simp only [tf_idf_terms, List.zipWith_cons_cons]
        refine List.Forall₂.cons ?_ (ih _ _ hrest hlen)
        rcases lt_or_eq_of_le hp.1 with hlt | heq
        · exact mul_le_mul_of_nonneg_right (Int.cast_le.2 hp.1) (hp.2 hlt)
        · dsimp only at heq
          rw [heq]

theorem tf_idf_terms_mono_idf {Score : Type} [LinearOrderedField Score] (log2 : Score → Score)
    (indexed_count indexed_count2 : Int) :
    ∀ (query_tokens query_tokens2 : List inverted_index_value) (currents : List postings_list),
      List.Forall₂ (fun qt qt2 =>
        log2 ((indexed_count : Score) / (qt.docs_count : Score)) ≤
          log2 ((indexed_count2 : Score) / (qt2.docs_count : Score))) query_tokens query_tokens2 →
      (∀ p ∈ currents, 0 ≤ p.positions_count) →
      List.Forall₂ (fun x y => x ≤ y) (tf_idf_terms log2 indexed_count query_tokens currents)
        (tf_idf_terms log2 indexed_count2 query_tokens2 currents) := by
  intro query_tokens query_tokens2 currents h
  induction h generalizing currents with
  | nil => intro _; simp [tf_idf_terms]
  | cons hq _ ih =>
    intro hpos
    cases currents with
    | nil => simp [tf_idf_terms]
    | cons p ps =>
      simp only [tf_idf_terms, List.zipWith_cons_cons]
      refine List.Forall₂.cons ?_ (ih ps (fun x hx => hpos x (List.mem_cons_of_mem _ hx)))
      exact mul_le_mul_of_nonneg_left hq (Int.cast_nonneg.2 (hpos p (List.mem_cons_self _ _)))

/-- C22 (counterexample). One query token found in 2 documents of an index of
1 document has the idf `log2 (1 / 2) = -1`; with `positions_count` 1 the
score is `-1`, with `positions_count` 2 it is `-2`: the score decreases when
the `positions_count` increases. -/
theorem calc_tf_idf_counterexample :
    @calc_tf_idf ℝ _ _ _ _ _ (Real.logb 2) [⟨1, [], 2, 1⟩] [[⟨1, [0], 1⟩]] 1 1 = some (-1) ∧
    @calc_tf_idf ℝ _ _ _ _ _ (Real.logb 2) [⟨1, [], 2, 1⟩] [[⟨1, [0, 1], 2⟩]] 1 1 = some (-2) ∧
    ((1 : Int) ≤ 2 ∧ (-2 : ℝ) < -1) := by
  have h : Real.logb 2 (1 / 2) = -1 := by
    rw [one_div, Real.logb_inv, Real.logb_self_eq_one (by norm_num)]
  refine ⟨?_, ?_, by norm_num, by norm_num⟩
  · simp only [calc_tf_idf, calc_tf_idf_loop, Int.cast_one, Int.cast_ofNat, h]
    norm_num
  · simp only [calc_tf_idf, calc_tf_idf_loop, Int.cast_one, Int.cast_ofNat, h]
    norm_num

/-- C22 (amended). For scores in a linearly ordered field, positive
`indexed_count` and `docs_count`, and cursors whose current postings are
`currents`, `calc_tf_idf` returns the sum, from 0 and in the order of the
query tokens, of `positions_count * log2 (indexed_count / docs_count)`. The
score does not decrease when `positions_count` values increase, provided that
`log2 (indexed_count / docs_count)` is not negative for the tokens whose
`positions_count` increases; and it does not decrease when values of
`log2 (indexed_count / docs_count)` increase, the `positions_count` values
being non-negative. -/
theorem calc_tf_idf_monotone {Score : Type} [LinearOrderedField Score] (log2 : Score → Score)
    (indexed_count : Int) (query_tokens : List inverted_index_value)
    (doc_cursors : List (List postings_list)) (currents : List postings_list)
    (_hcount : 0 < indexed_count) (_hdocs : ∀ qt ∈ query_tokens, 0 < qt.docs_count)
    (hcur : doc_cursors.map List.head? = currents.map some)
    (hlen : query_tokens.length = currents.length) :
    calc_tf_idf log2 query_tokens doc_cursors query_tokens.length indexed_count =
      some ((tf_idf_terms log2 indexed_count query_tokens currents).foldl (fun s t => s + t) 0) ∧
    (∀ (doc_cursors2 : List (List postings_list)) (currents2 : List postings_list),
      doc_cursors2.map List.head? = currents2.map some →
      List.Forall₂ (fun (x : inverted_index_value × postings_list) q =>
        x.2.positions_count ≤ q.positions_count ∧
        (x.2.positions_count < q.positions_count →
          0 ≤ log2 ((indexed_count : Score) / (x.1.docs_count : Score))))
        (query_tokens.zip currents) currents2 →
      ∃ s s2, calc_tf_idf log2 query_tokens doc_cursors query_tokens.length indexed_count = some s ∧
        calc_tf_idf log2 query_tokens doc_cursors2 query_tokens.length indexed_count = some s2 ∧
        s ≤ s2) ∧
    (∀ (query_tokens2 : List inverted_index_value) (indexed_count2 : Int),
      0 < indexed_count2 → (∀ qt ∈ query_tokens2, 0 < qt.docs_count) →
      List.Forall₂ (fun qt qt2 =>
        log2 ((indexed_count : Score) / (qt.docs_count : Score)) ≤
          log2 ((indexed_count2 : Score) / (qt2.docs_count : Score))) query_tokens query_tokens2 →
      (∀ p ∈ currents, 0 ≤ p.positions_count) →
      ∃ s s2, calc_tf_idf log2 query_tokens doc_cursors query_tokens.length indexed_count = some s ∧
        calc_tf_idf log2 query_tokens2 doc_cursors query_tokens2.length indexed_count2 =
          some s2 ∧
        s ≤ s2) := by
  have h0 := calc_tf_idf_loop_eq log2 indexed_count query_tokens doc_cursors currents 0 hcur hlen
  refine ⟨h0, ?_, ?_⟩
  · intro doc_cursors2 currents2 hcur2 hle
    have hlen2 : query_tokens.length = currents2.length := by
      rw [← hle.length_eq, List.length_zip, ← hlen, Nat.min_self]
    exact ⟨_, _, h0,
      calc_tf_idf_loop_eq log2 indexed_count query_tokens doc_cursors2 currents2 0 hcur2 hlen2,
      foldl_add_mono _ _ 0 0 (le_refl _)
        (tf_idf_terms_mono_tf log2 indexed_count query_tokens currents currents2 hle hlen)⟩
  · intro query_tokens2 indexed_count2 _ _ hle hpos
    have hlen2 : query_tokens2.length = currents.length := by rw [← hle.length_eq, hlen]
    exact ⟨_, _, h0,
      calc_tf_idf_loop_eq log2 indexed_count2 query_tokens2 doc_cursors currents 0 hcur hlen2,
      foldl_add_mono _ _ 0 0 (le_refl _)
        (tf_idf_terms_mono_idf log2 indexed_count indexed_count2 query_tokens query_tokens2
          currents hle hpos)⟩

theorem calc_tf_idf_monotone_witness :
    @calc_tf_idf ℝ _ _ _ _ _ (Real.logb 2) [⟨1, [], 1, 1⟩, ⟨2, [], 2, 1⟩]
        [[⟨3, [0], 1⟩, ⟨5, [1], 1⟩], [⟨3, [1, 4], 2⟩]] 2 4 =
      some ((@tf_idf_terms ℝ _ _ _ (Real.logb 2) 4 [⟨1, [], 1, 1⟩, ⟨2, [], 2, 1⟩]
        [⟨3, [0], 1⟩, ⟨3, [1, 4], 2⟩]).foldl (fun s t => s + t) 0) ∧
    @calc_tf_idf ℝ _ _ _ _ _ (Real.logb 2) [⟨1, [], 1, 1⟩, ⟨2, [], 2, 1⟩]
        [[⟨3, [0], 1⟩, ⟨5, [1], 1⟩], [⟨3, [1, 4], 2⟩]] 2 4 = some 4 :=
  ⟨(@calc_tf_idf_monotone ℝ _ (Real.logb 2) 4 [⟨1, [], 1, 1⟩, ⟨2, [], 2, 1⟩]
      [[⟨3, [0], 1⟩, ⟨5, [1], 1⟩], [⟨3, [1, 4], 2⟩]] [⟨3, [0], 1⟩, ⟨3, [1, 4], 2⟩]
      (by decide) (by decide) (by decide) (by decide)).1,
    by
      have h4 : Real.logb 2 4 = 2 := by
        rw [show (4 : ℝ) = 2 ^ (2 : ℕ) by norm_num, Real.logb_pow,
          Real.logb_self_eq_one (by norm_num)]
        norm_num
      have h2 : Real.logb 2 2 = 1 := Real.logb_self_eq_one (by norm_num)
      simp only [calc_tf_idf, calc_tf_idf_loop, Int.cast_one, Int.cast_ofNat]
      norm_num [h4, h2]⟩

/-! ## Flushing the buffer -/

/-- C29 (counterexample). With threshold 0, `add_document` of a document whose
body is one space (no token) returns with `ii_buffer_count = 1`, above the
threshold, the buffer being `NULL`; the final call `add_document(NULL, NULL)`
then leaves `ii_buffer_count` at 1. -/
theorem add_document_counterexample :
    (add_document ⟨2, 0, [], 0, 0, 0, ⟨[], [], []⟩⟩ (some [0x74]) (some [0x20])).map
        (fun env => (env.ii_buffer, env.ii_buffer_count, env.ii_buffer_update_threshold)) =
      some ([], 1, 0) ∧
    (add_documents ⟨2, 0, [], 0, 0, 0, ⟨[], [], []⟩⟩
        [(some [0x74], some [0x20]), (none, none)]).map
        (fun env => (env.ii_buffer, env.ii_buffer_count, env.ii_buffer_update_threshold)) =
      some ([], 1, 0) := by
  decide

/-- The second block of `add_document`, which flushes the buffer. -/
theorem flush_block_spec (env2 env1 : wiser_env) (title : Option (List Nat))
    (h : (if env2.ii_buffer ≠ [] ∧
            (env2.ii_buffer_count > env2.ii_buffer_update_threshold ∨ title = none) then
          match flush_postings env2.compress env2.db env2.ii_buffer with
          | none => none
          | some db => some { env2 with db := db, ii_buffer := [], ii_buffer_count := 0 }
        else some env2) = some env1) :
    (env1.ii_buffer = [] ∨ env1.ii_buffer_count ≤ env1.ii_buffer_update_threshold) ∧
    env1.ii_buffer_update_threshold = env2.ii_buffer_update_threshold ∧
    (env1.ii_buffer ≠ [] → env1 = env2) ∧
    (title = none → env1.ii_buffer = [] ∧
      (env2.ii_buffer ≠ [] → env1.ii_buffer_count = 0) ∧
      (env2.ii_buffer = [] → env1.ii_buffer_count = env2.ii_buffer_count)) := by
  by_cases hc : env2.ii_buffer ≠ [] ∧
      (env2.ii_buffer_count > env2.ii_buffer_update_threshold ∨ title = none)
  · rw [if_pos hc] at h
    cases hf : flush_postings env2.compress env2.db env2.ii_buffer with
    | none => rw [hf] at h; simp at h
    | some db =>
      rw [hf] at h
      simp only [Option.some.injEq] at h
      subst h
      exact ⟨Or.inl rfl, rfl, fun hne => absurd rfl hne,
        fun _ => ⟨rfl, fun _ => rfl, fun he => absurd he hc.1⟩⟩
  · rw [if_neg hc] at h
    simp only [Option.some.injEq] at h
    subst h
    refine ⟨?_, rfl, fun _ => rfl, ?_⟩
    · by_cases hb : env2.ii_buffer = []
      · exact Or.inl hb
      · right
        by_contra hgt
        exact hc ⟨hb, Or.inl (by omega)⟩
    · intro hn
      have hb : env2.ii_buffer = [] := by
        by_contra hb
        exact hc ⟨hb, Or.inr hn⟩
      exact ⟨hb, fun hne => absurd hb hne, fun _ => rfl⟩

/-- The counters on return from `add_document`: the buffer is empty or
`ii_buffer_count <= ii_buffer_update_threshold`. After
`add_document(NULL, NULL)` the buffer is empty; `ii_buffer_count` is 0 when
the buffer was not empty before the call and is unchanged otherwise. The
threshold is never changed. -/
theorem add_document_count_bound (env env1 : wiser_env) (title body : Option (List Nat))
    (h : add_document env title body = some env1) :
    (env1.ii_buffer = [] ∨ env1.ii_buffer_count ≤ env1.ii_buffer_update_threshold) ∧
    env1.ii_buffer_update_threshold = env.ii_buffer_update_threshold ∧
    (env1.ii_buffer ≠ [] → env1.ii_buffer_count ≤ env.ii_buffer_count + 1) ∧
    (title = none → env1.ii_buffer = [] ∧
      (env.ii_buffer ≠ [] → env1.ii_buffer_count = 0) ∧
      (env.ii_buffer = [] → env1.ii_buffer_count = env.ii_buffer_count)) := by
  have hskip : ∀ env2 : wiser_env,
      (if env.ii_buffer ≠ [] ∧
            (env.ii_buffer_count > env.ii_buffer_update_threshold ∨ title = none) then
          match flush_postings env.compress env.db env.ii_buffer with
          | none => none
          | some db => some { env with db := db, ii_buffer := [], ii_buffer_count := 0 }
        else some env) = some env2 →
      (env2.ii_buffer = [] ∨ env2.ii_buffer_count ≤ env2.ii_buffer_update_threshold) ∧
      env2.ii_buffer_update_threshold = env.ii_buffer_update_threshold ∧
      (env2.ii_buffer ≠ [] → env2.ii_buffer_count ≤ env.ii_buffer_count + 1) ∧
      (title = none → env2.ii_buffer = [] ∧
        (env.ii_buffer ≠ [] → env2.ii_buffer_count = 0) ∧
        (env.ii_buffer = [] → env2.ii_buffer_count = env.ii_buffer_count)) := by
    intro env2 h2
    obtain ⟨h1, h2, h3, h4⟩ := flush_block_spec env env2 title h2
    exact ⟨h1, h2, fun hne => by rw [h3 hne]; omega, h4⟩
  have hsome : ∀ t : List Nat, title = some t → ∀ env2 : wiser_env,
      (if env2.ii_buffer ≠ [] ∧
            (env2.ii_buffer_count > env2.ii_buffer_update_threshold ∨ title = none) then
          match flush_postings env2.compress env2.db env2.ii_buffer with
          | none => none
          | some db => some { env2 with db := db, ii_buffer := [], ii_buffer_count := 0 }
        else some env2) = some env1 →
      env2.ii_buffer_update_threshold = env.ii_buffer_update_threshold →
      env2.ii_buffer_count ≤ env.ii_buffer_count + 1 →
      (env1.ii_buffer = [] ∨ env1.ii_buffer_count ≤ env1.ii_buffer_update_threshold) ∧
      env1.ii_buffer_update_threshold = env.ii_buffer_update_threshold ∧
      (env1.ii_buffer ≠ [] → env1.ii_buffer_count ≤ env.ii_buffer_count + 1) ∧
      (title = none → env1.ii_buffer = [] ∧
        (env.ii_buffer ≠ [] → env1.ii_buffer_count = 0) ∧
        (env.ii_buffer = [] → env1.ii_buffer_count = env.ii_buffer_count)) := by
    intro t ht env2 h2 hthr hcnt
    obtain ⟨h1, h2, h3, _⟩ := flush_block_spec env2 env1 title h2
    refine ⟨h1, h2.trans hthr, fun hne => by rw [h3 hne]; exact hcnt, fun hn => ?_⟩
    rw [ht] at hn
    simp at hn
  unfold add_document at h
  cases title with
  | none => exact hskip env1 h
  | some t =>
    cases body with
    | none => exact hskip env1 h
    | some b =>
      dsimp only at h
      cases hu : utf8toutf32 b with
      | none => rw [hu] at h; simp at h
      | some r =>
        obtain ⟨ret, body32, len⟩ := r
        rw [hu] at h
        dsimp only at h
        by_cases hret : ret = 0
        · rw [if_pos hret] at h
          cases ht : text_to_postings_lists (db_add_document env.db t b).tokens
              (db_get_document_id (db_add_document env.db t b) t) body32
              env.token_len env.ii_buffer with
          | none => rw [ht] at h; simp at h
          | some r2 =>
            obtain ⟨tokens, ii_buffer⟩ := r2
            rw [ht] at h
            dsimp only at h
            exact hsome t rfl
              { env with
                db := { db_add_document env.db t b with tokens := tokens },
                ii_buffer := ii_buffer,
                ii_buffer_count := env.ii_buffer_count + 1,
                indexed_count := env.indexed_count + 1 } h rfl (le_refl _)
        · rw [if_neg hret] at h
          dsimp only at h
          exact hsome t rfl
            { env with db := db_add_document env.db t b,
                       indexed_count := env.indexed_count + 1 } h rfl (by dsimp only; omega)

/-- With threshold 1 the second document with tokens makes the count exceed
the threshold and the buffer is flushed within that call. -/
theorem add_documents_example :
    (add_documents ⟨2, 0, [], 0, 1, 0, ⟨[], [], []⟩⟩
        [(some [0x74], some [0x61, 0x62]), (some [0x75], some [0x61, 0x62, 0x63])]).map
      (fun env => (env.ii_buffer.length, env.ii_buffer_count, env.indexed_count, env.db.tokens)) =
      some (0, 0, 2, [([0x61, 0x62], 2), ([0x62], 1), ([0x62, 0x63], 1), ([0x63], 1)]) := by
  decide

/-! ## `merge_postings`: totality and the order of equal document ids -/

theorem merge_postings_cons_le (a b : postings_list) (pa2 pb2 : List postings_list)
    (h : a.document_id ≤ b.document_id) :
    merge_postings (a :: pa2) (b :: pb2) =
      (merge_postings pa2 (b :: pb2)).map (fun r => a :: r) := by
  unfold merge_postings
  have e : (a :: pa2).length + (b :: pb2).length = (pa2.length + (b :: pb2).length) + 1 := by
    simp only [List.length_cons]; omega
  rw [e]
  simp only [merge_postings_loop]
  rw [if_pos h]

theorem merge_postings_cons_gt (a b : postings_list) (pa2 pb2 : List postings_list)
    (h : b.document_id < a.document_id) :
    merge_postings (a :: pa2) (b :: pb2) =
      (merge_postings (a :: pa2) pb2).map (fun r => b :: r) := by
  unfold merge_postings
  have e : (a :: pa2).length + (b :: pb2).length = ((a :: pa2).length + pb2.length) + 1 := by
    simp only [List.length_cons]; omega
  rw [e]
  simp only [merge_postings_loop]
  rw [if_neg (by omega), if_pos (by omega)]

/-- C40. `merge_postings` is total and lossless: for every pair of posting
lists it returns, without reaching `abort()`, a permutation of the
concatenation of the two lists. Whenever the head of the first list has a
`document_id` not above that of the head of the second list, in particular
an equal one, the head of the first list comes first, followed by the merge
of the rest; otherwise the head of the second list comes first. -/
theorem merge_postings_total_lossless (pa pb : List postings_list) :
    (∃ r, merge_postings pa pb = some r ∧ r.Perm (pa ++ pb) ∧
      r.length = pa.length + pb.length) ∧
    (∀ a pa2 b pb2, pa = a :: pa2 → pb = b :: pb2 → a.document_id ≤ b.document_id →
      ∃ r2, merge_postings pa2 (b :: pb2) = some r2 ∧ merge_postings pa pb = some (a :: r2)) ∧
    (∀ a pa2 b pb2, pa = a :: pa2 → pb = b :: pb2 → b.document_id < a.document_id →
      ∃ r2, merge_postings (a :: pa2) pb2 = some r2 ∧ merge_postings pa pb = some (b :: r2)) := by
  refine ⟨merge_postings_perm pa pb, ?_, ?_⟩
  · intro a pa2 b pb2 ha hb hle
    obtain ⟨r2, h2, -⟩ := merge_postings_perm pa2 (b :: pb2)
    refine ⟨r2, h2, ?_⟩
    rw [ha, hb, merge_postings_cons_le a b pa2 pb2 hle, h2]
    rfl
  · intro a pa2 b pb2 ha hb hlt
    obtain ⟨r2, h2, -⟩ := merge_postings_perm (a :: pa2) pb2
    refine ⟨r2, h2, ?_⟩
    rw [ha, hb, merge_postings_cons_gt a b pa2 pb2 hlt, h2]
    rfl

theorem merge_postings_total_lossless_witness :
    ∃ r2, merge_postings [⟨7, [3], 1⟩] (⟨5, [1], 1⟩ :: [⟨5, [2], 1⟩, ⟨2, [0], 1⟩]) = some r2 ∧
      merge_postings [⟨5, [0], 1⟩, ⟨7, [3], 1⟩] [⟨5, [1], 1⟩, ⟨5, [2], 1⟩, ⟨2, [0], 1⟩] =
        some (⟨5, [0], 1⟩ :: r2) :=
  (merge_postings_total_lossless [⟨5, [0], 1⟩, ⟨7, [3], 1⟩]
    [⟨5, [1], 1⟩, ⟨5, [2], 1⟩, ⟨2, [0], 1⟩]).2.1 ⟨5, [0], 1⟩ [⟨7, [3], 1⟩] ⟨5, [1], 1⟩
    [⟨5, [2], 1⟩, ⟨2, [0], 1⟩] rfl rfl (by decide)

/-- Unsorted lists with equal document ids: nothing is lost, and of two heads
with the same id the one of the first list comes first. -/
theorem merge_postings_example :
    merge_postings [⟨5, [0], 1⟩, ⟨7, [3], 1⟩] [⟨5, [1], 1⟩, ⟨5, [2], 1⟩, ⟨2, [0], 1⟩] =
      some [⟨5, [0], 1⟩, ⟨5, [1], 1⟩, ⟨5, [2], 1⟩, ⟨2, [0], 1⟩, ⟨7, [3], 1⟩] := by
  decide

/-! ## The parameters `b` and `t` -/

/-- C31. Golomb parameters: for every `m` with `1 <= m <= 2^30`,
`calc_golomb_params` returns `b` and `t` where `b` is the least natural number
with `2^b >= m` and `t = 2^b - m`; then `0 <= t < m` and, for `m >= 2`,
`t <= 2^(b-1) - 1`. The bound `m <= 2^30` is the range in which the `int`
variable `l` of the loop, which takes the values `2^0, ..., 2^b`, stays
representable: `b <= 30` and `2^b <= 2^30`. -/
theorem calc_golomb_params_ceil_log2 (m : Int) (hm : 1 ≤ m) (hr : m ≤ 2 ^ 30) :
    ∃ b t : Nat, calc_golomb_params m = some (b, t) ∧
      m ≤ 2 ^ b ∧ (∀ k : Nat, m ≤ 2 ^ k → b ≤ k) ∧
      (t : Int) = 2 ^ b - m ∧ (t : Int) < m ∧
      (2 ≤ m → t ≤ 2 ^ (b - 1) - 1 ∧ 1 ≤ b) ∧
      b ≤ 30 ∧ 2 ^ b ≤ 2 ^ 30 := by
  obtain ⟨b, t, h⟩ := calc_golomb_params_some m (by omega)
  obtain ⟨-, hpow, hb⟩ := calc_golomb_params_spec m b t h
  have hmn : (m.toNat : Int) = m := Int.toNat_of_nonneg (by omega)
  have hle : m.toNat ≤ 2 ^ b := by omega
  have hleast : ∀ k : Nat, m.toNat ≤ 2 ^ k → b ≤ k := by
    intro k hk
    rcases hb with h0 | hlt
    · omega
    · by_contra hn
      have hkb : k ≤ b - 1 := by omega
      have : 2 ^ k ≤ 2 ^ (b - 1) := Nat.pow_le_pow_right (by decide) hkb
      omega
  have hcast : ∀ k : Nat, m ≤ 2 ^ k ↔ m.toNat ≤ 2 ^ k := by
    intro k
    constructor
    · intro h1
      have : (m.toNat : Int) ≤ ((2 ^ k : Nat) : Int) := by rw [hmn]; exact_mod_cast h1
      exact_mod_cast this
    · intro h1
      have : (m.toNat : Int) ≤ ((2 ^ k : Nat) : Int) := by exact_mod_cast h1
      rw [hmn] at this
      exact_mod_cast this
  have ht : (t : Int) = 2 ^ b - m := by
    have : ((2 ^ b : Nat) : Int) = (m.toNat : Int) + (t : Int) := by exact_mod_cast hpow
    rw [hmn] at this
    push_cast at this
    omega
  have htm : t < m.toNat := by
    rcases hb with h0 | hlt
    · rw [h0] at hpow; simp at hpow; omega
    · have h2 : 2 ^ b = 2 * 2 ^ (b - 1) := by
        have hb1 : 1 ≤ b := by
          by_contra hn
          have : b = 0 := by omega
          rw [this] at hlt hpow; simp at hlt hpow; omega
        have : b = (b - 1) + 1 := by omega
        rw [this, pow_succ]; simp; ring
      omega
  have hb30 : b ≤ 30 := hleast 30 ((hcast 30).1 hr)
  refine ⟨b, t, h, (hcast b).2 hle, fun k hk => hleast k ((hcast k).1 hk), ht, ?_, ?_, hb30,
    Nat.pow_le_pow_right (by decide) hb30⟩
  · have h3 : (t : Int) < (m.toNat : Int) := by exact_mod_cast htm
    rw [hmn] at h3
    exact h3
  · intro h2
    rcases hb with h0 | hlt
    · rw [h0] at hle; simp at hle; omega
    · have hb1 : 1 ≤ b := by
        by_contra hn
        have : b = 0 := by omega
        rw [this] at hle; simp at hle; omega
      have h2b : 2 ^ b = 2 * 2 ^ (b - 1) := by
        have : b = (b - 1) + 1 := by omega
        rw [this, pow_succ]; simp; ring
      exact ⟨by omega, hb1⟩

theorem calc_golomb_params_ceil_log2_witness :
    ∃ b t : Nat, calc_golomb_params 5 = some (b, t) ∧
      (5 : Int) ≤ 2 ^ b ∧ (∀ k : Nat, (5 : Int) ≤ 2 ^ k → b ≤ k) ∧
      (t : Int) = 2 ^ b - 5 ∧ (t : Int) < 5 ∧
      ((2 : Int) ≤ 5 → t ≤ 2 ^ (b - 1) - 1 ∧ 1 ≤ b) ∧
      b ≤ 30 ∧ 2 ^ b ≤ 2 ^ 30 :=
  calc_golomb_params_ceil_log2 5 (by decide) (by decide)

/-- The parameters of `m = 5` are `b = 3` and `t = 3`. -/
theorem calc_golomb_params_example : calc_golomb_params 5 = some (3, 3) := by decide

/-! ## The assertion of `calc_golomb_params` in the encoder -/

/-- C39. Golomb parameter assertion: for postings with non-empty, strictly
increasing, non-negative positions and `positions_count` equal to their
number, and `documents_count >= postings_len >= 1`, in the range where the
`int` arithmetic of the encoder is exact (`documents_count <= 2^30`, document
ids below `2^31`, positions below `2^30`, so that `last_position + 1` and both
parameters are at most `2^30`): the parameter
`m = documents_count / postings_len` of the document ids and the parameter
`mp = (last_position + 1) / positions_count` of every posting are at least 1,
so `calc_golomb_params` passes its assertion on each of them and
`golomb_encoding` divides by a positive `m`. When moreover no document gap is
negative, `encode_postings_golomb` returns. -/
theorem golomb_params_positive (documents_count postings_len : Int)
    (postings : List postings_list) (postings_e : buffer)
    (hwf : ∀ p ∈ postings, posting_wf p) (hlen : 1 ≤ postings_len)
    (hcount : postings_len ≤ documents_count)
    (hdc : documents_count ≤ 1073741824) (hrange : postings_in_range postings) :
    1 ≤ Int.tdiv documents_count postings_len ∧
    Int.tdiv documents_count postings_len ≤ 1073741824 ∧
    (∃ b t, calc_golomb_params (Int.tdiv documents_count postings_len) = some (b, t)) ∧
    (∀ p ∈ postings, ∃ last, p.positions.getLast? = some last ∧ p.positions_count ≠ 0 ∧
      last + 1 ≤ 1073741824 ∧
      1 ≤ Int.tdiv (last + 1) p.positions_count ∧
      Int.tdiv (last + 1) p.positions_count ≤ 1073741824 ∧
      ∃ bp tp, calc_golomb_params (Int.tdiv (last + 1) p.positions_count) = some (bp, tp)) ∧
    (List.Chain (fun x y => x < y) 0 (postings.map (fun p => p.document_id)) →
      ∃ buf, encode_postings_golomb documents_count postings postings_len postings_e =
        some buf) := by
  have hm : 0 < Int.tdiv documents_count postings_len := by
    rw [Int.tdiv_eq_ediv (by omega) (by omega)]
    have := Int.le_ediv_of_mul_le (a := 1) (b := documents_count) (c := postings_len)
      (by omega) (by omega)
    omega
  have hmle : Int.tdiv documents_count postings_len ≤ 1073741824 := by
    rw [Int.tdiv_eq_ediv (by omega) (by omega)]
    have := Int.ediv_le_self postings_len (show 0 ≤ documents_count by omega)
    omega
  obtain ⟨b, t, hbt⟩ := calc_golomb_params_some _ hm
  refine ⟨by omega, hmle, ⟨b, t, hbt⟩, ?_, ?_⟩
  · intro p hp
    have hpw := hwf p hp
    obtain ⟨last, hl⟩ : ∃ last, p.positions.getLast? = some last := by
      cases hq : p.positions.getLast? with
      | none => rw [List.getLast?_eq_none_iff] at hq; exact absurd hq hpw.1
      | some last => exact ⟨last, rfl⟩
    obtain ⟨-, -, hc, hmp, hmple⟩ := posting_wf_param p hpw last hl
    have hlast : last < 1073741824 := (hrange p hp).2 last (List.mem_of_getLast?_eq_some hl)
    exact ⟨last, hl, by omega, by omega, by omega, by omega, calc_golomb_params_some _ hmp⟩
  · intro hchain
    unfold encode_postings_golomb
    dsimp only
    by_cases hne : postings ≠ [] ∧ postings_len ≠ 0
    · rw [if_pos hne, hbt]
      dsimp only
      rw [encode_document_gaps_eq]
      obtain ⟨buf2, h2⟩ := encode_position_gaps_some (Int.tdiv documents_count postings_len).toNat
        b t (postings.map (fun p => p.document_id)) 0
        (append_buffer (append_buffer postings_e (int_to_bytes postings_len))
          (int_to_bytes (Int.tdiv documents_count postings_len))) hchain
      rw [h2]
      exact encode_postings_positions_some postings _ hwf
    · rw [if_neg hne]
      exact encode_postings_positions_some postings _ hwf

theorem golomb_params_positive_witness :
    1 ≤ Int.tdiv 7 2 ∧
    Int.tdiv 7 2 ≤ 1073741824 ∧
    (∃ b t, calc_golomb_params (Int.tdiv 7 2) = some (b, t)) ∧
    (∀ p ∈ [(⟨2, [0, 5], 2⟩ : postings_list), ⟨6, [3], 1⟩], ∃ last,
      p.positions.getLast? = some last ∧ p.positions_count ≠ 0 ∧
      last + 1 ≤ 1073741824 ∧
      1 ≤ Int.tdiv (last + 1) p.positions_count ∧
      Int.tdiv (last + 1) p.positions_count ≤ 1073741824 ∧
      ∃ bp tp, calc_golomb_params (Int.tdiv (last + 1) p.positions_count) = some (bp, tp)) ∧
    (List.Chain (fun x y => x < y) 0
        ([(⟨2, [0, 5], 2⟩ : postings_list), ⟨6, [3], 1⟩].map (fun p => p.document_id)) →
      ∃ buf, encode_postings_golomb 7 [⟨2, [0, 5], 2⟩, ⟨6, [3], 1⟩] 2 alloc_buffer = some buf) :=
  golomb_params_positive 7 2 [⟨2, [0, 5], 2⟩, ⟨6, [3], 1⟩] alloc_buffer
    (by
      intro p hp
      simp only [List.mem_cons, List.mem_singleton, List.not_mem_nil, or_false] at hp
      rcases hp with rfl | rfl <;> (unfold posting_wf; decide))
    (by decide) (by decide) (by decide)
    (by
      intro p hp
      simp only [List.mem_cons, List.mem_singleton, List.not_mem_nil, or_false] at hp
      rcases hp with rfl | rfl <;> decide)

/-! ## The steps of the tokenizer -/

theorem steps_from_length (n text_len : Nat) : ∀ (t : List Nat) (position : Int),
    (steps_from n text_len t position).length = nonsep_count t := by
  intro t
  induction t with
  | nil => intro position; rfl
  | cons c cs ih =>
    intro position
    simp only [steps_from]
    by_cases hc : wiser_is_ignored_char c ≠ 0
    · rw [if_pos hc, ih]
      simp [nonsep_count, hc]
    · rw [if_neg hc, List.length_cons, ih]
      rw [nonsep_count_cons_pos c cs (not_not.1 hc)]

theorem steps_from_starts (n text_len : Nat) : ∀ (t : List Nat) (position : Int),
    t.length ≤ text_len →
    (steps_from n text_len t position).Pairwise (fun s1 s2 => s1.start < s2.start) ∧
      ∀ s ∈ steps_from n text_len t position, text_len - t.length ≤ s.start := by
  intro t
  induction t with
  | nil => intro position _; simp [steps_from]
  | cons c cs ih =>
    intro position hlen
    simp only [List.length_cons] at hlen
    simp only [steps_from]
    split
    · obtain ⟨h1, h2⟩ := ih position (by omega)
      refine ⟨h1, fun s hs => ?_⟩
      have := h2 s hs
      simp only [List.length_cons]
      omega
    · obtain ⟨h1, h2⟩ := ih (position + 1) (by omega)
      refine ⟨List.pairwise_cons.mpr ⟨fun s hs => ?_, h1⟩, fun s hs => ?_⟩
      · have := h2 s hs
        show text_len - (c :: cs).length < s.start
        simp only [List.length_cons]
        omega
      · rcases List.mem_cons.mp hs with h | h
        · rw [h]
        · have := h2 s h
          simp only [List.length_cons]
          omega

/-- Every non-separator code point of the text starts a step. -/
theorem steps_from_complete (n : Nat) : ∀ (t pre : List Nat) (position : Int)
    (pre2 : List Nat) (c : Nat) (cs : List Nat),
    t = pre2 ++ c :: cs → wiser_is_ignored_char c = 0 →
    ∃ s ∈ steps_from n (pre ++ t).length t position, s.start = (pre ++ pre2).length := by
  intro t
  induction t with
  | nil => intro pre position pre2 c cs h _; simp at h
  | cons x xs ih =>
    intro pre position pre2 c cs h hc
    have happ : pre ++ x :: xs = (pre ++ [x]) ++ xs := by simp
    cases pre2 with
    | nil =>
      simp only [List.nil_append, List.cons.injEq] at h
      obtain ⟨rfl, rfl⟩ := h
      refine ⟨{ start := (pre ++ x :: xs).length - (x :: xs).length,
                token := (x :: xs).take (ngram_len n (x :: xs)), position := position }, ?_, ?_⟩
      · simp only [steps_from, hc, ne_eq, not_true_eq_false, if_false]
        exact List.mem_cons_self _ _
      · simp
    | cons y ys =>
      simp only [List.cons_append, List.cons.injEq] at h
      obtain ⟨rfl, hxs⟩ := h
      have hlen : (pre ++ x :: ys).length = (pre ++ [x] ++ ys).length := by simp
      by_cases hx : wiser_is_ignored_char x ≠ 0
      · obtain ⟨s, hs, hst⟩ := ih (pre ++ [x]) position ys c cs hxs hc
        refine ⟨s, ?_, by rw [hst, hlen]⟩
        simp only [steps_from, hx, if_true, ne_eq, not_false_eq_true]
        rw [happ]
        exact hs
      · obtain ⟨s, hs, hst⟩ := ih (pre ++ [x]) (position + 1) ys c cs hxs hc
        refine ⟨s, ?_, by rw [hst, hlen]⟩
        simp only [steps_from, hx, if_false]
        rw [happ]
        exact List.mem_cons_of_mem _ hs

theorem ngram_len_take_sepfree (n : Nat) : ∀ (l : List Nat),
    ∀ c ∈ l.take (ngram_len n l), wiser_is_ignored_char c = 0 := by
  induction n with
  | zero => intro l c hc; simp [ngram_len] at hc
  | succ n ih =>
    intro l c hc
    cases l with
    | nil => simp [ngram_len] at hc
    | cons x xs =>
      simp only [ngram_len] at hc
      by_cases hx : wiser_is_ignored_char x = 0
      · rw [if_pos hx, List.take_succ_cons] at hc
        rcases List.mem_cons.mp hc with h | h
        · rw [h]; exact hx
        · exact ih xs c h
      · rw [if_neg hx] at hc
        simp at hc

/-- C36. Tokenizer step count, for `N >= 1`. The steps of the loop of
`text_to_postings_lists` are as many as the text has non-separator code
points; their tokens start at the non-separator code points of the text, each
at another one and in the order of the text, and every non-separator code
point starts one; a token is the code points of the text from its start on,
at least 1 and at most `N`, none of them a separator; and the position of a
step is the number of non-separator code points before the start of its
token. The calls of `token_to_postings_list` are the steps that pass the test
`t_len >= n || document_id`, which are all of them when `document_id` is not
0. -/
theorem tokenizer_step_count (document_id : Int) (text : List Nat) (n : Nat) (hn : 1 ≤ n) :
    text_to_postings_calls document_id text n =
      (steps_from n text.length text 0).filter (step_kept document_id n) ∧
    (document_id ≠ 0 →
      text_to_postings_calls document_id text n = steps_from n text.length text 0) ∧
    (steps_from n text.length text 0).length = nonsep_count text ∧
    (steps_from n text.length text 0).Pairwise (fun s1 s2 => s1.start < s2.start) ∧
    (∀ (pre : List Nat) (c : Nat) (cs : List Nat), text = pre ++ c :: cs →
      wiser_is_ignored_char c = 0 →
      ∃ s ∈ steps_from n text.length text 0, s.start = pre.length) ∧
    (∀ s ∈ steps_from n text.length text 0,
      (∃ c, text[s.start]? = some c ∧ wiser_is_ignored_char c = 0) ∧
      1 ≤ s.token.length ∧ s.token.length ≤ n ∧
      s.token = (text.drop s.start).take s.token.length ∧
      (∀ c ∈ s.token, wiser_is_ignored_char c = 0) ∧
      s.position = (nonsep_count (text.take s.start) : Int)) := by
  refine ⟨text_to_postings_calls_eq document_id text n hn,
    text_to_postings_calls_indexing document_id text n hn,
    steps_from_length n text.length text 0,
    (steps_from_starts n text.length text 0 (le_refl _)).1, ?_, ?_⟩
  · intro pre c cs htext hc
    have := steps_from_complete n text [] 0 pre c cs htext hc
    simpa using this
  · intro s hs
    obtain ⟨pre2, c, cs, htext, hc, hstart, hpos, htok⟩ :=
      steps_from_spec n text [] 0 (by simp [nonsep_count]) s (by simpa using hs)
    simp only [List.nil_append] at htext
    have hdrop : text.drop s.start = c :: cs := by rw [htext, hstart, List.drop_left]
    have htake : text.take s.start = pre2 := by rw [htext, hstart, List.take_left]
    have hlen : s.token.length = ngram_len n (c :: cs) := by
      rw [htok, List.length_take]
      exact Nat.min_eq_left (ngram_len_le n (c :: cs)).1
    refine ⟨⟨c, ?_, hc⟩, ?_, ?_, ?_, ?_, ?_⟩
    · rw [htext, hstart, getElem?_append_length]
    · rw [hlen]; exact ngram_len_pos n c cs hn hc
    · rw [hlen]; exact (ngram_len_le n (c :: cs)).2
    · rw [hdrop, hlen]; exact htok
    · rw [htok]; exact ngram_len_take_sepfree n (c :: cs)
    · rw [htake]; exact hpos

theorem tokenizer_step_count_witness :
    text_to_postings_calls 0 [0x20, 0x61, 0x62, 0x2C, 0x63] 2 =
      (steps_from 2 [0x20, 0x61, 0x62, 0x2C, 0x63].length [0x20, 0x61, 0x62, 0x2C, 0x63] 0).filter
        (step_kept 0 2) ∧
    (steps_from 2 [0x20, 0x61, 0x62, 0x2C, 0x63].length [0x20, 0x61, 0x62, 0x2C, 0x63] 0).length =
      nonsep_count [0x20, 0x61, 0x62, 0x2C, 0x63] :=
  ⟨(tokenizer_step_count 0 [0x20, 0x61, 0x62, 0x2C, 0x63] 2 (by decide)).1,
    (tokenizer_step_count 0 [0x20, 0x61, 0x62, 0x2C, 0x63] 2 (by decide)).2.2.1⟩

/-- The text `" ab,c"` with `N = 2`: three steps, one for each of `a`, `b` and
`c`, with the positions 0, 1 and 2. -/
theorem steps_from_example :
    steps_from 2 5 [0x20, 0x61, 0x62, 0x2C, 0x63] 0 =
      [⟨1, [0x61, 0x62], 0⟩, ⟨2, [0x62], 1⟩, ⟨4, [0x63], 2⟩] ∧
    text_to_postings_calls 0 [0x20, 0x61, 0x62, 0x2C, 0x63] 2 = [⟨1, [0x61, 0x62], 0⟩] := by
  decide

/-! ## Pushing a position onto an existing entry -/

theorem hash_write_length (e : inverted_index_value) : ∀ (H : inverted_index_hash),
    (hash_write e H).length = H.length := by
  intro H
  induction H with
  | nil => rfl
  | cons x xs ih =>
    simp only [hash_write]
    split
    · rfl
    · simp only [List.length_cons, ih]

/-- C33 (counterexample). The index holds an entry of token 1 whose head
posting is of document 1; the call for document 2 and position 5 pushes the
position onto that posting and adds no posting for document 2. -/
theorem token_to_postings_list_counterexample :
    token_to_postings_list [([0x61], 1)] 2 [0x61] 5 [⟨1, [⟨1, [0], 1⟩], 1, 1⟩] =
      some ([([0x61], 1)], [⟨1, [⟨1, [0, 5], 2⟩], 1, 2⟩]) ∧
    (⟨1, [0], 1⟩ : postings_list).document_id ≠ 2 := by
  decide

/-- C33 (amended). When `token_to_postings_list` is called for a token that
already has an entry in the index, it pushes the position onto the head
posting of the entry and increments the `positions_count` of the posting and
of the entry, whatever the `document_id` of that posting is: the ids are not
compared and no posting is added. In the buffer that `text_to_postings_lists`
builds for one document the head posting is the only one and is of that
document. -/
theorem token_to_postings_list_existing (table : tokens_table) (document_id : Int)
    (token : List Nat) (position : Int) (postings : inverted_index_hash)
    (ii_entry : inverted_index_value) (pl : postings_list) (pls : List postings_list)
    (hfind : HASH_FIND_INT postings (db_get_token_id table token document_id).2.1 =
      some ii_entry)
    (hpl : ii_entry.postings_list = pl :: pls) :
    ∃ postings2,
      token_to_postings_list table document_id token position postings =
        some ((db_get_token_id table token document_id).1, postings2) ∧
      HASH_FIND_INT postings2 (db_get_token_id table token document_id).2.1 =
        some { ii_entry with
          postings_list :=
            { pl with positions_count := pl.positions_count + 1,
                      positions := pl.positions ++ [position] } :: pls,
          positions_count := ii_entry.positions_count + 1 } ∧
      (∀ k, k ≠ (db_get_token_id table token document_id).2.1 →
        HASH_FIND_INT postings2 k = HASH_FIND_INT postings k) ∧
      postings2.length = postings.length ∧
      (∀ bound, fresh_index document_id bound postings →
        pl.document_id = document_id ∧ pls = []) := by
  have hid := (HASH_FIND_INT_some postings _ ii_entry hfind)
  refine ⟨hash_write { ii_entry with
          postings_list :=
            { pl with positions_count := pl.positions_count + 1,
                      positions := pl.positions ++ [position] } :: pls,
          positions_count := ii_entry.positions_count + 1 } postings, ?_, ?_, ?_, ?_, ?_⟩
  · unfold token_to_postings_list
    dsimp only
    rw [hfind]
    dsimp only
    rw [hpl]
  · have h := HASH_FIND_INT_hash_write { ii_entry with
          postings_list :=
            { pl with positions_count := pl.positions_count + 1,
                      positions := pl.positions ++ [position] } :: pls,
          positions_count := ii_entry.positions_count + 1 } postings ii_entry
        (by rw [show ({ ii_entry with
          postings_list :=
            { pl with positions_count := pl.positions_count + 1,
                      positions := pl.positions ++ [position] } :: pls,
          positions_count := ii_entry.positions_count + 1 } : inverted_index_value).token_id =
            ii_entry.token_id from rfl, hid.2]; exact hfind)
        (db_get_token_id table token document_id).2.1
    rw [h, if_pos]
    exact hid.2.symm
  · intro k hk
    have h := HASH_FIND_INT_hash_write { ii_entry with
          postings_list :=
            { pl with positions_count := pl.positions_count + 1,
                      positions := pl.positions ++ [position] } :: pls,
          positions_count := ii_entry.positions_count + 1 } postings ii_entry
        (by rw [show ({ ii_entry with
          postings_list :=
            { pl with positions_count := pl.positions_count + 1,
                      positions := pl.positions ++ [position] } :: pls,
          positions_count := ii_entry.positions_count + 1 } : inverted_index_value).token_id =
            ii_entry.token_id from rfl, hid.2]; exact hfind) k
    rw [h, if_neg]
    intro hke
    exact hk (by rw [hke]; exact hid.2)
  · exact hash_write_length _ _
  · intro bound hfresh
    obtain ⟨-, ps, -, hps, -⟩ := hfresh.2 ii_entry hid.1
    rw [hpl] at hps
    simp only [List.cons.injEq] at hps
    exact ⟨by rw [hps.1], hps.2⟩

theorem token_to_postings_list_existing_witness :
    ∃ postings2,
      token_to_postings_list [([0x61], 1)] 1 [0x61] 5 [⟨1, [⟨1, [0], 1⟩], 1, 1⟩] =
        some ((db_get_token_id [([0x61], 1)] [0x61] 1).1, postings2) ∧
      HASH_FIND_INT postings2 (db_get_token_id [([0x61], 1)] [0x61] 1).2.1 =
        some ⟨1, [⟨1, [0] ++ [5], 1 + 1⟩], 1, 1 + 1⟩ ∧
      (∀ k, k ≠ (db_get_token_id [([0x61], 1)] [0x61] 1).2.1 →
        HASH_FIND_INT postings2 k = HASH_FIND_INT [⟨1, [⟨1, [0], 1⟩], 1, 1⟩] k) ∧
      postings2.length = [(⟨1, [⟨1, [0], 1⟩], 1, 1⟩ : inverted_index_value)].length ∧
      (∀ bound, fresh_index 1 bound [⟨1, [⟨1, [0], 1⟩], 1, 1⟩] →
        (⟨1, [0], 1⟩ : postings_list).document_id = 1 ∧ ([] : List postings_list) = []) :=
  token_to_postings_list_existing [([0x61], 1)] 1 [0x61] 5 [⟨1, [⟨1, [0], 1⟩], 1, 1⟩]
    ⟨1, [⟨1, [0], 1⟩], 1, 1⟩ ⟨1, [0], 1⟩ [] (by decide) rfl

/-! ## The `positions_count` of an entry of the buffer -/

/-- C34. Two documents with the body `"ab"`, indexed with `N = 2` into one
buffer: the entry of the token `"ab"` has the postings of both documents, with
one position each, `docs_count = 2`, and `positions_count = 1`. -/
theorem entry_positions_count_not_merged :
    (text_to_postings_lists_seq 2 [(1, [0x61, 0x62]), (2, [0x61, 0x62])] [] []).map
        (fun r => r.2) =
      some [⟨1, [⟨1, [0], 1⟩, ⟨2, [0], 1⟩], 2, 1⟩, ⟨2, [⟨1, [1], 1⟩, ⟨2, [1], 1⟩], 2, 1⟩] ∧
    (([⟨1, [0], 1⟩, ⟨2, [0], 1⟩] : List postings_list).map (fun p => p.positions_count)).sum =
      2 := by
  decide

/-! ## The terminating NUL of `utf32toutf8` -/

/-- C35. Two code points `U+10000`, as `text_to_postings_lists` passes them
with `N = 2` and the destination `t_8` of `2 * MAX_UTF8_SIZE = 8` bytes:
`utf32toutf8` stores 8 bytes and then the terminating NUL, the ninth byte,
past the end of the destination. The reported size 8 is
`uchar2utf8_size`. -/
theorem utf32toutf8_terminator_past_end :
    utf32toutf8_into [0x10000, 0x10000] (2 * MAX_UTF8_SIZE) = none ∧
    utf32toutf8_into [0x10000, 0x10000] (2 * MAX_UTF8_SIZE + 1) =
      some ([0xF0, 0x90, 0x80, 0x80, 0xF0, 0x90, 0x80, 0x80, 0], 8) ∧
    uchar2utf8_size [0x10000, 0x10000] = some 8 ∧
    (text_to_postings_calls 1 [0x10000, 0x10000] 2).map (fun s => s.token) =
      [[0x10000, 0x10000], [0x10000]] := by
  decide

/-- The call of `text_to_postings_lists` with `N = 2` on the text of two code
points `U+10000` does not return: its first token does not fit `t_8`. With
one of the code points below `0x10000` it returns. -/
theorem text_to_postings_lists_t_8_overflow :
    text_to_postings_lists [] 1 [0x10000, 0x10000] 2 [] = none ∧
    (text_to_postings_lists [] 1 [0x10000, 0x62] 2 []).map (fun r => r.1) =
      some [([0xF0, 0x90, 0x80, 0x80, 0x62], 0), ([0x62], 0)] := by
  decide

/-! ## The capacity of the buffer -/

/-- C38. Three bits and then `append_buffer(buf, data, 70)` on a fresh buffer:
the byte call moves `curr` to offset 1, enlarges the block once, from 32 to 64
bytes, and copies 70 bytes to the offsets 1 to 70, past `tail`. A byte call
of 31 bytes in its place stays inside the block. -/
theorem buffer_capacity_overflow :
    Mem.run Mem.alloc_buffer
        [Mem.call.bit 1, Mem.call.bit 0, Mem.call.bit 1,
          Mem.call.bytes (some (List.replicate 70 0xAA)) 70] = none ∧
    (Mem.run Mem.alloc_buffer [Mem.call.bit 1, Mem.call.bit 0, Mem.call.bit 1]).map
        (fun buf => (buf.curr, buf.bit, buf.mem.length)) = some (0, 3, 32) ∧
    (Mem.run Mem.alloc_buffer
        [Mem.call.bit 1, Mem.call.bit 0, Mem.call.bit 1,
          Mem.call.bytes (some (List.replicate 31 0xAA)) 31]).map
        (fun buf => (buf.curr, buf.bit, buf.mem.length)) = some (32, 0, 32) := by
  decide

/-! ## Cursor alignment at the scoring point of `search_docs` -/

theorem search_docs_loop_points {Score : Type} [Zero Score] [Add Score] (e : Int)
    (score_fn : List inverted_index_value → List (List postings_list) → Score)
    (tokens : List inverted_index_value) :
    ∀ (fuel : Nat) (cursors : List (List postings_list)) (results : List (search_results Score)),
      search_docs_loop e score_fn tokens fuel cursors results =
        score_points e score_fn tokens (scoring_points fuel cursors) results := by
  intro fuel
  induction fuel with
  | zero => intro cursors results; rfl
  | succ fuel ih =>
    intro cursors results
    cases cursors with
    | nil => rfl
    | cons c0 others =>
      cases c0 with
      | nil => rfl
      | cons p0 rest0 =>
        simp only [search_docs_loop, scoring_points]
        cases hadv : advance_cursors p0.document_id others with
        | none => rfl
        | some r =>
          obtain ⟨next_doc_id, others2⟩ := r
          dsimp only
          by_cases hn : next_doc_id > 0
          · rw [if_pos hn, if_pos hn]
            exact ih _ _
          · rw [if_neg hn, if_neg hn]
            simp only [score_points]
            cases hph : (if e ≠ 0 then search_phrase tokens ((p0 :: rest0) :: others2)
                else some (-1)) with
            | none => rfl
            | some phrase_count =>
              dsimp only
              exact ih _ _

theorem forall₂_mem_right {α β : Type} {R : α → β → Prop} : ∀ {l1 : List α} {l2 : List β},
    List.Forall₂ R l1 l2 → ∀ b ∈ l2, ∃ a ∈ l1, R a b := by
  intro l1 l2 h
  induction h with
  | nil => intro b hb; exact absurd hb (List.not_mem_nil _)
  | cons hab _ ih =>
    intro b hb
    rcases List.mem_cons.mp hb with h1 | h1
    · rw [h1]; exact ⟨_, List.mem_cons_self _ _, hab⟩
    · obtain ⟨a, ha, hr⟩ := ih b h1
      exact ⟨a, List.mem_cons_of_mem _ ha, hr⟩

theorem scoring_points_aligned : ∀ (fuel : Nat) (cursors : List (List postings_list)),
    (∀ c ∈ cursors, ∀ p ∈ c, 0 < p.document_id) →
    ∀ cs ∈ scoring_points fuel cursors, cs.length = cursors.length ∧
      ∃ p0 rest0 others, cs = (p0 :: rest0) :: others ∧
        ∀ c ∈ cs, ∃ p ps, c = p :: ps ∧ p.document_id = p0.document_id := by
  intro fuel
  induction fuel with
  | zero => intro cursors _ cs hcs; simp [scoring_points] at hcs
  | succ fuel ih =>
    intro cursors hpos cs hcs
    cases cursors with
    | nil => simp [scoring_points] at hcs
    | cons c0 others =>
      cases c0 with
      | nil => simp [scoring_points] at hcs
      | cons p0 rest0 =>
        simp only [scoring_points] at hcs
        cases hadv : advance_cursors p0.document_id others with
        | none => rw [hadv] at hcs; simp at hcs
        | some r =>
          obtain ⟨next_doc_id, others2⟩ := r
          rw [hadv] at hcs
          dsimp only at hcs
          obtain ⟨hle, hcase⟩ := advance_cursors_sound p0.document_id others next_doc_id others2 hadv
          have hlen : others2.length = others.length := hle.length_eq.symm
          have hpos2 : ∀ c ∈ others2, ∀ p ∈ c, 0 < p.document_id := by
            intro c hc p hp
            obtain ⟨a, ha, hr⟩ := forall₂_mem_right hle c hc
            exact hpos a (List.mem_cons_of_mem _ ha) p (hr p hp)
          by_cases hn : next_doc_id > 0
          · rw [if_pos hn] at hcs
            obtain ⟨h1, h2⟩ := ih _ (by
              intro c hc p hp
              rcases List.mem_cons.mp hc with h | h
              · rw [h] at hp
                exact hpos _ (List.mem_cons_self _ _) p (dropWhile_subset _ _ p hp)
              · exact hpos2 c h p hp) cs hcs
            exact ⟨by rw [h1]; simp only [List.length_cons, hlen], h2⟩
          · rw [if_neg hn] at hcs
            rcases List.mem_cons.mp hcs with h | h
            · rcases hcase with ⟨-, hal⟩ | ⟨c, hc, p, hp, hpid⟩
              · refine ⟨by rw [h]; simp only [List.length_cons, hlen],
                  p0, rest0, others2, h, ?_⟩
                intro c hc
                rw [h] at hc
                rcases List.mem_cons.mp hc with h3 | h3
                · exact ⟨p0, rest0, h3, rfl⟩
                · exact hal c h3
              · have := hpos c (List.mem_cons_of_mem _ hc) p hp
                omega
            · obtain ⟨h1, h2⟩ := ih _ (by
                intro c hc p hp
                rcases List.mem_cons.mp hc with h3 | h3
                · rw [h3] at hp
                  exact hpos _ (List.mem_cons_self _ _) p (List.mem_cons_of_mem _ hp)
                · exact hpos2 c h3 p hp) cs h
              exact ⟨by rw [h1]; simp only [List.length_cons, hlen], h2⟩

/-- C37. Cursor alignment at scoring, for fetched posting lists with positive
document ids. The loop of `search_docs` is the run of its `else` branch over
the scoring points; at every scoring point no cursor is `NULL` and every
cursor points at a posting of the document `d` of the first cursor, so
`search_phrase` and `calc_tf_idf` are called with aligned cursors, and
`calc_tf_idf` returns the sum of `positions_count * idf` over postings that
all belong to document `d`. -/
theorem search_docs_cursor_alignment {Score : Type} [Zero Score] [Add Score] [Mul Score]
    [Div Score] [IntCast Score] (e : Int)
    (score_fn : List inverted_index_value → List (List postings_list) → Score)
    (log2 : Score → Score) (indexed_count : Int)
    (tokens : List inverted_index_value) (fuel : Nat) (cursors : List (List postings_list))
    (results : List (search_results Score))
    (hpos : ∀ c ∈ cursors, ∀ p ∈ c, 0 < p.document_id)
    (hlen : cursors.length = tokens.length) :
    search_docs_loop e score_fn tokens fuel cursors results =
      score_points e score_fn tokens (scoring_points fuel cursors) results ∧
    ∀ cs ∈ scoring_points fuel cursors,
      ∃ (d : Int) (currents : List postings_list),
        cs.map List.head? = currents.map some ∧
        currents.length = tokens.length ∧
        (∀ p ∈ currents, p.document_id = d) ∧
        (∃ p0 rest0 others, cs = (p0 :: rest0) :: others ∧ p0.document_id = d) ∧
        calc_tf_idf log2 tokens cs tokens.length indexed_count =
          some ((tf_idf_terms log2 indexed_count tokens currents).foldl (fun s t => s + t) 0) := by
  refine ⟨search_docs_loop_points e score_fn tokens fuel cursors results, ?_⟩
  intro cs hcs
  obtain ⟨hl, p0, rest0, others, hcs2, hal⟩ := scoring_points_aligned fuel cursors hpos cs hcs
  have hheads : ∀ (l : List (List postings_list)),
      (∀ c ∈ l, ∃ p ps, c = p :: ps ∧ p.document_id = p0.document_id) →
      ∃ currents : List postings_list, l.map List.head? = currents.map some ∧
        currents.length = l.length ∧ ∀ p ∈ currents, p.document_id = p0.document_id := by
    intro l
    induction l with
    | nil => intro _; exact ⟨[], rfl, rfl, fun p hp => absurd hp (List.not_mem_nil _)⟩
    | cons c l ih =>
      intro h
      obtain ⟨p, ps, hc, hp⟩ := h c (List.mem_cons_self _ _)
      obtain ⟨currents, h1, h2, h3⟩ := ih (fun x hx => h x (List.mem_cons_of_mem _ hx))
      refine ⟨p :: currents, ?_, by simp only [List.length_cons, h2], ?_⟩
      · rw [List.map_cons, List.map_cons, h1, hc]; rfl
      · intro q hq
        rcases List.mem_cons.mp hq with h4 | h4
        · rw [h4]; exact hp
        · exact h3 q h4
  obtain ⟨currents, h1, h2, h3⟩ := hheads cs hal
  have hlc : tokens.length = currents.length := by rw [h2, hl, hlen]
  exact ⟨p0.document_id, currents, h1, hlc.symm, h3, ⟨p0, rest0, others, hcs2, rfl⟩,
    calc_tf_idf_loop_eq log2 indexed_count tokens cs currents 0 h1 hlc⟩

theorem search_docs_cursor_alignment_witness :
    (∀ c ∈ [[(⟨1, [0], 1⟩ : postings_list), ⟨2, [0, 3], 2⟩], [⟨2, [1], 1⟩]], ∀ p ∈ c,
        0 < p.document_id) ∧
    scoring_points 3 [[(⟨1, [0], 1⟩ : postings_list), ⟨2, [0, 3], 2⟩], [⟨2, [1], 1⟩]] =
      [[[⟨2, [0, 3], 2⟩], [⟨2, [1], 1⟩]]] ∧
    (search_docs_loop 1 (fun _ _ => (1 : Int))
        [⟨1, [⟨0, [0], 1⟩], 2, 1⟩, ⟨2, [⟨0, [1], 1⟩], 1, 1⟩] 3
        [[(⟨1, [0], 1⟩ : postings_list), ⟨2, [0, 3], 2⟩], [⟨2, [1], 1⟩]] [] =
      score_points 1 (fun _ _ => (1 : Int))
        [⟨1, [⟨0, [0], 1⟩], 2, 1⟩, ⟨2, [⟨0, [1], 1⟩], 1, 1⟩]
        (scoring_points 3 [[(⟨1, [0], 1⟩ : postings_list), ⟨2, [0, 3], 2⟩], [⟨2, [1], 1⟩]]) [] ∧
    ∀ cs ∈ scoring_points 3 [[(⟨1, [0], 1⟩ : postings_list), ⟨2, [0, 3], 2⟩], [⟨2, [1], 1⟩]],
      ∃ (d : Int) (currents : List postings_list),
        cs.map List.head? = currents.map some ∧
        currents.length =
          [(⟨1, [⟨0, [0], 1⟩], 2, 1⟩ : inverted_index_value), ⟨2, [⟨0, [1], 1⟩], 1, 1⟩].length ∧
        (∀ p ∈ currents, p.document_id = d) ∧
        (∃ p0 rest0 others, cs = (p0 :: rest0) :: others ∧ p0.document_id = d) ∧
        calc_tf_idf (fun x : Int => x)
            [⟨1, [⟨0, [0], 1⟩], 2, 1⟩, ⟨2, [⟨0, [1], 1⟩], 1, 1⟩] cs
            [(⟨1, [⟨0, [0], 1⟩], 2, 1⟩ : inverted_index_value), ⟨2, [⟨0, [1], 1⟩], 1, 1⟩].length 2 =
          some ((tf_idf_terms (fun x : Int => x) 2
            [⟨1, [⟨0, [0], 1⟩], 2, 1⟩, ⟨2, [⟨0, [1], 1⟩], 1, 1⟩] currents).foldl
              (fun s t => s + t) 0)) :=
  ⟨by decide, by decide,
    search_docs_cursor_alignment 1 (fun _ _ => (1 : Int)) (fun x : Int => x) 2
      [⟨1, [⟨0, [0], 1⟩], 2, 1⟩, ⟨2, [⟨0, [1], 1⟩], 1, 1⟩] 3
      [[(⟨1, [0], 1⟩ : postings_list), ⟨2, [0, 3], 2⟩], [⟨2, [1], 1⟩]] []
      (by decide) (by decide)⟩

/-- The search loop on the posting lists of the witness: document 2 is the one
scoring point and gets the score. -/
theorem scoring_points_example :
    search_docs_loop 1 (fun _ _ => (1 : Int))
        [⟨1, [⟨0, [0], 1⟩], 2, 1⟩, ⟨2, [⟨0, [1], 1⟩], 1, 1⟩] 3
        [[(⟨1, [0], 1⟩ : postings_list), ⟨2, [0, 3], 2⟩], [⟨2, [1], 1⟩]] [] =
      some [⟨2, 0 + 1⟩] := by
  rfl

/-! ## `search_phrase` counts the document-relative offsets -/

theorem mem_dropWhile_of_not {α : Type} (f : α → Bool) (l : List α) (x : α) (hx : x ∈ l)
    (hf : f x = false) : x ∈ l.dropWhile f := by
  have h := List.takeWhile_append_dropWhile f l
  rw [← h] at hx
  rcases List.mem_append.mp hx with h1 | h1
  · have := List.mem_takeWhile_imp h1
    rw [hf] at this
    exact absurd this (by simp)
  · exact h1

theorem cursor_kept_dropWhile (rel : Int) (cur : phrase_search_cursor) :
    cursor_kept rel cur
      { cur with current := cur.current.dropWhile (fun p => decide (p - cur.base < rel)) } := by
  refine ⟨rfl, List.dropWhile_suffix _, fun p hp hrel => ?_⟩
  exact mem_dropWhile_of_not _ _ p hp (by simp only [decide_eq_false_iff_not, not_lt]; exact hrel)

theorem cursor_kept_refl (rel : Int) (cur : phrase_search_cursor) : cursor_kept rel cur cur :=
  ⟨rfl, List.suffix_refl _, fun _ hp _ => hp⟩

theorem phrase_advance_none (rel : Int) : ∀ (others : List phrase_search_cursor),
    phrase_advance rel others = none → ∃ c ∈ others, ∀ p ∈ c.current, p - c.base < rel := by
  intro others
  induction others with
  | nil => intro h; simp [phrase_advance] at h
  | cons cur rest ih =>
    intro h
    simp only [phrase_advance] at h
    cases hdw : cur.current.dropWhile (fun p => decide (p - cur.base < rel)) with
    | nil =>
      refine ⟨cur, List.mem_cons_self _ _, fun p hp => ?_⟩
      have := (List.dropWhile_eq_nil_iff.mp hdw) p hp
      simpa using this
    | cons p ps =>
      rw [hdw] at h
      dsimp only at h
      by_cases hne : p - cur.base ≠ rel
      · rw [if_pos hne] at h; simp at h
      · rw [if_neg hne] at h
        cases hadv : phrase_advance rel rest with
        | none =>
          obtain ⟨c, hc, hall⟩ := ih hadv
          exact ⟨c, List.mem_cons_of_mem _ hc, hall⟩
        | some r => rw [hadv] at h; simp at h

theorem phrase_advance_exact (rel : Int) : ∀ (others : List phrase_search_cursor) (nr : Int)
    (others2 : List phrase_search_cursor), phrase_advance rel others = some (nr, others2) →
    List.Forall₂ (cursor_kept rel) others others2 ∧
      ((nr = rel ∧ ∀ cur ∈ others2, ∃ p ps, cur.current = p :: ps ∧ p - cur.base = rel) ∨
        (rel < nr ∧ ∃ c ∈ others, c.current.Sorted (fun a b => a < b) →
          ∀ p ∈ c.current, p - c.base < rel ∨ nr ≤ p - c.base)) := by
  intro others
  induction others with
  | nil =>
    intro nr others2 h
    simp only [phrase_advance, Option.some.injEq, Prod.mk.injEq] at h
    obtain ⟨rfl, rfl⟩ := h
    exact ⟨List.Forall₂.nil, Or.inl ⟨rfl, fun cur hc => absurd hc (List.not_mem_nil _)⟩⟩
  | cons cur rest ih =>
    intro nr others2 h
    simp only [phrase_advance] at h
    have hkept := cursor_kept_dropWhile rel cur
    cases hdw : cur.current.dropWhile (fun p => decide (p - cur.base < rel)) with
    | nil => rw [hdw] at h; simp at h
    | cons p ps =>
      rw [hdw] at h hkept
      dsimp only at h
      obtain ⟨hp, -⟩ := dropWhile_cons_spec _ _ p ps hdw
      simp only [decide_eq_false_iff_not, not_lt] at hp
      by_cases hne : p - cur.base ≠ rel
      · rw [if_pos hne] at h
        simp only [Option.some.injEq, Prod.mk.injEq] at h
        obtain ⟨rfl, rfl⟩ := h
        refine ⟨List.Forall₂.cons hkept (forall₂_refl_of (cursor_kept_refl rel) rest),
          Or.inr ⟨by omega, cur, List.mem_cons_self _ _, fun hs x hx => ?_⟩⟩
        have hsplit := List.takeWhile_append_dropWhile (fun p => decide (p - cur.base < rel))
          cur.current
        rw [hdw] at hsplit
        rw [← hsplit] at hx hs
        rcases List.mem_append.mp hx with h1 | h1
        · left
          have := List.mem_takeWhile_imp h1
          simpa using this
        · right
          rcases List.mem_cons.mp h1 with h2 | h2
          · rw [h2]
          · have hs2 := (List.pairwise_append.mp hs).2.1
            have := (List.pairwise_cons.mp hs2).1 x h2
            omega
      · rw [if_neg hne] at h
        simp only [ne_eq, Decidable.not_not] at hne
        cases hadv : phrase_advance rel rest with
        | none => rw [hadv] at h; simp at h
        | some r =>
          obtain ⟨nr2, rest2⟩ := r
          rw [hadv] at h
          simp only [Option.some.injEq, Prod.mk.injEq] at h
          obtain ⟨rfl, rfl⟩ := h
          obtain ⟨h1, h2⟩ := ih nr2 rest2 hadv
          refine ⟨List.Forall₂.cons hkept h1, ?_⟩
          rcases h2 with ⟨h3, h4⟩ | ⟨h3, c, hc, h4⟩
          · left
            refine ⟨h3, fun c hc => ?_⟩
            rcases List.mem_cons.mp hc with h5 | h5
            · rw [h5]; exact ⟨p, ps, rfl, hne⟩
            · exact h4 c h5
          · exact Or.inr ⟨h3, c, List.mem_cons_of_mem _ hc, h4⟩

theorem cursor_kept_all (rel : Int) (others others2 : List phrase_search_cursor)
    (h : List.Forall₂ (cursor_kept rel) others others2) (r : Int) (hr : rel ≤ r) :
    (∀ c ∈ others, r + c.base ∈ c.current) ↔ (∀ c ∈ others2, r + c.base ∈ c.current) := by
  constructor
  · intro hall c2 hc2
    obtain ⟨c, hc, hb, -, hk⟩ := forall₂_mem_right h c2 hc2
    rw [hb]
    exact hk _ (hall c hc) (by omega)
  · intro hall c hc
    obtain ⟨c2, hc2, hb, hs, -⟩ := forall₂_mem_left h c hc
    have := hall c2 hc2
    rw [hb] at this
    exact hs.subset this

theorem cursor_kept_sorted (rel : Int) (others others2 : List phrase_search_cursor)
    (h : List.Forall₂ (cursor_kept rel) others others2)
    (hs : ∀ c ∈ others, c.current.Sorted (fun a b => a < b)) :
    ∀ c ∈ others2, c.current.Sorted (fun a b => a < b) := by
  intro c2 hc2
  obtain ⟨c, hc, -, hsuf, -⟩ := forall₂_mem_right h c2 hc2
  exact List.Pairwise.sublist hsuf.sublist (hs c hc)

theorem search_phrase_loop_count : ∀ (fuel : Nat) (c0 : phrase_search_cursor)
    (others : List phrase_search_cursor) (count : Int),
    c0.current.length < fuel → c0.current.Sorted (fun a b => a < b) →
    (∀ c ∈ others, c.current.Sorted (fun a b => a < b)) →
    search_phrase_loop fuel (c0 :: others) count = count + (phrase_matches c0 others).length := by
  intro fuel
  induction fuel with
  | zero => intro c0 others count h; omega
  | succ fuel ih =>
    intro c0 others count hfuel hs0 hs
    simp only [search_phrase_loop]
    cases hcur : c0.current with
    | nil => simp [phrase_matches, hcur]
    | cons p0 rest0 =>
      rw [hcur] at hfuel hs0
      simp only [List.length_cons] at hfuel
      have hgt0 : ∀ p ∈ rest0, p0 < p := (List.pairwise_cons.mp hs0).1
      have hsr : rest0.Sorted (fun a b => a < b) := (List.pairwise_cons.mp hs0).2
      dsimp only
      cases hadv : phrase_advance (p0 - c0.base) others with
      | none =>
        dsimp only
        obtain ⟨c, hc, hall⟩ := phrase_advance_none _ others hadv
        have : phrase_matches c0 others = [] := by
          unfold phrase_matches
          rw [hcur]
          apply List.filter_eq_nil_iff.mpr
          intro p hp
          simp only [decide_eq_true_eq]
          intro hm
          have h1 := hall _ (hm c hc)
          have h2 : p0 ≤ p := by
            rcases List.mem_cons.mp hp with h3 | h3
            · omega
            · exact le_of_lt (hgt0 p h3)
          omega
        rw [this]; simp
      | some a =>
        obtain ⟨nr, others2⟩ := a
        dsimp only
        obtain ⟨hkept, hcase⟩ := phrase_advance_exact _ others nr others2 hadv
        have hs2 := cursor_kept_sorted _ others others2 hkept hs
        have hcongr : ∀ l : List Int, (∀ p ∈ l, p0 ≤ p) →
            l.filter (fun p => decide (∀ c ∈ others, p - c0.base + c.base ∈ c.current)) =
              l.filter (fun p => decide (∀ c ∈ others2, p - c0.base + c.base ∈ c.current)) := by
          intro l hl
          apply List.filter_congr
          intro p hp
          have := cursor_kept_all _ others others2 hkept (p - c0.base) (by have := hl p hp; omega)
          simp only [this]
        by_cases hgt : nr > p0 - c0.base
        · rw [if_pos hgt]
          have hlen : ((p0 :: rest0).dropWhile (fun p => decide (p - c0.base < nr))).length ≤
              rest0.length := by
            rw [List.dropWhile_cons_of_pos (by simpa using hgt)]
            exact length_dropWhile_le _ _
          rw [ih _ others2 count (by dsimp only; omega)
            (List.Pairwise.sublist (List.dropWhile_suffix _).sublist hs0) hs2]
          obtain ⟨c, hc, hblock⟩ : ∃ c ∈ others, c.current.Sorted (fun a b => a < b) →
              ∀ p ∈ c.current, p - c.base < p0 - c0.base ∨ nr ≤ p - c.base := by
            rcases hcase with ⟨h1, -⟩ | ⟨-, h1⟩
            · omega
            · exact h1
          have hblock2 := hblock (hs c hc)
          have hsplit := List.takeWhile_append_dropWhile (fun p => decide (p - c0.base < nr))
            (p0 :: rest0)
          have hge : ∀ p ∈ p0 :: rest0, p0 ≤ p := by
            intro p hp
            rcases List.mem_cons.mp hp with h3 | h3
            · omega
            · exact le_of_lt (hgt0 p h3)
          have hnil : ((p0 :: rest0).takeWhile (fun p => decide (p - c0.base < nr))).filter
              (fun p => decide (∀ c ∈ others, p - c0.base + c.base ∈ c.current)) = [] := by
            apply List.filter_eq_nil_iff.mpr
            intro p hp
            simp only [decide_eq_true_eq]
            intro hm
            have h1 := List.mem_takeWhile_imp hp
            simp only [decide_eq_true_eq] at h1
            have h2 := hge p (List.takeWhile_subset _ hp)
            have h3 := hblock2 _ (hm c hc)
            omega
          have hm : phrase_matches c0 others =
              phrase_matches { c0 with current :=
                (p0 :: rest0).dropWhile (fun p => decide (p - c0.base < nr)) } others2 := by
            unfold phrase_matches
            dsimp only
            rw [hcur]
            conv_lhs => rw [← hsplit]
            rw [List.filter_append, hnil, List.nil_append]
            exact hcongr _ (fun p hp => hge p ((List.dropWhile_suffix _).subset hp))
          rw [hm]
        · rw [if_neg hgt]
          have hal : ∀ cur ∈ others2, ∃ p ps, cur.current = p :: ps ∧ p - cur.base = p0 - c0.base := by
            rcases hcase with ⟨-, h2⟩ | ⟨h2, -⟩
            · exact h2
            · omega
          rw [ih { c0 with current := rest0 } others2 (count + 1) (by dsimp only; omega) hsr hs2]
          have hm0 : ∀ c ∈ others, p0 - c0.base + c.base ∈ c.current := by
            rw [cursor_kept_all _ others others2 hkept (p0 - c0.base) (le_refl _)]
            intro c2 hc2
            obtain ⟨p, ps, h1, h2⟩ := hal c2 hc2
            rw [h1, ← h2]
            simp
          have : phrase_matches c0 others =
              p0 :: phrase_matches { c0 with current := rest0 } others2 := by
            unfold phrase_matches
            dsimp only
            rw [hcur, List.filter_cons_of_pos (by simpa using hm0)]
            congr 1
            exact hcongr rest0 (fun p hp => le_of_lt (hgt0 p hp))
          rw [this]
          simp only [List.length_cons, Nat.cast_add, Nat.cast_one]
          omega

theorem phrase_cursors_init_exact : ∀ (tokens : List inverted_index_value)
    (cursors : List (List postings_list)), tokens.length = cursors.length →
    (∀ x ∈ tokens.zip cursors, ∃ qpl qrest dpl drest, x.1.postings_list = qpl :: qrest ∧
      x.2 = dpl :: drest ∧ x.1.positions_count = qpl.positions.length ∧
      dpl.positions.Sorted (fun a b => a < b)) →
    ∃ pcs, phrase_cursors_init tokens cursors = some pcs ∧
      (pcs.length : Int) = (tokens.map (fun qt => qt.positions_count)).sum ∧
      (∀ c ∈ pcs, c.current.Sorted (fun a b => a < b)) ∧
      ∀ r, (∀ c ∈ pcs, r + c.base ∈ c.current) ↔ document_relative_offset tokens cursors r := by
  intro tokens
  induction tokens with
  | nil =>
    intro cursors _ _
    refine ⟨[], rfl, rfl, fun c hc => absurd hc (List.not_mem_nil _), fun r => ?_⟩
    simp [document_relative_offset]
  | cons t ts ih =>
    intro cursors hlen hwf
    cases cursors with
    | nil => simp at hlen
    | cons dc dcs =>
      obtain ⟨qpl, qrest, dpl, drest, hq, hd, hcount, hsorted⟩ :=
        hwf (t, dc) (by simp [List.zip_cons_cons])
      dsimp only at hq hd hcount
      obtain ⟨rest, hrest, hrlen, hrs, hrr⟩ := ih dcs (by simpa using hlen)
        (fun x hx => hwf x (by rw [List.zip_cons_cons]; exact List.mem_cons_of_mem _ hx))
      refine ⟨qpl.positions.map (fun pos => { base := pos, current := dpl.positions }) ++ rest,
        ?_, ?_, ?_, ?_⟩
      · simp only [phrase_cursors_init, hq, hd, hrest, Option.map_some']
      · simp only [List.length_append, List.length_map, Nat.cast_add, List.map_cons,
          List.sum_cons, hcount, hrlen]
      · intro c hc
        rcases List.mem_append.mp hc with h1 | h1
        · obtain ⟨q, -, hqc⟩ := List.mem_map.mp h1
          rw [← hqc]; exact hsorted
        · exact hrs c h1
      · intro r
        unfold document_relative_offset
        rw [List.zip_cons_cons]
        constructor
        · intro hall x hx
          rcases List.mem_cons.mp hx with h1 | h1
          · rw [h1]
            intro qpl2 hq2 dpl2 hd2 q hqm
            dsimp only at hq2 hd2
            rw [hq] at hq2; rw [hd] at hd2
            simp only [List.head?_cons, Option.mem_def, Option.some.injEq] at hq2 hd2
            rw [← hq2] at hqm; rw [← hd2]
            exact hall { base := q, current := dpl.positions }
              (List.mem_append_left _ (List.mem_map.mpr ⟨q, hqm, rfl⟩))
          · exact ((hrr r).mp (fun c hc => hall c (List.mem_append_right _ hc))) x h1
        · intro hall c hc
          rcases List.mem_append.mp hc with h1 | h1
          · obtain ⟨q, hqm, hqc⟩ := List.mem_map.mp h1
            rw [← hqc]
            exact hall (t, dc) (List.mem_cons_self _ _) qpl (by rw [hq]; rfl) dpl
              (by rw [hd]; rfl) q hqm
          · exact ((hrr r).mpr (fun x hx => hall x (List.mem_cons_of_mem _ hx))) c h1

theorem phrase_matches_offsets (c0 : phrase_search_cursor) (others : List phrase_search_cursor)
    (hs : c0.current.Sorted (fun a b => a < b)) :
    ((phrase_matches c0 others).map (fun p => p - c0.base)).Nodup ∧
    ∀ r, r ∈ (phrase_matches c0 others).map (fun p => p - c0.base) ↔
      ∀ c ∈ c0 :: others, r + c.base ∈ c.current := by
  constructor
  · apply List.Nodup.map
    · intro a b hab; dsimp only at hab; omega
    · exact (List.Pairwise.imp (fun h => ne_of_lt h) hs).sublist (List.filter_sublist _)
  · intro r
    unfold phrase_matches
    simp only [List.mem_map, List.mem_filter, decide_eq_true_eq, List.mem_cons, forall_eq_or_imp]
    constructor
    · rintro ⟨p, ⟨hp, hall⟩, rfl⟩
      exact ⟨by simpa using hp, hall⟩
    · rintro ⟨h0, hall⟩
      exact ⟨r + c0.base, ⟨h0, by simpa using hall⟩, by omega⟩

/-- C32. Phrase count. For a query token table (every entry with its posting,
`positions_count` the number of its positions, at least one position in all)
and cursors that point, token by token, at postings with strictly increasing
positions, `search_phrase` returns the number of integers `r` such that
`r + q` is a position of the token in the document for every pair of a token
and an offset `q` of it in the query; the count is non-zero, which is the test
of `search_docs` for a matching document, exactly when that number is at least
1. -/
theorem search_phrase_exact_count (query_tokens : List inverted_index_value)
    (doc_cursors : List (List postings_list))
    (hlen : query_tokens.length = doc_cursors.length)
    (hwf : ∀ x ∈ query_tokens.zip doc_cursors, ∃ qpl qrest dpl drest,
      x.1.postings_list = qpl :: qrest ∧ x.2 = dpl :: drest ∧
      x.1.positions_count = qpl.positions.length ∧ dpl.positions.Sorted (fun a b => a < b))
    (hn : 0 < (query_tokens.map (fun qt => qt.positions_count)).sum) :
    {r : Int | document_relative_offset query_tokens doc_cursors r}.Finite ∧
    search_phrase query_tokens doc_cursors =
      some ((Set.ncard {r : Int | document_relative_offset query_tokens doc_cursors r} : Nat) : Int) ∧
    (∀ count, search_phrase query_tokens doc_cursors = some count →
      (count ≠ 0 ↔
        1 ≤ Set.ncard {r : Int | document_relative_offset query_tokens doc_cursors r})) ∧
    (∀ count, search_phrase query_tokens doc_cursors = some count →
      (count ≠ 0 ↔ ∃ r, document_relative_offset query_tokens doc_cursors r)) := by
  obtain ⟨pcs, hinit, hplen, hsorted, hoff⟩ :=
    phrase_cursors_init_exact query_tokens doc_cursors hlen hwf
  cases pcs with
  | nil => simp only [List.length_nil, Nat.cast_zero] at hplen; omega
  | cons c0 others =>
    obtain ⟨hnodup, hmem⟩ := phrase_matches_offsets c0 others (hsorted c0 (List.mem_cons_self _ _))
    have hset : {r : Int | document_relative_offset query_tokens doc_cursors r} =
        ↑((phrase_matches c0 others).map (fun p => p - c0.base)).toFinset := by
      ext r
      simp only [Set.mem_setOf_eq, List.coe_toFinset]
      rw [← hoff r, ← hmem r]
    have hcard : Set.ncard {r : Int | document_relative_offset query_tokens doc_cursors r} =
        (phrase_matches c0 others).length := by
      rw [hset, Set.ncard_coe_Finset, List.toFinset_card_of_nodup hnodup, List.length_map]
    have hval : search_phrase query_tokens doc_cursors =
        some ((phrase_matches c0 others).length : Int) := by
      unfold search_phrase
      rw [hinit]
      dsimp only
      rw [if_neg (by rw [hplen]; exact fun h => h rfl)]
      rw [search_phrase_loop_count _ c0 others 0 (Nat.lt_succ_self _)
        (hsorted c0 (List.mem_cons_self _ _))
        (fun c hc => hsorted c (List.mem_cons_of_mem _ hc))]
      simp
    have hex : (∃ r, document_relative_offset query_tokens doc_cursors r) ↔
        phrase_matches c0 others ≠ [] := by
      constructor
      · rintro ⟨r, hr⟩ hnil
        have := (hmem r).mpr ((hoff r).mpr hr)
        rw [hnil] at this
        simp at this
      · intro hne
        obtain ⟨p, hp⟩ := List.exists_mem_of_ne_nil _ hne
        exact ⟨p - c0.base, (hoff _).mp ((hmem _).mp (List.mem_map.mpr ⟨p, hp, rfl⟩))⟩
    refine ⟨by rw [hset]; exact Finset.finite_toSet _, by rw [hval, hcard], ?_, ?_⟩
    · intro count hc
      rw [hval] at hc
      simp only [Option.some.injEq] at hc
      rw [hcard, ← hc]
      omega
    · intro count hc
      rw [hval] at hc
      simp only [Option.some.injEq] at hc
      rw [hex, ← hc, ← List.length_pos]
      omega

theorem search_phrase_exact_count_witness :
    search_phrase [⟨1, [⟨0, [0], 1⟩], 2, 1⟩, ⟨2, [⟨0, [1], 1⟩], 1, 1⟩]
        [[⟨2, [0, 3], 2⟩], [⟨2, [1, 4], 2⟩]] = some 2 ∧
    search_phrase [⟨1, [⟨0, [0], 1⟩], 2, 1⟩, ⟨2, [⟨0, [1], 1⟩], 1, 1⟩]
        [[⟨2, [0, 3], 2⟩], [⟨2, [1, 4], 2⟩]] =
      some ((Set.ncard {r : Int | document_relative_offset
        [⟨1, [⟨0, [0], 1⟩], 2, 1⟩, ⟨2, [⟨0, [1], 1⟩], 1, 1⟩]
        [[⟨2, [0, 3], 2⟩], [⟨2, [1, 4], 2⟩]] r} : Nat) : Int) :=
  ⟨by decide,
    (search_phrase_exact_count [⟨1, [⟨0, [0], 1⟩], 2, 1⟩, ⟨2, [⟨0, [1], 1⟩], 1, 1⟩]
      [[⟨2, [0, 3], 2⟩], [⟨2, [1, 4], 2⟩]] (by decide)
      (by
        intro x hx
        simp only [List.zip_cons_cons, List.zip_nil_right, List.mem_cons, List.mem_singleton,
          List.not_mem_nil, or_false] at hx
        rcases hx with rfl | rfl
        · exact ⟨_, _, _, _, rfl, rfl, rfl, by decide⟩
        · exact ⟨_, _, _, _, rfl, rfl, rfl, by decide⟩)
      (by decide)).2.1⟩

/-! ## The flush of the buffer into the store -/

theorem lookup_filter_ne (l : List (Int × List Nat)) (k tid : Int) (h : k ≠ tid) :
    (l.filter (fun r => decide (r.1 ≠ tid))).lookup k = l.lookup k := by
  induction l with
  | nil => rfl
  | cons x xs ih =>
    obtain ⟨a, b⟩ := x
    by_cases ha : a = tid
    · rw [List.filter_cons_of_neg (by simp [ha])]
      rw [ih]
      have : (k == a) = false := by rw [ha]; simpa using h
      simp [List.lookup, this]
    · rw [List.filter_cons_of_pos (by simp [ha])]
      simp only [List.lookup]
      split
      · rfl
      · exact ih

theorem db_update_postings_frame (db : database) (token_id docs_count : Int)
    (postings : List Nat) :
    (db_update_postings db token_id docs_count postings).documents = db.documents ∧
    (db_update_postings db token_id docs_count postings).tokens.length = db.tokens.length ∧
    (∀ k, k ≠ token_id →
      select_postings (db_update_postings db token_id docs_count postings) k =
        select_postings db k) ∧
    select_postings (db_update_postings db token_id docs_count postings) token_id =
      (if 1 ≤ token_id ∧ token_id ≤ (db.tokens.length : Int) then
        get_postings_step.row docs_count postings
       else select_postings db token_id) := by
  unfold db_update_postings
  by_cases hc : 1 ≤ token_id ∧ token_id ≤ (db.tokens.length : Int)
  · rw [if_pos hc, if_pos hc]
    refine ⟨rfl, by simp, ?_, ?_⟩
    · intro k hk
      unfold select_postings
      by_cases hk1 : 1 ≤ k
      · rw [if_pos hk1, if_pos hk1]
        dsimp only
        rw [List.getElem?_map, List.getElem?_enum]
        have hne : ¬ (((k - 1).toNat : Int) + 1 = token_id) := by
          rw [Int.toNat_of_nonneg (by omega)]; omega
        cases hg : db.tokens[(k - 1).toNat]? with
        | none => simp
        | some row =>
          simp only [Option.map_some', hne, if_false]
          rw [show (List.lookup k ((token_id, postings) ::
              List.filter (fun r => decide (r.1 ≠ token_id)) db.postings)) =
              List.lookup k db.postings from by
            have : (k == token_id) = false := by simpa using hk
            simp only [List.lookup, this]
            exact lookup_filter_ne db.postings k token_id hk]
      · rw [if_neg hk1, if_neg hk1]
    · unfold select_postings
      rw [if_pos hc.1]
      dsimp only
      rw [List.getElem?_map, List.getElem?_enum]
      have hlt : (token_id - 1).toNat < db.tokens.length := by omega
      have heq : (((token_id - 1).toNat : Int) + 1 = token_id) := by
        rw [Int.toNat_of_nonneg (by omega)]; omega
      cases hg : db.tokens[(token_id - 1).toNat]? with
      | none =>
        rw [List.getElem?_eq_none_iff] at hg
        omega
      | some row =>
        simp only [Option.map_some', heq, if_true]
        simp [List.lookup]
  · rw [if_neg hc, if_neg hc]
    exact ⟨rfl, rfl, fun _ _ => rfl, rfl⟩

theorem update_postings_token_id (compress documents_count : Int) (step : get_postings_step)
    (p p2 : inverted_index_value) (token_id docs_count : Int) (postings : List Nat)
    (h : update_postings compress documents_count step p =
      some (p2, some (token_id, docs_count, postings))) : token_id = p.token_id := by
  unfold update_postings at h
  cases hf : fetch_postings compress step (some 0) with
  | none => rw [hf] at h; simp at h
  | some r =>
    obtain ⟨rc, old, old_len⟩ := r
    rw [hf] at h
    dsimp only at h
    by_cases hrc : rc = 0
    · rw [if_pos hrc] at h
      by_cases hl : old_len ≠ 0
      · rw [if_pos hl] at h
        cases hm : merge_postings old p.postings_list with
        | none => rw [hm] at h; simp at h
        | some merged =>
          rw [hm] at h
          simp only [Option.map_some'] at h
          split at h
          · simp at h
          · simp only [Option.some.injEq, Prod.mk.injEq] at h
            exact h.2.1.symm
      · rw [if_neg hl] at h
        dsimp only at h
        split at h
        · simp at h
        · simp only [Option.some.injEq, Prod.mk.injEq] at h
          exact h.2.1.symm
    · rw [if_neg hrc] at h
      simp at h

/-- The loop of `add_document` over the buffer updates the store token by
token: every entry is merged with what the store held for its token before
the flush. -/
theorem flush_postings_spec (compress : Int) : ∀ (buf : List inverted_index_value)
    (db db2 : database), (buf.map (fun p => p.token_id)).Nodup →
    flush_postings compress db buf = some db2 → buffer_flushed compress db db2 buf := by
  intro buf
  induction buf with
  | nil =>
    intro db db2 _ h
    simp only [flush_postings, Option.some.injEq] at h
    rw [← h]
    exact ⟨rfl, fun p hp => absurd hp (List.not_mem_nil _), fun _ _ => rfl⟩
  | cons p rest ih =>
    intro db db2 hnd h
    rw [List.map_cons, List.nodup_cons] at hnd
    simp only [flush_postings] at h
    cases hu : update_postings compress (db_get_document_count db)
        (select_postings db p.token_id) p with
    | none => rw [hu] at h; simp at h
    | some a =>
      obtain ⟨p2, r⟩ := a
      rw [hu] at h
      -- the store after the entry `p`
      obtain ⟨db1, hdb1, hrest⟩ : ∃ db1, flush_postings compress db1 rest = some db2 ∧
          db1.documents = db.documents ∧ db1.tokens.length = db.tokens.length ∧
          (∀ k, k ≠ p.token_id → select_postings db1 k = select_postings db k) ∧
          select_postings db1 p.token_id =
            answer_after_update db (select_postings db p.token_id) r := by
        cases r with
        | none => exact ⟨db, h, rfl, rfl, fun _ _ => rfl, rfl⟩
        | some x =>
          obtain ⟨token_id, docs_count, postings⟩ := x
          have hid := update_postings_token_id _ _ _ _ _ _ _ _ hu
          obtain ⟨f1, f2, f3, f4⟩ := db_update_postings_frame db token_id docs_count postings
          refine ⟨_, h, f1, f2, ?_, ?_⟩
          · intro k hk; exact f3 k (by rw [hid]; exact hk)
          · rw [← hid, f4]
            rfl
      obtain ⟨hdoc1, hlen1, hother1, hsame1⟩ := hrest
      obtain ⟨hdoc2, hent2, hother2⟩ := ih db1 db2 hnd.2 hdb1
      have hcount : db_get_document_count db1 = db_get_document_count db := by
        unfold db_get_document_count; rw [hdoc1]
      refine ⟨hdoc2.trans hdoc1, ?_, ?_⟩
      · intro q hq
        rcases List.mem_cons.mp hq with h1 | h1
        · rw [h1]
          exact ⟨p2, r, hu, by rw [hother2 p.token_id hnd.1, hsame1]⟩
        · obtain ⟨q2, rq, hq1, hq2⟩ := hent2 q h1
          have hne : q.token_id ≠ p.token_id := by
            intro heq
            exact hnd.1 (by rw [← heq]; exact List.mem_map.mpr ⟨q, h1, rfl⟩)
          rw [hcount, hother1 q.token_id hne] at hq1
          refine ⟨q2, rq, hq1, ?_⟩
          rw [hq2, hother1 q.token_id hne]
          unfold answer_after_update
          rw [hlen1]
      · intro k hk
        rw [List.map_cons, List.mem_cons, not_or] at hk
        rw [hother2 k hk.2, hother1 k hk.1]

/-- C29 (amended). On return from every `add_document` call the buffer is
empty or `ii_buffer_count <= ii_buffer_update_threshold`, and the threshold is
never changed. When the call adds a document, the count after the increment
exceeds the threshold and the buffer is not empty, the buffer is flushed
within the call: the loop over the buffer returns the store `db`, in which
every token of the buffer has the row that `update_postings` computed for it
(`buffer_flushed`), and the call returns with that store, the buffer `NULL`
and `ii_buffer_count = 0`. The final call `add_document(NULL, NULL)` flushes a
buffer that is not empty in the same way, and leaves an empty buffer and its
count unchanged. -/
theorem add_document_flush (env env1 : wiser_env) (title body : Option (List Nat))
    (h : add_document env title body = some env1) :
    (env1.ii_buffer = [] ∨ env1.ii_buffer_count ≤ env1.ii_buffer_update_threshold) ∧
    env1.ii_buffer_update_threshold = env.ii_buffer_update_threshold ∧
    (env1.ii_buffer ≠ [] → env1.ii_buffer_count ≤ env.ii_buffer_count + 1) ∧
    (title = none → env1.ii_buffer = [] ∧
      (env.ii_buffer ≠ [] → env1.ii_buffer_count = 0) ∧
      (env.ii_buffer = [] → env1.ii_buffer_count = env.ii_buffer_count)) ∧
    (∀ t b, title = some t → body = some b →
      env.ii_buffer_count + 1 > env.ii_buffer_update_threshold →
      ∃ ret body32 len, utf8toutf32 b = some (ret, body32, len) ∧
        (ret = 0 → ∃ tokens ii_buffer,
          text_to_postings_lists (db_add_document env.db t b).tokens
            (db_get_document_id (db_add_document env.db t b) t) body32 env.token_len
            env.ii_buffer = some (tokens, ii_buffer) ∧
          (ii_buffer ≠ [] → ∃ db,
            flush_postings env.compress { db_add_document env.db t b with tokens := tokens }
              ii_buffer = some db ∧
            env1 = { env with db := db, ii_buffer := [], ii_buffer_count := 0,
                              indexed_count := env.indexed_count + 1 } ∧
            ((ii_buffer.map (fun p => p.token_id)).Nodup →
              buffer_flushed env.compress { db_add_document env.db t b with tokens := tokens }
                db ii_buffer)))) ∧
    (title = none → env.ii_buffer ≠ [] → ∃ db,
      flush_postings env.compress env.db env.ii_buffer = some db ∧
      env1 = { env with db := db, ii_buffer := [], ii_buffer_count := 0 } ∧
      ((env.ii_buffer.map (fun p => p.token_id)).Nodup →
        buffer_flushed env.compress env.db db env.ii_buffer)) := by
  obtain ⟨h1, h2, h3, h4⟩ := add_document_count_bound env env1 title body h
  refine ⟨h1, h2, h3, h4, ?_, ?_⟩
  · intro t b ht hb hgt
    subst ht; subst hb
    unfold add_document at h
    dsimp only at h
    cases hu : utf8toutf32 b with
    | none => rw [hu] at h; simp at h
    | some r =>
      obtain ⟨ret, body32, len⟩ := r
      refine ⟨ret, body32, len, rfl, fun hret => ?_⟩
      rw [hu] at h
      dsimp only at h
      rw [if_pos hret] at h
      cases htl : text_to_postings_lists (db_add_document env.db t b).tokens
          (db_get_document_id (db_add_document env.db t b) t) body32
          env.token_len env.ii_buffer with
      | none => rw [htl] at h; simp at h
      | some r2 =>
        obtain ⟨tokens, ii_buffer⟩ := r2
        refine ⟨tokens, ii_buffer, rfl, fun hne => ?_⟩
        rw [htl] at h
        dsimp only at h
        rw [if_pos ⟨hne, Or.inl hgt⟩] at h
        cases hf : flush_postings env.compress
            { db_add_document env.db t b with tokens := tokens } ii_buffer with
        | none => rw [hf] at h; simp at h
        | some db =>
          rw [hf] at h
          simp only [Option.some.injEq] at h
          exact ⟨db, rfl, h.symm, fun hnd => flush_postings_spec _ _ _ _ hnd hf⟩
  · intro ht hne
    subst ht
    unfold add_document at h
    dsimp only at h
    rw [if_pos ⟨hne, Or.inr rfl⟩] at h
    cases hf : flush_postings env.compress env.db env.ii_buffer with
    | none => rw [hf] at h; simp at h
    | some db =>
      rw [hf] at h
      simp only [Option.some.injEq] at h
      exact ⟨db, rfl, h.symm, fun hnd => flush_postings_spec _ _ _ _ hnd hf⟩

set_option maxRecDepth 100000 in
theorem add_document_flush_witness :
    add_document ⟨2, 0, [], 0, 0, 0, ⟨[], [], []⟩⟩ (some [0x74]) (some [0x61, 0x62]) =
      some ⟨2, 0, [], 0, 0, 1, ⟨[([0x74], [0x61, 0x62])], [([0x61, 0x62], 1), ([0x62], 1)],
        [(2, [1, 0, 0, 0, 1, 0, 0, 0, 1, 0, 0, 0]), (1, [1, 0, 0, 0, 1, 0, 0, 0, 0, 0, 0, 0])]⟩⟩ ∧
    ∃ db,
      flush_postings 0 ⟨[([0x74], [0x61, 0x62])], [([0x61, 0x62], 0), ([0x62], 0)], []⟩
        [⟨1, [⟨1, [0], 1⟩], 1, 1⟩, ⟨2, [⟨1, [1], 1⟩], 1, 1⟩] = some db ∧
      db.postings =
        [(2, [1, 0, 0, 0, 1, 0, 0, 0, 1, 0, 0, 0]), (1, [1, 0, 0, 0, 1, 0, 0, 0, 0, 0, 0, 0])] ∧
      buffer_flushed 0 ⟨[([0x74], [0x61, 0x62])], [([0x61, 0x62], 0), ([0x62], 0)], []⟩ db
        [⟨1, [⟨1, [0], 1⟩], 1, 1⟩, ⟨2, [⟨1, [1], 1⟩], 1, 1⟩] := by
  refine ⟨by decide, ?_⟩
  obtain ⟨ret, body32, len, hu, hrest⟩ :=
    (add_document_flush ⟨2, 0, [], 0, 0, 0, ⟨[], [], []⟩⟩
      ⟨2, 0, [], 0, 0, 1, ⟨[([0x74], [0x61, 0x62])], [([0x61, 0x62], 1), ([0x62], 1)],
        [(2, [1, 0, 0, 0, 1, 0, 0, 0, 1, 0, 0, 0]), (1, [1, 0, 0, 0, 1, 0, 0, 0, 0, 0, 0, 0])]⟩⟩
      (some [0x74]) (some [0x61, 0x62]) (by decide)).2.2.2.2.1 [0x74] [0x61, 0x62] rfl rfl
      (by decide)
  have hu2 : utf8toutf32 [0x61, 0x62] = some (0, [0x61, 0x62], 2) := by decide
  rw [hu2] at hu
  simp only [Option.some.injEq, Prod.mk.injEq] at hu
  obtain ⟨hret, hbody, -⟩ := hu
  obtain ⟨tokens, ii_buffer, htl, hfl⟩ := hrest hret.symm
  rw [← hbody] at htl
  have htl2 : text_to_postings_lists
      (db_add_document (⟨[], [], []⟩ : database) [0x74] [0x61, 0x62]).tokens
      (db_get_document_id (db_add_document (⟨[], [], []⟩ : database) [0x74] [0x61, 0x62]) [0x74])
      [0x61, 0x62] 2 [] =
      some ([([0x61, 0x62], 0), ([0x62], 0)],
        [⟨1, [⟨1, [0], 1⟩], 1, 1⟩, ⟨2, [⟨1, [1], 1⟩], 1, 1⟩]) := by decide
  rw [htl2] at htl
  simp only [Option.some.injEq, Prod.mk.injEq] at htl
  obtain ⟨ht, hb⟩ := htl
  subst ht; subst hb
  obtain ⟨db, hf, henv, hflushed⟩ := hfl (by decide)
  refine ⟨db, hf, ?_, hflushed (by decide)⟩
  have := congrArg (fun e : wiser_env => e.db.postings) henv
  exact this.symm

end Wiser
